import Mathlib

/-!
# MobileRT: BVH, Plane, Shader and OBJLoader

A shallow embedding of `MobileRT/Accelerators/BVH.hpp`, `MobileRT/Shapes/Plane.cpp`,
`MobileRT/Shader.cpp` and `Components/Loaders/OBJLoader.cpp`.

Conventions of the embedding:

* `float` lanes are rationals (`ℚ`); infinities and NaN are not modelled. The rounding of
  `float` arithmetic is a parameter `fl` of the two functions whose integer result it can
  change, `getSplitIndexSah` and `getLightIndex`; elsewhere the arithmetic is exact.
* `std::int32_t` indices are natural numbers; every index the code computes is bounded by
  twice the number of primitives.
* A pointer to a primitive (`this`, `Ray::primitive_`, `Intersection::primitive_`) is the
  address of the object, a natural number; `nullptr` is `none`.
* Undefined behaviour of the C++ (a write past the end of a 512-slot stack, an access outside
  a vector, a division by zero) makes the embedded function return `none`.
* Library calls whose result the repository does not fix (`std::sort`, `glm::normalize`) and
  constants declared outside the embedded files (`Epsilon`, `RayLengthMax`) are parameters.
-/

namespace MobileRT


/-! ## Math kernel -/

/-- Three lanes of `glm::vec3`. -/
structure Vec3 where
  x : ℚ
  y : ℚ
  z : ℚ
deriving DecidableEq

/-- Lane access `v[axis]`; the code only uses axes 0, 1 and 2. -/
def Vec3.get (v : Vec3) (axis : Nat) : ℚ :=
  match axis with
  | 0 => v.x
  | 1 => v.y
  | _ => v.z

/-- Lane-wise sum `a + b`. -/
def Vec3.add (a b : Vec3) : Vec3 := ⟨a.x + b.x, a.y + b.y, a.z + b.z⟩

/-- Lane-wise difference `a - b`. -/
def Vec3.sub (a b : Vec3) : Vec3 := ⟨a.x - b.x, a.y - b.y, a.z - b.z⟩

/-- Product with a scalar `a * s`. -/
def Vec3.scale (a : Vec3) (s : ℚ) : Vec3 := ⟨a.x * s, a.y * s, a.z * s⟩

/-- Inner product `glm::dot`. -/
def Vec3.dot (a b : Vec3) : ℚ := a.x * b.x + a.y * b.y + a.z * b.z

/-- Lane-wise minimum `glm::min`. -/
def Vec3.min (a b : Vec3) : Vec3 := ⟨Min.min a.x b.x, Min.min a.y b.y, Min.min a.z b.z⟩

/-- Lane-wise maximum `glm::max`. -/
def Vec3.max (a b : Vec3) : Vec3 := ⟨Max.max a.x b.x, Max.max a.y b.y, Max.max a.z b.z⟩

/-- Quotient of two floats; a zero divisor gives no value. -/
def fdiv (a b : ℚ) : Option ℚ := if b = 0 then none else some (a / b)

/-- The ray of `Ray.hpp`: origin, direction, depth, identifier and the address of the
primitive the ray was cast from. -/
structure Ray where
  origin_ : Vec3
  direction_ : Vec3
  depth_ : Int
  id_ : Int
  primitive_ : Option Nat
deriving DecidableEq

/-- Modelled from the spec: the record `Intersection` (its header is not among the sources),
limited to the four fields the embedded code reads or writes: `{point, length (hit distance
along ray), normal, primitive reference}`. -/
structure Intersection where
  point_ : Vec3
  length_ : ℚ
  normal_ : Vec3
  primitive_ : Option Nat
deriving DecidableEq

/-- Modelled from the spec: the two-argument constructor `Intersection {dist, primitive}`
used for the miss state; the remaining fields take their zero default. -/
def Intersection.miss (dist : ℚ) : Intersection := ⟨⟨0, 0, 0⟩, dist, ⟨0, 0, 0⟩, none⟩

/-! ## Axis-aligned boxes (`AABB.hpp` is not among the sources) -/

/-- Modelled from the spec: `AABB` holds `{min, max}`. -/
structure AABB where
  pointMin_ : Vec3
  pointMax_ : Vec3
deriving DecidableEq

/-- Modelled from the spec: the union of two boxes (`surroundingBox`), the componentwise
minimum of the mins and maximum of the maxes. -/
def surroundingBox (box1 box2 : AABB) : AABB :=
  ⟨Vec3.min box1.pointMin_ box2.pointMin_, Vec3.max box1.pointMax_ box2.pointMax_⟩

/-- Modelled from the spec: `AABB::getSurfaceArea`, surface area
`2·(dx·dy + dy·dz + dz·dx)`. -/
def AABB.getSurfaceArea (b : AABB) : ℚ :=
  let dx := b.pointMax_.x - b.pointMin_.x
  let dy := b.pointMax_.y - b.pointMin_.y
  let dz := b.pointMax_.z - b.pointMin_.z
  2 * (dx * dy + dy * dz + dz * dx)

/-- Modelled from the spec: `AABB::getMidPoint`, the centroid of the box. -/
def AABB.getMidPoint (b : AABB) : Vec3 :=
  ⟨(b.pointMin_.x + b.pointMax_.x) / 2, (b.pointMin_.y + b.pointMax_.y) / 2,
    (b.pointMin_.z + b.pointMax_.z) / 2⟩

/-- The box `outer` contains the box `inner`. -/
def AABB.contains (outer inner : AABB) : Prop :=
  outer.pointMin_.x ≤ inner.pointMin_.x ∧ outer.pointMin_.y ≤ inner.pointMin_.y ∧
  outer.pointMin_.z ≤ inner.pointMin_.z ∧ inner.pointMax_.x ≤ outer.pointMax_.x ∧
  inner.pointMax_.y ≤ outer.pointMax_.y ∧ inner.pointMax_.z ≤ outer.pointMax_.z

/-- The point `p` lies in the box. -/
def AABB.hasPoint (b : AABB) (p : Vec3) : Prop :=
  b.pointMin_.x ≤ p.x ∧ p.x ≤ b.pointMax_.x ∧ b.pointMin_.y ≤ p.y ∧ p.y ≤ b.pointMax_.y ∧
  b.pointMin_.z ≤ p.z ∧ p.z ≤ b.pointMax_.z

/-- One axis of the slab test with a non-zero direction lane: the parameter at which the ray
enters the slab `[lo, hi]`. A zero lane gives no bound. -/
def slabNear (lo hi o d : ℚ) : Option ℚ :=
  if d = 0 then none else some (Min.min ((lo - o) / d) ((hi - o) / d))

/-- One axis of the slab test: the parameter at which the ray leaves the slab. -/
def slabFar (lo hi o d : ℚ) : Option ℚ :=
  if d = 0 then none else some (Max.max ((lo - o) / d) ((hi - o) / d))

/-- One axis of the slab test for a zero direction lane: the origin lies in the slab. -/
def slabInside (lo hi o d : ℚ) : Bool :=
  decide (d ≠ 0) || (decide (lo ≤ o) && decide (o ≤ hi))

/-- Modelled from the spec: `AABB::intersect(ray)`, the slab test for accelerator traversal.
The ray meets the box when the largest entry parameter (and 0) does not exceed the smallest
exit parameter. -/
def AABB.intersect (b : AABB) (ray : Ray) : Bool :=
  let o := ray.origin_
  let d := ray.direction_
  let nears := (some 0 :: [slabNear b.pointMin_.x b.pointMax_.x o.x d.x,
    slabNear b.pointMin_.y b.pointMax_.y o.y d.y,
    slabNear b.pointMin_.z b.pointMax_.z o.z d.z]).filterMap id
  let fars := [slabFar b.pointMin_.x b.pointMax_.x o.x d.x,
    slabFar b.pointMin_.y b.pointMax_.y o.y d.y,
    slabFar b.pointMin_.z b.pointMax_.z o.z d.z].filterMap id
  slabInside b.pointMin_.x b.pointMax_.x o.x d.x &&
  slabInside b.pointMin_.y b.pointMax_.y o.y d.y &&
  slabInside b.pointMin_.z b.pointMax_.z o.z d.z &&
  nears.all (fun tNear => fars.all (fun tFar => decide (tNear ≤ tFar)))

/-! ## Plane (`Plane.cpp`) -/

/-- A plane: its unit normal, a point of it, and the address of the object (`this`). -/
structure Plane where
  normal_ : Vec3
  point_ : Vec3
  addr : Nat
deriving DecidableEq

/-- `Plane::intersect(intersection, ray)`. `Epsilon` is the constant of `Utils`. -/
def Plane.intersect (Epsilon : ℚ) (pl : Plane) (intersection : Intersection) (ray : Ray) :
    Option Intersection :=
  if ray.primitive_ = some pl.addr then some intersection
  else
    let normalizedProjection := Vec3.dot pl.normal_ ray.direction_
    if |normalizedProjection| < Epsilon then some intersection
    else
      let vecToPlane := pl.point_.sub ray.origin_
      let scalarProjectionVecToPlaneOnNormal := Vec3.dot pl.normal_ vecToPlane
      match fdiv scalarProjectionVecToPlaneOnNormal normalizedProjection with
      | none => none
      | some distanceToIntersection =>
        if distanceToIntersection < Epsilon ∨ distanceToIntersection ≥ intersection.length_ then
          some intersection
        else
          let intersectionPoint := ray.origin_.add (ray.direction_.scale distanceToIntersection)
          some ⟨intersectionPoint, distanceToIntersection, pl.normal_, some pl.addr⟩

/-- `Plane::getRightVector`; `normalize` is `glm::normalize`. -/
def Plane.getRightVector (normalize : Vec3 → Vec3) (pl : Plane) : Vec3 :=
  let right : Vec3 :=
    if pl.normal_.get 0 ≥ 1 then ⟨0, 1, 1⟩
    else if pl.normal_.get 1 ≥ 1 then ⟨1, 0, 1⟩
    else if pl.normal_.get 2 ≥ 1 then ⟨1, 1, 0⟩
    else if pl.normal_.get 0 ≤ -1 then ⟨0, 1, 1⟩
    else if pl.normal_.get 1 ≤ -1 then ⟨1, 0, 1⟩
    else if pl.normal_.get 2 ≤ -1 then ⟨1, 1, 0⟩
    else ⟨0, 0, 0⟩
  normalize right

/-- `Plane::getAABB`. -/
def Plane.getAABB (normalize : Vec3 → Vec3) (pl : Plane) : AABB :=
  let rightDir := pl.getRightVector normalize
  let min := pl.point_.add (rightDir.scale (-100))
  let max := pl.point_.add (rightDir.scale 100)
  ⟨min, max⟩

/-! ## The numbers of type `float`

The numbers of the program are rational numbers. Where the program takes a decision on the
result of `float` arithmetic that a rounding can change (the comparison of the costs in
`getSplitIndexSah`, the floor in `getLightIndex`), the rounding of the result of each
operation to `float` is the parameter `fl` of the embedded function. -/

/-- The power `2 ^ e` of two with an integer exponent. -/
def pow2 (e : Int) : ℚ :=
  if 0 ≤ e then ((2 ^ e.toNat : Nat) : ℚ) else 1 / ((2 ^ (-e).toNat : Nat) : ℚ)

/-- The number of halvings that take `n` below 2, at most `fuel` of them. -/
def halvings : Nat → Nat → Nat
  | 0, _ => 0
  | fuel + 1, n => if n < 2 then 0 else halvings fuel (n / 2) + 1

/-- The exponent of a number `x` other than 0: the integer `e` with
`2 ^ e ≤ |x| < 2 ^ (e + 1)`. -/
def floorLog2 (x : ℚ) : Int :=
  let d : Int := (halvings x.num.natAbs x.num.natAbs : Int) - (halvings x.den x.den : Int)
  if pow2 d ≤ |x| then d else d - 1

/-- The integer nearest to `m`; of the two nearest integers of a number half way between
them, the even one. -/
def roundHalfEven (m : ℚ) : Int :=
  let f := ⌊m⌋
  let r := m - f
  if r < 1 / 2 then f else if 1 / 2 < r then f + 1 else if f % 2 = 0 then f else f + 1

/-- The rounding of a real number to `float`, the format binary32 of IEEE 754 with round to
nearest, ties to even: 24 significant bits, exponents from -126 (smaller numbers are rounded
to multiples of `2 ^ (-149)`). Numbers of `2 ^ 128` and more, which `float` rounds to
infinity, are rounded in the same way as the others. -/
def binary32 (x : ℚ) : ℚ :=
  if x = 0 then 0
  else
    let e := max (floorLog2 x) (-126)
    let q := pow2 (e - 23)
    (roundHalfEven (x / q) : ℚ) * q

/-- Arithmetic without rounding: the rounding that leaves every number as it is. -/
def unrounded (x : ℚ) : ℚ := x

/-! ## BVH (`BVH.hpp`) -/

/-- The node `BVHNode` of the flat hierarchy. -/
structure BVHNode where
  box_ : AABB
  indexOffset_ : Nat
  numPrimitives_ : Nat
deriving DecidableEq

/-- The value-initialised node `BVHNode {}`. -/
def BVHNode.default : BVHNode := ⟨⟨⟨0, 0, 0⟩, ⟨0, 0, 0⟩⟩, 0, 0⟩

/-- The record `BVH<T>::BuildNode`. -/
structure BuildNode where
  box_ : AABB
  midPoint_ : Vec3
  oldIndex_ : Nat
deriving DecidableEq

/-- The two members of the shape type `T` that `BVH<T>` calls. -/
structure Shape (T : Type) where
  getAABB : T → AABB
  intersect : T → Intersection → Ray → Intersection

/-- The contract of `std::sort` with a comparator `key a < key b`: the result is a
rearrangement of the range that is ordered by the key. Which of the rearrangements is
produced for equal keys is left to the library. -/
structure Sorter where
  sort : (BuildNode → ℚ) → List BuildNode → List BuildNode
  perm : ∀ key l, List.Perm (sort key l) l
  sorted : ∀ key l, List.Pairwise (fun a b => key a ≤ key b) (sort key l)

/-- The class `BVH<T>`: the node array and the reordered primitives. -/
structure BVH (T : Type) where
  boxes_ : List BVHNode
  primitives_ : List T

/-- The constant `BVH<T>::maxLeafSize`. -/
def BVH.maxLeafSize : Nat := 2

/-- The number of slots of each explicit stack (`std::array<std::int32_t, 512>`). -/
def BVH.stackSize : Nat := 512

/-- `BVH<T>::getMaxAxis(itBegin, itEnd)`; `first` is `*itBegin` and `rest` the nodes after it
up to `itEnd`. -/
def BVH.getMaxAxis (first : BuildNode) (rest : List BuildNode) : Nat :=
  let mm := rest.foldl
    (fun (acc : Vec3 × Vec3) node =>
      (Vec3.min acc.1 node.box_.pointMin_, Vec3.max acc.2 node.box_.pointMax_))
    (first.box_.pointMin_, first.box_.pointMax_)
  let maxDist := mm.2.sub mm.1
  if maxDist.get 0 ≥ maxDist.get 1 ∧ maxDist.get 0 ≥ maxDist.get 2 then 0
  else if maxDist.get 1 ≥ maxDist.get 0 ∧ maxDist.get 1 ≥ maxDist.get 2 then 1
  else 2

/-- The areas a scan loop of `getSplitIndexSah` stores in its `std::vector<float>`: the area
of the running box, which starts at `box` and is united with the boxes of the list one after
the other. `fl` is the rounding to `float`. -/
def BVH.areaScan (fl : ℚ → ℚ) (box : AABB) : List AABB → List ℚ
  | [] => [fl box.getSurfaceArea]
  | b :: bs => fl box.getSurfaceArea :: BVH.areaScan fl (surroundingBox box b) bs

/-- The last loop of `getSplitIndexSah` over `i = 1 .. numBoxes - 1`, on the pair
`(splitIndex, minSah)`. The two counts are converted to `float`, and each product and the
sum are `float` operations; `fl` is the rounding to `float`. -/
def BVH.sahLoop (fl : ℚ → ℚ) (numberBoxes : Nat) (leftArea rightArea : List ℚ) :
    List Nat → Nat × ℚ → Nat × ℚ
  | [], st => st
  | i :: is, st =>
    let nextSplit := i + 1
    let numBoxesLeft := nextSplit
    let numBoxesRight := numberBoxes - numBoxesLeft
    let areaLeft := leftArea.getD i 0
    let areaRight := rightArea.getD i 0
    let leftSah := fl (fl (numBoxesLeft : ℚ) * areaLeft)
    let rightSah := fl (fl (numBoxesRight : ℚ) * areaRight)
    let sah := fl (leftSah + rightSah)
    if sah < st.2 then BVH.sahLoop fl numberBoxes leftArea rightArea is (nextSplit, sah)
    else BVH.sahLoop fl numberBoxes leftArea rightArea is st

/-- `BVH<T>::getSplitIndexSah(itBegin, itEnd)` on the boxes of the range; `fl` is the
rounding to `float`. With fewer than two boxes the function writes outside `leftArea`. -/
def BVH.getSplitIndexSah (fl : ℚ → ℚ) (boxes : List AABB) : Option Nat :=
  let numberBoxes := boxes.length
  let numBoxes := numberBoxes - 1
  match boxes with
  | [] => none
  | first :: tail =>
    match tail.getLast? with
    | none => none
    | some last =>
      let middle := tail.take (numBoxes - 1)
      let leftArea := BVH.areaScan fl first middle
      let rightArea := (BVH.areaScan fl last middle.reverse).reverse
      let minSah := fl (leftArea.getD 0 0 + fl (fl (numBoxes : ℚ) * rightArea.getD 0 0))
      some (BVH.sahLoop fl numberBoxes leftArea rightArea (List.range' 1 (numBoxes - 1))
        (1, minSah)).1

/-- The variables of the loop of `BVH<T>::build`. `stack` holds the slots below the three
stack iterators (which move together), the top first; its last entry is the slot 0 that the
iterators start above. -/
structure BuildState where
  boxes_ : List BVHNode
  buildNodes : List BuildNode
  currentBoxIndex : Nat
  beginBoxIndex : Nat
  endBoxIndex : Nat
  maxNodeIndex : Nat
  stack : List (Nat × Nat × Nat)

/-- One pass through the body of the `do ... while` loop of `BVH<T>::build`. The range
`[beginBoxIndex, endBoxIndex)` has to be a non-empty range of `buildNodes` and
`currentBoxIndex` an index of `boxes_`; a push needs a free slot. `fl` is the rounding to
`float` in `getSplitIndexSah`. -/
def BVH.buildBody (fl : ℚ → ℚ) (S : Sorter) (σ : BuildState) : Option BuildState :=
  let boxPrimitivesSize := σ.endBoxIndex - σ.beginBoxIndex
  if ¬ (σ.beginBoxIndex < σ.endBoxIndex ∧ σ.endBoxIndex ≤ σ.buildNodes.length ∧
      σ.currentBoxIndex < σ.boxes_.length) then none
  else
    match (σ.buildNodes.drop σ.beginBoxIndex).take boxPrimitivesSize with
    | [] => none
    | first :: rest =>
      let maxAxis := BVH.getMaxAxis first rest
      let sorted := S.sort (fun node => node.midPoint_.get maxAxis) (first :: rest)
      let buildNodes :=
        σ.buildNodes.take σ.beginBoxIndex ++ sorted ++ σ.buildNodes.drop σ.endBoxIndex
      match sorted with
      | [] => none
      | itBegin :: others =>
        let box := others.foldl (fun acc node => surroundingBox node.box_ acc) itBegin.box_
        let boxes := itBegin.box_ :: others.map (fun node => node.box_)
        let currentBox := σ.boxes_.getD σ.currentBoxIndex BVHNode.default
        if boxPrimitivesSize ≤ BVH.maxLeafSize then
          match σ.stack with
          | [] => none
          | (index, begin_, end_) :: stack =>
            some { boxes_ := σ.boxes_.set σ.currentBoxIndex
                     ⟨box, σ.beginBoxIndex, boxPrimitivesSize⟩,
                   buildNodes := buildNodes,
                   currentBoxIndex := index,
                   beginBoxIndex := begin_,
                   endBoxIndex := end_,
                   maxNodeIndex := σ.maxNodeIndex,
                   stack := stack }
        else
          let left := σ.maxNodeIndex + 1
          let right := left + 1
          match BVH.getSplitIndexSah fl boxes with
          | none => none
          | some splitIndex =>
            if BVH.stackSize ≤ σ.stack.length then none
            else
              some { boxes_ := σ.boxes_.set σ.currentBoxIndex
                       ⟨box, left, currentBox.numPrimitives_⟩,
                     buildNodes := buildNodes,
                     currentBoxIndex := left,
                     beginBoxIndex := σ.beginBoxIndex,
                     endBoxIndex := σ.beginBoxIndex + splitIndex,
                     maxNodeIndex := max right σ.maxNodeIndex,
                     stack := (right, σ.beginBoxIndex + splitIndex, σ.endBoxIndex) :: σ.stack }

/-- The `do ... while (itStackBoxIndex > itStackBoxIndexBegin)` loop of `BVH<T>::build`, run
for at most `fuel` passes. -/
def BVH.buildLoop (fl : ℚ → ℚ) (S : Sorter) : Nat → BuildState → Option BuildState
  | 0, _ => none
  | fuel + 1, σ =>
    match BVH.buildBody fl S σ with
    | none => none
    | some σ' => if 0 < σ'.stack.length then BVH.buildLoop fl S fuel σ' else some σ'

/-- The last loop of `BVH<T>::build`: the primitive of each build node, in the order of the
build nodes. -/
def BVH.reorder {T : Type} (primitives : List T) : List BuildNode → Option (List T)
  | [] => some []
  | node :: rest =>
    match primitives.get? node.oldIndex_, BVH.reorder primitives rest with
    | some p, some ps => some (p :: ps)
    | _, _ => none

/-- The build nodes `BVH<T>::build` starts from. -/
def BVH.initialNodes {T : Type} (Sh : Shape T) (primitives : List T) : List BuildNode :=
  primitives.enum.map (fun ip => ⟨Sh.getAABB ip.2, (Sh.getAABB ip.2).getMidPoint, ip.1⟩)

/-- The state in which `BVH<T>::build` enters its loop. -/
def BVH.initialState {T : Type} (Sh : Shape T) (boxes_ : List BVHNode) (primitives : List T) :
    BuildState :=
  { boxes_ := boxes_,
    buildNodes := BVH.initialNodes Sh primitives,
    currentBoxIndex := 0,
    beginBoxIndex := 0,
    endBoxIndex := primitives.length,
    maxNodeIndex := 0,
    stack := [(0, 0, 0)] }

/-- The state in which the loop of `BVH<T>::build` ends; every pass writes one node, so
`boxes_.size()` passes are enough. -/
def BVH.buildFinal {T : Type} (fl : ℚ → ℚ) (S : Sorter) (Sh : Shape T) (boxes_ : List BVHNode)
    (primitives : List T) : Option BuildState :=
  BVH.buildLoop fl S boxes_.length (BVH.initialState Sh boxes_ primitives)

/-- `BVH<T>::build(primitives)`, called with `this->boxes_` already resized. -/
def BVH.build {T : Type} (fl : ℚ → ℚ) (S : Sorter) (Sh : Shape T) (boxes_ : List BVHNode)
    (primitives : List T) : Option (BVH T) :=
  match BVH.buildFinal fl S Sh boxes_ primitives with
  | none => none
  | some σ =>
    if σ.boxes_.length < σ.maxNodeIndex + 1 then none
    else
      match BVH.reorder primitives σ.buildNodes with
      | none => none
      | some primitives_ => some ⟨σ.boxes_.take (σ.maxNodeIndex + 1), primitives_⟩

/-- The constructor `BVH<T>::BVH(primitives)`. -/
def BVH.construct {T : Type} (fl : ℚ → ℚ) (S : Sorter) (Sh : Shape T) (primitives : List T) :
    Option (BVH T) :=
  if primitives.isEmpty then some ⟨[BVHNode.default], []⟩
  else
    let numPrimitives := primitives.length
    let maxNodes := numPrimitives * 2 - 1
    BVH.build fl S Sh (List.replicate maxNodes BVHNode.default) primitives

/-- `BVH<T>::getPrimitives`. -/
def BVH.getPrimitives {T : Type} (bvh : BVH T) : List T := bvh.primitives_

/-- The loop of `BVH<T>::intersect` over the primitives of a leaf. The flag is set when the
shadow query returns from inside the loop. -/
def BVH.leafLoop {T : Type} (Sh : Shape T) (ray : Ray) (shadowTrace : Bool) :
    List T → Intersection → Intersection × Bool
  | [], intersection => (intersection, false)
  | primitive :: ps, intersection =>
    let lastDist := intersection.length_
    let intersection' := Sh.intersect primitive intersection ray
    if shadowTrace = true ∧ intersection'.length_ < lastDist then (intersection', true)
    else BVH.leafLoop Sh ray shadowTrace ps intersection'

/-- The variables of the loop of `BVH<T>::intersect`; `stack` as in `BuildState`. -/
structure TraverseState where
  boxIndex : Nat
  stack : List Nat
  intersection : Intersection

/-- The outcome of one pass through the loop body of `BVH<T>::intersect`. -/
inductive TraverseStep where
  | next : TraverseState → TraverseStep
  | returned : Intersection → TraverseStep

/-- One pass through the body of the `do ... while` loop of `BVH<T>::intersect`. -/
def BVH.intersectBody {T : Type} (Sh : Shape T) (bvh : BVH T) (ray : Ray) (shadowTrace : Bool)
    (σ : TraverseState) : Option TraverseStep :=
  match bvh.boxes_.get? σ.boxIndex with
  | none => none
  | some node =>
    if node.box_.intersect ray = true then
      let numberPrimitives := node.numPrimitives_
      if 0 < numberPrimitives then
        if bvh.primitives_.length < node.indexOffset_ + numberPrimitives then none
        else
          let res := BVH.leafLoop Sh ray shadowTrace
            ((bvh.primitives_.drop node.indexOffset_).take numberPrimitives) σ.intersection
          if res.2 = true then some (.returned res.1)
          else
            match σ.stack with
            | [] => none
            | top :: stack => some (.next ⟨top, stack, res.1⟩)
      else
        let left := node.indexOffset_
        let right := node.indexOffset_ + 1
        match bvh.boxes_.get? left, bvh.boxes_.get? right with
        | some childLeft, some childRight =>
          let traverseLeft := childLeft.box_.intersect ray
          let traverseRight := childRight.box_.intersect ray
          if traverseLeft = false ∧ traverseRight = false then
            match σ.stack with
            | [] => none
            | top :: stack => some (.next ⟨top, stack, σ.intersection⟩)
          else
            let boxIndex := if traverseLeft = true then left else right
            if traverseLeft = true ∧ traverseRight = true then
              if BVH.stackSize ≤ σ.stack.length then none
              else some (.next ⟨boxIndex, right :: σ.stack, σ.intersection⟩)
            else some (.next ⟨boxIndex, σ.stack, σ.intersection⟩)
        | _, _ => none
    else
      match σ.stack with
      | [] => none
      | top :: stack => some (.next ⟨top, stack, σ.intersection⟩)

/-- The `do ... while (itStackBoxIndex > beginBoxIndex)` loop of `BVH<T>::intersect`, run for
at most `fuel` passes. -/
def BVH.intersectLoop {T : Type} (Sh : Shape T) (bvh : BVH T) (ray : Ray) (shadowTrace : Bool) :
    Nat → TraverseState → Option Intersection
  | 0, _ => none
  | fuel + 1, σ =>
    match BVH.intersectBody Sh bvh ray shadowTrace σ with
    | none => none
    | some (.returned intersection) => some intersection
    | some (.next σ') =>
      if 0 < σ'.stack.length then BVH.intersectLoop Sh bvh ray shadowTrace fuel σ'
      else some σ'.intersection

/-- `BVH<T>::intersect(intersection, ray, shadowTrace)`; every pass of the loop visits another
node, so `boxes_.size()` passes are enough. -/
def BVH.intersect {T : Type} (Sh : Shape T) (bvh : BVH T) (intersection : Intersection)
    (ray : Ray) (shadowTrace : Bool) : Option Intersection :=
  if bvh.primitives_.isEmpty then some intersection
  else BVH.intersectLoop Sh bvh ray shadowTrace bvh.boxes_.length ⟨0, [0], intersection⟩

/-- `BVH<T>::trace`. -/
def BVH.trace {T : Type} (Sh : Shape T) (bvh : BVH T) (intersection : Intersection) (ray : Ray) :
    Option Intersection :=
  BVH.intersect Sh bvh intersection ray false

/-- `BVH<T>::shadowTrace`. -/
def BVH.shadowTrace {T : Type} (Sh : Shape T) (bvh : BVH T) (intersection : Intersection)
    (ray : Ray) : Option Intersection :=
  BVH.intersect Sh bvh intersection ray true

/-- Modelled from the spec: the query of the accelerator `Naive<T>` (its header is not among
the sources), a linear scan that applies every primitive's intersect in turn to the running
hit. -/
def Naive.trace {T : Type} (Sh : Shape T) (primitives : List T) (intersection : Intersection)
    (ray : Ray) : Intersection :=
  primitives.foldl (fun h p => Sh.intersect p h ray) intersection

/-- The shape `Plane` as `BVH<Plane>` sees it. The division of `Plane::intersect` is defined
whenever `Epsilon` is positive. -/
def Plane.shape (Epsilon : ℚ) (normalize : Vec3 → Vec3) : Shape Plane where
  getAABB := Plane.getAABB normalize
  intersect := fun pl intersection ray =>
    (Plane.intersect Epsilon pl intersection ray).getD intersection

/-- An instance of `std::sort`: insertion sort. -/
def insertionSorter : Sorter where
  sort := fun key l => l.insertionSort (fun a b => key a ≤ key b)
  perm := fun key l => List.perm_insertionSort _ l
  sorted := fun key l => by
    have : IsTotal BuildNode (fun a b => key a ≤ key b) := ⟨fun a b => le_total _ _⟩
    have : IsTrans BuildNode (fun a b => key a ≤ key b) := ⟨fun a b c => le_trans⟩
    exact List.sorted_insertionSort _ l

/-- The restriction of `glm::normalize` to the vectors that `Plane::getRightVector` hands to
it: the three with squared length 2 are scaled by the single-precision value of `1/√2`,
which is `11863283 / 2^24`. -/
def normalizeRight (v : Vec3) : Vec3 := v.scale (11863283 / 16777216)

/-! ## Shader (`Shader.cpp`) -/

/-- The enumeration `Shader::Accelerator`. -/
inductive Accelerator where
  | ACC_NONE
  | ACC_NAIVE
  | ACC_REGULAR_GRID
  | ACC_BVH
deriving DecidableEq

/-- What the shader calls on an accelerator object (`Naive<T>`, `RegularGrid<T>` or
`BVH<T>`): its two queries. -/
structure Queries where
  trace : Intersection → Ray → Intersection
  shadowTrace : Intersection → Ray → Intersection

/-- The members of `Shader` that the queries use. A light is its virtual `intersect`;
`shade` is the pure virtual hook, which reads and writes `*rgb`. -/
structure Shader where
  accelerator_ : Accelerator
  naivePlanes_ : Queries
  naiveSpheres_ : Queries
  naiveTriangles_ : Queries
  gridPlanes_ : Queries
  gridSpheres_ : Queries
  gridTriangles_ : Queries
  bvhPlanes_ : Queries
  bvhSpheres_ : Queries
  bvhTriangles_ : Queries
  lights_ : List (Intersection → Ray → Intersection)
  shade : Vec3 → Intersection → Ray → Bool × Vec3

/-- `Shader::traceLights`. -/
def Shader.traceLights (sh : Shader) (intersection : Intersection) (ray : Ray) : Intersection :=
  sh.lights_.foldl (fun h light => light h ray) intersection

/-- `Shader::shadowTrace`. -/
def Shader.shadowTrace (sh : Shader) (intersection : Intersection) (ray : Ray) : Bool :=
  let lastDist := intersection.length_
  let intersection :=
    match sh.accelerator_ with
    | .ACC_NONE => intersection
    | .ACC_NAIVE =>
      let intersection := sh.naivePlanes_.shadowTrace intersection ray
      let intersection := sh.naiveSpheres_.shadowTrace intersection ray
      sh.naiveTriangles_.shadowTrace intersection ray
    | .ACC_REGULAR_GRID =>
      let intersection := sh.gridPlanes_.shadowTrace intersection ray
      let intersection := sh.gridSpheres_.shadowTrace intersection ray
      sh.gridTriangles_.shadowTrace intersection ray
    | .ACC_BVH =>
      let intersection := sh.bvhPlanes_.shadowTrace intersection ray
      let intersection := sh.bvhSpheres_.shadowTrace intersection ray
      sh.bvhTriangles_.shadowTrace intersection ray
  decide (intersection.length_ < lastDist)

/-- What a call of `Shader::rayTrace` leaves behind: the returned flag, the colour in `*rgb`,
and the arguments of every call of `shade` it made. -/
structure RayTraced where
  res : Bool
  rgb : Vec3
  shadeCalls : List (Vec3 × Intersection × Ray)

/-- `Shader::rayTrace`; `RayLengthMax` is the constant of `Utils`. The right operand of `&&`
is evaluated only when the left one holds. -/
def Shader.rayTrace (RayLengthMax : ℚ) (sh : Shader) (rgb : Vec3) (ray : Ray) : RayTraced :=
  let intersection := Intersection.miss RayLengthMax
  let lastDist := intersection.length_
  let intersection :=
    match sh.accelerator_ with
    | .ACC_NONE => intersection
    | .ACC_NAIVE =>
      let intersection := sh.naivePlanes_.trace intersection ray
      let intersection := sh.naiveSpheres_.trace intersection ray
      sh.naiveTriangles_.trace intersection ray
    | .ACC_REGULAR_GRID =>
      let intersection := sh.gridPlanes_.trace intersection ray
      let intersection := sh.gridSpheres_.trace intersection ray
      sh.gridTriangles_.trace intersection ray
    | .ACC_BVH =>
      let intersection := sh.bvhPlanes_.trace intersection ray
      let intersection := sh.bvhSpheres_.trace intersection ray
      sh.bvhTriangles_.trace intersection ray
  let intersection := sh.traceLights intersection ray
  if intersection.length_ < lastDist then
    let shaded := sh.shade rgb intersection ray
    ⟨shaded.1, shaded.2, [(rgb, intersection, ray)]⟩
  else ⟨false, rgb, []⟩

/-! ## Notions used to state the properties -/

/-- The accelerator objects of the selected flavour, for planes, spheres and triangles;
none for `ACC_NONE`. -/
def Shader.active (sh : Shader) : Option (Queries × Queries × Queries) :=
  match sh.accelerator_ with
  | .ACC_NONE => none
  | .ACC_NAIVE => some (sh.naivePlanes_, sh.naiveSpheres_, sh.naiveTriangles_)
  | .ACC_REGULAR_GRID => some (sh.gridPlanes_, sh.gridSpheres_, sh.gridTriangles_)
  | .ACC_BVH => some (sh.bvhPlanes_, sh.bvhSpheres_, sh.bvhTriangles_)

/-- The hit after the active accelerator's `trace` on planes, then spheres, then triangles. -/
def Shader.dispatchTrace (sh : Shader) (h : Intersection) (ray : Ray) : Intersection :=
  match sh.active with
  | none => h
  | some (planes, spheres, triangles) =>
    triangles.trace (spheres.trace (planes.trace h ray) ray) ray

/-- The hit after the active accelerator's `shadowTrace` on planes, then spheres, then
triangles. -/
def Shader.dispatchShadowTrace (sh : Shader) (h : Intersection) (ray : Ray) : Intersection :=
  match sh.active with
  | none => h
  | some (planes, spheres, triangles) =>
    triangles.shadowTrace (spheres.shadowTrace (planes.shadowTrace h ray) ray) ray

/-- The elements `l[b], ..., l[e-1]` of a list. -/
def slice {α : Type} (l : List α) (b e : Nat) : List α := (l.drop b).take (e - b)

/-- The list `l'` is the list `l` with the elements at `[b, e)` rearranged. -/
def Rearr {α : Type} (b e : Nat) (l l' : List α) : Prop :=
  l'.length = l.length ∧ (∀ i, (i < b ∨ e ≤ i) → l'.get? i = l.get? i) ∧
    List.Perm (slice l' b e) (slice l b e)

/-- The union of a box, if any, with the box of a build node. -/
def addBox (acc : Option AABB) (node : BuildNode) : Option AABB :=
  match acc with
  | none => some node.box_
  | some a => some (surroundingBox node.box_ a)

/-- The union of the boxes of a list of build nodes; none for the empty list. -/
def boxOf (l : List BuildNode) : Option AABB := l.foldl addBox none

/-- The union of a non-empty list of boxes, accumulated from the left. -/
def unionBoxes : List AABB → Option AABB
  | [] => none
  | b :: bs => some (bs.foldl surroundingBox b)

/-- The surface area heuristic cost of splitting the boxes before position `k`:
`k * area(union of boxes[0..k)) + (n - k) * area(union of boxes[k..n))`. -/
def sahCost (boxes : List AABB) (k : Nat) : ℚ :=
  (k : ℚ) * ((unionBoxes (boxes.take k)).getD (AABB.mk ⟨0, 0, 0⟩ ⟨0, 0, 0⟩)).getSurfaceArea +
  ((boxes.length - k : Nat) : ℚ) *
    ((unionBoxes (boxes.drop k)).getD (AABB.mk ⟨0, 0, 0⟩ ⟨0, 0, 0⟩)).getSurfaceArea

/-- The cost that `getSplitIndexSah` computes for splitting the boxes before position `k`, in
`float` arithmetic with the rounding `fl`: the two areas are stored as `float`, the counts are
converted to `float`, and the two products and the sum are rounded; for `k = 1` the program
takes the left area itself for the left product. -/
def sahCostFloat (fl : ℚ → ℚ) (boxes : List AABB) (k : Nat) : ℚ :=
  let areaLeft :=
    fl ((unionBoxes (boxes.take k)).getD (AABB.mk ⟨0, 0, 0⟩ ⟨0, 0, 0⟩)).getSurfaceArea
  let areaRight :=
    fl ((unionBoxes (boxes.drop k)).getD (AABB.mk ⟨0, 0, 0⟩ ⟨0, 0, 0⟩)).getSurfaceArea
  let rightSah := fl (fl ((boxes.length - k : Nat) : ℚ) * areaRight)
  if k = 1 then fl (areaLeft + rightSah)
  else fl (fl (fl (k : ℚ) * areaLeft) + rightSah)

/-- The shape of a hierarchy: a leaf with its box and its range `[b, e)` of primitives, or an
inner node with its box and its two children. -/
inductive Tree where
  | leaf : AABB → Nat → Nat → Tree
  | inner : AABB → Tree → Tree → Tree

/-- The number of nodes of a hierarchy. -/
def Tree.size : Tree → Nat
  | .leaf _ _ _ => 1
  | .inner _ l r => 1 + l.size + r.size

/-- The number of stack slots a left-first walk of the hierarchy needs above its start. -/
def Tree.pend : Tree → Nat
  | .leaf _ _ _ => 0
  | .inner _ l r => max (1 + l.pend) r.pend

/-- The box of the root. -/
def Tree.box : Tree → AABB
  | .leaf box _ _ => box
  | .inner box _ _ => box

/-- The leaf ranges of a hierarchy from left to right. -/
def Tree.ranges : Tree → List (Nat × Nat)
  | .leaf _ b e => [(b, e)]
  | .inner _ l r => l.ranges ++ r.ranges

/-- The node array `boxes` holds the hierarchy `t` at index `c`: the node at `c` covers the
build nodes `[b, e)`, and the descendants of `c` are the indices `m + 1, ..., m + t.size - 1`,
a left child first, then the right child, the descendants of the left child, and the
descendants of the right child. -/
inductive Holds (boxes : List BVHNode) (nodes : List BuildNode) :
    Nat → Nat → Nat → Nat → Tree → Prop where
  | leaf (c b e m : Nat) (box : AABB) :
      b < e → e - b ≤ 2 → e ≤ nodes.length →
      boxes.get? c = some ⟨box, b, e - b⟩ →
      boxOf (slice nodes b e) = some box →
      Holds boxes nodes c b e m (.leaf box b e)
  | inner (c b k e m : Nat) (box : AABB) (l r : Tree) :
      b < k → k < e → e ≤ nodes.length →
      boxes.get? c = some ⟨box, m + 1, 0⟩ →
      boxOf (slice nodes b e) = some box →
      Holds boxes nodes (m + 1) b k (m + 2) l →
      Holds boxes nodes (m + 2) k e (m + 1 + l.size) r →
      Holds boxes nodes c b e m (.inner box l r)

/-- The state `σ'` is the state `σ` after the loop of `BVH<T>::build` has built the
hierarchy `t` below the current node of `σ` and has popped the next node. -/
structure BuildDone (σ σ' : BuildState) (t : Tree) : Prop where
  stack_eq : σ'.stack = σ.stack.tail
  head_eq : σ.stack.head? = some (σ'.currentBoxIndex, σ'.beginBoxIndex, σ'.endBoxIndex)
  max_eq : σ'.maxNodeIndex + 1 = σ.maxNodeIndex + t.size
  length_eq : σ'.boxes_.length = σ.boxes_.length
  frame : ∀ i, i ≠ σ.currentBoxIndex → ¬ (σ.maxNodeIndex < i ∧ i < σ.maxNodeIndex + t.size) →
    σ'.boxes_.get? i = σ.boxes_.get? i
  rearr : Rearr σ.beginBoxIndex σ.endBoxIndex σ.buildNodes σ'.buildNodes
  holds : Holds σ'.boxes_ σ'.buildNodes σ.currentBoxIndex σ.beginBoxIndex σ.endBoxIndex
    σ.maxNodeIndex t

/-- The hierarchy `bvh` was constructed from `primitives`: the loop of `BVH<T>::build` ended
in the state `σ`, and the nodes of `bvh` hold the hierarchy `t` over all build nodes. -/
structure Built {T : Type} (fl : ℚ → ℚ) (S : Sorter) (Sh : Shape T) (primitives : List T)
    (bvh : BVH T) (σ : BuildState) (t : Tree) : Prop where
  final : BVH.buildFinal fl S Sh (List.replicate (primitives.length * 2 - 1) BVHNode.default)
    primitives = some σ
  boxes_eq : bvh.boxes_ = σ.boxes_.take (σ.maxNodeIndex + 1)
  reordered : BVH.reorder primitives σ.buildNodes = some bvh.primitives_
  size_eq : bvh.boxes_.length = t.size
  holds : Holds bvh.boxes_ σ.buildNodes 0 0 primitives.length 0 t
  perm : List.Perm σ.buildNodes (BVH.initialNodes Sh primitives)
  pend_le : 1 + t.pend ≤ 512

/-- The walk of `BVH<T>::intersect` over a hierarchy, as a recursion: the hit it leaves and
whether the shadow query returned from inside a leaf. -/
def visit {T : Type} (Sh : Shape T) (primitives_ : List T) (ray : Ray) (shadowTrace : Bool) :
    Tree → Intersection → Intersection × Bool
  | .leaf box b e, h =>
    if box.intersect ray = true then
      BVH.leafLoop Sh ray shadowTrace (slice primitives_ b e) h
    else (h, false)
  | .inner box l r, h =>
    if box.intersect ray = true then
      if l.box.intersect ray = true then
        let left := visit Sh primitives_ ray shadowTrace l h
        if left.2 = true then left
        else if r.box.intersect ray = true then visit Sh primitives_ ray shadowTrace r left.1
        else left
      else if r.box.intersect ray = true then visit Sh primitives_ ray shadowTrace r h
      else (h, false)
    else (h, false)

/-- The node `i` of the hierarchy can be reached from the node `root` by steps from an inner
node to one of its two children. -/
inductive Reachable (boxes : List BVHNode) (root : Nat) : Nat → Prop where
  | root : Reachable boxes root root
  | left (i : Nat) (node : BVHNode) :
      Reachable boxes root i → boxes.get? i = some node → node.numPrimitives_ = 0 →
      Reachable boxes root node.indexOffset_
  | right (i : Nat) (node : BVHNode) :
      Reachable boxes root i → boxes.get? i = some node → node.numPrimitives_ = 0 →
      Reachable boxes root (node.indexOffset_ + 1)

/-! ## Sample data -/

/-- A value for `Epsilon`. -/
def sampleEpsilon : ℚ := 1 / 1000000

/-- A value for `RayLengthMax`. -/
def sampleRayLengthMax : ℚ := 10 ^ 30

/-- The plane `z = 0` with normal `(0, 0, 1)`. -/
def floorPlane : Plane := ⟨⟨0, 0, 1⟩, ⟨0, 0, 0⟩, 1⟩

/-- The plane `z = -1` with normal `(0, 0, 1)`. -/
def lowPlane : Plane := ⟨⟨0, 0, 1⟩, ⟨0, 0, -1⟩, 2⟩

/-- The plane `x = 5` with normal `(1, 0, 0)`. -/
def wallPlane : Plane := ⟨⟨1, 0, 0⟩, ⟨5, 0, 0⟩, 3⟩

/-- Three planes. -/
def samplePlanes : List Plane := [floorPlane, lowPlane, wallPlane]

/-- The shape of the sample planes. -/
def sampleShape : Shape Plane := Plane.shape sampleEpsilon normalizeRight

/-- The ray from `(0, 0, 1)` straight down. -/
def downRay : Ray := ⟨⟨0, 0, 1⟩, ⟨0, 0, -1⟩, 1, 0, none⟩

/-- Four boxes along the x axis. -/
def sampleBoxes : List AABB :=
  [⟨⟨0, 0, 0⟩, ⟨1, 1, 1⟩⟩, ⟨⟨0, 0, 0⟩, ⟨2, 1, 1⟩⟩, ⟨⟨5, 5, 5⟩, ⟨6, 6, 6⟩⟩, ⟨⟨5, 5, 5⟩, ⟨7, 7, 7⟩⟩]

/-- Five copies of the box from `(0, 0, 0)` to `(8388615/8388608, 1, 0)`, whose surface area
`2 + 14 / 2^23` is a `float`. -/
def tieBoxes : List AABB := List.replicate 5 ⟨⟨0, 0, 0⟩, ⟨8388615 / 8388608, 1, 0⟩⟩

/-! ## OBJLoader (`Components/Loaders/OBJLoader.cpp`)

The loader works on what `tinyobj::LoadObj` left in `attrib_`, `shapes_` and `materials_`.
An iterator that leaves its vector is undefined behaviour: the embedded function has no
result then. The functions of `MobileRT/Utils`, `glm` and `Texture` that the loader calls are
gathered in `Library`. -/

/-- Two lanes of `glm::vec2`. -/
structure Vec2 where
  x : ℚ
  y : ℚ
deriving DecidableEq

/-- The value `glm::vec2 {-1}`: both lanes are `-1`. -/
def Vec2.sentinel : Vec2 := ⟨-1, -1⟩

/-- The product `glm::cross`. -/
def Vec3.cross (a b : Vec3) : Vec3 :=
  ⟨a.y * b.z - a.z * b.y, a.z * b.x - a.x * b.z, a.x * b.y - a.y * b.x⟩

/-- The element `*(v.cbegin() + i)` of a vector; outside the vector there is none. -/
def deref {α : Type} (v : List α) (i : Int) : Option α :=
  if 0 ≤ i then v.get? i.toNat else none

/-- The structure `tinyobj::index_t`. -/
structure index_t where
  vertex_index : Int
  normal_index : Int
  texcoord_index : Int
deriving DecidableEq

/-- The members of `tinyobj::mesh_t` that the loader reads. -/
structure mesh_t where
  indices : List index_t
  num_face_vertices : List Nat
  material_ids : List Int

/-- The structure `tinyobj::shape_t`. -/
structure shape_t where
  mesh : mesh_t

/-- The members of `tinyobj::material_t` that the loader reads. -/
structure material_t where
  diffuse : Vec3
  specular : Vec3
  transmittance : Vec3
  emission : Vec3
  ior : ℚ
  dissolve : ℚ
  diffuse_texname : String

/-- The members of `tinyobj::attrib_t` that the loader reads: flat arrays of lanes. -/
structure attrib_t where
  vertices : List ℚ
  normals : List ℚ
  texcoords : List ℚ
  colors : List ℚ

/-- Modelled from the spec: a texture is an image that may be invalid (`isValid`); the image
itself is the natural number `image`. -/
structure Texture where
  isValid : Bool
  image : Nat
deriving DecidableEq

/-- Modelled from the spec: the texture `Texture {}` holds no image. -/
def Texture.empty : Texture := ⟨false, 0⟩

/-- Modelled from the spec: the fields of `Material`, in the order of its constructor;
`operator==` is equality of all fields. -/
structure Material where
  diffuse_ : Vec3
  specular_ : Vec3
  transmittance_ : Vec3
  refractiveIndice_ : ℚ
  emission_ : Vec3
  texture_ : Texture
deriving DecidableEq

/-- Modelled from the spec: a triangle as `Triangle::Builder` builds it, with its three
vertices, three normals, three tex-coords and material index. -/
structure Triangle where
  pointA_ : Vec3
  pointB_ : Vec3
  pointC_ : Vec3
  normalA_ : Vec3
  normalB_ : Vec3
  normalC_ : Vec3
  texCoordA_ : Vec2
  texCoordB_ : Vec2
  texCoordC_ : Vec2
  materialIndex_ : Int
deriving DecidableEq

/-- Modelled from the spec: `Triangle::Builder(a, b, c)`. Tex-coords that are never set are
the value `(-1, -1)` that signals no texture, and the material index is `-1`. -/
def Triangle.Builder (vertices : Vec3 × Vec3 × Vec3) : Triangle :=
  { pointA_ := vertices.1, pointB_ := vertices.2.1, pointC_ := vertices.2.2,
    normalA_ := ⟨0, 0, 0⟩, normalB_ := ⟨0, 0, 0⟩, normalC_ := ⟨0, 0, 0⟩,
    texCoordA_ := Vec2.sentinel, texCoordB_ := Vec2.sentinel, texCoordC_ := Vec2.sentinel,
    materialIndex_ := -1 }

/-- The call `Builder::withNormals`. -/
def Triangle.withNormals (t : Triangle) (normal : Vec3 × Vec3 × Vec3) : Triangle :=
  { t with normalA_ := normal.1, normalB_ := normal.2.1, normalC_ := normal.2.2 }

/-- The call `Builder::withTexCoords`. -/
def Triangle.withTexCoords (t : Triangle) (texCoord : Vec2 × Vec2 × Vec2) : Triangle :=
  { t with texCoordA_ := texCoord.1, texCoordB_ := texCoord.2.1, texCoordC_ := texCoord.2.2 }

/-- The call `Builder::withMaterialIndex`. -/
def Triangle.withMaterialIndex (t : Triangle) (materialIndex : Nat) : Triangle :=
  { t with materialIndex_ := materialIndex }

/-- The three tex-coords of a triangle. -/
def Triangle.texCoords (t : Triangle) : Vec2 × Vec2 × Vec2 :=
  (t.texCoordA_, t.texCoordB_, t.texCoordC_)

/-- An `AreaLight` as the loader makes it: the material and the triangle that emits. -/
structure AreaLight where
  radiance_ : Material
  triangle_ : Triangle
deriving DecidableEq

/-- The members of `Scene` that the loader fills. -/
structure Scene where
  triangles_ : List Triangle
  lights_ : List AreaLight
  materials_ : List Material

/-- The scene that holds nothing. -/
def Scene.empty : Scene := ⟨[], [], []⟩

/-- Functions the loader calls that are declared outside the embedded files:
`glm::normalize`, `MobileRT::normalize` on three and on two lanes,
`MobileRT::hasPositiveValue` and `Texture::createTexture`. -/
structure Library where
  glm_normalize : Vec3 → Vec3
  normalizeVec3 : Vec3 → Vec3
  normalizeVec2 : Vec2 → Vec2
  hasPositiveValue : Vec3 → Bool
  createTexture : String → Texture

/-- The members of `OBJLoader`. -/
structure OBJLoader where
  attrib_ : attrib_t
  shapes_ : List shape_t
  materials_ : List material_t
  numberTriangles_ : Nat
  isProcessed_ : Bool

/-- The loop of the constructor over the faces of all shapes (lines 61 to 69): every face
adds `numFaceVertices / 3`. -/
def OBJLoader.countTriangles (shapes_ : List shape_t) : Nat :=
  shapes_.foldl
    (fun numberTriangles_ shape =>
      shape.mesh.num_face_vertices.foldl
        (fun numberTriangles_ numFaceVertices => numberTriangles_ + numFaceVertices / 3)
        numberTriangles_)
    0

/-- The constructor `OBJLoader::OBJLoader`, after `tinyobj::LoadObj` returned `true` with the
three outputs given. -/
def OBJLoader.construct (attrib_ : attrib_t) (shapes_ : List shape_t)
    (materials_ : List material_t) : OBJLoader :=
  { attrib_ := attrib_, shapes_ := shapes_, materials_ := materials_,
    numberTriangles_ := OBJLoader.countTriangles shapes_, isProcessed_ := true }

/-- The three lanes `*(it + 0)`, `*(it + 1)`, `*(it + 2)` at `it = v.cbegin() + 3 * i`. -/
def lanes3 (v : List ℚ) (i : Int) : Option (ℚ × ℚ × ℚ) :=
  match deref v (3 * i + 0), deref v (3 * i + 1), deref v (3 * i + 2) with
  | some a, some b, some c => some (a, b, c)
  | _, _, _ => none

/-- The two lanes `*(it + 0)`, `*(it + 1)` at `it = v.cbegin() + 2 * i`. -/
def lanes2 (v : List ℚ) (i : Int) : Option (ℚ × ℚ) :=
  match deref v (2 * i + 0), deref v (2 * i + 1) with
  | some a, some b => some (a, b)
  | _, _ => none

/-- The three entries `*(itIdx + 0)`, `*(itIdx + 1)`, `*(itIdx + 2)` at
`itIdx = indices.cbegin() + indexOffset`. -/
def indices3 (indices : List index_t) (indexOffset : Nat) :
    Option (index_t × index_t × index_t) :=
  match indices.get? (indexOffset + 0), indices.get? (indexOffset + 1),
    indices.get? (indexOffset + 2) with
  | some idx1, some idx2, some idx3 => some (idx1, idx2, idx3)
  | _, _, _ => none

/-- `OBJLoader::loadVertices`. -/
def OBJLoader.loadVertices (loader : OBJLoader) (shape : shape_t) (indexOffset : Nat) :
    Option (Vec3 × Vec3 × Vec3) :=
  match indices3 shape.mesh.indices indexOffset with
  | none => none
  | some (idx1, idx2, idx3) =>
    match lanes3 loader.attrib_.vertices idx1.vertex_index,
      lanes3 loader.attrib_.vertices idx2.vertex_index,
      lanes3 loader.attrib_.vertices idx3.vertex_index with
    | some (vx1, vy1, vz1), some (vx2, vy2, vz2), some (vx3, vy3, vz3) =>
      let vertex1 : Vec3 := ⟨-vx1, vy1, vz1⟩
      let vertex2 : Vec3 := ⟨-vx2, vy2, vz2⟩
      let vertex3 : Vec3 := ⟨-vx3, vy3, vz3⟩
      some (vertex1, vertex2, vertex3)
    | _, _, _ => none

/-- `OBJLoader::loadNormal`. -/
def OBJLoader.loadNormal (lib : Library) (loader : OBJLoader) (shape : shape_t)
    (indexOffset : Nat) (vertex : Vec3 × Vec3 × Vec3) : Option (Vec3 × Vec3 × Vec3) :=
  match indices3 shape.mesh.indices indexOffset with
  | none => none
  | some (idx1, idx2, idx3) =>
    if loader.attrib_.normals ≠ [] then
      match lanes3 loader.attrib_.normals idx1.normal_index,
        lanes3 loader.attrib_.normals idx2.normal_index,
        lanes3 loader.attrib_.normals idx3.normal_index with
      | some (nx1, ny1, nz1), some (nx2, ny2, nz2), some (nx3, ny3, nz3) =>
        some (⟨-nx1, ny1, nz1⟩, ⟨-nx2, ny2, nz2⟩, ⟨-nx3, ny3, nz3⟩)
      | _, _, _ => none
    else
      let AB := vertex.2.1.sub vertex.1
      let AC := vertex.2.2.sub vertex.1
      let normalDir := lib.glm_normalize (AC.cross AB)
      some (normalDir, normalDir, normalDir)

/-- `OBJLoader::normalizeTexCoord`. -/
def OBJLoader.normalizeTexCoord (lib : Library) (texture : Texture)
    (texCoord : Vec2 × Vec2 × Vec2) : Vec2 × Vec2 × Vec2 :=
  if !texture.isValid then
    (Vec2.sentinel, Vec2.sentinel, Vec2.sentinel)
  else
    (lib.normalizeVec2 texCoord.1, lib.normalizeVec2 texCoord.2.1,
      lib.normalizeVec2 texCoord.2.2)

/-- `OBJLoader::getTextureFromCache` with a directory and a file name. The cache
`std::unordered_map` is a list of pairs with distinct keys; the result is the texture and
the cache after the call. -/
def OBJLoader.getTextureFromCache (lib : Library) (texturesCache : List (String × Texture))
    (filePath texPath : String) : Texture × List (String × Texture) :=
  match texturesCache.lookup texPath with
  | none =>
    let texturePath := filePath ++ texPath
    let texture := lib.createTexture texturePath
    (texture, texturesCache ++ [(texPath, texture)])
  | some texture => (texture, texturesCache)

/-- Lines 135 to 167 of `fillScene`: the texture and the tex-coords of a triangle whose
material is `mat`, and the cache of the thread afterwards. -/
def OBJLoader.loadTexCoord (lib : Library) (loader : OBJLoader) (filePath : String)
    (mat : material_t) (idx1 idx2 idx3 : index_t) (texturesCache : List (String × Texture)) :
    Option (Texture × (Vec2 × Vec2 × Vec2) × List (String × Texture)) :=
  let hasTexture := mat.diffuse_texname ≠ ""
  let hasCoordTex := loader.attrib_.texcoords ≠ []
  let texture := Texture.empty
  let texCoord := (Vec2.sentinel, Vec2.sentinel, Vec2.sentinel)
  if hasTexture ∧ hasCoordTex then
    match lanes2 loader.attrib_.texcoords idx1.texcoord_index,
      lanes2 loader.attrib_.texcoords idx2.texcoord_index,
      lanes2 loader.attrib_.texcoords idx3.texcoord_index with
    | some (tx1, ty1), some (tx2, ty2), some (tx3, ty3) =>
      let texCoord : Vec2 × Vec2 × Vec2 := (⟨tx1, ty1⟩, ⟨tx2, ty2⟩, ⟨tx3, ty3⟩)
      let fetched :=
        OBJLoader.getTextureFromCache lib texturesCache filePath mat.diffuse_texname
      let texture := fetched.1
      let texCoord := OBJLoader.normalizeTexCoord lib texture texCoord
      some (texture, texCoord, fetched.2)
    | _, _, _ => none
  else
    some (texture, texCoord, texturesCache)

/-- The critical section of `fillScene` that resolves a material (lines 209 to 220 and 247
to 258): `std::find` gives the first equal material of the scene, and a material that is
not found is appended. The result is `materialIndex` and `scene->materials_`. -/
def OBJLoader.resolveMaterial (materials_ : List Material) (material : Material) :
    Nat × List Material :=
  let itFoundMat := materials_.indexOf material
  if itFoundMat ≠ materials_.length then
    (itFoundMat, materials_)
  else
    (materials_.length, materials_ ++ [material])

/-- What a thread of `fillScene` holds: its vectors `triangles` and `lights` and its copy of
`texturesCache`. -/
structure Worker where
  triangles : List Triangle
  lights : List AreaLight
  texturesCache : List (String × Texture)

/-- The body of the loop over the vertices of a face (lines 114 to 261): one triangle is read
at `offset = indexOffset + vertex` and goes to `lights` or to `triangles`. The state is the
thread and `scene->materials_`. -/
def OBJLoader.loadTriangle (lib : Library) (loader : OBJLoader) (filePath : String)
    (shape : shape_t) (face offset : Nat) (st : Worker × List Material) :
    Option (Worker × List Material) := do
  let vertices ← loader.loadVertices shape offset
  let normal ← loader.loadNormal lib shape offset vertices
  let materialId ← shape.mesh.material_ids.get? face
  let idx ← indices3 shape.mesh.indices offset
  if 0 ≤ materialId then do
    let mat ← deref loader.materials_ materialId
    let diffuse := mat.diffuse
    let specular := mat.specular
    let transmittance := mat.transmittance.scale (1 - mat.dissolve)
    let emission := lib.normalizeVec3 mat.emission
    let indexRefraction := mat.ior
    let tex ← loader.loadTexCoord lib filePath mat idx.1 idx.2.1 idx.2.2 st.1.texturesCache
    let material : Material :=
      ⟨diffuse, specular, transmittance, indexRefraction, emission, tex.1⟩
    if lib.hasPositiveValue emission then
      let triangle := ((Triangle.Builder vertices).withNormals normal).withTexCoords tex.2.1
      pure ({ st.1 with lights := st.1.lights ++ [⟨material, triangle⟩],
                        texturesCache := tex.2.2 }, st.2)
    else
      let builder := ((Triangle.Builder vertices).withNormals normal).withTexCoords tex.2.1
      let found := OBJLoader.resolveMaterial st.2 material
      pure ({ st.1 with triangles := st.1.triangles ++ [builder.withMaterialIndex found.1],
                        texturesCache := tex.2.2 }, found.2)
  else do
    let color ← lanes3 loader.attrib_.colors idx.1.vertex_index
    let material : Material :=
      ⟨⟨color.1, color.2.1, color.2.2⟩, ⟨0, 0, 0⟩, ⟨0, 0, 0⟩, 1, ⟨0, 0, 0⟩, Texture.empty⟩
    let builder := (Triangle.Builder vertices).withNormals normal
    let found := OBJLoader.resolveMaterial st.2 material
    pure ({ st.1 with triangles := st.1.triangles ++ [builder.withMaterialIndex found.1] },
          found.2)

/-- The values of `vertex` in `for (vertex = 0; vertex < faceVertices; vertex += 3)`. -/
def OBJLoader.vertexSteps (faceVertices : Nat) : List Nat :=
  (List.range faceVertices).filter (fun vertex => vertex % 3 = 0)

/-- The loop over the faces of a shape (lines 101 to 275) around a body that is run once for
each face that is not skipped, with the face, `indexOffset` and the number of vertices of
the face. The list holds the faces still to come. A face whose number of vertices is not a
multiple of 3 leaves the iteration at `continue`, before `indexOffset += faceVertices`. -/
def OBJLoader.faceLoop {σ : Type} (body : Nat → Nat → Nat → σ → Option σ) :
    List Nat → Nat → Nat → σ → Option σ
  | [], _, _, st => some st
  | faceVertices :: rest, face, indexOffset, st =>
    if faceVertices % 3 ≠ 0 then
      OBJLoader.faceLoop body rest (face + 1) indexOffset st
    else
      match body face indexOffset faceVertices st with
      | none => none
      | some st => OBJLoader.faceLoop body rest (face + 1) (indexOffset + faceVertices) st

/-- The body of the loop over the faces: the loop over the vertices of the face. -/
def OBJLoader.loadFace (lib : Library) (loader : OBJLoader) (filePath : String)
    (shape : shape_t) (face indexOffset faceVertices : Nat) (st : Worker × List Material) :
    Option (Worker × List Material) :=
  (OBJLoader.vertexSteps faceVertices).foldlM
    (fun st vertex => loader.loadTriangle lib filePath shape face (indexOffset + vertex) st) st

/-- One iteration of the loop over the shapes (lines 94 to 276). -/
def OBJLoader.loadShape (lib : Library) (loader : OBJLoader) (filePath : String)
    (shapeIndex : Nat) (st : Worker × List Material) : Option (Worker × List Material) := do
  let shape ← loader.shapes_.get? shapeIndex
  OBJLoader.faceLoop (loader.loadFace lib filePath shape) shape.mesh.num_face_vertices 0 0 st

/-- The shapes that `schedule(static, 1)` gives to the thread `thread` of `numThreads`. -/
def OBJLoader.shapesOf (shapesSize numThreads thread : Nat) : List Nat :=
  (List.range shapesSize).filter (fun shapeIndex => shapeIndex % numThreads = thread)

/-- The critical section at the end of the parallel region (lines 278 to 288): the vectors
of the thread are appended to those of the scene. -/
def Scene.merge (scene : Scene) (triangles : List Triangle) (lights : List AreaLight) :
    Scene :=
  { scene with triangles_ := scene.triangles_ ++ triangles, lights_ := scene.lights_ ++ lights }

/-- The value of `filePath` after line 78: the text up to the last `/`, and a `/`. -/
def OBJLoader.directory (filePath : String) : String :=
  match filePath.toList.reverse.dropWhile (fun c => c ≠ '/') with
  | [] => filePath ++ "/"
  | _ :: rest => String.mk rest.reverse ++ "/"

/-- The work of one thread of the parallel region (lines 86 to 297) on the scene: its shapes
one after the other from empty vectors and its own copy of the cache, then the merge. -/
def OBJLoader.runThread (lib : Library) (loader : OBJLoader) (filePath : String)
    (texturesCache : List (String × Texture)) (numThreads : Nat) (scene : Scene)
    (thread : Nat) : Option Scene := do
  let st ← (OBJLoader.shapesOf loader.shapes_.length numThreads thread).foldlM
    (fun st shapeIndex => loader.loadShape lib filePath shapeIndex st)
    (⟨[], [], texturesCache⟩, scene.materials_)
  pure (Scene.merge { scene with materials_ := st.2 } st.1.triangles st.1.lights)

/-- `OBJLoader::fillScene` up to the assertion of line 299, in the execution in which the
`numThreads` threads of the parallel region run one after the other; with one thread it is
the only execution. The sampler factory `lambda` leaves no trace in the scene. -/
def OBJLoader.fillScene (lib : Library) (loader : OBJLoader) (numThreads : Nat)
    (scene : Scene) (filePath : String) (texturesCache : List (String × Texture)) :
    Option Scene :=
  (List.range numThreads).foldlM
    (loader.runThread lib (OBJLoader.directory filePath) texturesCache numThreads) scene

/-- Modelled from the spec: the assertion of line 299 compares the number of triangles of
the scene with the number the constructor counted. -/
def OBJLoader.assertion (loader : OBJLoader) (scene : Scene) : Bool :=
  scene.triangles_.length == loader.numberTriangles_

/-! ## Sampling (`Shader.cpp`)

The two sampling functions read the table `VALUES` at a position given by a static atomic
counter. They are embedded over any ordered field `K` of lanes, so that they can be run on
rationals and stated over the reals; `std::sqrt`, `std::cos`, `std::sin` and
`glm::two_pi` are parameters. The counter is passed in and out; what other threads do to it
between two reads is not modelled. -/

/-- Three lanes of `glm::vec3` over the field `K`. -/
structure V3 (K : Type) where
  x : K
  y : K
  z : K

/-- The sum of two vectors. -/
def V3.add {K : Type} [LinearOrderedField K] (a b : V3 K) : V3 K :=
  ⟨a.x + b.x, a.y + b.y, a.z + b.z⟩

/-- The product of a vector and a scalar. -/
def V3.scale {K : Type} [LinearOrderedField K] (a : V3 K) (s : K) : V3 K :=
  ⟨a.x * s, a.y * s, a.z * s⟩

/-- The product `glm::dot`. -/
def V3.dot {K : Type} [LinearOrderedField K] (a b : V3 K) : K :=
  a.x * b.x + a.y * b.y + a.z * b.z

/-- The product `glm::cross`. -/
def V3.cross {K : Type} [LinearOrderedField K] (a b : V3 K) : V3 K :=
  ⟨a.y * b.z - a.z * b.y, a.z * b.x - a.x * b.z, a.x * b.y - a.y * b.x⟩

/-- The function `glm::normalize`: the vector times the inverse square root of its dot
product with itself. -/
def V3.normalize {K : Type} [LinearOrderedField K] (sqrt : K → K) (a : V3 K) : V3 K :=
  a.scale (1 / sqrt (a.dot a))

/-- The constant `MASK`. -/
def MASK : Nat := 0xFFFFF

/-- The constant `SIZE`. -/
def SIZE : Nat := MASK + 1

/-- The call `fetch_add(1)` on a `std::atomic<std::uint32_t>`: the value read and the value
left in the counter. -/
def fetch_add (sampler : Nat) : Nat × Nat := (sampler, (sampler + 1) % 2 ^ 32)

/-- The vector whose cross product with the normal `getCosineSampleHemisphere` normalises:
the first value of `u`. -/
def Shader.hemisphereAxis {K : Type} [LinearOrderedField K] (normal : V3 K) : V3 K :=
  if |normal.x| > 1 / 10 then ⟨0, 1, 0⟩ else ⟨1, 0, 0⟩

/-- `Shader::getCosineSampleHemisphere`: the direction and the counter afterwards. -/
def Shader.getCosineSampleHemisphere {K : Type} [LinearOrderedField K] (sqrt cos sin : K → K)
    (two_pi : K) (VALUES : Nat → K) (sampler : Nat) (normal : V3 K) : V3 K × Nat :=
  let current1 := fetch_add sampler
  let current2 := fetch_add current1.2
  let uniformRandom1 := VALUES (current1.1 &&& MASK)
  let uniformRandom2 := VALUES (current2.1 &&& MASK)
  let phi := two_pi * uniformRandom1
  let r2 := uniformRandom2
  let cosTheta := sqrt r2
  let u := Shader.hemisphereAxis normal
  let u := (u.cross normal).normalize sqrt
  let v := normal.cross u
  let direction :=
    ((u.scale (cos phi * cosTheta)).add (v.scale (sin phi * cosTheta))).add
      (normal.scale (sqrt (1 - r2)))
  let direction := direction.normalize sqrt
  (direction, current2.2)

/-- `Shader::getLightIndex`: the chosen light and the counter afterwards. The number of
lights fits `std::uint32_t` and is converted to `float`, the two products are `float`
operations and `0.99999F` is the `float` of the literal; `fl` is the rounding to `float`. The
cast of the floor to `std::uint32_t` is `Int.toNat`. -/
def Shader.getLightIndex {K : Type} [LinearOrderedField K] [FloorRing K] (fl : K → K)
    (VALUES : Nat → K) (sh : Shader) (sampler : Nat) : Nat × Nat :=
  let current := fetch_add sampler
  let sizeLights := sh.lights_.length
  let randomNumber := VALUES (current.1 &&& MASK)
  let chosenLight :=
    Int.toNat ⌊fl (fl (randomNumber * fl (sizeLights : K)) * fl (99999 / 100000))⌋
  (chosenLight, current.2)

/-! ## Notions used to state the properties of the loader -/

/-- The palette after the materials `ms` have gone through the resolve step one after the
other. -/
def resolveAll (materials_ : List Material) (ms : List Material) : List Material :=
  ms.foldl (fun palette m => (OBJLoader.resolveMaterial palette m).2) materials_

/-- The sum, over the faces of all shapes whose number of vertices is divisible by 3, of
the number of vertices divided by 3. -/
def countDivisible (shapes_ : List shape_t) : Nat :=
  (shapes_.map (fun shape =>
    ((shape.mesh.num_face_vertices.filter (fun n => n % 3 = 0)).map (fun n => n / 3)).sum)).sum

/-- The part of `countDivisible` that comes from the shape at `shapeIndex`. -/
def countDivisibleAt (shapes_ : List shape_t) (shapeIndex : Nat) : Nat :=
  match shapes_.get? shapeIndex with
  | some shape =>
    ((shape.mesh.num_face_vertices.filter (fun n => n % 3 = 0)).map (fun n => n / 3)).sum
  | none => 0

/-- The scene after the threads `order` have gone through the merge one after the other. -/
def mergeAll (scene : Scene) (order : List Worker) : Scene :=
  order.foldl (fun scene w => scene.merge w.triangles w.lights) scene

/-- The triangle `t` is what a step has added to a thread: the step appends `t` to the
triangles, or it appends to the lights a light that holds `t`. -/
def Added (w w' : Worker) (t : Triangle) : Prop :=
  (w'.triangles = w.triangles ++ [t] ∧ w'.lights = w.lights) ∨
  (∃ material, w'.lights = w.lights ++ [⟨material, t⟩] ∧ w'.triangles = w.triangles)

/-- The three vertices of a triangle. -/
def Triangle.points (t : Triangle) : Vec3 × Vec3 × Vec3 := (t.pointA_, t.pointB_, t.pointC_)

/-- The three normals of a triangle. -/
def Triangle.normals (t : Triangle) : Vec3 × Vec3 × Vec3 := (t.normalA_, t.normalB_, t.normalC_)

/-- The vector `(x, y, z)` with the sign of `x` flipped. -/
def flipX (v : ℚ × ℚ × ℚ) : Vec3 := ⟨-v.1, v.2.1, v.2.2⟩

/-! ## Sample data of the loader -/

/-- Values for the library functions: the vectors of the sample data are left as they are,
a vector has a positive value when one of its lanes is positive, and no texture file can
be read. -/
def sampleLibrary : Library :=
  { glm_normalize := fun v => v,
    normalizeVec3 := fun v => v,
    normalizeVec2 := fun v => v,
    hasPositiveValue := fun v => decide (0 < v.x ∨ 0 < v.y ∨ 0 < v.z),
    createTexture := fun _ => ⟨false, 0⟩ }

/-- The corners `(0,0,0)`, `(1,0,0)`, `(1,1,0)`, `(0,1,0)` of a square, all white; no normals
and no tex-coords. -/
def squareAttrib : attrib_t :=
  { vertices := [0, 0, 0, 1, 0, 0, 1, 1, 0, 0, 1, 0],
    normals := [],
    texcoords := [],
    colors := [1, 1, 1, 1, 1, 1, 1, 1, 1, 1, 1, 1] }

/-- The index entry of the corner `i`, without normal and tex-coord. -/
def corner (i : Int) : index_t := ⟨i, -1, -1⟩

/-- A shape with one face of four vertices, the square, without material. -/
def quadShape : shape_t :=
  ⟨{ indices := [corner 0, corner 1, corner 2, corner 3],
     num_face_vertices := [4],
     material_ids := [-1] }⟩

/-- A shape with the square as two triangles, of the corners 0, 1, 2 and of the corners
0, 2, 3, without material: what `tinyobj::LoadObj` returns for the square when it is asked to
triangulate, as the constructor asks it. -/
def triangulatedShape : shape_t :=
  ⟨{ indices := [corner 0, corner 1, corner 2, corner 0, corner 2, corner 3],
     num_face_vertices := [3, 3],
     material_ids := [-1, -1] }⟩

/-- A material that emits white light. -/
def glowing : material_t :=
  { diffuse := ⟨0, 0, 0⟩, specular := ⟨0, 0, 0⟩, transmittance := ⟨0, 0, 0⟩,
    emission := ⟨1, 1, 1⟩, ior := 1, dissolve := 1, diffuse_texname := "" }

/-- A shape with one triangle, of the corners 0, 1, 2, with the material 0. -/
def glowShape : shape_t :=
  ⟨{ indices := [corner 0, corner 1, corner 2],
     num_face_vertices := [3],
     material_ids := [0] }⟩

/-- The loader of a file whose only face is the square. -/
def quadLoader : OBJLoader := OBJLoader.construct squareAttrib [quadShape] []

/-- The loader of a file whose only face is the square, triangulated. -/
def triangulatedLoader : OBJLoader := OBJLoader.construct squareAttrib [triangulatedShape] []

/-- The loader of a file whose only face is a triangle that emits light. -/
def glowLoader : OBJLoader := OBJLoader.construct squareAttrib [glowShape] [glowing]

/-- The table whose entries are all `1 / 2`. -/
def halfTable {K : Type} [LinearOrderedField K] : Nat → K := fun _ => 1 / 2

/-- The normal `(0, 0, 1)`. -/
def upNormal {K : Type} [LinearOrderedField K] : V3 K := ⟨0, 0, 1⟩

/-- A shader without lights whose accelerators find nothing. -/
def darkShader : Shader :=
  { accelerator_ := .ACC_NONE,
    naivePlanes_ := ⟨fun h _ => h, fun h _ => h⟩,
    naiveSpheres_ := ⟨fun h _ => h, fun h _ => h⟩,
    naiveTriangles_ := ⟨fun h _ => h, fun h _ => h⟩,
    gridPlanes_ := ⟨fun h _ => h, fun h _ => h⟩,
    gridSpheres_ := ⟨fun h _ => h, fun h _ => h⟩,
    gridTriangles_ := ⟨fun h _ => h, fun h _ => h⟩,
    bvhPlanes_ := ⟨fun h _ => h, fun h _ => h⟩,
    bvhSpheres_ := ⟨fun h _ => h, fun h _ => h⟩,
    bvhTriangles_ := ⟨fun h _ => h, fun h _ => h⟩,
    lights_ := [],
    shade := fun rgb _ _ => (false, rgb) }

/-- The shader `darkShader` with two lights that leave the hit as it is. -/
def twoLightShader : Shader :=
  { darkShader with lights_ := [fun h _ => h, fun h _ => h] }

/-- The shader `darkShader` with 21 lights that leave the hit as it is. -/
def manyLightShader : Shader :=
  { darkShader with lights_ := List.replicate 21 (fun h _ => h) }

/-- The table whose entries are all `798923 / 2^20`, a `float`. -/
def roundedTable : Nat → ℚ := fun _ => 798923 / 1048576

/-! ## Plane and box (`Plane.cpp`) -/

/-- `Plane::distance`; `sqrt` is `std::sqrt`. -/
def Plane.distance (sqrt : ℚ → ℚ) (pl : Plane) (point : Vec3) : Option ℚ :=
  let d := pl.normal_.get 0 * -pl.point_.get 0 + pl.normal_.get 1 * -pl.point_.get 1 +
    pl.normal_.get 2 * -pl.point_.get 2
  let numerator := pl.normal_.get 0 * point.get 0 + pl.normal_.get 1 * point.get 1 +
    pl.normal_.get 2 * point.get 2 + d
  let denumerator := sqrt (pl.normal_.get 0 * pl.normal_.get 0 +
    pl.normal_.get 1 * pl.normal_.get 1 + pl.normal_.get 2 * pl.normal_.get 2)
  fdiv numerator denumerator

/-- `Plane::intersect(box)`, the overload that takes a box. -/
def Plane.intersectAABB (sqrt : ℚ → ℚ) (pl : Plane) (box : AABB) : Option Bool :=
  let positiveVertex := box.pointMax_
  let negativeVertex := box.pointMin_
  match pl.distance sqrt positiveVertex, pl.distance sqrt negativeVertex with
  | some distanceP, some distanceN =>
    some (decide ((distanceP ≤ 0 ∧ distanceN ≥ 0) ∨ (distanceP ≥ 0 ∧ distanceN ≤ 0)))
  | _, _ => none

/-! ## Notions used to state the properties of boxes and planes -/

/-- The point lies on the plane. -/
def Plane.hasPoint (pl : Plane) (p : Vec3) : Prop := pl.normal_.dot (p.sub pl.point_) = 0

/-- The side of the plane a point lies on: positive on the side the normal points to, zero
on the plane. -/
def Plane.side (pl : Plane) (p : Vec3) : ℚ := pl.normal_.dot (p.sub pl.point_)

/-- The eight corners of a box. -/
def AABB.corners (b : AABB) : List Vec3 :=
  [⟨b.pointMin_.x, b.pointMin_.y, b.pointMin_.z⟩, ⟨b.pointMax_.x, b.pointMin_.y, b.pointMin_.z⟩,
   ⟨b.pointMin_.x, b.pointMax_.y, b.pointMin_.z⟩, ⟨b.pointMax_.x, b.pointMax_.y, b.pointMin_.z⟩,
   ⟨b.pointMin_.x, b.pointMin_.y, b.pointMax_.z⟩, ⟨b.pointMax_.x, b.pointMin_.y, b.pointMax_.z⟩,
   ⟨b.pointMin_.x, b.pointMax_.y, b.pointMax_.z⟩, ⟨b.pointMax_.x, b.pointMax_.y, b.pointMax_.z⟩]

/-- The unit vector of a coordinate axis. -/
def unitAxis (axis : Nat) : Vec3 :=
  ⟨if axis = 0 then 1 else 0, if axis = 1 then 1 else 0, if axis = 2 then 1 else 0⟩

/-- The square around `point` that extends `r` on either side of the point along each of
the two coordinate axes other than `axis`, and has no extent along `axis`. -/
def axisSquare (point : Vec3) (axis : Nat) (r : ℚ) : AABB :=
  ⟨point.sub ((Vec3.mk 1 1 1).sub (unitAxis axis) |>.scale r),
    point.add ((Vec3.mk 1 1 1).sub (unitAxis axis) |>.scale r)⟩

/-- The extent of a box along an axis. -/
def AABB.span (b : AABB) (axis : Nat) : ℚ := b.pointMax_.get axis - b.pointMin_.get axis

/-- The axis `getMaxAxis` returns for a range of build nodes. -/
def splitAxis : List BuildNode → Nat
  | [] => 0
  | first :: rest => BVH.getMaxAxis first rest

/-- The range of build nodes as a pass of the loop of `BVH<T>::build` leaves it: sorted by the
mid point along the axis of `getMaxAxis`. -/
def sortedRange (S : Sorter) (range : List BuildNode) : List BuildNode :=
  S.sort (fun node => node.midPoint_.get (splitAxis range)) range

/-! ## Notions used to state the properties of the hierarchy -/

/-- The number of leaves of a hierarchy. -/
def Tree.leaves : Tree → Nat
  | .leaf _ _ _ => 1
  | .inner _ l r => l.leaves + r.leaves

/-- The depth of a hierarchy: the largest number of steps from the root to a leaf. -/
def Tree.depth : Tree → Nat
  | .leaf _ _ _ => 0
  | .inner _ l r => 1 + max l.depth r.depth

/-- The number of leaf nodes of a node array. -/
def leafCount (boxes : List BVHNode) : Nat :=
  (boxes.filter (fun node => decide (0 < node.numPrimitives_))).length

/-- The node is a leaf whose range of primitives holds the position `j`. -/
def BVHNode.covers (node : BVHNode) (j : Nat) : Prop :=
  0 < node.numPrimitives_ ∧ node.indexOffset_ ≤ j ∧ j < node.indexOffset_ + node.numPrimitives_

/-- The states in which the loop of `BVH<T>::build`, started in `σ0`, enters its body. -/
inductive BuildReach (fl : ℚ → ℚ) (S : Sorter) (σ0 : BuildState) : BuildState → Prop where
  | start : BuildReach fl S σ0 σ0
  | pass (σ σ' : BuildState) : BuildReach fl S σ0 σ → BVH.buildBody fl S σ = some σ' →
      0 < σ'.stack.length → BuildReach fl S σ0 σ'

/-- The number of nodes that the ranges on the stack of the loop of `BVH<T>::build` can still
add below their own nodes: `2 * size - 2` for each range. -/
def pendingRoom (stack : List (Nat × Nat × Nat)) : Nat :=
  (stack.map (fun entry => 2 * (entry.2.2 - entry.2.1) - 2)).sum

/-- The number of passes the loop of `BVH<T>::build` can still make: `2 * size - 1`, the
largest number of nodes of a hierarchy over `size` build nodes, for the current range and
for each range on the stack. -/
def BuildState.passesLeft (σ : BuildState) : Nat :=
  (2 * (σ.endBoxIndex - σ.beginBoxIndex) - 1) +
    (σ.stack.map (fun entry => 2 * (entry.2.2 - entry.2.1) - 1)).sum

/-- The build of a hierarchy as a recursion of at most `fuel` levels, which is enough when
`fuel` is the length of the range: the range is sorted along the axis of `getMaxAxis`; a range
of at most `maxLeafSize` build nodes is a leaf, a longer one is split at the index of
`getSplitIndexSah` into the ranges of the two children. The range starts at the position `b`
of the vector of build nodes, so that its leaf covers `[b, b + range.length)`. -/
def buildTree (fl : ℚ → ℚ) (S : Sorter) : Nat → Nat → List BuildNode → Tree
  | 0, b, range => .leaf ((boxOf range).getD ⟨⟨0, 0, 0⟩, ⟨0, 0, 0⟩⟩) b (b + range.length)
  | fuel + 1, b, range =>
    let sorted := sortedRange S range
    let box := (boxOf sorted).getD ⟨⟨0, 0, 0⟩, ⟨0, 0, 0⟩⟩
    if range.length ≤ BVH.maxLeafSize then .leaf box b (b + range.length)
    else
      match BVH.getSplitIndexSah fl (sorted.map (fun node => node.box_)) with
      | none => .leaf box b (b + range.length)
      | some splitIndex =>
        .inner box (buildTree fl S fuel b (sorted.take splitIndex))
          (buildTree fl S fuel (b + splitIndex) (sorted.drop splitIndex))

/-- The hierarchy of the recursive build over the build nodes of a vector of primitives. -/
def hierarchyOf {T : Type} (fl : ℚ → ℚ) (S : Sorter) (Sh : Shape T) (primitives : List T) :
    Tree :=
  buildTree fl S primitives.length 0 (BVH.initialNodes Sh primitives)

/-- The primitives that the walk of `BVH<T>::intersect` over a hierarchy tests when no test
ends the walk, in the order in which it tests them. -/
def walkOrder {T : Type} (primitives_ : List T) (ray : Ray) : Tree → List T
  | .leaf box b e => if box.intersect ray = true then slice primitives_ b e else []
  | .inner box l r =>
    if box.intersect ray = true then
      (if l.box.intersect ray = true then walkOrder primitives_ ray l else []) ++
      (if r.box.intersect ray = true then walkOrder primitives_ ray r else [])
    else []

/-- The result of `intersect` of the first primitive of the list whose test lowers the
length of the hit `h`; the hit `h` itself when there is no such primitive. -/
def firstLowering {T : Type} (Sh : Shape T) (ray : Ray) (h : Intersection) (order : List T) :
    Intersection :=
  match order.find? (fun p => decide ((Sh.intersect p h ray).length_ < h.length_)) with
  | some p => Sh.intersect p h ray
  | none => h

/-! ## Sample data for boxes and planes -/

/-- The plane `3x - 4y = 2` with the unit normal `(3/5, -4/5, 0)`. -/
def slantPlane : Plane := ⟨⟨3 / 5, -4 / 5, 0⟩, ⟨2 / 3, 0, 0⟩, 4⟩

/-- The box from `(0, 0, 0)` to `(1, 1, 1)`. -/
def unitBox : AABB := ⟨⟨0, 0, 0⟩, ⟨1, 1, 1⟩⟩

/-- A value for `std::sqrt` that is right on the argument 1. -/
def sqrtOne (_ : ℚ) : ℚ := 1

/-- The position, in units of `1 / 8192`, of the plane `i` of the comb along the x axis:
0, 1, 3, 5, ... -/
def combStep (i : Nat) : Nat := 2 * i - 1

/-- The x coordinate of the point of the plane `i` of the comb. -/
def combX (i : Nat) : ℚ := (combStep i : ℚ) / 8192

/-- The y coordinate of the point of the plane `i` of the comb: 0 and 100 in turn. -/
def combY (i : Nat) : ℚ := if i % 2 = 0 then 0 else 100

/-- The comb: planes with the normal `(0, 1, 0)` through the points
`(combX i, combY i, 0)`. -/
def combPlane (i : Nat) : Plane := ⟨⟨0, 1, 0⟩, ⟨combX i, combY i, 0⟩, i⟩

/-- The first `n` planes of the comb. -/
def combPlanes (n : Nat) : List Plane := (List.range n).map combPlane

/-- Half the side of the box of a plane when `glm::normalize` is `normalizeRight`. -/
def combRadius : ℚ := 296582075 / 4194304

/-- The box of the plane `i` of the comb when the box of a plane extends `r` to either side
of its point. -/
def combBox (r : ℚ) (i : Nat) : AABB :=
  ⟨⟨combX i - r, combY i, -r⟩, ⟨combX i + r, combY i, r⟩⟩

/-- The union of the boxes of the planes `i, ..., j` of the comb, for `i < j`. -/
def combUnion (r : ℚ) (i j : Nat) : AABB := ⟨⟨combX i - r, 0, -r⟩, ⟨combX j + r, 100, r⟩⟩

/-- The build node of the plane `i` of the comb. -/
def combNode (r : ℚ) (i : Nat) : BuildNode := ⟨combBox r i, (combBox r i).getMidPoint, i⟩

/-- The build nodes of the planes `i, ..., i + n - 1` of the comb. -/
def combNodes (r : ℚ) (i n : Nat) : List BuildNode := (List.range' i n).map (combNode r)

/-- A primitive that is a single point, as a triangle whose three vertices are the same
point: its box is the point, and no ray meets it. -/
def pointShape : Shape Vec3 := ⟨fun p => ⟨p, p⟩, fun _ h _ => h⟩

/-! ## The texture cache, second overload (`OBJLoader.cpp`) -/

/-- `OBJLoader::getTextureFromCache` with the texture in binary format and its size.
`createTexture` is the overload of `Texture::createTexture` that takes the binary and the
size; the cache is as in the overload with a directory. -/
def OBJLoader.getTextureFromCacheBinary (createTexture : String → Int → Texture)
    (texturesCache : List (String × Texture)) (textureBinary : String) (size : Int)
    (texPath : String) : Texture × List (String × Texture) :=
  match texturesCache.lookup texPath with
  | none =>
    let texture := createTexture textureBinary size
    (texture, texturesCache ++ [(texPath, texture)])
  | some texture => (texture, texturesCache)

/-! ## The accelerator objects of the shader (`Shader.cpp`)

`Shader::initializeAccelerators` and the three getters work on the accelerator objects
themselves, of which `Shader::rayTrace` and `Shader::shadowTrace` use the queries only. The
types of the planes, spheres and triangles are the parameters `P`, `S` and `T`. -/

/-- An accelerator object (`Naive<T>`, `RegularGrid<T>` or `BVH<T>`) as the shader uses it:
the vector that `getPrimitives` returns and the two queries. -/
structure AcceleratorObject (T : Type) where
  getPrimitives : List T
  queries : Queries

/-- The members of `Scene` that the shader takes over; a light is its virtual `intersect`. -/
structure RenderScene (P S T : Type) where
  planes_ : List P
  spheres_ : List S
  triangles_ : List T
  lights_ : List (Intersection → Ray → Intersection)

/-- What `Shader::initializeAccelerators` calls: the constructors of the accelerator classes
from a vector of primitives (the grids also take the bounds of the scene and the number of
voxels per axis) and `Scene::getBounds`, which updates a minimum and a maximum. -/
structure AcceleratorClasses (P S T : Type) where
  naivePlanes : List P → AcceleratorObject P
  naiveSpheres : List S → AcceleratorObject S
  naiveTriangles : List T → AcceleratorObject T
  gridPlanes : AABB → Nat → List P → AcceleratorObject P
  gridSpheres : AABB → Nat → List S → AcceleratorObject S
  gridTriangles : AABB → Nat → List T → AcceleratorObject T
  bvhPlanes : List P → AcceleratorObject P
  bvhSpheres : List S → AcceleratorObject S
  bvhTriangles : List T → AcceleratorObject T
  boundsPlanes : List P → Vec3 × Vec3 → Vec3 × Vec3
  boundsSpheres : List S → Vec3 × Vec3 → Vec3 × Vec3
  boundsTriangles : List T → Vec3 × Vec3 → Vec3 × Vec3

/-- The members of `Shader` that `initializeAccelerators` and the getters read or write. -/
structure ShaderObjects (P S T : Type) where
  accelerator_ : Accelerator
  naivePlanes_ : AcceleratorObject P
  naiveSpheres_ : AcceleratorObject S
  naiveTriangles_ : AcceleratorObject T
  gridPlanes_ : AcceleratorObject P
  gridSpheres_ : AcceleratorObject S
  gridTriangles_ : AcceleratorObject T
  bvhPlanes_ : AcceleratorObject P
  bvhSpheres_ : AcceleratorObject S
  bvhTriangles_ : AcceleratorObject T
  lights_ : List (Intersection → Ray → Intersection)

/-- `Shader::initializeAccelerators`; `RayLengthMax` is the constant of `Utils`. -/
def ShaderObjects.initializeAccelerators {P S T : Type} (classes : AcceleratorClasses P S T)
    (RayLengthMax : ℚ) (this : ShaderObjects P S T) (scene : RenderScene P S T) :
    ShaderObjects P S T :=
  let this :=
    match this.accelerator_ with
    | .ACC_NONE => this
    | .ACC_NAIVE =>
      { this with naivePlanes_ := classes.naivePlanes scene.planes_,
                  naiveSpheres_ := classes.naiveSpheres scene.spheres_,
                  naiveTriangles_ := classes.naiveTriangles scene.triangles_ }
    | .ACC_REGULAR_GRID =>
      let minPlanes : Vec3 := ⟨RayLengthMax, RayLengthMax, RayLengthMax⟩
      let maxPlanes : Vec3 := ⟨-RayLengthMax, -RayLengthMax, -RayLengthMax⟩
      let minSpheres : Vec3 := ⟨RayLengthMax, RayLengthMax, RayLengthMax⟩
      let maxSpheres : Vec3 := ⟨-RayLengthMax, -RayLengthMax, -RayLengthMax⟩
      let minTriangles : Vec3 := ⟨RayLengthMax, RayLengthMax, RayLengthMax⟩
      let maxTriangles : Vec3 := ⟨-RayLengthMax, -RayLengthMax, -RayLengthMax⟩
      let planes := classes.boundsPlanes scene.planes_ (minPlanes, maxPlanes)
      let spheres := classes.boundsSpheres scene.spheres_ (minSpheres, maxSpheres)
      let triangles := classes.boundsTriangles scene.triangles_ (minTriangles, maxTriangles)
      let sceneBoundsPlanes : AABB := ⟨planes.1, planes.2⟩
      let sceneBoundsSpheres : AABB := ⟨spheres.1, spheres.2⟩
      let sceneBoundsTriangles : AABB := ⟨triangles.1, triangles.2⟩
      { this with gridPlanes_ := classes.gridPlanes sceneBoundsPlanes 32 scene.planes_,
                  gridSpheres_ := classes.gridSpheres sceneBoundsSpheres 32 scene.spheres_,
                  gridTriangles_ :=
                    classes.gridTriangles sceneBoundsTriangles 32 scene.triangles_ }
    | .ACC_BVH =>
      { this with bvhPlanes_ := classes.bvhPlanes scene.planes_,
                  bvhSpheres_ := classes.bvhSpheres scene.spheres_,
                  bvhTriangles_ := classes.bvhTriangles scene.triangles_ }
  { this with lights_ := scene.lights_ }

/-- Modelled from the spec: an accelerator object that no constructor call has filled is
vacant, it holds no primitives. `vacant` is the pair of queries of such an object. -/
def AcceleratorObject.vacant {T : Type} (vacant : Queries) : AcceleratorObject T := ⟨[], vacant⟩

/-- The members of a `Shader` when the body of its constructor starts: `accelerator_` is set,
the accelerator objects are vacant and there are no lights. -/
def ShaderObjects.initial {P S T : Type} (vacant : Queries) (accelerator : Accelerator) :
    ShaderObjects P S T :=
  { accelerator_ := accelerator,
    naivePlanes_ := AcceleratorObject.vacant vacant,
    naiveSpheres_ := AcceleratorObject.vacant vacant,
    naiveTriangles_ := AcceleratorObject.vacant vacant,
    gridPlanes_ := AcceleratorObject.vacant vacant,
    gridSpheres_ := AcceleratorObject.vacant vacant,
    gridTriangles_ := AcceleratorObject.vacant vacant,
    bvhPlanes_ := AcceleratorObject.vacant vacant,
    bvhSpheres_ := AcceleratorObject.vacant vacant,
    bvhTriangles_ := AcceleratorObject.vacant vacant,
    lights_ := [] }

/-- The constructor `Shader::Shader(scene, samplesLight, accelerator)`; the number of samples
and the filling of the table of random values are left out. -/
def ShaderObjects.construct {P S T : Type} (classes : AcceleratorClasses P S T)
    (RayLengthMax : ℚ) (vacant : Queries) (scene : RenderScene P S T)
    (accelerator : Accelerator) : ShaderObjects P S T :=
  ShaderObjects.initializeAccelerators classes RayLengthMax
    (ShaderObjects.initial vacant accelerator) scene

/-- `Shader::getPlanes`. -/
def ShaderObjects.getPlanes {P S T : Type} (this : ShaderObjects P S T) : List P :=
  match this.accelerator_ with
  | .ACC_NONE => this.naivePlanes_.getPrimitives
  | .ACC_NAIVE => this.naivePlanes_.getPrimitives
  | .ACC_REGULAR_GRID => this.gridPlanes_.getPrimitives
  | .ACC_BVH => this.bvhPlanes_.getPrimitives

/-- `Shader::getSpheres`. -/
def ShaderObjects.getSpheres {P S T : Type} (this : ShaderObjects P S T) : List S :=
  match this.accelerator_ with
  | .ACC_NONE => this.naiveSpheres_.getPrimitives
  | .ACC_NAIVE => this.naiveSpheres_.getPrimitives
  | .ACC_REGULAR_GRID => this.gridSpheres_.getPrimitives
  | .ACC_BVH => this.bvhSpheres_.getPrimitives

/-- `Shader::getTriangles`. -/
def ShaderObjects.getTriangles {P S T : Type} (this : ShaderObjects P S T) : List T :=
  match this.accelerator_ with
  | .ACC_NONE => this.naiveTriangles_.getPrimitives
  | .ACC_NAIVE => this.naiveTriangles_.getPrimitives
  | .ACC_REGULAR_GRID => this.gridTriangles_.getPrimitives
  | .ACC_BVH => this.bvhTriangles_.getPrimitives

/-- `Shader::getLights`. -/
def ShaderObjects.getLights {P S T : Type} (this : ShaderObjects P S T) :
    List (Intersection → Ray → Intersection) :=
  this.lights_

/-- The members of `Shader` that the queries use, with the hook `shade` of the subclass. -/
def ShaderObjects.toShader {P S T : Type} (this : ShaderObjects P S T)
    (shade : Vec3 → Intersection → Ray → Bool × Vec3) : Shader :=
  { accelerator_ := this.accelerator_,
    naivePlanes_ := this.naivePlanes_.queries,
    naiveSpheres_ := this.naiveSpheres_.queries,
    naiveTriangles_ := this.naiveTriangles_.queries,
    gridPlanes_ := this.gridPlanes_.queries,
    gridSpheres_ := this.gridSpheres_.queries,
    gridTriangles_ := this.gridTriangles_.queries,
    bvhPlanes_ := this.bvhPlanes_.queries,
    bvhSpheres_ := this.bvhSpheres_.queries,
    bvhTriangles_ := this.bvhTriangles_.queries,
    lights_ := this.lights_,
    shade := shade }

/-! ## Notions used to state the properties of planes and normals -/

/-- The vector with the sign of its `x` flipped: its mirror image in the plane `x = 0`. -/
def Vec3.mirrorX (v : Vec3) : Vec3 := ⟨-v.x, v.y, v.z⟩

/-- The vector of three lanes read from an attribute stream. -/
def ofLanes (v : ℚ × ℚ × ℚ) : Vec3 := ⟨v.1, v.2.1, v.2.2⟩

/-- The vector that `Plane::getRightVector` hands to `glm::normalize`: the value of `right`
before the last assignment. -/
def Plane.rightBeforeNormalize (pl : Plane) : Vec3 := pl.getRightVector (fun v => v)

/-- The closest-hit scan of a list of primitives in the order of the list. -/
def scanHits {T : Type} (Sh : Shape T) (ray : Ray) (h : Intersection) (order : List T) :
    Intersection :=
  order.foldl (fun h p => Sh.intersect p h ray) h

/-! ## Sample data of the shader -/

/-- A value for the function `1 / sqrt` in `glm::normalize` that is right on vectors of
length 1. -/
def inverseSqrtOne (_ : ℚ) : ℚ := 1

/-- A plane skew to the axes, with the unit normal `(3/5, 4/5, 0)`. -/
def skewPlane : Plane := ⟨⟨3 / 5, 4 / 5, 0⟩, ⟨0, 0, 0⟩, 5⟩

/-! ## The rounding to `float` -/

theorem pow2_eq_zpow (e : Int) : pow2 e = (2 : ℚ) ^ e := by
  unfold pow2
  split
  · rename_i h
    obtain ⟨n, rfl⟩ := Int.eq_ofNat_of_zero_le h
    simp
  · rename_i h
    obtain ⟨n, hn⟩ := Int.exists_eq_neg_ofNat (le_of_lt (not_le.mp h))
    subst hn
    simp

theorem pow2_pos (e : Int) : 0 < pow2 e := by
  rw [pow2_eq_zpow]
  positivity

theorem halvings_spec : ∀ (fuel n : Nat), 1 ≤ n → n ≤ fuel →
    2 ^ halvings fuel n ≤ n ∧ n < 2 ^ (halvings fuel n + 1) := by
  intro fuel
  induction fuel with
  | zero => intro n h1 h2; omega
  | succ fuel ih =>
    intro n h1 h2
    unfold halvings
    by_cases hn : n < 2
    · simp only [hn, if_true]
      have : n = 1 := by omega
      subst this
      norm_num
    · simp only [hn, if_false]
      obtain ⟨ha, hb⟩ := ih (n / 2) (by omega) (by omega)
      constructor
      · calc 2 ^ (halvings fuel (n / 2) + 1) = 2 ^ halvings fuel (n / 2) * 2 := by ring
          _ ≤ n / 2 * 2 := Nat.mul_le_mul_right 2 ha
          _ ≤ n := Nat.div_mul_le_self n 2
      · have h2 : n / 2 + 1 ≤ 2 ^ (halvings fuel (n / 2) + 1) := hb
        have h3 : n < (n / 2 + 1) * 2 := by omega
        calc n < (n / 2 + 1) * 2 := h3
          _ ≤ 2 ^ (halvings fuel (n / 2) + 1) * 2 := Nat.mul_le_mul_right 2 h2
          _ = 2 ^ (halvings fuel (n / 2) + 1 + 1) := by ring

/-- The exponent of a positive number is not above the number. -/
theorem pow2_floorLog2_le (x : ℚ) (hx : 0 < x) : pow2 (floorLog2 x) ≤ x := by
  unfold floorLog2
  simp only
  split
  · rename_i h
    rwa [abs_of_pos hx] at h
  · have hnum : 0 < x.num := Rat.num_pos.mpr hx
    have hn1 : 1 ≤ x.num.natAbs := by omega
    have hd1 : 1 ≤ x.den := x.den_pos
    obtain ⟨ha, _⟩ := halvings_spec x.num.natAbs x.num.natAbs hn1 (le_refl _)
    obtain ⟨_, hb⟩ := halvings_spec x.den x.den hd1 (le_refl _)
    generalize halvings x.num.natAbs x.num.natAbs = a at ha
    generalize halvings x.den x.den = b at hb
    rw [pow2_eq_zpow]
    have hnumq : ((2 : ℚ) ^ a) ≤ (x.num.natAbs : ℚ) := by exact_mod_cast ha
    have hdenq : (x.den : ℚ) < (2 : ℚ) ^ (b + 1) := by exact_mod_cast hb
    have hxe : x = (x.num.natAbs : ℚ) / (x.den : ℚ) := by
      have h1 : ((x.num.natAbs : Nat) : Int) = x.num := Int.natAbs_of_nonneg (le_of_lt hnum)
      have h2 : ((x.num.natAbs : Nat) : ℚ) = (x.num : ℚ) := by
        rw [← Int.cast_natCast, h1]
      rw [h2]
      exact (Rat.num_div_den x).symm
    have hdpos : (0 : ℚ) < (x.den : ℚ) := by exact_mod_cast hd1
    have hz : (2 : ℚ) ^ ((a : Int) - (b : Int) - 1) = (2 : ℚ) ^ a / (2 : ℚ) ^ (b + 1) := by
      rw [show (a : Int) - (b : Int) - 1 = (a : Int) - ((b + 1 : Nat) : Int) by push_cast; ring]
      rw [zpow_sub₀ (by norm_num : (2 : ℚ) ≠ 0)]
      simp only [zpow_natCast]
    rw [hz]
    rw [hxe]
    have hp : (0 : ℚ) < (2 : ℚ) ^ (b + 1) := by positivity
    rw [div_le_div_iff₀ hp hdpos]
    have h0 : (0 : ℚ) ≤ (2 : ℚ) ^ a := by positivity
    nlinarith

theorem roundHalfEven_bounds (m : ℚ) (hm : 0 ≤ m) :
    0 ≤ roundHalfEven m ∧ (roundHalfEven m : ℚ) ≤ m + 1 / 2 := by
  have hf0 : 0 ≤ ⌊m⌋ := Int.floor_nonneg.mpr hm
  have hfl : (⌊m⌋ : ℚ) ≤ m := Int.floor_le m
  unfold roundHalfEven
  simp only
  split
  · exact ⟨hf0, by linarith⟩
  · rename_i h1
    have h1 : 1 / 2 ≤ m - ⌊m⌋ := not_lt.mp h1
    split
    · exact ⟨by omega, by push_cast; linarith⟩
    · split
      · exact ⟨hf0, by linarith⟩
      · exact ⟨by omega, by push_cast; linarith⟩

/-- The rounding to binary32 of a number that is not negative is not negative and exceeds the
number by at most the fraction `2 ^ (-24)` of it and `2 ^ (-150)`. -/
theorem binary32_bound (x : ℚ) (hx : 0 ≤ x) :
    0 ≤ binary32 x ∧ binary32 x ≤ x * (1 + 1 / 2 ^ 24) + 1 / 2 ^ 150 := by
  rcases eq_or_lt_of_le hx with h0 | hpos
  · subst h0
    simp only [binary32, if_true]
    norm_num
  · have hne : x ≠ 0 := ne_of_gt hpos
    simp only [binary32, hne, if_false]
    have hq : 0 < pow2 (max (floorLog2 x) (-126) - 23) := pow2_pos _
    obtain ⟨hr0, hr1⟩ := roundHalfEven_bounds (x / pow2 (max (floorLog2 x) (-126) - 23))
      (le_of_lt (div_pos hpos hq))
    have hr0q : (0 : ℚ) ≤ (roundHalfEven (x / pow2 (max (floorLog2 x) (-126) - 23)) : ℚ) := by
      exact_mod_cast hr0
    refine ⟨mul_nonneg hr0q (le_of_lt hq), ?_⟩
    have hup : (roundHalfEven (x / pow2 (max (floorLog2 x) (-126) - 23)) : ℚ) *
        pow2 (max (floorLog2 x) (-126) - 23) ≤
        x + pow2 (max (floorLog2 x) (-126) - 23) / 2 := by
      have := mul_le_mul_of_nonneg_right hr1 (le_of_lt hq)
      rw [add_mul, div_mul_cancel₀ x (ne_of_gt hq)] at this
      linarith
    have hhalf : pow2 (max (floorLog2 x) (-126) - 23) / 2 ≤ x * (1 / 2 ^ 24) + 1 / 2 ^ 150 := by
      rcases le_total (floorLog2 x) (-126) with hle | hge
      · rw [max_eq_right hle]
        have : pow2 (-126 - 23) / 2 = 1 / 2 ^ 150 := by
          rw [pow2_eq_zpow, show ((-126 : Int) - 23) = -((149 : Nat) : Int) by norm_num,
            zpow_neg, zpow_natCast]
          norm_num
        rw [this]
        have : 0 ≤ x * (1 / 2 ^ 24) := by positivity
        linarith
      · rw [max_eq_left hge]
        have hlow := pow2_floorLog2_le x hpos
        rw [pow2_eq_zpow] at hlow ⊢
        have : (2 : ℚ) ^ (floorLog2 x - 23) = (2 : ℚ) ^ (floorLog2 x) / 2 ^ 23 := by
          rw [zpow_sub₀ (by norm_num : (2 : ℚ) ≠ 0)]
          norm_num
        rw [this]
        have h150 : (0 : ℚ) ≤ 1 / 2 ^ 150 := by positivity
        have : (2 : ℚ) ^ (floorLog2 x) / 2 ^ 23 / 2 ≤ x * (1 / 2 ^ 24) := by
          have h24 : (2 : ℚ) ^ (floorLog2 x) / 2 ^ 23 / 2 = (2 : ℚ) ^ (floorLog2 x) * (1 / 2 ^ 24) := by
            rw [div_div, mul_one_div]
            norm_num
          rw [h24]
          exact mul_le_mul_of_nonneg_right hlow (by positivity)
        linarith
    calc (roundHalfEven (x / pow2 (max (floorLog2 x) (-126) - 23)) : ℚ) *
          pow2 (max (floorLog2 x) (-126) - 23)
        ≤ x + pow2 (max (floorLog2 x) (-126) - 23) / 2 := hup
      _ ≤ x + (x * (1 / 2 ^ 24) + 1 / 2 ^ 150) := by linarith
      _ = x * (1 + 1 / 2 ^ 24) + 1 / 2 ^ 150 := by ring

theorem binary32_zero : binary32 0 = 0 := rfl

/-! ## Boxes -/

theorem surroundingBox_comm (a b : AABB) : surroundingBox a b = surroundingBox b a := by
  simp [surroundingBox, Vec3.min, Vec3.max, min_comm, max_comm]

theorem surroundingBox_assoc (a b c : AABB) :
    surroundingBox (surroundingBox a b) c = surroundingBox a (surroundingBox b c) := by
  simp [surroundingBox, Vec3.min, Vec3.max, min_assoc, max_assoc]

theorem surroundingBox_left_comm (a b c : AABB) :
    surroundingBox a (surroundingBox b c) = surroundingBox b (surroundingBox a c) := by
  rw [← surroundingBox_assoc, surroundingBox_comm a b, surroundingBox_assoc]

theorem contains_refl (a : AABB) : a.contains a := by
  simp [AABB.contains]

theorem contains_trans {a b c : AABB} (h1 : a.contains b) (h2 : b.contains c) :
    a.contains c := by
  obtain ⟨h11, h12, h13, h14, h15, h16⟩ := h1
  obtain ⟨h21, h22, h23, h24, h25, h26⟩ := h2
  exact ⟨le_trans h11 h21, le_trans h12 h22, le_trans h13 h23, le_trans h24 h14,
    le_trans h25 h15, le_trans h26 h16⟩

theorem contains_surroundingBox_left (a b : AABB) : (surroundingBox a b).contains a := by
  simp [surroundingBox, AABB.contains, Vec3.min, Vec3.max]

theorem contains_surroundingBox_right (a b : AABB) : (surroundingBox a b).contains b := by
  simp [surroundingBox, AABB.contains, Vec3.min, Vec3.max]

theorem slice_length {α : Type} (l : List α) (b e : Nat) (he : e ≤ l.length) :
    (slice l b e).length = e - b := by
  simp [slice]; omega

theorem slice_get? {α : Type} (l : List α) (b e j : Nat) :
    (slice l b e).get? j = if j < e - b then l.get? (b + j) else none := by
  simp only [slice, List.get?_eq_getElem?, List.getElem?_take, List.getElem?_drop]

theorem slice_append {α : Type} (l : List α) (b k e : Nat) (h1 : b ≤ k) (h2 : k ≤ e) :
    slice l b e = slice l b k ++ slice l k e := by
  unfold slice
  have h3 : e - b = (k - b) + (e - k) := by omega
  rw [h3, List.take_add, List.drop_drop]
  congr 3
  omega

theorem slice_congr {α : Type} (l l' : List α) (b e : Nat)
    (h : ∀ i, b ≤ i → i < e → l'.get? i = l.get? i) : slice l' b e = slice l b e := by
  apply List.ext_get?
  intro j
  rw [slice_get?, slice_get?]
  split
  · exact h _ (by omega) (by omega)
  · rfl

theorem slice_eq_nil {α : Type} (l : List α) (b : Nat) : slice l b b = [] := by
  simp [slice]

theorem slice_full {α : Type} (l : List α) : slice l 0 l.length = l := by
  simp [slice]

theorem Rearr.refl {α : Type} (b e : Nat) (l : List α) : Rearr b e l l :=
  ⟨rfl, fun _ _ => rfl, List.Perm.refl _⟩

theorem Rearr.widen {α : Type} {b e b' e' : Nat} {l l' : List α} (h : Rearr b' e' l l')
    (hb : b ≤ b') (hbe : b' ≤ e') (he : e' ≤ e) : Rearr b e l l' := by
  obtain ⟨h1, h2, h3⟩ := h
  refine ⟨h1, fun i hi => h2 i (by omega), ?_⟩
  rw [slice_append l' b b' e hb (by omega), slice_append l' b' e' e hbe he,
    slice_append l b b' e hb (by omega), slice_append l b' e' e hbe he]
  rw [slice_congr l l' b b' (fun i _ hi => h2 i (by omega)),
    slice_congr l l' e' e (fun i hi _ => h2 i (by omega))]
  exact List.Perm.append_left _ (List.Perm.append_right _ h3)

theorem Rearr.trans {α : Type} {b e : Nat} {l l' l'' : List α} (h : Rearr b e l l')
    (h' : Rearr b e l' l'') : Rearr b e l l'' := by
  obtain ⟨h1, h2, h3⟩ := h
  obtain ⟨h1', h2', h3'⟩ := h'
  exact ⟨h1'.trans h1, fun i hi => (h2' i hi).trans (h2 i hi), h3'.trans h3⟩

theorem Rearr.perm {α : Type} {b e : Nat} {l l' : List α} (h : Rearr b e l l') (hbe : b ≤ e)
    (he : e ≤ l.length) : List.Perm l' l := by
  have hw := h.widen (Nat.zero_le b) hbe he
  obtain ⟨h1, _, h3⟩ := hw
  have := slice_full l
  have h' := slice_full l'
  rw [h1] at h'
  rw [h'] at h3
  rw [this] at h3
  exact h3

/-- The effect of `std::sort` on the range `[b, e)` of a vector. -/
theorem rearr_of_sorted {α : Type} (l sorted : List α) (b e : Nat) (hbe : b ≤ e)
    (he : e ≤ l.length) (hp : List.Perm sorted (slice l b e)) :
    Rearr b e l (l.take b ++ sorted ++ l.drop e) ∧
      slice (l.take b ++ sorted ++ l.drop e) b e = sorted := by
  have hlen : sorted.length = e - b := by rw [hp.length_eq, slice_length l b e he]
  have hs : slice (l.take b ++ sorted ++ l.drop e) b e = sorted := by
    unfold slice
    rw [List.append_assoc, List.drop_append_of_le_length (by simp; omega)]
    have : List.drop b (List.take b l) = [] := by simp
    rw [this, List.nil_append, List.take_append_of_le_length (by omega)]
    rw [← hlen, List.take_length]
  refine ⟨⟨?_, ?_, ?_⟩, hs⟩
  · simp; omega
  · intro i hi
    rcases hi with hi | hi
    · rw [List.append_assoc, List.get?_eq_getElem?, List.get?_eq_getElem?,
        List.getElem?_append_left (by simp; omega), List.getElem?_take]
      simp [hi]
    · rw [List.get?_eq_getElem?, List.get?_eq_getElem?,
        List.getElem?_append_right (by simp; omega), List.getElem?_drop]
      congr 1
      simp
      omega
  · rw [hs]; exact hp

/-! ## The union of the boxes of a range -/

theorem addBox_right_comm (acc : Option AABB) (n1 n2 : BuildNode) :
    addBox (addBox acc n1) n2 = addBox (addBox acc n2) n1 := by
  cases acc with
  | none => simp [addBox, surroundingBox_comm]
  | some a => simp [addBox, surroundingBox_left_comm]

theorem boxOf_perm {l1 l2 : List BuildNode} (h : List.Perm l1 l2) : boxOf l1 = boxOf l2 :=
  h.foldl_eq' (fun x _ y _ z => addBox_right_comm z x y) none

theorem foldl_addBox_some (l : List BuildNode) (a : AABB) :
    l.foldl addBox (some a) =
      some (l.foldl (fun acc node => surroundingBox node.box_ acc) a) := by
  induction l generalizing a with
  | nil => rfl
  | cons n ns ih => simp only [List.foldl_cons, addBox, ih]

theorem boxOf_cons (n : BuildNode) (ns : List BuildNode) :
    boxOf (n :: ns) = some (ns.foldl (fun acc node => surroundingBox node.box_ acc) n.box_) := by
  simp only [boxOf, List.foldl_cons, addBox, foldl_addBox_some]

theorem boxOf_snoc (l : List BuildNode) (n : BuildNode) :
    boxOf (l ++ [n]) = addBox (boxOf l) n := by
  simp [boxOf, List.foldl_append]

theorem foldl_addBox_eq (l : List BuildNode) (a : AABB) :
    l.foldl addBox (some a) =
      some (match boxOf l with
        | none => a
        | some b => surroundingBox a b) := by
  induction l using List.reverseRecOn with
  | nil => rfl
  | append_singleton l n ih =>
    rw [List.foldl_append, ih, boxOf_snoc]
    cases boxOf l with
    | none => simp [addBox, surroundingBox_comm]
    | some b => simp [addBox, surroundingBox_left_comm]

theorem boxOf_append {l1 l2 : List BuildNode} {a b : AABB} (h1 : boxOf l1 = some a)
    (h2 : boxOf l2 = some b) : boxOf (l1 ++ l2) = some (surroundingBox a b) := by
  have : boxOf (l1 ++ l2) = l2.foldl addBox (boxOf l1) := by simp [boxOf, List.foldl_append]
  rw [this, h1, foldl_addBox_eq, h2]

theorem boxOf_isSome {l : List BuildNode} (h : l ≠ []) : ∃ box, boxOf l = some box := by
  cases l with
  | nil => exact absurd rfl h
  | cons n ns => exact ⟨_, boxOf_cons n ns⟩

theorem boxOf_contains {l : List BuildNode} {box : AABB} (h : boxOf l = some box) :
    ∀ n ∈ l, box.contains n.box_ := by
  induction l using List.reverseRecOn generalizing box with
  | nil => intro n hn; simp at hn
  | append_singleton l n ih =>
    rw [boxOf_snoc] at h
    intro n' hn'
    cases hl : boxOf l with
    | none =>
      rw [hl] at h
      simp only [addBox, Option.some.injEq] at h
      have : l = [] := by
        by_contra hne
        obtain ⟨b, hb⟩ := boxOf_isSome hne
        rw [hb] at hl
        exact Option.noConfusion hl
      subst this
      simp at hn'
      subst hn'
      rw [← h]
      exact contains_refl _
    | some b =>
      rw [hl] at h
      simp only [addBox, Option.some.injEq] at h
      rw [← h]
      rcases List.mem_append.mp hn' with hm | hm
      · exact contains_trans (contains_surroundingBox_right _ _) (ih hl n' hm)
      · simp at hm
        subst hm
        exact contains_surroundingBox_left _ _

/-! ## The split index -/

theorem foldl_surroundingBox_perm {l1 l2 : List AABB} (h : List.Perm l1 l2) (a : AABB) :
    l1.foldl surroundingBox a = l2.foldl surroundingBox a :=
  h.foldl_eq' (fun x _ y _ z => by
    rw [surroundingBox_assoc, surroundingBox_comm x y, ← surroundingBox_assoc]) a

theorem foldl_surroundingBox_shift (l : List AABB) (a c : AABB) :
    l.foldl surroundingBox (surroundingBox a c) = surroundingBox (l.foldl surroundingBox a) c := by
  induction l generalizing a with
  | nil => rfl
  | cons y ys ih =>
    simp only [List.foldl_cons]
    rw [← ih]
    congr 1
    rw [surroundingBox_assoc, surroundingBox_comm c y, ← surroundingBox_assoc]

theorem unionBoxes_snoc_reverse (l : List AABB) (last : AABB) :
    unionBoxes (l ++ [last]) = some (l.reverse.foldl surroundingBox last) := by
  rw [foldl_surroundingBox_perm (List.reverse_perm l)]
  cases l with
  | nil => rfl
  | cons x xs =>
    simp only [List.cons_append, unionBoxes, List.foldl_append, List.foldl_cons, List.foldl_nil,
      Option.some.injEq]
    rw [surroundingBox_comm last x, foldl_surroundingBox_shift]

theorem areaScan_length (fl : ℚ → ℚ) (a : AABB) (l : List AABB) :
    (BVH.areaScan fl a l).length = l.length + 1 := by
  induction l generalizing a with
  | nil => rfl
  | cons b bs ih => simp [BVH.areaScan, ih]

theorem areaScan_getD (fl : ℚ → ℚ) (a : AABB) (l : List AABB) (i : Nat) (hi : i ≤ l.length) :
    (BVH.areaScan fl a l).getD i 0 = fl ((l.take i).foldl surroundingBox a).getSurfaceArea := by
  induction l generalizing a i with
  | nil =>
    simp at hi
    subst hi
    rfl
  | cons b bs ih =>
    cases i with
    | zero => rfl
    | succ i =>
      simp only [BVH.areaScan, List.getD_cons_succ, List.take_succ_cons, List.foldl_cons]
      exact ih _ i (by simpa using hi)

/-- The last loop of `getSplitIndexSah` keeps the first split whose computed cost is the
least: `cost i` is the cost the program computes for the split after index `i`. -/
theorem sahLoop_spec (fl : ℚ → ℚ) (n : Nat) (L R : List ℚ) (cost : Nat → ℚ)
    (hcost : ∀ i, 1 ≤ i → cost i =
      fl (fl (fl ((i + 1 : Nat) : ℚ) * L.getD i 0) + fl (fl ((n - (i + 1) : Nat) : ℚ) * R.getD i 0))) :
    ∀ (len a s : Nat) (v : ℚ), 1 ≤ s → s ≤ a → v = cost (s - 1) →
      (∀ k, 1 ≤ k → k ≤ a → v ≤ cost (k - 1) ∧ (cost (k - 1) = v → s ≤ k)) →
      1 ≤ (BVH.sahLoop fl n L R (List.range' a len) (s, v)).1 ∧
      (BVH.sahLoop fl n L R (List.range' a len) (s, v)).1 ≤ a + len ∧
      (BVH.sahLoop fl n L R (List.range' a len) (s, v)).2 =
        cost ((BVH.sahLoop fl n L R (List.range' a len) (s, v)).1 - 1) ∧
      ∀ k, 1 ≤ k → k ≤ a + len →
        (BVH.sahLoop fl n L R (List.range' a len) (s, v)).2 ≤ cost (k - 1) ∧
        (cost (k - 1) = (BVH.sahLoop fl n L R (List.range' a len) (s, v)).2 →
          (BVH.sahLoop fl n L R (List.range' a len) (s, v)).1 ≤ k) := by
  intro len
  induction len with
  | zero =>
    intro a s v h1 h2 h3 h4
    simpa [BVH.sahLoop] using ⟨h1, h2, h3, h4⟩
  | succ len ih =>
    intro a s v h1 h2 h3 h4
    rw [List.range'_succ]
    simp only [BVH.sahLoop]
    have hc : fl (fl (fl ((a + 1 : Nat) : ℚ) * L.getD a 0) +
        fl (fl ((n - (a + 1) : Nat) : ℚ) * R.getD a 0)) = cost a :=
      (hcost a (by omega)).symm
    rw [hc]
    have hal : a + (len + 1) = (a + 1) + len := by omega
    rw [hal]
    split
    · rename_i hlt
      apply ih (a + 1) (a + 1) (cost a) (by omega) (le_refl _) (by simp)
      intro k hk1 hk2
      rcases Nat.lt_or_ge k (a + 1) with hk | hk
      · have := h4 k hk1 (by omega)
        refine ⟨le_of_lt (lt_of_lt_of_le hlt this.1), fun he => ?_⟩
        have := this.1
        rw [he] at this
        exact absurd hlt (not_lt.mpr this)
      · have : k = a + 1 := by omega
        subst this
        simp
    · rename_i hge
      apply ih (a + 1) s v h1 (by omega) h3
      intro k hk1 hk2
      rcases Nat.lt_or_ge k (a + 1) with hk | hk
      · exact h4 k hk1 (by omega)
      · have : k = a + 1 := by omega
        subst this
        simp only [Nat.add_sub_cancel]
        refine ⟨not_lt.mp hge, fun _ => by omega⟩

theorem getSplitIndexSah_eq (fl : ℚ → ℚ) (first last : AABB) (middle : List AABB) :
    BVH.getSplitIndexSah fl (first :: (middle ++ [last])) =
      some (BVH.sahLoop fl (middle.length + 2) (BVH.areaScan fl first middle)
        (BVH.areaScan fl last middle.reverse).reverse (List.range' 1 middle.length)
        (1, fl ((BVH.areaScan fl first middle).getD 0 0 +
          fl (fl ((middle.length + 1 : Nat) : ℚ) *
            (BVH.areaScan fl last middle.reverse).reverse.getD 0 0)))).1 := by
  have hmid : List.take ((first :: (middle ++ [last])).length - 1 - 1) (middle ++ [last])
      = middle := by
    simp
  simp only [BVH.getSplitIndexSah, List.getLast?_concat, hmid]
  simp

/-- The two areas of the split before position `i + 1`, as the scans store them. -/
theorem areaScan_union (fl : ℚ → ℚ) (first last : AABB) (middle : List AABB) (i : Nat)
    (hi : i ≤ middle.length) :
    (BVH.areaScan fl first middle).getD i 0 =
      fl ((unionBoxes ((first :: (middle ++ [last])).take (i + 1))).getD
        (AABB.mk ⟨0, 0, 0⟩ ⟨0, 0, 0⟩)).getSurfaceArea ∧
    (BVH.areaScan fl last middle.reverse).reverse.getD i 0 =
      fl ((unionBoxes ((first :: (middle ++ [last])).drop (i + 1))).getD
        (AABB.mk ⟨0, 0, 0⟩ ⟨0, 0, 0⟩)).getSurfaceArea := by
  constructor
  · rw [areaScan_getD fl first middle i hi]
    simp only [List.take_succ_cons, unionBoxes, Option.getD_some]
    rw [List.take_append_of_le_length hi]
  · have hlen : (BVH.areaScan fl last middle.reverse).length = middle.length + 1 := by
      rw [areaScan_length]; simp
    rw [List.getD_eq_getElem?_getD, List.getElem?_reverse (by rw [hlen]; omega),
      ← List.getD_eq_getElem?_getD, hlen,
      areaScan_getD fl last middle.reverse _ (by simp)]
    simp only [List.drop_succ_cons]
    rw [List.drop_append_of_le_length hi, unionBoxes_snoc_reverse]
    simp only [Option.getD_some]
    congr 3
    rw [List.take_reverse]
    congr 2
    omega

theorem sahCostFloat_eq (fl : ℚ → ℚ) (first last : AABB) (middle : List AABB) (i : Nat)
    (hi : i ≤ middle.length) :
    sahCostFloat fl (first :: (middle ++ [last])) (i + 1) =
      if i + 1 = 1 then
        fl ((BVH.areaScan fl first middle).getD i 0 +
          fl (fl ((middle.length + 2 - (i + 1) : Nat) : ℚ) *
            (BVH.areaScan fl last middle.reverse).reverse.getD i 0))
      else
        fl (fl (fl ((i + 1 : Nat) : ℚ) * (BVH.areaScan fl first middle).getD i 0) +
          fl (fl ((middle.length + 2 - (i + 1) : Nat) : ℚ) *
            (BVH.areaScan fl last middle.reverse).reverse.getD i 0)) := by
  obtain ⟨hl, hr⟩ := areaScan_union fl first last middle i hi
  have hlen : (first :: (middle ++ [last])).length = middle.length + 2 := by simp
  unfold sahCostFloat
  simp only
  rw [hl, hr, hlen]

/-- In arithmetic without rounding the computed cost is the cost. -/
theorem sahCostFloat_unrounded (boxes : List AABB) (k : Nat) :
    sahCostFloat unrounded boxes k = sahCost boxes k := by
  unfold sahCostFloat sahCost
  simp only [unrounded]
  split
  · rename_i h; subst h; simp
  · rfl

/-- The index `getSplitIndexSah` returns lies in `[1, n)` and is the first at which the
computed cost is the least. -/
theorem getSplitIndexSah_spec (fl : ℚ → ℚ) (boxes : List AABB) (hn : 2 ≤ boxes.length) :
    ∃ k, BVH.getSplitIndexSah fl boxes = some k ∧ 1 ≤ k ∧ k < boxes.length ∧
      ∀ j, 1 ≤ j → j < boxes.length →
        sahCostFloat fl boxes k ≤ sahCostFloat fl boxes j ∧
        (sahCostFloat fl boxes j = sahCostFloat fl boxes k → k ≤ j) := by
  cases boxes with
  | nil => simp at hn
  | cons first tail =>
    have htl : tail ≠ [] := by
      intro h; subst h; simp at hn
    obtain ⟨middle, last, rfl⟩ : ∃ middle last, tail = middle ++ [last] :=
      ⟨tail.dropLast, tail.getLast htl, (List.dropLast_append_getLast htl).symm⟩
    have hlen : (first :: (middle ++ [last])).length = middle.length + 2 := by simp
    rw [getSplitIndexSah_eq, hlen]
    have hcost : ∀ i, i ≤ middle.length →
        sahCostFloat fl (first :: (middle ++ [last])) (i + 1) =
        if i + 1 = 1 then
          fl ((BVH.areaScan fl first middle).getD i 0 +
            fl (fl ((middle.length + 2 - (i + 1) : Nat) : ℚ) *
              (BVH.areaScan fl last middle.reverse).reverse.getD i 0))
        else
          fl (fl (fl ((i + 1 : Nat) : ℚ) * (BVH.areaScan fl first middle).getD i 0) +
            fl (fl ((middle.length + 2 - (i + 1) : Nat) : ℚ) *
              (BVH.areaScan fl last middle.reverse).reverse.getD i 0)) :=
      fun i hi => sahCostFloat_eq fl first last middle i hi
    have key := sahLoop_spec fl (middle.length + 2) (BVH.areaScan fl first middle)
      (BVH.areaScan fl last middle.reverse).reverse
      (fun i => if i = 0 then
          fl ((BVH.areaScan fl first middle).getD 0 0 +
            fl (fl ((middle.length + 1 : Nat) : ℚ) *
              (BVH.areaScan fl last middle.reverse).reverse.getD 0 0))
        else
          fl (fl (fl ((i + 1 : Nat) : ℚ) * (BVH.areaScan fl first middle).getD i 0) +
            fl (fl ((middle.length + 2 - (i + 1) : Nat) : ℚ) *
              (BVH.areaScan fl last middle.reverse).reverse.getD i 0)))
      (fun i hi => by
        have h0 : i ≠ 0 := by omega
        simp only [h0, if_false])
      middle.length 1 1
      (fl ((BVH.areaScan fl first middle).getD 0 0 +
        fl (fl ((middle.length + 1 : Nat) : ℚ) *
          (BVH.areaScan fl last middle.reverse).reverse.getD 0 0)))
      (le_refl _) (le_refl _) (by simp)
      (by
        intro k hk1 hk2
        have : k = 1 := by omega
        subst this
        simp)
    have hsame : ∀ i, i ≤ middle.length →
        (if i = 0 then
          fl ((BVH.areaScan fl first middle).getD 0 0 +
            fl (fl ((middle.length + 1 : Nat) : ℚ) *
              (BVH.areaScan fl last middle.reverse).reverse.getD 0 0))
        else
          fl (fl (fl ((i + 1 : Nat) : ℚ) * (BVH.areaScan fl first middle).getD i 0) +
            fl (fl ((middle.length + 2 - (i + 1) : Nat) : ℚ) *
              (BVH.areaScan fl last middle.reverse).reverse.getD i 0))) =
        sahCostFloat fl (first :: (middle ++ [last])) (i + 1) := by
      intro i hi
      rw [hcost i hi]
      by_cases h0 : i = 0
      · subst h0; simp
      · have h1 : ¬ i + 1 = 1 := by omega
        simp only [h0, h1, if_false]
    obtain ⟨res, hres⟩ : ∃ res, BVH.sahLoop fl (middle.length + 2)
        (BVH.areaScan fl first middle)
        (BVH.areaScan fl last middle.reverse).reverse (List.range' 1 middle.length)
        (1, fl ((BVH.areaScan fl first middle).getD 0 0 +
          fl (fl ((middle.length + 1 : Nat) : ℚ) *
            (BVH.areaScan fl last middle.reverse).reverse.getD 0 0)))
        = res := ⟨_, rfl⟩
    rw [hres] at key ⊢
    obtain ⟨k1, k2, k3, k4⟩ := key
    refine ⟨res.1, rfl, k1, by omega, ?_⟩
    intro j hj1 hj2
    have hj := k4 j hj1 (by omega)
    rw [k3] at hj
    beta_reduce at hj
    rw [hsame (j - 1) (by omega), hsame (res.1 - 1) (by omega),
      Nat.sub_add_cancel hj1, Nat.sub_add_cancel k1] at hj
    exact hj

/-- In arithmetic without rounding the index `getSplitIndexSah` returns is the first at
which the cost is the least. -/
theorem getSplitIndexSah_spec_unrounded (boxes : List AABB) (hn : 2 ≤ boxes.length) :
    ∃ k, BVH.getSplitIndexSah unrounded boxes = some k ∧ 1 ≤ k ∧ k < boxes.length ∧
      ∀ j, 1 ≤ j → j < boxes.length →
        sahCost boxes k ≤ sahCost boxes j ∧ (sahCost boxes j = sahCost boxes k → k ≤ j) := by
  obtain ⟨k, hk, hk1, hk2, hmin⟩ := getSplitIndexSah_spec unrounded boxes hn
  refine ⟨k, hk, hk1, hk2, fun j hj1 hj2 => ?_⟩
  have := hmin j hj1 hj2
  rw [sahCostFloat_unrounded, sahCostFloat_unrounded] at this
  exact this

/-! ## One pass of the build loop -/

theorem buildBody_leaf (fl : ℚ → ℚ) (S : Sorter) (σ : BuildState) (top : Nat × Nat × Nat)
    (rest : List (Nat × Nat × Nat))
    (hb : σ.beginBoxIndex < σ.endBoxIndex) (he : σ.endBoxIndex ≤ σ.buildNodes.length)
    (hc : σ.currentBoxIndex < σ.boxes_.length)
    (hsz : σ.endBoxIndex - σ.beginBoxIndex ≤ 2) (hst : σ.stack = top :: rest) :
    ∃ sorted box, List.Perm sorted (slice σ.buildNodes σ.beginBoxIndex σ.endBoxIndex) ∧
      boxOf sorted = some box ∧
      BVH.buildBody fl S σ = some
        { boxes_ := σ.boxes_.set σ.currentBoxIndex
            ⟨box, σ.beginBoxIndex, σ.endBoxIndex - σ.beginBoxIndex⟩,
          buildNodes := σ.buildNodes.take σ.beginBoxIndex ++ sorted ++
            σ.buildNodes.drop σ.endBoxIndex,
          currentBoxIndex := top.1,
          beginBoxIndex := top.2.1,
          endBoxIndex := top.2.2,
          maxNodeIndex := σ.maxNodeIndex,
          stack := rest } := by
  have hlen := slice_length σ.buildNodes σ.beginBoxIndex σ.endBoxIndex he
  unfold slice at hlen
  obtain ⟨first, others0, hsl⟩ : ∃ first others0,
      List.take (σ.endBoxIndex - σ.beginBoxIndex) (List.drop σ.beginBoxIndex σ.buildNodes)
        = first :: others0 := by
    cases h : List.take (σ.endBoxIndex - σ.beginBoxIndex)
        (List.drop σ.beginBoxIndex σ.buildNodes) with
    | nil => rw [h] at hlen; simp at hlen; omega
    | cons a l => exact ⟨a, l, rfl⟩
  have hperm := S.perm (fun node => node.midPoint_.get (BVH.getMaxAxis first others0))
    (first :: others0)
  obtain ⟨itBegin, others, hso⟩ : ∃ itBegin others,
      S.sort (fun node => node.midPoint_.get (BVH.getMaxAxis first others0)) (first :: others0)
        = itBegin :: others := by
    cases h : S.sort (fun node => node.midPoint_.get (BVH.getMaxAxis first others0))
        (first :: others0) with
    | nil => rw [h] at hperm; simp at hperm
    | cons a l => exact ⟨a, l, rfl⟩
  refine ⟨itBegin :: others, _, ?_, boxOf_cons itBegin others, ?_⟩
  · rw [← hso]; unfold slice; rw [hsl]; exact hperm
  · unfold BVH.buildBody
    simp only [hb, he, hc, and_self, not_true_eq_false, if_false, hsl, hso, hsz, BVH.maxLeafSize,
      if_true, hst]

theorem buildBody_inner (fl : ℚ → ℚ) (S : Sorter) (σ : BuildState)
    (hb : σ.beginBoxIndex < σ.endBoxIndex) (he : σ.endBoxIndex ≤ σ.buildNodes.length)
    (hc : σ.currentBoxIndex < σ.boxes_.length)
    (hsz : 2 < σ.endBoxIndex - σ.beginBoxIndex) :
    (512 ≤ σ.stack.length → BVH.buildBody fl S σ = none) ∧
    (σ.stack.length < 512 →
      ∃ sorted box k, List.Perm sorted (slice σ.buildNodes σ.beginBoxIndex σ.endBoxIndex) ∧
        boxOf sorted = some box ∧ 1 ≤ k ∧ k < σ.endBoxIndex - σ.beginBoxIndex ∧
        BVH.buildBody fl S σ = some
          { boxes_ := σ.boxes_.set σ.currentBoxIndex
              ⟨box, σ.maxNodeIndex + 1,
                (σ.boxes_.getD σ.currentBoxIndex BVHNode.default).numPrimitives_⟩,
            buildNodes := σ.buildNodes.take σ.beginBoxIndex ++ sorted ++
              σ.buildNodes.drop σ.endBoxIndex,
            currentBoxIndex := σ.maxNodeIndex + 1,
            beginBoxIndex := σ.beginBoxIndex,
            endBoxIndex := σ.beginBoxIndex + k,
            maxNodeIndex := σ.maxNodeIndex + 2,
            stack := (σ.maxNodeIndex + 2, σ.beginBoxIndex + k, σ.endBoxIndex) :: σ.stack }) := by
  have hlen := slice_length σ.buildNodes σ.beginBoxIndex σ.endBoxIndex he
  unfold slice at hlen
  obtain ⟨first, others0, hsl⟩ : ∃ first others0,
      List.take (σ.endBoxIndex - σ.beginBoxIndex) (List.drop σ.beginBoxIndex σ.buildNodes)
        = first :: others0 := by
    cases h : List.take (σ.endBoxIndex - σ.beginBoxIndex)
        (List.drop σ.beginBoxIndex σ.buildNodes) with
    | nil => rw [h] at hlen; simp at hlen; omega
    | cons a l => exact ⟨a, l, rfl⟩
  have hperm := S.perm (fun node => node.midPoint_.get (BVH.getMaxAxis first others0))
    (first :: others0)
  obtain ⟨itBegin, others, hso⟩ : ∃ itBegin others,
      S.sort (fun node => node.midPoint_.get (BVH.getMaxAxis first others0)) (first :: others0)
        = itBegin :: others := by
    cases h : S.sort (fun node => node.midPoint_.get (BVH.getMaxAxis first others0))
        (first :: others0) with
    | nil => rw [h] at hperm; simp at hperm
    | cons a l => exact ⟨a, l, rfl⟩
  have hlen2 : (itBegin.box_ :: others.map (fun node => node.box_)).length =
      σ.endBoxIndex - σ.beginBoxIndex := by
    rw [← hlen, hsl, ← hperm.length_eq, hso]; simp
  obtain ⟨k, hk, hk1, hk2, _⟩ := getSplitIndexSah_spec fl
    (itBegin.box_ :: others.map (fun node => node.box_)) (by rw [hlen2]; omega)
  have hnsz : ¬ (σ.endBoxIndex - σ.beginBoxIndex ≤ 2) := by omega
  constructor
  · intro hfull
    unfold BVH.buildBody
    simp only [hb, he, hc, and_self, not_true_eq_false, if_false, hsl, hso, hnsz, BVH.maxLeafSize,
      hk, BVH.stackSize, hfull, if_true]
  · intro hfree
    refine ⟨itBegin :: others, _, k, ?_, boxOf_cons itBegin others, hk1, by omega, ?_⟩
    · rw [← hso]; unfold slice; rw [hsl]; exact hperm
    · have hnf : ¬ (512 ≤ σ.stack.length) := by omega
      unfold BVH.buildBody
      simp only [hb, he, hc, and_self, not_true_eq_false, if_false, hsl, hso, hnsz,
        BVH.maxLeafSize, hk, BVH.stackSize, hnf]
      congr 2
      omega

/-! ## Fuel -/

theorem buildLoop_mono (fl : ℚ → ℚ) (S : Sorter) (f : Nat) (σ r : BuildState)
    (h : BVH.buildLoop fl S f σ = some r) (j : Nat) : BVH.buildLoop fl S (f + j) σ = some r := by
  induction f generalizing σ with
  | zero => simp [BVH.buildLoop] at h
  | succ f ih =>
    have : f + 1 + j = (f + j) + 1 := by omega
    rw [this]
    simp only [BVH.buildLoop] at h ⊢
    cases hb : BVH.buildBody fl S σ with
    | none => rw [hb] at h; simp at h
    | some σ' =>
      rw [hb] at h
      simp only at h ⊢
      split
      · rename_i hpos
        rw [if_pos hpos] at h
        exact ih σ' h
      · rename_i hneg
        rw [if_neg hneg] at h
        exact h

theorem buildLoop_none_of_le (fl : ℚ → ℚ) (S : Sorter) (f j : Nat) (σ : BuildState)
    (h : BVH.buildLoop fl S (f + j) σ = none) : BVH.buildLoop fl S f σ = none := by
  cases hf : BVH.buildLoop fl S f σ with
  | none => rfl
  | some r => rw [buildLoop_mono fl S f σ r hf j] at h; exact Option.noConfusion h

theorem buildLoop_step (fl : ℚ → ℚ) (S : Sorter) (f : Nat) (σ σ' : BuildState)
    (hb : BVH.buildBody fl S σ = some σ') :
    BVH.buildLoop fl S (f + 1) σ =
      if 0 < σ'.stack.length then BVH.buildLoop fl S f σ' else some σ' := by
  simp only [BVH.buildLoop, hb]

/-! ## The hierarchy built by the loop -/

theorem Tree.size_pos (t : Tree) : 1 ≤ t.size := by
  cases t <;> simp only [Tree.size] <;> omega

theorem Holds.frame {boxes boxes' : List BVHNode} {nodes nodes' : List BuildNode}
    {c b e m : Nat} {t : Tree} (h : Holds boxes nodes c b e m t)
    (hlen : nodes'.length = nodes.length)
    (hb : ∀ i, (i = c ∨ (m < i ∧ i < m + t.size)) → boxes'.get? i = boxes.get? i)
    (hn : ∀ i, b ≤ i → i < e → nodes'.get? i = nodes.get? i) :
    Holds boxes' nodes' c b e m t := by
  induction h with
  | leaf c b e m box h1 h2 h3 h4 h5 =>
    refine Holds.leaf c b e m box h1 h2 (by omega) ?_ ?_
    · rw [hb c (Or.inl rfl)]; exact h4
    · rw [slice_congr nodes nodes' b e hn]; exact h5
  | inner c b k e m box l r h1 h2 h3 h4 h5 _ _ ihl ihr =>
    have hl := Tree.size_pos l
    have hr := Tree.size_pos r
    simp only [Tree.size] at hb
    refine Holds.inner c b k e m box l r h1 h2 (by omega) ?_ ?_ ?_ ?_
    · rw [hb c (Or.inl rfl)]; exact h4
    · rw [slice_congr nodes nodes' b e hn]; exact h5
    · apply ihl
      · intro i hi
        apply hb
        right
        omega
      · intro i hi1 hi2
        exact hn i hi1 (by omega)
    · apply ihr
      · intro i hi
        apply hb
        right
        omega
      · intro i hi1 hi2
        exact hn i (by omega) hi2

theorem Holds.box_eq {boxes : List BVHNode} {nodes : List BuildNode} {c b e m : Nat} {t : Tree}
    (h : Holds boxes nodes c b e m t) : boxOf (slice nodes b e) = some t.box := by
  cases h with
  | leaf _ _ _ _ box h1 h2 h3 h4 h5 => exact h5
  | inner _ _ k _ _ box l r h1 h2 h3 h4 h5 _ _ => exact h5

theorem getD_eq_of_get? {α : Type} (l l' : List α) (i : Nat) (d : α)
    (h : l'.get? i = l.get? i) : l'.getD i d = l.getD i d := by
  simp only [List.getD_eq_getElem?_getD]
  simp only [List.get?_eq_getElem?] at h
  rw [h]

theorem get?_set_ne {α : Type} (l : List α) (i j : Nat) (a : α) (h : j ≠ i) :
    (l.set i a).get? j = l.get? j := by
  simp only [List.get?_eq_getElem?]
  rw [List.getElem?_set_ne (Ne.symm h)]

theorem get?_set_self {α : Type} (l : List α) (i : Nat) (a : α) (h : i < l.length) :
    (l.set i a).get? i = some a := by
  simp only [List.get?_eq_getElem?]
  rw [List.getElem?_set_self h]

/-! ## One pass of the build loop, with the split it takes -/

theorem sortedRange_perm (S : Sorter) (range : List BuildNode) :
    List.Perm (sortedRange S range) range :=
  S.perm _ range

theorem buildBody_leaf_exact (fl : ℚ → ℚ) (S : Sorter) (σ : BuildState) (top : Nat × Nat × Nat)
    (rest : List (Nat × Nat × Nat))
    (hb : σ.beginBoxIndex < σ.endBoxIndex) (he : σ.endBoxIndex ≤ σ.buildNodes.length)
    (hc : σ.currentBoxIndex < σ.boxes_.length)
    (hsz : σ.endBoxIndex - σ.beginBoxIndex ≤ 2) (hst : σ.stack = top :: rest) :
    ∃ box, boxOf (sortedRange S (slice σ.buildNodes σ.beginBoxIndex σ.endBoxIndex)) = some box ∧
      BVH.buildBody fl S σ = some
        { boxes_ := σ.boxes_.set σ.currentBoxIndex
            ⟨box, σ.beginBoxIndex, σ.endBoxIndex - σ.beginBoxIndex⟩,
          buildNodes := σ.buildNodes.take σ.beginBoxIndex ++
            sortedRange S (slice σ.buildNodes σ.beginBoxIndex σ.endBoxIndex) ++
            σ.buildNodes.drop σ.endBoxIndex,
          currentBoxIndex := top.1,
          beginBoxIndex := top.2.1,
          endBoxIndex := top.2.2,
          maxNodeIndex := σ.maxNodeIndex,
          stack := rest } := by
  have hlen := slice_length σ.buildNodes σ.beginBoxIndex σ.endBoxIndex he
  obtain ⟨first, others0, hsl⟩ : ∃ first others0,
      slice σ.buildNodes σ.beginBoxIndex σ.endBoxIndex = first :: others0 := by
    cases h : slice σ.buildNodes σ.beginBoxIndex σ.endBoxIndex with
    | nil => rw [h] at hlen; simp at hlen; omega
    | cons a l => exact ⟨a, l, rfl⟩
  have hperm := S.perm (fun node => node.midPoint_.get (BVH.getMaxAxis first others0))
    (first :: others0)
  obtain ⟨itBegin, others, hso⟩ : ∃ itBegin others,
      S.sort (fun node => node.midPoint_.get (BVH.getMaxAxis first others0)) (first :: others0)
        = itBegin :: others := by
    cases h : S.sort (fun node => node.midPoint_.get (BVH.getMaxAxis first others0))
        (first :: others0) with
    | nil => rw [h] at hperm; simp at hperm
    | cons a l => exact ⟨a, l, rfl⟩
  have hsr : sortedRange S (slice σ.buildNodes σ.beginBoxIndex σ.endBoxIndex)
      = itBegin :: others := by
    rw [hsl]; simp only [sortedRange, splitAxis]; exact hso
  rw [hsr]
  refine ⟨_, boxOf_cons itBegin others, ?_⟩
  unfold slice at hsl
  unfold BVH.buildBody
  simp only [hb, he, hc, and_self, not_true_eq_false, if_false, hsl, hso, hsz, BVH.maxLeafSize,
    if_true, hst]

theorem buildBody_inner_exact (fl : ℚ → ℚ) (S : Sorter) (σ : BuildState)
    (hb : σ.beginBoxIndex < σ.endBoxIndex) (he : σ.endBoxIndex ≤ σ.buildNodes.length)
    (hc : σ.currentBoxIndex < σ.boxes_.length)
    (hsz : 2 < σ.endBoxIndex - σ.beginBoxIndex) (hfree : σ.stack.length < 512) :
    ∃ box k, boxOf (sortedRange S (slice σ.buildNodes σ.beginBoxIndex σ.endBoxIndex)) = some box ∧
      BVH.getSplitIndexSah fl
        ((sortedRange S (slice σ.buildNodes σ.beginBoxIndex σ.endBoxIndex)).map
          (fun node => node.box_)) = some k ∧
      1 ≤ k ∧ k < σ.endBoxIndex - σ.beginBoxIndex ∧
      BVH.buildBody fl S σ = some
        { boxes_ := σ.boxes_.set σ.currentBoxIndex
            ⟨box, σ.maxNodeIndex + 1,
              (σ.boxes_.getD σ.currentBoxIndex BVHNode.default).numPrimitives_⟩,
          buildNodes := σ.buildNodes.take σ.beginBoxIndex ++
            sortedRange S (slice σ.buildNodes σ.beginBoxIndex σ.endBoxIndex) ++
            σ.buildNodes.drop σ.endBoxIndex,
          currentBoxIndex := σ.maxNodeIndex + 1,
          beginBoxIndex := σ.beginBoxIndex,
          endBoxIndex := σ.beginBoxIndex + k,
          maxNodeIndex := σ.maxNodeIndex + 2,
          stack := (σ.maxNodeIndex + 2, σ.beginBoxIndex + k, σ.endBoxIndex) :: σ.stack } := by
  have hlen := slice_length σ.buildNodes σ.beginBoxIndex σ.endBoxIndex he
  obtain ⟨first, others0, hsl⟩ : ∃ first others0,
      slice σ.buildNodes σ.beginBoxIndex σ.endBoxIndex = first :: others0 := by
    cases h : slice σ.buildNodes σ.beginBoxIndex σ.endBoxIndex with
    | nil => rw [h] at hlen; simp at hlen; omega
    | cons a l => exact ⟨a, l, rfl⟩
  have hperm := S.perm (fun node => node.midPoint_.get (BVH.getMaxAxis first others0))
    (first :: others0)
  obtain ⟨itBegin, others, hso⟩ : ∃ itBegin others,
      S.sort (fun node => node.midPoint_.get (BVH.getMaxAxis first others0)) (first :: others0)
        = itBegin :: others := by
    cases h : S.sort (fun node => node.midPoint_.get (BVH.getMaxAxis first others0))
        (first :: others0) with
    | nil => rw [h] at hperm; simp at hperm
    | cons a l => exact ⟨a, l, rfl⟩
  have hsr : sortedRange S (slice σ.buildNodes σ.beginBoxIndex σ.endBoxIndex)
      = itBegin :: others := by
    rw [hsl]; simp only [sortedRange, splitAxis]; exact hso
  have hlen2 : (itBegin.box_ :: others.map (fun node => node.box_)).length =
      σ.endBoxIndex - σ.beginBoxIndex := by
    rw [← hlen, hsl, ← hperm.length_eq, hso]; simp
  obtain ⟨k, hk, hk1, hk2, _⟩ := getSplitIndexSah_spec fl
    (itBegin.box_ :: others.map (fun node => node.box_)) (by rw [hlen2]; omega)
  have hnsz : ¬ (σ.endBoxIndex - σ.beginBoxIndex ≤ 2) := by omega
  rw [hsr]
  refine ⟨_, k, boxOf_cons itBegin others, by simpa using hk, hk1, by omega, ?_⟩
  have hnf : ¬ (512 ≤ σ.stack.length) := by omega
  unfold slice at hsl
  unfold BVH.buildBody
  simp only [hb, he, hc, and_self, not_true_eq_false, if_false, hsl, hso, hnsz,
    BVH.maxLeafSize, hk, BVH.stackSize, hnf]
  congr 2
  omega

/-! ## The build loop and the recursive build -/

theorem slice_take {α : Type} (l : List α) (b k e : Nat) (hk : k ≤ e) :
    slice l b k = (slice l b e).take (k - b) := by
  unfold slice
  rw [List.take_take]
  congr 1
  omega

theorem slice_drop {α : Type} (l : List α) (b k e : Nat) (hb : b ≤ k) (hk : k ≤ e) :
    slice l k e = (slice l b e).drop (k - b) := by
  unfold slice
  rw [List.drop_take, List.drop_drop]
  have h1 : e - b - (k - b) = e - k := by omega
  have h2 : b + (k - b) = k := by omega
  rw [h1, h2]

theorem sortedRange_length (S : Sorter) (range : List BuildNode) :
    (sortedRange S range).length = range.length :=
  (sortedRange_perm S range).length_eq

/-- The hierarchy of the recursive build over `n` build nodes has at most `2 * n - 1` nodes
and, for `n ≥ 2`, at most `n - 2` steps from the root to a leaf. -/
theorem buildTree_bounds (fl : ℚ → ℚ) (S : Sorter) : ∀ (fuel b : Nat) (range : List BuildNode),
    range.length ≤ fuel → 1 ≤ range.length →
    (buildTree fl S fuel b range).size + 1 ≤ 2 * range.length ∧
    (buildTree fl S fuel b range).pend + 2 ≤ max range.length 2 ∧
    (buildTree fl S fuel b range).depth + 2 ≤ max range.length 2 := by
  intro fuel
  induction fuel with
  | zero => intro b range h1 h2; omega
  | succ fuel ih =>
    intro b range h1 h2
    rcases Nat.lt_or_ge 2 range.length with hbig | hsmall
    · have hlen := sortedRange_length S range
      obtain ⟨k, hk, hk1, hk2, _⟩ := getSplitIndexSah_spec fl
        ((sortedRange S range).map (fun node => node.box_)) (by simp only [List.length_map]; omega)
      simp only [List.length_map] at hk2
      have hnot : ¬ range.length ≤ 2 := by omega
      simp only [buildTree, BVH.maxLeafSize, hnot, if_false, hk]
      obtain ⟨l1, l2, l3⟩ := ih b ((sortedRange S range).take k)
        (by simp only [List.length_take]; omega) (by simp only [List.length_take]; omega)
      obtain ⟨r1, r2, r3⟩ := ih (b + k) ((sortedRange S range).drop k)
        (by simp only [List.length_drop]; omega) (by simp only [List.length_drop]; omega)
      simp only [List.length_take, List.length_drop] at l1 l2 l3 r1 r2 r3
      simp only [Tree.size, Tree.pend, Tree.depth]
      refine ⟨by omega, by omega, by omega⟩
    · simp only [buildTree, BVH.maxLeafSize, hsmall, if_true, Tree.size, Tree.pend, Tree.depth]
      refine ⟨by omega, by omega, by omega⟩

/-- The hierarchies built below the two children of an inner node make up the hierarchy
built below the node. -/
theorem buildDone_inner {boxes : List BVHNode} {nodes : List BuildNode} {c b e m : Nat}
    {stack : List (Nat × Nat × Nat)} {sorted : List BuildNode} {box : AABB} {k : Nat}
    {tl tr : Tree} {σ2 σ3 : BuildState}
    (hb : b < e) (he : e ≤ nodes.length) (hc : c ≤ m) (hk1 : 1 ≤ k) (hk2 : k < e - b)
    (hroom : m + 2 * (e - b) ≤ boxes.length + 1)
    (hperm : List.Perm sorted (slice nodes b e)) (hbox : boxOf sorted = some box)
    (hd2 : BuildDone ⟨boxes.set c ⟨box, m + 1, 0⟩,
      List.take b nodes ++ sorted ++ List.drop e nodes,
      m + 1, b, b + k, m + 2, (m + 2, b + k, e) :: stack⟩ σ2 tl)
    (hd3 : BuildDone σ2 σ3 tr) :
    BuildDone ⟨boxes, nodes, c, b, e, m, stack⟩ σ3 (Tree.inner box tl tr) := by
  obtain ⟨hre1, hsl1⟩ := rearr_of_sorted nodes sorted b e (le_of_lt hb) he hperm
  have hlen1 : (List.take b nodes ++ sorted ++ List.drop e nodes).length = nodes.length :=
    hre1.1
  have d2s : σ2.stack = stack := hd2.stack_eq
  have d2h := hd2.head_eq
  have d2m := hd2.max_eq
  have d2l : σ2.boxes_.length = boxes.length := by
    rw [hd2.length_eq]; simp
  have d2f := hd2.frame
  have d2r := hd2.rearr
  have d2holds := hd2.holds
  simp only [List.head?_cons, Option.some.injEq, Prod.mk.injEq] at d2h d2m d2f d2r d2holds
  obtain ⟨d2c, d2b, d2e⟩ := d2h
  have hszl := Tree.size_pos tl
  have hszr := Tree.size_pos tr
  have hm2 : σ2.maxNodeIndex = m + 1 + tl.size := by omega
  have hlen2 : σ2.buildNodes.length = nodes.length := by rw [d2r.1, hlen1]
  have d3s := hd3.stack_eq
  have d3h := hd3.head_eq
  have d3m := hd3.max_eq
  have d3l := hd3.length_eq
  have d3f := hd3.frame
  have d3r := hd3.rearr
  have d3holds := hd3.holds
  rw [d2s] at d3s d3h
  rw [← d2c, ← d2b, ← d2e, hm2] at d3holds
  rw [← d2b, ← d2e] at d3r
  rw [← d2c, hm2] at d3f
  refine ⟨d3s, d3h, ?_, ?_, ?_, ?_, ?_⟩
  · simp only [Tree.size]; omega
  · rw [d3l, d2l]
  · intro i hi1 hi2
    simp only [Tree.size] at hi1 hi2
    rw [d3f i (by omega) (by omega), d2f i (by omega) (by omega),
      get?_set_ne boxes c i _ hi1]
  · exact hre1.trans ((d2r.widen (le_refl b) (by omega) (by omega)).trans
      (d3r.widen (by omega) (by omega) (le_refl e)))
  · have hre13 : Rearr b e (List.take b nodes ++ sorted ++ List.drop e nodes)
        σ3.buildNodes :=
      (d2r.widen (le_refl b) (by omega) (by omega)).trans
        (d3r.widen (by omega) (by omega) (le_refl e))
    refine Holds.inner c b (b + k) e m box tl tr (by omega) (by omega) ?_ ?_ ?_ ?_ ?_
    · rw [d3r.1, hlen2]; exact he
    · rw [d3f c (by omega) (by omega), d2f c (by omega) (by omega)]
      exact get?_set_self boxes c _ (by omega)
    · rw [boxOf_perm hre13.2.2, hsl1]; exact hbox
    · apply d2holds.frame
      · rw [d3r.1]
      · intro i hi
        exact d3f i (by omega) (by omega)
      · intro i hi1 hi2
        exact d3r.2.1 i (Or.inl hi2)
    · exact d3holds

/-- The passes over the right child of an inner node, after those over the left child, end
the passes over the node. -/
theorem build_inner_finish (fl : ℚ → ℚ) (S : Sorter) {boxes : List BVHNode} {nodes : List BuildNode}
    {c b e m : Nat} {stack : List (Nat × Nat × Nat)} {sorted : List BuildNode} {box : AABB}
    {k : Nat} {tl tr : Tree} {σ2 : BuildState}
    (hb : b < e) (he : e ≤ nodes.length) (hc : c ≤ m) (hk1 : 1 ≤ k) (hk2 : k < e - b)
    (hroom : m + 2 * (e - b) ≤ boxes.length + 1) (hst : stack ≠ [])
    (hperm : List.Perm sorted (slice nodes b e)) (hbox : boxOf sorted = some box)
    (hbody : BVH.buildBody fl S ⟨boxes, nodes, c, b, e, m, stack⟩ = some
      ⟨boxes.set c ⟨box, m + 1, 0⟩, List.take b nodes ++ sorted ++ List.drop e nodes,
        m + 1, b, b + k, m + 2, (m + 2, b + k, e) :: stack⟩)
    (hd2 : BuildDone ⟨boxes.set c ⟨box, m + 1, 0⟩,
      List.take b nodes ++ sorted ++ List.drop e nodes,
      m + 1, b, b + k, m + 2, (m + 2, b + k, e) :: stack⟩ σ2 tl)
    (hloop2 : ∀ f, BVH.buildLoop fl S (f + tl.size) ⟨boxes.set c ⟨box, m + 1, 0⟩,
      List.take b nodes ++ sorted ++ List.drop e nodes,
      m + 1, b, b + k, m + 2, (m + 2, b + k, e) :: stack⟩ =
        if 0 < σ2.stack.length then BVH.buildLoop fl S f σ2 else some σ2)
    (hshort2 : ∀ j, j < tl.size → BVH.buildLoop fl S j ⟨boxes.set c ⟨box, m + 1, 0⟩,
      List.take b nodes ++ sorted ++ List.drop e nodes,
      m + 1, b, b + k, m + 2, (m + 2, b + k, e) :: stack⟩ = none)
    (hokl : stack.length + 1 + tl.pend ≤ 512)
    (hok_r : σ2.stack.length + tr.pend ≤ 512 → ∃ σ', BuildDone σ2 σ' tr ∧
      (∀ f, BVH.buildLoop fl S (f + tr.size) σ2 =
        if 0 < σ'.stack.length then BVH.buildLoop fl S f σ' else some σ') ∧
      (∀ j, j < tr.size → BVH.buildLoop fl S j σ2 = none))
    (hover_r : 512 < σ2.stack.length + tr.pend → ∀ f, BVH.buildLoop fl S f σ2 = none) :
    (stack.length + (Tree.inner box tl tr).pend ≤ 512 →
      ∃ σ', BuildDone ⟨boxes, nodes, c, b, e, m, stack⟩ σ' (Tree.inner box tl tr) ∧
        (∀ f, BVH.buildLoop fl S (f + (Tree.inner box tl tr).size)
            ⟨boxes, nodes, c, b, e, m, stack⟩ =
          if 0 < σ'.stack.length then BVH.buildLoop fl S f σ' else some σ') ∧
        (∀ j, j < (Tree.inner box tl tr).size →
          BVH.buildLoop fl S j ⟨boxes, nodes, c, b, e, m, stack⟩ = none)) ∧
    (512 < stack.length + (Tree.inner box tl tr).pend →
      ∀ f, BVH.buildLoop fl S f ⟨boxes, nodes, c, b, e, m, stack⟩ = none) := by
  have d2s : σ2.stack = stack := hd2.stack_eq
  rw [d2s] at hok_r hover_r
  have hstpos : 0 < stack.length := by
    cases stack with
    | nil => exact absurd rfl hst
    | cons a l => simp
  have hloop12 : ∀ f, BVH.buildLoop fl S (f + tl.size + 1)
      ⟨boxes, nodes, c, b, e, m, stack⟩ = BVH.buildLoop fl S f σ2 := by
    intro f
    rw [buildLoop_step fl S _ _ _ hbody]
    simp only [List.length_cons, Nat.zero_lt_succ, if_true]
    rw [hloop2 f, d2s]
    simp only [hstpos, if_true]
  rcases Nat.lt_or_ge 512 (stack.length + tr.pend) with hovr | hokr
  · -- the right subtree overflows the stack
    refine ⟨?_, ?_⟩
    · intro h; simp only [Tree.pend] at h; omega
    · intro _ f
      apply buildLoop_none_of_le fl S f (tl.size + 1)
      rw [← Nat.add_assoc, hloop12 f]
      exact hover_r hovr f
  · obtain ⟨σ3, hd3, hloop3, hshort3⟩ := hok_r hokr
    refine ⟨?_, ?_⟩
    · intro _
      refine ⟨σ3, buildDone_inner hb he hc hk1 hk2 hroom hperm hbox hd2 hd3, ?_, ?_⟩
      · intro f
        have : f + (Tree.inner box tl tr).size = (f + tr.size) + tl.size + 1 := by
          simp only [Tree.size]; omega
        rw [this, hloop12, hloop3]
      · intro j hj
        simp only [Tree.size] at hj
        cases j with
        | zero => rfl
        | succ j =>
          rw [buildLoop_step fl S j _ _ hbody]
          simp only [List.length_cons, Nat.zero_lt_succ, if_true]
          rcases Nat.lt_or_ge j tl.size with hjl | hjl
          · exact hshort2 j hjl
          · obtain ⟨f, rfl⟩ : ∃ f, j = f + tl.size := ⟨j - tl.size, by omega⟩
            rw [hloop2 f, d2s]
            simp only [hstpos, if_true]
            exact hshort3 f (by omega)
    · intro h; simp only [Tree.pend] at h; omega

/-- The loop of `BVH<T>::build`, entered at a node that covers `n` build nodes, builds below
that node the hierarchy of the recursive build and pops the next node, in as many passes as
the hierarchy has nodes; it stops at a push that finds the stack full when the walk of this
hierarchy needs more slots than the stack has left. -/
theorem build_subtree_tree (fl : ℚ → ℚ) (S : Sorter) : ∀ (n : Nat) (σ : BuildState) (fuel : Nat),
    σ.endBoxIndex - σ.beginBoxIndex = n → n ≤ fuel → σ.beginBoxIndex < σ.endBoxIndex →
    σ.endBoxIndex ≤ σ.buildNodes.length → σ.currentBoxIndex ≤ σ.maxNodeIndex →
    σ.maxNodeIndex + 2 * n ≤ σ.boxes_.length + 1 → σ.stack ≠ [] → σ.stack.length ≤ 512 →
    (∀ i, (i = σ.currentBoxIndex ∨ σ.maxNodeIndex < i) →
      (σ.boxes_.getD i BVHNode.default).numPrimitives_ = 0) →
    ∀ t, t = buildTree fl S fuel σ.beginBoxIndex
        (slice σ.buildNodes σ.beginBoxIndex σ.endBoxIndex) →
      (σ.stack.length + t.pend ≤ 512 → ∃ σ', BuildDone σ σ' t ∧
        (∀ f, BVH.buildLoop fl S (f + t.size) σ =
          if 0 < σ'.stack.length then BVH.buildLoop fl S f σ' else some σ') ∧
        (∀ j, j < t.size → BVH.buildLoop fl S j σ = none)) ∧
      (512 < σ.stack.length + t.pend → ∀ f, BVH.buildLoop fl S f σ = none) := by
  intro n
  induction n using Nat.strong_induction_on with
  | _ n ih =>
  intro σ fuel hn hfuel hb he hc hroom hst hst2 hzero t ht
  obtain ⟨boxes, nodes, c, b, e, m, stack⟩ := σ
  simp only at hn hb he hc hroom hst hst2 hzero ht
  have hsl : (slice nodes b e).length = n := by rw [slice_length nodes b e he]; exact hn
  have hsorted := sortedRange_length S (slice nodes b e)
  obtain ⟨fuel, rfl⟩ : ∃ fuel', fuel = fuel' + 1 := ⟨fuel - 1, by omega⟩
  rcases Nat.lt_or_ge 2 n with hbig | hsmall
  · -- an inner node
    obtain ⟨k, hk, hk1, hk2, _⟩ := getSplitIndexSah_spec fl
      ((sortedRange S (slice nodes b e)).map (fun node => node.box_))
      (by simp only [List.length_map]; omega)
    simp only [List.length_map] at hk2
    have hnot : ¬ (slice nodes b e).length ≤ 2 := by omega
    simp only [buildTree, BVH.maxLeafSize, hnot, if_false, hk] at ht
    rcases Nat.lt_or_ge stack.length 512 with hlt | hge
    · obtain ⟨box, k', hbox, hk', _, _, hbody⟩ := buildBody_inner_exact fl S
        ⟨boxes, nodes, c, b, e, m, stack⟩ hb he (by simp only; omega) (by simp only; omega) hlt
      simp only at hbox hk' hbody
      rw [hk] at hk'
      simp only [Option.some.injEq] at hk'
      subst hk'
      rw [hbox] at ht
      simp only [Option.getD_some] at ht
      have hperm := sortedRange_perm S (slice nodes b e)
      obtain ⟨hre1, hsl1⟩ := rearr_of_sorted nodes (sortedRange S (slice nodes b e)) b e
        (le_of_lt hb) he hperm
      have hlen1 : (List.take b nodes ++ sortedRange S (slice nodes b e) ++
          List.drop e nodes).length = nodes.length := hre1.1
      have hnum0 : (boxes.getD c BVHNode.default).numPrimitives_ = 0 := hzero c (Or.inl rfl)
      rw [hnum0] at hbody
      have hleft : slice (List.take b nodes ++ sortedRange S (slice nodes b e) ++
          List.drop e nodes) b (b + k) = (sortedRange S (slice nodes b e)).take k := by
        rw [slice_take _ b (b + k) e (by omega), hsl1, Nat.add_sub_cancel_left]
      have hright : slice (List.take b nodes ++ sortedRange S (slice nodes b e) ++
          List.drop e nodes) (b + k) e = (sortedRange S (slice nodes b e)).drop k := by
        rw [slice_drop _ b (b + k) e (by omega) (by omega), hsl1, Nat.add_sub_cancel_left]
      -- the left child
      obtain ⟨hok_l, hover_l⟩ := ih k (by omega)
        ⟨boxes.set c ⟨box, m + 1, 0⟩,
          List.take b nodes ++ sortedRange S (slice nodes b e) ++ List.drop e nodes,
          m + 1, b, b + k, m + 2, (m + 2, b + k, e) :: stack⟩ fuel
        (by simp) (by omega) (by simp only; omega) (by simp only; rw [hlen1]; omega)
        (by simp only; omega)
        (by simp only [List.length_set]; omega) (by simp) (by simp only [List.length_cons]; omega)
        (by
          intro i hi
          simp only at hi
          have hic : i ≠ c := by omega
          rw [getD_eq_of_get? boxes _ i _ (get?_set_ne boxes c i _ hic)]
          exact hzero i (Or.inr (by omega)))
        (buildTree fl S fuel b ((sortedRange S (slice nodes b e)).take k))
        (by simp only; rw [hleft])
      simp only [List.length_cons] at hok_l hover_l
      have hsizel : (buildTree fl S fuel b ((sortedRange S (slice nodes b e)).take k)).size + 1
          ≤ 2 * k := by
        have := (buildTree_bounds fl S fuel b ((sortedRange S (slice nodes b e)).take k)
          (by simp only [List.length_take]; omega) (by simp only [List.length_take]; omega)).1
        simp only [List.length_take] at this
        omega
      generalize buildTree fl S fuel b ((sortedRange S (slice nodes b e)).take k) = tl
        at ht hok_l hover_l hsizel
      generalize htr : buildTree fl S fuel (b + k) ((sortedRange S (slice nodes b e)).drop k) = tr
        at ht
      subst ht
      rcases Nat.lt_or_ge 512 (stack.length + 1 + tl.pend) with hovl | hokl
      · -- the left subtree overflows the stack
        refine ⟨?_, ?_⟩
        · intro h; simp only [Tree.pend] at h; omega
        · intro _ f
          cases f with
          | zero => rfl
          | succ f =>
            rw [buildLoop_step fl S f _ _ hbody]
            simp only [List.length_cons, Nat.zero_lt_succ, if_true]
            exact hover_l hovl f
      · obtain ⟨σ2, hd2, hloop2, hshort2⟩ := hok_l hokl
        clear hok_l hover_l
        have d2s : σ2.stack = stack := hd2.stack_eq
        have d2h := hd2.head_eq
        have d2m := hd2.max_eq
        have d2l : σ2.boxes_.length = boxes.length := by
          rw [hd2.length_eq]; simp
        have d2f := hd2.frame
        have d2r := hd2.rearr
        simp only [List.head?_cons, Option.some.injEq, Prod.mk.injEq] at d2h d2m d2f d2r
        obtain ⟨d2c, d2b, d2e⟩ := d2h
        have hszl := Tree.size_pos tl
        have hm2 : σ2.maxNodeIndex = m + 1 + tl.size := by omega
        have hlen2 : σ2.buildNodes.length = nodes.length := by rw [d2r.1, hlen1]
        have hright2 : slice σ2.buildNodes (b + k) e =
            (sortedRange S (slice nodes b e)).drop k := by
          rw [slice_congr _ σ2.buildNodes (b + k) e (fun i hi1 _ => d2r.2.1 i (Or.inr hi1)),
            hright]
        -- the right child
        obtain ⟨hok_r, hover_r⟩ := ih (e - (b + k)) (by omega) σ2 fuel
          (by rw [← d2b, ← d2e]) (by omega) (by rw [← d2b, ← d2e]; omega)
          (by rw [← d2e, hlen2]; exact he)
          (by rw [← d2c, hm2]; omega)
          (by rw [hm2, d2l]; omega) (by rw [d2s]; exact hst) (by rw [d2s]; exact hst2)
          (by
            intro i hi
            rw [← d2c, hm2] at hi
            have hic : i ≠ c := by omega
            rw [getD_eq_of_get? _ _ i _ (d2f i (by omega) (by omega)),
              getD_eq_of_get? boxes _ i _ (get?_set_ne boxes c i _ hic)]
            exact hzero i (Or.inr (by omega)))
          tr (by rw [← d2b, ← d2e, hright2, htr])
        exact build_inner_finish fl S hb he hc hk1 (by omega) (by rw [hn]; exact hroom) hst hperm
          hbox hbody hd2 hloop2 hshort2 hokl hok_r hover_r
    · -- the stack is full
      obtain ⟨hfull, _⟩ := buildBody_inner fl S ⟨boxes, nodes, c, b, e, m, stack⟩ hb he
        (by simp only; omega) (by simp only; omega)
      simp only at hfull
      subst ht
      refine ⟨?_, ?_⟩
      · intro h; simp only [Tree.pend] at h; omega
      · intro _ f
        cases f with
        | zero => rfl
        | succ f => simp only [BVH.buildLoop, hfull hge]
  · -- a leaf
    obtain ⟨top, rest, rfl⟩ : ∃ top rest, stack = top :: rest := by
      cases stack with
      | nil => exact absurd rfl hst
      | cons a l => exact ⟨a, l, rfl⟩
    obtain ⟨box, hbox, hbody⟩ := buildBody_leaf_exact fl S
      ⟨boxes, nodes, c, b, e, m, top :: rest⟩ top rest hb he (by simp only; omega)
      (by simp only; omega) rfl
    simp only at hbox hbody
    have hyes : (slice nodes b e).length ≤ 2 := by omega
    simp only [buildTree, BVH.maxLeafSize, hyes, if_true, hbox, Option.getD_some] at ht
    have hbe : b + (slice nodes b e).length = e := by omega
    rw [hbe] at ht
    subst ht
    have hperm := sortedRange_perm S (slice nodes b e)
    obtain ⟨hre1, hsl1⟩ := rearr_of_sorted nodes (sortedRange S (slice nodes b e)) b e
      (le_of_lt hb) he hperm
    refine ⟨?_, ?_⟩
    · intro _
      refine ⟨_, ⟨?_, ?_, ?_, ?_, ?_, ?_, ?_⟩, fun f => buildLoop_step fl S f _ _ hbody, ?_⟩
      · rfl
      · rfl
      · rfl
      · simp
      · intro i hi1 _
        exact get?_set_ne boxes c i _ hi1
      · exact hre1
      · refine Holds.leaf c b e m box hb (by omega) (by rw [hre1.1]; exact he) ?_ ?_
        · exact get?_set_self boxes c _ (by omega)
        · simp only; rw [hsl1]; exact hbox
      · intro j hj
        simp only [Tree.size] at hj
        have : j = 0 := by omega
        subst this
        rfl
    · intro h; simp only [Tree.pend] at h; omega

/-- The loop of `BVH<T>::build`, entered at a node that covers `n` build nodes, builds a
hierarchy below that node and pops the next node, unless a push finds the stack full. -/
theorem build_subtree (fl : ℚ → ℚ) (S : Sorter) : ∀ (n : Nat) (σ : BuildState),
    σ.endBoxIndex - σ.beginBoxIndex = n → σ.beginBoxIndex < σ.endBoxIndex →
    σ.endBoxIndex ≤ σ.buildNodes.length → σ.currentBoxIndex ≤ σ.maxNodeIndex →
    σ.maxNodeIndex + 2 * n ≤ σ.boxes_.length + 1 → σ.stack ≠ [] → σ.stack.length ≤ 512 →
    (∀ i, (i = σ.currentBoxIndex ∨ σ.maxNodeIndex < i) →
      (σ.boxes_.getD i BVHNode.default).numPrimitives_ = 0) →
    ∃ t : Tree, t.size + 1 ≤ 2 * n ∧ t.pend + 2 ≤ max n 2 ∧
      (σ.stack.length + t.pend ≤ 512 → ∃ σ', BuildDone σ σ' t ∧
        ∀ f, BVH.buildLoop fl S (f + t.size) σ =
          if 0 < σ'.stack.length then BVH.buildLoop fl S f σ' else some σ') ∧
      (512 < σ.stack.length + t.pend → ∀ f, BVH.buildLoop fl S f σ = none) := by
  intro n σ hn hb he hc hroom hst hst2 hzero
  have hlen : (slice σ.buildNodes σ.beginBoxIndex σ.endBoxIndex).length = n := by
    rw [slice_length _ _ _ he]; exact hn
  obtain ⟨b1, b2, _⟩ := buildTree_bounds fl S n σ.beginBoxIndex
    (slice σ.buildNodes σ.beginBoxIndex σ.endBoxIndex) (by rw [hlen]) (by rw [hlen]; omega)
  rw [hlen] at b1 b2
  obtain ⟨hok, hover⟩ := build_subtree_tree fl S n σ n hn (le_refl _) hb he hc hroom hst hst2
    hzero _ rfl
  refine ⟨_, b1, b2, ?_, hover⟩
  intro h
  obtain ⟨σ', hd, hl, _⟩ := hok h
  exact ⟨σ', hd, hl⟩

/-! ## The constructed hierarchy -/

theorem Holds.sub {boxes : List BVHNode} {nodes : List BuildNode} {c b e m : Nat} {t : Tree}
    (h : Holds boxes nodes c b e m t) :
    ∀ i, (i = c ∨ (m < i ∧ i < m + t.size)) →
      ∃ b' e' m' t', Holds boxes nodes i b' e' m' t' ∧ b ≤ b' ∧ e' ≤ e := by
  induction h with
  | leaf c b e m box h1 h2 h3 h4 h5 =>
    intro i hi
    rcases hi with rfl | hi
    · exact ⟨b, e, m, _, Holds.leaf i b e m box h1 h2 h3 h4 h5, le_refl _, le_refl _⟩
    · simp only [Tree.size] at hi; omega
  | inner c b k e m box l r h1 h2 h3 h4 h5 hl hr ihl ihr =>
    intro i hi
    rcases hi with rfl | hi
    · exact ⟨b, e, m, _, Holds.inner i b k e m box l r h1 h2 h3 h4 h5 hl hr, le_refl _, le_refl _⟩
    · simp only [Tree.size] at hi
      rcases Nat.lt_or_ge i (m + 2 + l.size) with h | h
      · rcases Nat.lt_or_ge i (m + 2) with h' | h'
        · obtain ⟨b', e', m', t', hh, hb', he'⟩ := ihl i (Or.inl (by omega))
          exact ⟨b', e', m', t', hh, hb', by omega⟩
        · rcases Nat.eq_or_lt_of_le h' with h'' | h''
          · obtain ⟨b', e', m', t', hh, hb', he'⟩ := ihr i (Or.inl (by omega))
            exact ⟨b', e', m', t', hh, by omega, he'⟩
          · obtain ⟨b', e', m', t', hh, hb', he'⟩ := ihl i (Or.inr (by omega))
            exact ⟨b', e', m', t', hh, hb', by omega⟩
      · obtain ⟨b', e', m', t', hh, hb', he'⟩ := ihr i (Or.inr (by omega))
        exact ⟨b', e', m', t', hh, by omega, he'⟩

theorem Holds.range {boxes : List BVHNode} {nodes : List BuildNode} {c b e m : Nat} {t : Tree}
    (h : Holds boxes nodes c b e m t) : b < e ∧ e ≤ nodes.length := by
  cases h with
  | leaf _ _ _ _ box h1 h2 h3 h4 h5 => exact ⟨h1, h3⟩
  | inner _ _ k _ _ box l r h1 h2 h3 h4 h5 _ _ => exact ⟨by omega, h3⟩

theorem initialNodes_length {T : Type} (Sh : Shape T) (primitives : List T) :
    (BVH.initialNodes Sh primitives).length = primitives.length := by
  simp [BVH.initialNodes]

theorem initialNodes_get? {T : Type} (Sh : Shape T) (primitives : List T) (i : Nat) :
    (BVH.initialNodes Sh primitives).get? i =
      (primitives.get? i).map (fun p => ⟨Sh.getAABB p, (Sh.getAABB p).getMidPoint, i⟩) := by
  simp only [BVH.initialNodes, List.get?_eq_getElem?, List.getElem?_map, List.getElem?_enum,
    Option.map_map]
  rfl

/-- Every build node carries the box of the primitive it names. -/
theorem initialNodes_mem {T : Type} (Sh : Shape T) (primitives : List T) (n : BuildNode)
    (hn : n ∈ BVH.initialNodes Sh primitives) :
    ∃ p, primitives.get? n.oldIndex_ = some p ∧ n.box_ = Sh.getAABB p := by
  obtain ⟨i, hi⟩ := List.get?_of_mem hn
  rw [initialNodes_get?] at hi
  cases hp : primitives.get? i with
  | none => rw [hp] at hi; simp at hi
  | some p =>
    rw [hp] at hi
    simp only [Option.map_some', Option.some.injEq] at hi
    subst hi
    exact ⟨p, hp, rfl⟩

theorem reorder_eq_some_iff {T : Type} (primitives : List T) (nodes : List BuildNode)
    (ps : List T) :
    BVH.reorder primitives nodes = some ps ↔
      nodes.map (fun n => primitives.get? n.oldIndex_) = ps.map some := by
  induction nodes generalizing ps with
  | nil =>
    simp only [BVH.reorder, Option.some.injEq, List.map_nil]
    constructor
    · intro h; subst h; rfl
    · intro h
      cases ps with
      | nil => rfl
      | cons a l => simp at h
  | cons n ns ih =>
    simp only [BVH.reorder, List.map_cons]
    cases hp : primitives.get? n.oldIndex_ with
    | none =>
      simp only
      constructor
      · intro h; exact Option.noConfusion h
      · intro h
        cases ps with
        | nil => simp at h
        | cons a l => simp at h
    | some p =>
      cases hr : BVH.reorder primitives ns with
      | none =>
        simp only
        constructor
        · intro h; exact Option.noConfusion h
        · intro h
          cases ps with
          | nil => simp at h
          | cons a l =>
            simp only [List.map_cons, List.cons.injEq] at h
            have := (ih l).mpr h.2
            rw [hr] at this
            exact Option.noConfusion this
      | some ps' =>
        simp only [Option.some.injEq]
        have h' := (ih ps').mp hr
        constructor
        · intro h; subst h; rw [List.map_cons, h']
        · intro h
          cases ps with
          | nil => simp at h
          | cons a l =>
            simp only [List.map_cons, List.cons.injEq, Option.some.injEq] at h
            obtain ⟨rfl, h2⟩ := h
            have := (ih l).mpr h2
            rw [hr] at this
            simp only [Option.some.injEq] at this
            rw [this]

theorem initialNodes_map {T : Type} (Sh : Shape T) (primitives : List T) :
    (BVH.initialNodes Sh primitives).map (fun n => primitives.get? n.oldIndex_) =
      primitives.map some := by
  apply List.ext_get?
  intro i
  simp only [List.get?_eq_getElem?, List.getElem?_map]
  have := initialNodes_get? Sh primitives i
  simp only [List.get?_eq_getElem?] at this
  rw [this]
  cases hp : primitives[i]? with
  | none => rfl
  | some p => simp [hp]

/-- The last loop of `build` succeeds on every rearrangement of the build nodes, and its
result is a rearrangement of the primitives. -/
theorem reorder_of_perm {T : Type} (Sh : Shape T) (primitives : List T) (nodes : List BuildNode)
    (h : List.Perm nodes (BVH.initialNodes Sh primitives)) :
    ∃ ps, BVH.reorder primitives nodes = some ps ∧ List.Perm ps primitives := by
  have hp : List.Perm (nodes.map (fun n => primitives.get? n.oldIndex_)) (primitives.map some) := by
    rw [← initialNodes_map Sh primitives]
    exact h.map _
  have hall : ∀ x ∈ nodes.map (fun n => primitives.get? n.oldIndex_), ∃ p, x = some p := by
    intro x hx
    have := hp.subset hx
    simp only [List.mem_map] at this
    obtain ⟨p, _, rfl⟩ := this
    exact ⟨p, rfl⟩
  have hred : ∀ l : List (Option T), (∀ x ∈ l, ∃ p, x = some p) →
      l = (l.filterMap id).map some := by
    intro l
    induction l with
    | nil => intro _; rfl
    | cons a l ih =>
      intro hl
      obtain ⟨p, rfl⟩ := hl a (List.mem_cons_self _ _)
      simp only [List.filterMap_cons, id_eq, List.map_cons, List.cons.injEq, true_and]
      exact ih (fun x hx => hl x (List.mem_cons_of_mem _ hx))
  refine ⟨(nodes.map (fun n => primitives.get? n.oldIndex_)).filterMap id, ?_, ?_⟩
  · rw [reorder_eq_some_iff]
    exact hred _ hall
  · have := hp.filterMap id
    simpa using this

theorem getD_replicate_default (n i : Nat) :
    (List.replicate n BVHNode.default).getD i BVHNode.default = BVHNode.default := by
  simp only [List.getD_eq_getElem?_getD, List.getElem?_replicate]
  split <;> rfl

/-- The constructor on a non-empty vector: either the build loop ends with a hierarchy over
all primitives, or a push of the build loop finds the 512-slot stack full. -/
theorem construct_cases {T : Type} (fl : ℚ → ℚ) (S : Sorter) (Sh : Shape T) (primitives : List T)
    (hne : primitives ≠ []) :
    ∃ t : Tree, t.pend + 2 ≤ max primitives.length 2 ∧
      ((∃ bvh σ, BVH.construct fl S Sh primitives = some bvh ∧ Built fl S Sh primitives bvh σ t) ∨
       (512 < 1 + t.pend ∧ BVH.construct fl S Sh primitives = none)) := by
  have hN : 0 < primitives.length := List.length_pos.mpr hne
  have hemp : primitives.isEmpty = false := by
    cases primitives with
    | nil => exact absurd rfl hne
    | cons a l => rfl
  obtain ⟨t, hsize, hpend, hok, hover⟩ := build_subtree fl S primitives.length
    (BVH.initialState Sh (List.replicate (primitives.length * 2 - 1) BVHNode.default) primitives)
    (by simp [BVH.initialState]) (by simpa [BVH.initialState] using hN)
    (by simp [BVH.initialState, initialNodes_length])
    (by simp [BVH.initialState])
    (by simp only [BVH.initialState, List.length_replicate]; omega)
    (by simp [BVH.initialState]) (by simp [BVH.initialState])
    (by
      intro i _
      simp only [BVH.initialState]
      rw [getD_replicate_default]
      rfl)
  simp only [BVH.initialState, List.length_singleton] at hok hover
  refine ⟨t, hpend, ?_⟩
  rcases Nat.lt_or_ge 512 (1 + t.pend) with hov | hfit
  · right
    refine ⟨hov, ?_⟩
    simp only [BVH.construct, hemp, Bool.false_eq_true, if_false, BVH.build, BVH.buildFinal,
      BVH.initialState]
    rw [hover hov]
  · left
    obtain ⟨σ', hd, hloop⟩ := hok hfit
    have hstack : σ'.stack = [] := by
      rw [hd.stack_eq]; rfl
    have hfinal : BVH.buildFinal fl S Sh (List.replicate (primitives.length * 2 - 1)
        BVHNode.default) primitives = some σ' := by
      simp only [BVH.buildFinal, BVH.initialState, List.length_replicate]
      have : primitives.length * 2 - 1 = (primitives.length * 2 - 1 - t.size) + t.size := by
        omega
      have hl := hloop (primitives.length * 2 - 1 - t.size)
      rw [← this, hstack] at hl
      rw [hl]
      simp
    have hmax : σ'.maxNodeIndex + 1 = t.size := by
      have := hd.max_eq
      simpa using this
    have hlen : σ'.boxes_.length = primitives.length * 2 - 1 := by
      rw [hd.length_eq]; simp
    have hperm : List.Perm σ'.buildNodes (BVH.initialNodes Sh primitives) := by
      have := hd.rearr
      exact this.perm (Nat.zero_le _) (by simp [initialNodes_length])
    obtain ⟨ps, hps, _⟩ := reorder_of_perm Sh primitives σ'.buildNodes hperm
    have hnot : ¬ (σ'.boxes_.length < σ'.maxNodeIndex + 1) := by omega
    refine ⟨⟨σ'.boxes_.take (σ'.maxNodeIndex + 1), ps⟩, σ', ?_, ?_⟩
    · simp only [BVH.construct, hemp, Bool.false_eq_true, if_false, BVH.build, hfinal, hnot, hps]
    · refine ⟨hfinal, rfl, hps, ?_, ?_, hperm, by omega⟩
      · simp only [List.length_take]; omega
      · have := hd.holds
        simp only at this
        apply this.frame rfl
        · intro i hi
          simp only [List.get?_eq_getElem?, List.getElem?_take]
          have : i < σ'.maxNodeIndex + 1 := by
            rcases hi with rfl | hi
            · omega
            · omega
          rw [if_pos this]
        · intro i _ _
          rfl

/-- Whatever the constructor returns for a non-empty vector is a hierarchy over all
primitives. -/
theorem construct_built {T : Type} (fl : ℚ → ℚ) (S : Sorter) (Sh : Shape T) (primitives : List T)
    (hne : primitives ≠ []) (bvh : BVH T) (h : BVH.construct fl S Sh primitives = some bvh) :
    ∃ σ t, Built fl S Sh primitives bvh σ t := by
  obtain ⟨t, _, hc⟩ := construct_cases fl S Sh primitives hne
  rcases hc with ⟨bvh', σ, h', hb⟩ | ⟨_, h'⟩
  · rw [h] at h'
    simp only [Option.some.injEq] at h'
    subst h'
    exact ⟨σ, t, hb⟩
  · rw [h] at h'
    exact Option.noConfusion h'

/-- The constructor returns a hierarchy for every vector of at most 513 primitives. -/
theorem construct_total {T : Type} (fl : ℚ → ℚ) (S : Sorter) (Sh : Shape T) (primitives : List T)
    (hlen : primitives.length ≤ 513) : ∃ bvh, BVH.construct fl S Sh primitives = some bvh := by
  by_cases hne : primitives = []
  · subst hne
    exact ⟨_, rfl⟩
  · obtain ⟨t, hp, hc⟩ := construct_cases fl S Sh primitives hne
    rcases hc with ⟨bvh', σ, h', _⟩ | ⟨hov, _⟩
    · exact ⟨bvh', h'⟩
    · omega

/-! ## The walk of `intersect` -/

theorem Holds.root {boxes : List BVHNode} {nodes : List BuildNode} {c b e m : Nat} {t : Tree}
    (h : Holds boxes nodes c b e m t) :
    ∃ node, boxes.get? c = some node ∧ node.box_ = t.box := by
  cases h with
  | leaf _ _ _ _ box h1 h2 h3 h4 h5 => exact ⟨_, h4, rfl⟩
  | inner _ _ k _ _ box l r h1 h2 h3 h4 h5 _ _ => exact ⟨_, h4, rfl⟩

theorem intersectLoop_step {T : Type} (Sh : Shape T) (bvh : BVH T) (ray : Ray) (shadow : Bool)
    (f : Nat) (σ σ' : TraverseState)
    (hb : BVH.intersectBody Sh bvh ray shadow σ = some (.next σ')) :
    BVH.intersectLoop Sh bvh ray shadow (f + 1) σ =
      if 0 < σ'.stack.length then BVH.intersectLoop Sh bvh ray shadow f σ'
      else some σ'.intersection := by
  simp only [BVH.intersectLoop, hb]

theorem intersectLoop_returned {T : Type} (Sh : Shape T) (bvh : BVH T) (ray : Ray) (shadow : Bool)
    (f : Nat) (σ : TraverseState) (h : Intersection)
    (hb : BVH.intersectBody Sh bvh ray shadow σ = some (.returned h)) :
    BVH.intersectLoop Sh bvh ray shadow (f + 1) σ = some h := by
  simp only [BVH.intersectLoop, hb]

/-- The loop of `BVH<T>::intersect`, entered at the root of a hierarchy with enough free
stack slots, leaves the hit of the recursive walk and pops the next node. -/
theorem traverse_subtree {T : Type} (Sh : Shape T) (bvh : BVH T) (nodes : List BuildNode)
    (ray : Ray) (shadow : Bool) (hlen : nodes.length = bvh.primitives_.length)
    {c b e m : Nat} {t : Tree} (ht : Holds bvh.boxes_ nodes c b e m t) :
    ∀ (top : Nat) (rest : List Nat) (h : Intersection),
      (top :: rest).length + t.pend ≤ 512 →
      ∃ k, 1 ≤ k ∧ k ≤ t.size ∧ ∀ f,
        BVH.intersectLoop Sh bvh ray shadow (f + k) ⟨c, top :: rest, h⟩ =
          if (visit Sh bvh.primitives_ ray shadow t h).2 = true then
            some (visit Sh bvh.primitives_ ray shadow t h).1
          else if 0 < rest.length then
            BVH.intersectLoop Sh bvh ray shadow f
              ⟨top, rest, (visit Sh bvh.primitives_ ray shadow t h).1⟩
          else some (visit Sh bvh.primitives_ ray shadow t h).1 := by
  induction ht with
  | leaf c b e m box h1 h2 h3 h4 h5 =>
    intro top rest h _
    refine ⟨1, le_refl _, by simp [Tree.size], ?_⟩
    intro f
    by_cases hbox : box.intersect ray = true
    · have hnum : 0 < e - b := by omega
      have hnot : ¬ (bvh.primitives_.length < b + (e - b)) := by omega
      by_cases hret : (BVH.leafLoop Sh ray shadow (slice bvh.primitives_ b e) h).2 = true
      · rw [intersectLoop_returned Sh bvh ray shadow f _
          (BVH.leafLoop Sh ray shadow (slice bvh.primitives_ b e) h).1]
        · simp only [visit, hbox, if_true, hret]
        · simp only [BVH.intersectBody, h4, hbox, if_true, hnum, hnot, if_false]
          simp only [slice] at hret
          simp only [hret, if_true, slice]
      · rw [intersectLoop_step Sh bvh ray shadow f _
          ⟨top, rest, (BVH.leafLoop Sh ray shadow (slice bvh.primitives_ b e) h).1⟩]
        · simp only [visit, hbox, if_true, hret, if_false]
          rfl
        · simp only [BVH.intersectBody, h4, hbox, if_true, hnum, hnot, if_false]
          simp only [slice] at hret
          simp only [hret, if_false, slice]
          rfl
    · rw [intersectLoop_step Sh bvh ray shadow f _ ⟨top, rest, h⟩]
      · simp only [visit, hbox, if_false]
        simp
      · simp only [BVH.intersectBody, h4, hbox, if_false]
        rfl
  | inner c b k e m box l r h1 h2 h3 h4 h5 hl hr ihl ihr =>
    intro top rest h hst
    simp only [Tree.pend, List.length_cons] at hst
    obtain ⟨nl, hnl, hnlb⟩ := hl.root
    obtain ⟨nr, hnr, hnrb⟩ := hr.root
    have hszl := Tree.size_pos l
    have hszr := Tree.size_pos r
    by_cases hbox : box.intersect ray = true
    · by_cases hlb : l.box.intersect ray = true
      · by_cases hrb : r.box.intersect ray = true
        · -- both children are hit: the right child is pushed
          have hfree : ¬ (BVH.stackSize ≤ (top :: rest).length) := by
            simp only [BVH.stackSize, List.length_cons]; omega
          have hbody : BVH.intersectBody Sh bvh ray shadow ⟨c, top :: rest, h⟩ =
              some (.next ⟨m + 1, (m + 2) :: top :: rest, h⟩) := by
            simp only [BVH.intersectBody, h4, hbox, if_true, Nat.lt_irrefl, if_false, hnl, hnr,
              hnlb, hnrb, hlb, hrb, Bool.true_eq_false, and_self, hfree]
          obtain ⟨kl, hkl1, hkl2, hloopl⟩ := ihl (m + 2) (top :: rest) h
            (by simp only [List.length_cons]; omega)
          obtain ⟨kr, hkr1, hkr2, hloopr⟩ := ihr top rest
            (visit Sh bvh.primitives_ ray shadow l h).1
            (by simp only [List.length_cons]; omega)
          by_cases hretl : (visit Sh bvh.primitives_ ray shadow l h).2 = true
          · refine ⟨kl + 1, by omega, by simp only [Tree.size]; omega, ?_⟩
            intro f
            rw [← Nat.add_assoc, intersectLoop_step Sh bvh ray shadow _ _ _ hbody]
            simp only [List.length_cons, Nat.zero_lt_succ, if_true]
            rw [hloopl f]
            simp only [hretl, if_true, visit, hbox, hlb]
          · refine ⟨kr + kl + 1, by omega, by simp only [Tree.size]; omega, ?_⟩
            intro f
            rw [← Nat.add_assoc, intersectLoop_step Sh bvh ray shadow _ _ _ hbody]
            simp only [List.length_cons, Nat.zero_lt_succ, if_true]
            rw [← Nat.add_assoc, hloopl (f + kr)]
            simp only [hretl, if_false, List.length_cons, Nat.zero_lt_succ, if_true]
            rw [hloopr f]
            simp [visit, hbox, hlb, hrb, hretl]
        · -- only the left child is hit
          have hbody : BVH.intersectBody Sh bvh ray shadow ⟨c, top :: rest, h⟩ =
              some (.next ⟨m + 1, top :: rest, h⟩) := by
            simp only [BVH.intersectBody, h4, hbox, if_true, Nat.lt_irrefl, if_false, hnl, hnr,
              hnlb, hnrb, hlb, hrb, Bool.true_eq_false, false_and, and_false]
            simp
          obtain ⟨kl, hkl1, hkl2, hloopl⟩ := ihl top rest h
            (by simp only [List.length_cons]; omega)
          refine ⟨kl + 1, by omega, by simp only [Tree.size]; omega, ?_⟩
          intro f
          rw [← Nat.add_assoc, intersectLoop_step Sh bvh ray shadow _ _ _ hbody]
          simp only [List.length_cons, Nat.zero_lt_succ, if_true]
          rw [hloopl f]
          simp only [visit, hbox, hlb, hrb, if_true, if_false]
          split <;> simp_all
      · by_cases hrb : r.box.intersect ray = true
        · -- only the right child is hit
          have hbody : BVH.intersectBody Sh bvh ray shadow ⟨c, top :: rest, h⟩ =
              some (.next ⟨m + 2, top :: rest, h⟩) := by
            simp only [BVH.intersectBody, h4, hbox, if_true, Nat.lt_irrefl, if_false, hnl, hnr,
              hnlb, hnrb, hlb, hrb, Bool.true_eq_false, false_and, and_false]
            simp
          obtain ⟨kr, hkr1, hkr2, hloopr⟩ := ihr top rest h
            (by simp only [List.length_cons]; omega)
          refine ⟨kr + 1, by omega, by simp only [Tree.size]; omega, ?_⟩
          intro f
          rw [← Nat.add_assoc, intersectLoop_step Sh bvh ray shadow _ _ _ hbody]
          simp only [List.length_cons, Nat.zero_lt_succ, if_true]
          rw [hloopr f]
          simp [visit, hbox, hlb, hrb]
        · -- no child is hit
          refine ⟨1, le_refl _, by simp only [Tree.size]; omega, ?_⟩
          intro f
          rw [intersectLoop_step Sh bvh ray shadow f _ ⟨top, rest, h⟩]
          · simp only [visit, hbox, hlb, hrb, if_true, if_false]
            simp
          · simp only [BVH.intersectBody, h4, hbox, if_true, Nat.lt_irrefl, if_false, hnl, hnr,
              hnlb, hnrb, hlb, hrb]
            simp
    · refine ⟨1, le_refl _, by simp only [Tree.size]; omega, ?_⟩
      intro f
      rw [intersectLoop_step Sh bvh ray shadow f _ ⟨top, rest, h⟩]
      · simp only [visit, hbox, if_false]
        simp
      · simp only [BVH.intersectBody, h4, hbox, if_false]
        rfl

theorem Built.lengths {T : Type} {fl : ℚ → ℚ} {S : Sorter} {Sh : Shape T} {primitives : List T}
    {bvh : BVH T}
    {σ : BuildState} {t : Tree} (hb : Built fl S Sh primitives bvh σ t) :
    σ.buildNodes.length = primitives.length ∧ bvh.primitives_.length = primitives.length := by
  have h1 : σ.buildNodes.length = primitives.length := by
    rw [hb.perm.length_eq, initialNodes_length]
  have h2 := (reorder_eq_some_iff primitives σ.buildNodes bvh.primitives_).mp hb.reordered
  have h3 := congrArg List.length h2
  simp only [List.length_map] at h3
  exact ⟨h1, by omega⟩

/-- The primitive at position `j` of the reordered vector is the one the build node `j`
names, and the node carries its box. -/
theorem Built.node_box {T : Type} {fl : ℚ → ℚ} {S : Sorter} {Sh : Shape T} {primitives : List T}
    {bvh : BVH T}
    {σ : BuildState} {t : Tree} (hb : Built fl S Sh primitives bvh σ t) (j : Nat) (n : BuildNode)
    (p : T) (hn : σ.buildNodes.get? j = some n) (hp : bvh.primitives_.get? j = some p) :
    primitives.get? n.oldIndex_ = some p ∧ n.box_ = Sh.getAABB p := by
  have h2 := (reorder_eq_some_iff primitives σ.buildNodes bvh.primitives_).mp hb.reordered
  have h3 := congrArg (fun l => l.get? j) h2
  simp only [List.get?_eq_getElem?, List.getElem?_map] at h3 hn hp
  rw [hn, hp] at h3
  simp only [Option.map_some'] at h3
  have hmem : n ∈ BVH.initialNodes Sh primitives :=
    hb.perm.subset (List.getElem?_mem hn)
  obtain ⟨p', hp', hbox⟩ := initialNodes_mem Sh primitives n hmem
  simp only [List.get?_eq_getElem?] at hp' ⊢
  rw [hp'] at h3
  simp only [Option.some.injEq] at h3
  subst h3
  exact ⟨hp', hbox⟩

/-- On a constructed hierarchy `BVH<T>::intersect` returns the hit of the recursive walk. -/
theorem intersect_built {T : Type} {fl : ℚ → ℚ} {S : Sorter} {Sh : Shape T} {primitives : List T}
    {bvh : BVH T} {σ : BuildState} {t : Tree} (hb : Built fl S Sh primitives bvh σ t)
    (hne : primitives ≠ []) (h : Intersection) (ray : Ray) (shadow : Bool) :
    BVH.intersect Sh bvh h ray shadow = some (visit Sh bvh.primitives_ ray shadow t h).1 := by
  obtain ⟨hl1, hl2⟩ := hb.lengths
  have hN : 0 < primitives.length := List.length_pos.mpr hne
  have hemp : bvh.primitives_.isEmpty = false := by
    cases hp : bvh.primitives_ with
    | nil => rw [hp] at hl2; simp at hl2; omega
    | cons a l => rfl
  obtain ⟨k, hk1, hk2, hloop⟩ := traverse_subtree Sh bvh σ.buildNodes ray shadow
    (by rw [hl1, hl2]) hb.holds 0 [] h (by have := hb.pend_le; simp only [List.length_singleton]; omega)
  simp only [BVH.intersect, hemp, Bool.false_eq_true, if_false]
  have hf : bvh.boxes_.length = (bvh.boxes_.length - k) + k := by
    have := hb.size_eq
    omega
  rw [hf, hloop]
  simp

/-! ## Lengths never grow -/

theorem leafLoop_length_le {T : Type} (Sh : Shape T) (ray : Ray) (shadow : Bool) (l : List T)
    (hmono : ∀ p ∈ l, ∀ h, (Sh.intersect p h ray).length_ ≤ h.length_) (h : Intersection) :
    (BVH.leafLoop Sh ray shadow l h).1.length_ ≤ h.length_ := by
  induction l generalizing h with
  | nil => exact le_refl _
  | cons p ps ih =>
    simp only [BVH.leafLoop]
    have hp := hmono p (List.mem_cons_self _ _) h
    split
    · exact hp
    · exact le_trans (ih (fun q hq => hmono q (List.mem_cons_of_mem _ hq)) _) hp

theorem mem_of_mem_slice {α : Type} {l : List α} {b e : Nat} {a : α} (h : a ∈ slice l b e) :
    a ∈ l :=
  List.mem_of_mem_drop (List.mem_of_mem_take h)

theorem visit_length_le {T : Type} (Sh : Shape T) (primitives_ : List T) (ray : Ray)
    (shadow : Bool)
    (hmono : ∀ p ∈ primitives_, ∀ h, (Sh.intersect p h ray).length_ ≤ h.length_) (t : Tree)
    (h : Intersection) : (visit Sh primitives_ ray shadow t h).1.length_ ≤ h.length_ := by
  induction t generalizing h with
  | leaf box b e =>
    simp only [visit]
    split
    · exact leafLoop_length_le Sh ray shadow _
        (fun p hp => hmono p (mem_of_mem_slice hp)) h
    · exact le_refl _
  | inner box l r ihl ihr =>
    simp only [visit]
    split
    · split
      · split
        · exact ihl h
        · split
          · exact le_trans (ihr _) (ihl h)
          · exact ihl h
      · split
        · exact ihr h
        · exact le_refl _
    · exact le_refl _

/-! ## The closest-hit walk and the linear scan -/

theorem leafLoop_false {T : Type} (Sh : Shape T) (ray : Ray) (l : List T) (h : Intersection) :
    BVH.leafLoop Sh ray false l h = (l.foldl (fun h p => Sh.intersect p h ray) h, false) := by
  induction l generalizing h with
  | nil => rfl
  | cons p ps ih => simp [BVH.leafLoop, ih]

/-- Every index of the node array of a constructed hierarchy is the root of a hierarchy. -/
theorem Built.node {T : Type} {fl : ℚ → ℚ} {S : Sorter} {Sh : Shape T} {primitives : List T}
    {bvh : BVH T}
    {σ : BuildState} {t : Tree} (hb : Built fl S Sh primitives bvh σ t) (i : Nat) (node : BVHNode)
    (hi : bvh.boxes_.get? i = some node) :
    ∃ b e m t', Holds bvh.boxes_ σ.buildNodes i b e m t' ∧ e ≤ primitives.length := by
  have hlt : i < bvh.boxes_.length := by
    simp only [List.get?_eq_getElem?] at hi
    exact (List.getElem?_eq_some_iff.mp hi).1
  rw [hb.size_eq] at hlt
  obtain ⟨b, e, m, t', hh, _, he⟩ := hb.holds.sub i (by omega)
  exact ⟨b, e, m, t', hh, he⟩

theorem Holds.leaf_or_inner {boxes : List BVHNode} {nodes : List BuildNode} {c b e m : Nat}
    {t : Tree} (h : Holds boxes nodes c b e m t) (node : BVHNode) (hn : boxes.get? c = some node) :
    (node.indexOffset_ = b ∧ node.numPrimitives_ = e - b ∧ 0 < e - b ∧ e - b ≤ 2 ∧
      boxOf (slice nodes b e) = some node.box_) ∨
    (node.numPrimitives_ = 0 ∧ node.indexOffset_ = m + 1 ∧
      ∃ l r, boxes.get? (m + 1) = some l ∧ boxes.get? (m + 2) = some r ∧
        node.box_ = surroundingBox l.box_ r.box_ ∧ m + 2 < m + t.size) := by
  cases h with
  | leaf _ _ _ _ box h1 h2 h3 h4 h5 =>
    left
    rw [h4] at hn
    simp only [Option.some.injEq] at hn
    subst hn
    exact ⟨rfl, rfl, by omega, h2, h5⟩
  | inner _ _ k _ _ box l r h1 h2 h3 h4 h5 hl hr =>
    right
    rw [h4] at hn
    simp only [Option.some.injEq] at hn
    subst hn
    obtain ⟨nl, hnl, hnlb⟩ := hl.root
    obtain ⟨nr, hnr, hnrb⟩ := hr.root
    refine ⟨rfl, rfl, nl, nr, hnl, hnr, ?_, ?_⟩
    · have := boxOf_append hl.box_eq hr.box_eq
      rw [← slice_append nodes b k e (le_of_lt h1) (le_of_lt h2), h5] at this
      simp only [Option.some.injEq] at this
      rw [hnlb, hnrb]
      exact this
    · have := Tree.size_pos l
      have := Tree.size_pos r
      simp only [Tree.size]
      omega

theorem Holds.reachable {boxes : List BVHNode} {nodes : List BuildNode} {c b e m : Nat}
    {t : Tree} (h : Holds boxes nodes c b e m t) (root : Nat) (hr : Reachable boxes root c) :
    ∀ i, (i = c ∨ (m < i ∧ i < m + t.size)) → Reachable boxes root i := by
  induction h with
  | leaf c b e m box h1 h2 h3 h4 h5 =>
    intro i hi
    rcases hi with rfl | hi
    · exact hr
    · simp only [Tree.size] at hi; omega
  | inner c b k e m box l r h1 h2 h3 h4 h5 hl hrr ihl ihr =>
    intro i hi
    rcases hi with rfl | hi
    · exact hr
    · simp only [Tree.size] at hi
      have hleft : Reachable boxes root (m + 1) := Reachable.left c _ hr h4 rfl
      have hright : Reachable boxes root (m + 2) := Reachable.right c _ hr h4 rfl
      rcases Nat.lt_or_ge i (m + 2 + l.size) with h | h
      · rcases Nat.lt_or_ge i (m + 2) with h' | h'
        · exact ihl hleft i (Or.inl (by omega))
        · rcases Nat.eq_or_lt_of_le h' with h'' | h''
          · exact ihr hright i (Or.inl (by omega))
          · exact ihl hleft i (Or.inr (by omega))
      · exact ihr hright i (Or.inr (by omega))

theorem initialNodes_oldIndex {T : Type} (Sh : Shape T) (primitives : List T) :
    (BVH.initialNodes Sh primitives).map (fun n => n.oldIndex_) =
      List.range primitives.length := by
  apply List.ext_get?
  intro i
  simp only [List.get?_eq_getElem?, List.getElem?_map]
  have := initialNodes_get? Sh primitives i
  simp only [List.get?_eq_getElem?] at this
  rw [this]
  by_cases hi : i < primitives.length
  · rw [List.getElem?_range hi, List.getElem?_eq_getElem hi]
    rfl
  · rw [List.getElem?_eq_none (by simpa using hi), List.getElem?_eq_none (by simpa using hi)]
    rfl

/-- What one pass of the loop of `intersect` does to the length of the hit. -/
theorem intersectBody_length_le {T : Type} (Sh : Shape T) (bvh : BVH T) (ray : Ray)
    (shadow : Bool)
    (hmono : ∀ p ∈ bvh.primitives_, ∀ h, (Sh.intersect p h ray).length_ ≤ h.length_)
    (σ : TraverseState) :
    (∀ σ', BVH.intersectBody Sh bvh ray shadow σ = some (.next σ') →
      σ'.intersection.length_ ≤ σ.intersection.length_) ∧
    (∀ h', BVH.intersectBody Sh bvh ray shadow σ = some (.returned h') →
      h'.length_ ≤ σ.intersection.length_) := by
  have hleaf : ∀ n k, (BVH.leafLoop Sh ray shadow
      ((bvh.primitives_.drop n).take k) σ.intersection).1.length_ ≤ σ.intersection.length_ :=
    fun n k => leafLoop_length_le Sh ray shadow _
      (fun p hp => hmono p (List.mem_of_mem_drop (List.mem_of_mem_take hp))) _
  unfold BVH.intersectBody
  cases bvh.boxes_.get? σ.boxIndex with
  | none => simp
  | some node =>
    simp only
    by_cases hbox : node.box_.intersect ray = true
    · simp only [hbox, if_true]
      by_cases hnum : 0 < node.numPrimitives_
      · simp only [hnum, if_true]
        by_cases hlen : bvh.primitives_.length < node.indexOffset_ + node.numPrimitives_
        · simp [hlen]
        · simp only [hlen, if_false]
          by_cases hret : (BVH.leafLoop Sh ray shadow
              ((bvh.primitives_.drop node.indexOffset_).take node.numPrimitives_)
              σ.intersection).2 = true
          · simp only [hret, if_true]
            constructor
            · intro σ' h; simp at h
            · intro h' h
              simp only [Option.some.injEq, TraverseStep.returned.injEq] at h
              rw [← h]
              exact hleaf _ _
          · simp only [hret, Bool.false_eq_true, if_false]
            cases σ.stack with
            | nil => simp
            | cons top rest =>
              simp only
              constructor
              · intro σ' h
                simp only [Option.some.injEq, TraverseStep.next.injEq] at h
                rw [← h]
                exact hleaf _ _
              · intro h' h; simp at h
      · simp only [hnum, if_false]
        cases bvh.boxes_.get? node.indexOffset_ with
        | none => simp
        | some childLeft =>
          cases bvh.boxes_.get? (node.indexOffset_ + 1) with
          | none => simp
          | some childRight =>
            simp only
            split
            · cases σ.stack with
              | nil => simp
              | cons top rest =>
                simp only
                constructor
                · intro σ' h
                  simp only [Option.some.injEq, TraverseStep.next.injEq] at h
                  rw [← h]
                · intro h' h; simp at h
            · split
              · split
                · simp
                · constructor
                  · intro σ' h
                    simp only [Option.some.injEq, TraverseStep.next.injEq] at h
                    rw [← h]
                  · intro h' h; simp at h
              · constructor
                · intro σ' h
                  simp only [Option.some.injEq, TraverseStep.next.injEq] at h
                  rw [← h]
                · intro h' h; simp at h
    · simp only [hbox, Bool.false_eq_true, if_false]
      cases σ.stack with
      | nil => simp
      | cons top rest =>
        simp only
        constructor
        · intro σ' h
          simp only [Option.some.injEq, TraverseStep.next.injEq] at h
          rw [← h]
        · intro h' h; simp at h

/-- Whatever the loop of `intersect` returns on any node array is not longer than the hit it
started from. -/
theorem intersectLoop_length_le {T : Type} (Sh : Shape T) (bvh : BVH T) (ray : Ray)
    (shadow : Bool)
    (hmono : ∀ p ∈ bvh.primitives_, ∀ h, (Sh.intersect p h ray).length_ ≤ h.length_)
    (f : Nat) (σ : TraverseState) (h' : Intersection)
    (h : BVH.intersectLoop Sh bvh ray shadow f σ = some h') :
    h'.length_ ≤ σ.intersection.length_ := by
  induction f generalizing σ with
  | zero => simp [BVH.intersectLoop] at h
  | succ f ih =>
    obtain ⟨hnext, hret⟩ := intersectBody_length_le Sh bvh ray shadow hmono σ
    simp only [BVH.intersectLoop] at h
    cases hb : BVH.intersectBody Sh bvh ray shadow σ with
    | none => rw [hb] at h; simp at h
    | some step =>
      rw [hb] at h
      cases step with
      | returned r =>
        simp only [Option.some.injEq] at h
        rw [← h]
        exact hret r hb
      | next σ' =>
        simp only at h
        split at h
        · exact le_trans (ih σ' h) (hnext σ' hb)
        · simp only [Option.some.injEq] at h
          rw [← h]
          exact hnext σ' hb

theorem intersect_length_le {T : Type} (Sh : Shape T) (bvh : BVH T) (ray : Ray)
    (shadow : Bool)
    (hmono : ∀ p ∈ bvh.primitives_, ∀ h, (Sh.intersect p h ray).length_ ≤ h.length_)
    (h h' : Intersection) (hi : BVH.intersect Sh bvh h ray shadow = some h') :
    h'.length_ ≤ h.length_ := by
  unfold BVH.intersect at hi
  split at hi
  · simp only [Option.some.injEq] at hi
    rw [← hi]
  · exact intersectLoop_length_le Sh bvh ray shadow hmono _ _ h' hi

/-! ## Planes -/

theorem plane_length_le (Epsilon : ℚ) (normalize : Vec3 → Vec3) (pl : Plane) (h : Intersection)
    (ray : Ray) :
    ((Plane.shape Epsilon normalize).intersect pl h ray).length_ ≤ h.length_ := by
  simp only [Plane.shape, Plane.intersect]
  split
  · exact le_refl _
  · split
    · exact le_refl _
    · cases fdiv (pl.normal_.dot (pl.point_.sub ray.origin_)) (pl.normal_.dot ray.direction_) with
      | none => exact le_refl _
      | some t =>
        simp only
        split
        · exact le_refl _
        · rename_i hn
          simp only [Option.getD_some]
          push_neg at hn
          exact le_of_lt hn.2

theorem Built.perm_primitives {T : Type} {fl : ℚ → ℚ} {S : Sorter} {Sh : Shape T}
    {primitives : List T}
    {bvh : BVH T} {σ : BuildState} {t : Tree} (hb : Built fl S Sh primitives bvh σ t) :
    List.Perm bvh.primitives_ primitives := by
  obtain ⟨ps, hps, hperm⟩ := reorder_of_perm Sh primitives σ.buildNodes hb.perm
  rw [hb.reordered] at hps
  simp only [Option.some.injEq] at hps
  rw [hps]
  exact hperm

theorem construct_nil {T : Type} (fl : ℚ → ℚ) (S : Sorter) (Sh : Shape T) :
    BVH.construct fl S Sh ([] : List T) = some ⟨[BVHNode.default], []⟩ := rfl

/-! ## Properties of the specification -/

/-- C2: after the construction of a BVH from any primitive list, every node with
`numPrimitives > 0` addresses a range `[indexOffset, indexOffset + numPrimitives)` of the
reordered primitive vector and its box contains the AABB of each primitive stored there; the
constructor returns a hierarchy for every list of at most 513 primitives. -/
theorem leaf_box_contains_primitives {T : Type} (fl : ℚ → ℚ) (S : Sorter) (Sh : Shape T)
    (primitives : List T) :
    (primitives.length ≤ 513 → ∃ bvh, BVH.construct fl S Sh primitives = some bvh) ∧
    ∀ bvh, BVH.construct fl S Sh primitives = some bvh →
      ∀ i node, bvh.boxes_.get? i = some node → 0 < node.numPrimitives_ →
        node.indexOffset_ + node.numPrimitives_ ≤ bvh.primitives_.length ∧
        ∀ j p, node.indexOffset_ ≤ j → j < node.indexOffset_ + node.numPrimitives_ →
          bvh.primitives_.get? j = some p → node.box_.contains (Sh.getAABB p) := by
  refine ⟨construct_total fl S Sh primitives, ?_⟩
  intro bvh hc i node hi hnum
  by_cases hne : primitives = []
  · subst hne
    rw [construct_nil] at hc
    simp only [Option.some.injEq] at hc
    subst hc
    cases i with
    | zero =>
      simp only [List.get?_cons_zero, Option.some.injEq] at hi
      subst hi
      simp [BVHNode.default] at hnum
    | succ i => simp at hi
  · obtain ⟨σ, t, hb⟩ := construct_built fl S Sh primitives hne bvh hc
    obtain ⟨hl1, hl2⟩ := hb.lengths
    obtain ⟨b, e, m, t', hh, he⟩ := hb.node i node hi
    rcases hh.leaf_or_inner node hi with ⟨ho, hn, hpos, _, hbox⟩ | ⟨hzero, _⟩
    · refine ⟨by rw [ho, hn, hl2]; omega, ?_⟩
      intro j p hj1 hj2 hp
      rw [ho] at hj1
      rw [ho, hn] at hj2
      have hjlt : j < σ.buildNodes.length := by rw [hl1]; omega
      have hn' : σ.buildNodes.get? j = some (σ.buildNodes.get ⟨j, hjlt⟩) := by
        simp [List.get?_eq_getElem?]
      have hmem : σ.buildNodes.get ⟨j, hjlt⟩ ∈ slice σ.buildNodes b e := by
        apply List.mem_iff_get?.mpr
        refine ⟨j - b, ?_⟩
        rw [slice_get?, if_pos (by omega)]
        have : b + (j - b) = j := by omega
        rw [this]
        exact hn'
      have := boxOf_contains hbox _ hmem
      rw [(hb.node_box j _ p hn' hp).2] at this
      exact this
    · omega

/-- C3: after the construction of a BVH, the box of every inner node (a node with
`numPrimitives == 0`) equals the union (componentwise minimum of the mins, maximum of the
maxes) of the boxes of its two children, which are stored at `indexOffset` and
`indexOffset + 1`; the only other node with `numPrimitives == 0` is the single default node
of the BVH of an empty list. The constructor returns a hierarchy for every list of at most
513 primitives. -/
theorem inner_box_eq_union {T : Type} (fl : ℚ → ℚ) (S : Sorter) (Sh : Shape T)
    (primitives : List T) :
    (primitives.length ≤ 513 → ∃ bvh, BVH.construct fl S Sh primitives = some bvh) ∧
    ∀ bvh, BVH.construct fl S Sh primitives = some bvh →
      ∀ i node, bvh.boxes_.get? i = some node → node.numPrimitives_ = 0 →
        (primitives = [] ∧ bvh.boxes_ = [BVHNode.default]) ∨
        ∃ childLeft childRight, bvh.boxes_.get? node.indexOffset_ = some childLeft ∧
          bvh.boxes_.get? (node.indexOffset_ + 1) = some childRight ∧
          node.box_ = surroundingBox childLeft.box_ childRight.box_ ∧
          node.box_.pointMin_ = Vec3.min childLeft.box_.pointMin_ childRight.box_.pointMin_ ∧
          node.box_.pointMax_ = Vec3.max childLeft.box_.pointMax_ childRight.box_.pointMax_ := by
  refine ⟨construct_total fl S Sh primitives, ?_⟩
  intro bvh hc i node hi hnum
  by_cases hne : primitives = []
  · left
    subst hne
    rw [construct_nil] at hc
    simp only [Option.some.injEq] at hc
    subst hc
    exact ⟨rfl, rfl⟩
  · right
    obtain ⟨σ, t, hb⟩ := construct_built fl S Sh primitives hne bvh hc
    obtain ⟨b, e, m, t', hh, he⟩ := hb.node i node hi
    rcases hh.leaf_or_inner node hi with ⟨_, hn, hpos, _, _⟩ | ⟨_, ho, l, r, hl, hr, hbox, _⟩
    · omega
    · rw [ho]
      refine ⟨l, r, hl, hr, hbox, ?_, ?_⟩
      · rw [hbox]; rfl
      · rw [hbox]; rfl

/-- C4: after the construction of a BVH from a non-empty primitive list, every leaf (a node
with `numPrimitives ≠ 0`) has `1 ≤ numPrimitives ≤ 2`, every node with `numPrimitives == 0`
has both child indices `indexOffset` and `indexOffset + 1` inside the truncated node array,
and every node can be reached from the root at index 0; the constructor returns a hierarchy
for every list of at most 513 primitives. -/
theorem leaf_size_and_reachable {T : Type} (fl : ℚ → ℚ) (S : Sorter) (Sh : Shape T)
    (primitives : List T)
    (hne : primitives ≠ []) :
    (primitives.length ≤ 513 → ∃ bvh, BVH.construct fl S Sh primitives = some bvh) ∧
    ∀ bvh, BVH.construct fl S Sh primitives = some bvh →
      ∀ i node, bvh.boxes_.get? i = some node →
        (node.numPrimitives_ ≠ 0 → 1 ≤ node.numPrimitives_ ∧ node.numPrimitives_ ≤ 2) ∧
        (node.numPrimitives_ = 0 → node.indexOffset_ < bvh.boxes_.length ∧
          node.indexOffset_ + 1 < bvh.boxes_.length) ∧
        Reachable bvh.boxes_ 0 i := by
  refine ⟨construct_total fl S Sh primitives, ?_⟩
  intro bvh hc i node hi
  obtain ⟨σ, t, hb⟩ := construct_built fl S Sh primitives hne bvh hc
  have hlt : i < t.size := by
    rw [← hb.size_eq]
    simp only [List.get?_eq_getElem?] at hi
    exact (List.getElem?_eq_some_iff.mp hi).1
  have hreach : Reachable bvh.boxes_ 0 i :=
    hb.holds.reachable 0 (Reachable.root) i (by omega)
  obtain ⟨b, e, m, t', hh, he⟩ := hb.node i node hi
  rcases hh.leaf_or_inner node hi with ⟨_, hn, hpos, hle, _⟩ | ⟨hz, ho, l, r, hl, hr, _, _⟩
  · exact ⟨fun _ => by omega, fun h0 => by omega, hreach⟩
  · refine ⟨fun h0 => absurd hz h0, fun _ => ?_, hreach⟩
    simp only [List.get?_eq_getElem?] at hl hr
    have h1 := (List.getElem?_eq_some_iff.mp hl).1
    have h2 := (List.getElem?_eq_some_iff.mp hr).1
    rw [ho]
    exact ⟨h1, h2⟩

/-- Witness of C4: the hierarchy over the three sample planes. -/
theorem leaf_size_and_reachable_witness :
    samplePlanes ≠ [] ∧
    ((samplePlanes.length ≤ 513 →
        ∃ bvh, BVH.construct binary32 insertionSorter sampleShape samplePlanes = some bvh) ∧
      ∀ bvh, BVH.construct binary32 insertionSorter sampleShape samplePlanes = some bvh →
        ∀ i node, bvh.boxes_.get? i = some node →
          (node.numPrimitives_ ≠ 0 → 1 ≤ node.numPrimitives_ ∧ node.numPrimitives_ ≤ 2) ∧
          (node.numPrimitives_ = 0 → node.indexOffset_ < bvh.boxes_.length ∧
            node.indexOffset_ + 1 < bvh.boxes_.length) ∧
          Reachable bvh.boxes_ 0 i) :=
  ⟨by simp [samplePlanes],
    leaf_size_and_reachable binary32 insertionSorter sampleShape samplePlanes (by simp [samplePlanes])⟩

/-- C5: for every input primitive list, `getPrimitives()` of the built BVH is a permutation
of the input: it has the same length, entry `i` is the input primitive at the original index
recorded in build node `i` of the final build nodes, and the recorded indices are a
permutation of `0, ..., N - 1`, so every input index is used exactly once; the constructor
returns a hierarchy for every list of at most 513 primitives. -/
theorem getPrimitives_perm {T : Type} (fl : ℚ → ℚ) (S : Sorter) (Sh : Shape T)
    (primitives : List T) :
    (primitives.length ≤ 513 → ∃ bvh, BVH.construct fl S Sh primitives = some bvh) ∧
    ∀ bvh, BVH.construct fl S Sh primitives = some bvh →
      List.Perm bvh.getPrimitives primitives ∧
      bvh.getPrimitives.length = primitives.length ∧
      (primitives ≠ [] → ∃ σ,
        BVH.buildFinal fl S Sh (List.replicate (primitives.length * 2 - 1) BVHNode.default)
          primitives = some σ ∧
        σ.buildNodes.length = primitives.length ∧
        (∀ i n, σ.buildNodes.get? i = some n →
          n.oldIndex_ < primitives.length ∧
          bvh.getPrimitives.get? i = primitives.get? n.oldIndex_) ∧
        List.Perm (σ.buildNodes.map (fun n => n.oldIndex_)) (List.range primitives.length)) := by
  refine ⟨construct_total fl S Sh primitives, ?_⟩
  intro bvh hc
  by_cases hne : primitives = []
  · subst hne
    rw [construct_nil] at hc
    simp only [Option.some.injEq] at hc
    subst hc
    exact ⟨List.Perm.refl _, rfl, fun h => absurd rfl h⟩
  · obtain ⟨σ, t, hb⟩ := construct_built fl S Sh primitives hne bvh hc
    obtain ⟨hl1, hl2⟩ := hb.lengths
    refine ⟨hb.perm_primitives, hl2, fun _ => ⟨σ, hb.final, hl1, ?_, ?_⟩⟩
    · intro i n hn
      have hilt : i < bvh.primitives_.length := by
        rw [hl2, ← hl1]
        simp only [List.get?_eq_getElem?] at hn
        exact (List.getElem?_eq_some_iff.mp hn).1
      have hp : bvh.primitives_.get? i = some (bvh.primitives_.get ⟨i, hilt⟩) := by
        simp [List.get?_eq_getElem?]
      have := (hb.node_box i n _ hn hp).1
      refine ⟨?_, ?_⟩
      · simp only [List.get?_eq_getElem?] at this
        exact (List.getElem?_eq_some_iff.mp this).1
      · simp only [BVH.getPrimitives]
        rw [hp, this]
    · rw [← initialNodes_oldIndex Sh primitives]
      exact hb.perm.map _

/-- C6 (as amended): for every sequence of `n ≥ 2` boxes and every rounding `fl` to `float`,
`getSplitIndexSah` returns the `k` in `[1, n)` that minimises the cost as the program
computes it, `fl (fl (fl k * areaLeft) + fl (fl (n - k) * areaRight))` on the two areas stored
as `float` (for `k = 1` the left product is the left area itself), and among several
minimisers of the computed cost it returns the smallest `k`. Without rounding the computed
cost is `k * area(union of boxes[0..k)) + (n - k) * area(union of boxes[k..n))`. -/
theorem getSplitIndexSah_min (fl : ℚ → ℚ) (boxes : List AABB) (hn : 2 ≤ boxes.length) :
    (∃ k, BVH.getSplitIndexSah fl boxes = some k ∧ 1 ≤ k ∧ k < boxes.length ∧
      ∀ j, 1 ≤ j → j < boxes.length →
        sahCostFloat fl boxes k ≤ sahCostFloat fl boxes j ∧
        (sahCostFloat fl boxes j = sahCostFloat fl boxes k → k ≤ j)) ∧
    (∀ j, sahCostFloat unrounded boxes j = sahCost boxes j) ∧
    (∃ k, BVH.getSplitIndexSah unrounded boxes = some k ∧ 1 ≤ k ∧ k < boxes.length ∧
      ∀ j, 1 ≤ j → j < boxes.length →
        sahCost boxes k ≤ sahCost boxes j ∧ (sahCost boxes j = sahCost boxes k → k ≤ j)) :=
  ⟨getSplitIndexSah_spec fl boxes hn, fun j => sahCostFloat_unrounded boxes j,
    getSplitIndexSah_spec_unrounded boxes hn⟩

/-- Witness of C6 as amended: four boxes, two near the origin and two near `(5, 5, 5)`, in
binary32 arithmetic. -/
theorem getSplitIndexSah_min_witness :
    2 ≤ sampleBoxes.length ∧
    ((∃ k, BVH.getSplitIndexSah binary32 sampleBoxes = some k ∧ 1 ≤ k ∧
        k < sampleBoxes.length ∧
      ∀ j, 1 ≤ j → j < sampleBoxes.length →
        sahCostFloat binary32 sampleBoxes k ≤ sahCostFloat binary32 sampleBoxes j ∧
        (sahCostFloat binary32 sampleBoxes j = sahCostFloat binary32 sampleBoxes k → k ≤ j)) ∧
    (∀ j, sahCostFloat unrounded sampleBoxes j = sahCost sampleBoxes j) ∧
    (∃ k, BVH.getSplitIndexSah unrounded sampleBoxes = some k ∧ 1 ≤ k ∧
        k < sampleBoxes.length ∧
      ∀ j, 1 ≤ j → j < sampleBoxes.length →
        sahCost sampleBoxes k ≤ sahCost sampleBoxes j ∧
        (sahCost sampleBoxes j = sahCost sampleBoxes k → k ≤ j))) :=
  ⟨by decide, getSplitIndexSah_min binary32 sampleBoxes (by decide)⟩

/-- Counterexample to C6 as stated: for five copies of the box from `(0, 0, 0)` to
`(8388615/8388608, 1, 0)` every split has the same cost `5 * area`, so the smallest
minimiser is 1, and in binary32 arithmetic `getSplitIndexSah` returns 2: the cost computed
for the split at 1 is `83886152 / 2^23` and the one for the split at 2 is `83886144 / 2^23`. -/
theorem getSplitIndexSah_rounding :
    2 ≤ tieBoxes.length ∧
    BVH.getSplitIndexSah binary32 tieBoxes = some 2 ∧
    (∀ j, 1 ≤ j → j < tieBoxes.length → sahCost tieBoxes j = sahCost tieBoxes 1) ∧
    sahCostFloat binary32 tieBoxes 1 = 83886152 / 8388608 ∧
    sahCostFloat binary32 tieBoxes 2 = 83886144 / 8388608 ∧
    BVH.getSplitIndexSah unrounded tieBoxes = some 1 := by
  refine ⟨by decide, by decide!, ?_, by decide!, by decide!, by decide!⟩
  intro j hj1 hj2
  have hj : j = 1 ∨ j = 2 ∨ j = 3 ∨ j = 4 := by
    have : tieBoxes.length = 5 := rfl
    omega
  rcases hj with rfl | rfl | rfl | rfl <;> decide!

/-- C7: for every BVH of planes, every input hit `h` and every ray `r`, `BVH::trace(h, r)`
and `BVH::shadowTrace(h, r)` return a hit whose length is less than or equal to `h.length`:
whatever a query returns on any node array is not longer than `h`, and on every hierarchy
the constructor returns both queries return. The constructor returns a hierarchy for every
list of at most 513 planes. -/
theorem plane_query_length_le (fl : ℚ → ℚ) (S : Sorter) (Epsilon : ℚ) (normalize : Vec3 → Vec3)
    (planes : List Plane) (h : Intersection) (ray : Ray) :
    (∀ (bvh : BVH Plane) (h' : Intersection),
      (BVH.trace (Plane.shape Epsilon normalize) bvh h ray = some h' ∨
        BVH.shadowTrace (Plane.shape Epsilon normalize) bvh h ray = some h') →
      h'.length_ ≤ h.length_) ∧
    (planes.length ≤ 513 →
      ∃ bvh, BVH.construct fl S (Plane.shape Epsilon normalize) planes = some bvh) ∧
    ∀ bvh, BVH.construct fl S (Plane.shape Epsilon normalize) planes = some bvh →
      ∃ h1 h2, BVH.trace (Plane.shape Epsilon normalize) bvh h ray = some h1 ∧
        BVH.shadowTrace (Plane.shape Epsilon normalize) bvh h ray = some h2 ∧
        h1.length_ ≤ h.length_ ∧ h2.length_ ≤ h.length_ := by
  have hany : ∀ (bvh : BVH Plane) (h' : Intersection),
      (BVH.trace (Plane.shape Epsilon normalize) bvh h ray = some h' ∨
        BVH.shadowTrace (Plane.shape Epsilon normalize) bvh h ray = some h') →
      h'.length_ ≤ h.length_ := by
    intro bvh h' hq
    rcases hq with hq | hq
    · exact intersect_length_le _ bvh ray false
        (fun p _ h'' => plane_length_le Epsilon normalize p h'' ray) h h' hq
    · exact intersect_length_le _ bvh ray true
        (fun p _ h'' => plane_length_le Epsilon normalize p h'' ray) h h' hq
  refine ⟨hany, construct_total fl S _ planes, ?_⟩
  intro bvh hc
  by_cases hne : planes = []
  · subst hne
    rw [construct_nil] at hc
    simp only [Option.some.injEq] at hc
    subst hc
    exact ⟨h, h, rfl, rfl, le_refl _, le_refl _⟩
  · obtain ⟨σ, t, hb⟩ := construct_built fl S _ planes hne bvh hc
    have h1 := intersect_built hb hne h ray false
    have h2 := intersect_built hb hne h ray true
    exact ⟨_, _, h1, h2, hany bvh _ (Or.inl h1), hany bvh _ (Or.inr h2)⟩

/-- C8: for every plane (anchor `p0`, normal `n`), hit `h` and ray `r` (origin `o`, direction
`d`), with a positive `Epsilon`, `Plane::intersect` returns `h` unchanged when `r`'s
originating primitive is this plane, or `|n.d| < Epsilon`, or `t < Epsilon`, or
`t >= h.length`, where `t = n.(p0 - o) / (n.d)`; in every other case it returns the record
`{point = o + t*d, length = t, normal = n, primitive = this plane}`. A ray parallel to the
plane is a miss, and the division is always defined: `n.d = 0` is never the divisor. -/
theorem plane_intersect_cases (Epsilon : ℚ) (hpos : 0 < Epsilon) (pl : Plane) (h : Intersection)
    (ray : Ray) :
    Plane.intersect Epsilon pl h ray = some
      (if ray.primitive_ = some pl.addr ∨ |pl.normal_.dot ray.direction_| < Epsilon ∨
          pl.normal_.dot (pl.point_.sub ray.origin_) / pl.normal_.dot ray.direction_ < Epsilon ∨
          h.length_ ≤
            pl.normal_.dot (pl.point_.sub ray.origin_) / pl.normal_.dot ray.direction_ then h
        else ⟨ray.origin_.add (ray.direction_.scale
            (pl.normal_.dot (pl.point_.sub ray.origin_) / pl.normal_.dot ray.direction_)),
          pl.normal_.dot (pl.point_.sub ray.origin_) / pl.normal_.dot ray.direction_,
          pl.normal_, some pl.addr⟩) ∧
    (pl.normal_.dot ray.direction_ = 0 → Plane.intersect Epsilon pl h ray = some h) := by
  constructor
  · unfold Plane.intersect
    by_cases hself : ray.primitive_ = some pl.addr
    · simp [hself]
    · by_cases hpar : |pl.normal_.dot ray.direction_| < Epsilon
      · simp [hself, hpar]
      · have hnz : pl.normal_.dot ray.direction_ ≠ 0 := by
          intro h0
          rw [h0, abs_zero] at hpar
          exact hpar hpos
        simp only [hself, hpar, if_false, fdiv, hnz, false_or, ge_iff_le]
        split <;> rfl
  · intro h0
    unfold Plane.intersect
    by_cases hself : ray.primitive_ = some pl.addr
    · simp [hself]
    · have hpar : |pl.normal_.dot ray.direction_| < Epsilon := by
        rw [h0, abs_zero]; exact hpos
      simp [hself, hpar]

/-- Witness of C8: the plane `z = 0` and the ray from `(0, 0, 1)` straight down. -/
theorem plane_intersect_cases_witness :
    0 < sampleEpsilon ∧
    (Plane.intersect sampleEpsilon floorPlane (Intersection.miss sampleRayLengthMax) downRay =
      some (if downRay.primitive_ = some floorPlane.addr ∨
          |floorPlane.normal_.dot downRay.direction_| < sampleEpsilon ∨
          floorPlane.normal_.dot (floorPlane.point_.sub downRay.origin_) /
            floorPlane.normal_.dot downRay.direction_ < sampleEpsilon ∨
          (Intersection.miss sampleRayLengthMax).length_ ≤
            floorPlane.normal_.dot (floorPlane.point_.sub downRay.origin_) /
              floorPlane.normal_.dot downRay.direction_ then Intersection.miss sampleRayLengthMax
        else ⟨downRay.origin_.add (downRay.direction_.scale
            (floorPlane.normal_.dot (floorPlane.point_.sub downRay.origin_) /
              floorPlane.normal_.dot downRay.direction_)),
          floorPlane.normal_.dot (floorPlane.point_.sub downRay.origin_) /
            floorPlane.normal_.dot downRay.direction_,
          floorPlane.normal_, some floorPlane.addr⟩) ∧
      (floorPlane.normal_.dot downRay.direction_ = 0 →
        Plane.intersect sampleEpsilon floorPlane (Intersection.miss sampleRayLengthMax) downRay =
          some (Intersection.miss sampleRayLengthMax))) :=
  ⟨by norm_num [sampleEpsilon],
    plane_intersect_cases sampleEpsilon (by norm_num [sampleEpsilon]) floorPlane
      (Intersection.miss sampleRayLengthMax) downRay⟩

/-- C9: `Shader::rayTrace` starts from the miss state `{RayLengthMax, no primitive}`, applies
the active accelerator's `trace` to planes, then spheres, then triangles, then every light's
`intersect` in turn; it invokes `shade` (once, on that hit) exactly when the resulting hit
length is below the initial length and then returns `shade`'s boolean, and otherwise returns
false without invoking `shade`. -/
theorem rayTrace_dispatch (RayLengthMax : ℚ) (sh : Shader) (rgb : Vec3) (ray : Ray) :
    sh.rayTrace RayLengthMax rgb ray =
      (if (sh.lights_.foldl (fun h light => light h ray)
            (sh.dispatchTrace (Intersection.miss RayLengthMax) ray)).length_ < RayLengthMax then
        ⟨(sh.shade rgb (sh.lights_.foldl (fun h light => light h ray)
            (sh.dispatchTrace (Intersection.miss RayLengthMax) ray)) ray).1,
          (sh.shade rgb (sh.lights_.foldl (fun h light => light h ray)
            (sh.dispatchTrace (Intersection.miss RayLengthMax) ray)) ray).2,
          [(rgb, sh.lights_.foldl (fun h light => light h ray)
            (sh.dispatchTrace (Intersection.miss RayLengthMax) ray), ray)]⟩
      else ⟨false, rgb, []⟩) := by
  unfold Shader.rayTrace Shader.dispatchTrace Shader.active Shader.traceLights
  cases sh.accelerator_ <;> rfl

/-- C10: for every accelerator kind, input hit and ray, `Shader::shadowTrace` returns true if
and only if the hit length after dispatching `shadowTrace` over the planes, spheres and
triangles of the active accelerator is strictly smaller than the input hit's length. -/
theorem shadowTrace_iff (sh : Shader) (h : Intersection) (ray : Ray) :
    sh.shadowTrace h ray = true ↔ (sh.dispatchShadowTrace h ray).length_ < h.length_ := by
  unfold Shader.shadowTrace Shader.dispatchShadowTrace Shader.active
  cases sh.accelerator_ <;> simp

/-! ## The resolve step of the loader -/

theorem resolveMaterial_of_mem (materials_ : List Material) (m : Material)
    (h : m ∈ materials_) :
    OBJLoader.resolveMaterial materials_ m = (materials_.indexOf m, materials_) := by
  have hlt : materials_.indexOf m < materials_.length := List.indexOf_lt_length.2 h
  unfold OBJLoader.resolveMaterial
  simp only
  rw [if_pos (Nat.ne_of_lt hlt)]

theorem resolveMaterial_of_not_mem (materials_ : List Material) (m : Material)
    (h : m ∉ materials_) :
    OBJLoader.resolveMaterial materials_ m = (materials_.length, materials_ ++ [m]) := by
  have heq : materials_.indexOf m = materials_.length := List.indexOf_eq_length.2 h
  unfold OBJLoader.resolveMaterial
  simp only
  rw [if_neg (by simp [heq])]

theorem resolveMaterial_index (materials_ : List Material) (m : Material) :
    (OBJLoader.resolveMaterial materials_ m).1
      = (OBJLoader.resolveMaterial materials_ m).2.indexOf m := by
  by_cases h : m ∈ materials_
  · rw [resolveMaterial_of_mem _ _ h]
  · rw [resolveMaterial_of_not_mem _ _ h]
    simp only
    rw [List.indexOf_append_of_not_mem h]
    simp

theorem resolveMaterial_mem (materials_ : List Material) (m : Material) :
    m ∈ (OBJLoader.resolveMaterial materials_ m).2 := by
  by_cases h : m ∈ materials_
  · rw [resolveMaterial_of_mem _ _ h]; exact h
  · rw [resolveMaterial_of_not_mem _ _ h]; simp

theorem resolveMaterial_extends (materials_ : List Material) (m : Material) :
    ∃ extra, (OBJLoader.resolveMaterial materials_ m).2 = materials_ ++ extra := by
  by_cases h : m ∈ materials_
  · exact ⟨[], by rw [resolveMaterial_of_mem _ _ h]; simp⟩
  · exact ⟨[m], by rw [resolveMaterial_of_not_mem _ _ h]⟩

theorem resolveAll_extends (ms : List Material) :
    ∀ materials_ : List Material, ∃ extra, resolveAll materials_ ms = materials_ ++ extra := by
  induction ms with
  | nil => intro materials_; exact ⟨[], by simp [resolveAll]⟩
  | cons m ms ih =>
    intro materials_
    obtain ⟨e1, h1⟩ := resolveMaterial_extends materials_ m
    obtain ⟨e2, h2⟩ := ih (OBJLoader.resolveMaterial materials_ m).2
    refine ⟨e1 ++ e2, ?_⟩
    have : resolveAll materials_ (m :: ms)
        = resolveAll (OBJLoader.resolveMaterial materials_ m).2 ms := by
      simp [resolveAll]
    rw [this, h2, h1, List.append_assoc]

theorem indexOf_first (l : List Material) (m : Material) :
    ∀ j, j < l.indexOf m → l.get? j ≠ some m := by
  induction l with
  | nil => intro j hj; simp at hj
  | cons a l ih =>
    intro j hj
    by_cases ha : a = m
    · subst ha; simp at hj
    · rw [List.indexOf_cons_ne _ ha] at hj
      cases j with
      | zero => simpa using ha
      | succ j =>
        simp only [List.get?_cons_succ]
        exact ih j (by omega)

/-- C11: the resolve step of `fillScene` on any palette and any material `m` yields an index
at which the new palette holds `m`; if `m` is in the palette the palette is unchanged and
the index is the first position of `m`, otherwise `m` is appended and the index is the old
size. After any further resolve steps `m` resolves to the same index, and a palette without
duplicates stays without duplicates. -/
theorem resolveMaterial_dedup (materials_ : List Material) (m : Material) :
    ((OBJLoader.resolveMaterial materials_ m).2.get? (OBJLoader.resolveMaterial materials_ m).1
        = some m) ∧
    (m ∈ materials_ →
      (OBJLoader.resolveMaterial materials_ m).2 = materials_ ∧
      ∀ j, j < (OBJLoader.resolveMaterial materials_ m).1 → materials_.get? j ≠ some m) ∧
    (m ∉ materials_ →
      (OBJLoader.resolveMaterial materials_ m).2 = materials_ ++ [m] ∧
      (OBJLoader.resolveMaterial materials_ m).1 = materials_.length) ∧
    (∀ ms, (OBJLoader.resolveMaterial
        (resolveAll (OBJLoader.resolveMaterial materials_ m).2 ms) m).1
        = (OBJLoader.resolveMaterial materials_ m).1) ∧
    (materials_.Nodup → (OBJLoader.resolveMaterial materials_ m).2.Nodup) := by
  refine ⟨?_, ?_, ?_, ?_, ?_⟩
  · rw [resolveMaterial_index]
    have hmem := resolveMaterial_mem materials_ m
    have hlt := List.indexOf_lt_length.2 hmem
    rw [List.get?_eq_get hlt]
    simp
  · intro h
    rw [resolveMaterial_of_mem _ _ h]
    exact ⟨rfl, indexOf_first materials_ m⟩
  · intro h
    rw [resolveMaterial_of_not_mem _ _ h]
    exact ⟨rfl, rfl⟩
  · intro ms
    obtain ⟨extra, he⟩ := resolveAll_extends ms (OBJLoader.resolveMaterial materials_ m).2
    have hmem := resolveMaterial_mem materials_ m
    have hmem2 : m ∈ resolveAll (OBJLoader.resolveMaterial materials_ m).2 ms := by
      rw [he]; exact List.mem_append_left _ hmem
    rw [resolveMaterial_of_mem _ _ hmem2, he]
    simp only
    rw [List.indexOf_append_of_mem hmem, ← resolveMaterial_index]
  · intro hnd
    by_cases h : m ∈ materials_
    · rw [resolveMaterial_of_mem _ _ h]; exact hnd
    · rw [resolveMaterial_of_not_mem _ _ h]
      simp only
      rw [List.nodup_append]
      refine ⟨hnd, List.nodup_singleton m, ?_⟩
      intro a ha hb
      simp only [List.mem_singleton] at hb
      subst hb
      exact h ha

/-! ## The triangle count of the constructor -/

theorem countTriangles_faces (faces : List Nat) :
    ∀ n : Nat, faces.foldl (fun numberTriangles_ numFaceVertices =>
      numberTriangles_ + numFaceVertices / 3) n = n + (faces.map (fun k => k / 3)).sum := by
  induction faces with
  | nil => intro n; simp
  | cons a faces ih =>
    intro n
    simp only [List.foldl_cons, List.map_cons, List.sum_cons]
    rw [ih]; omega

theorem countTriangles_shapes (shapes_ : List shape_t) :
    ∀ n : Nat, shapes_.foldl (fun numberTriangles_ shape =>
      shape.mesh.num_face_vertices.foldl
        (fun numberTriangles_ numFaceVertices => numberTriangles_ + numFaceVertices / 3)
        numberTriangles_) n
      = n + (shapes_.map (fun shape =>
          (shape.mesh.num_face_vertices.map (fun k => k / 3)).sum)).sum := by
  induction shapes_ with
  | nil => intro n; simp
  | cons s shapes_ ih =>
    intro n
    simp only [List.foldl_cons, List.map_cons, List.sum_cons]
    rw [ih, countTriangles_faces]; omega

/-- The constructor adds the quotient by 3 of the number of vertices of every face. -/
theorem countTriangles_eq (shapes_ : List shape_t) :
    OBJLoader.countTriangles shapes_
      = (shapes_.map (fun shape =>
          (shape.mesh.num_face_vertices.map (fun k => k / 3)).sum)).sum := by
  unfold OBJLoader.countTriangles
  rw [countTriangles_shapes]; simp

theorem sum_filter_divisible (faces : List Nat) (h : ∀ k ∈ faces, k % 3 = 0) :
    ((faces.filter (fun n => n % 3 = 0)).map (fun n => n / 3)).sum
      = (faces.map (fun k => k / 3)).sum := by
  have : faces.filter (fun n => n % 3 = 0) = faces := by
    rw [List.filter_eq_self]
    intro a ha
    simpa using h a ha
  rw [this]

/-- On shapes whose faces all have a number of vertices divisible by 3, the count of the
constructor is the sum over these faces. -/
theorem countTriangles_of_divisible (shapes_ : List shape_t)
    (h : ∀ shape ∈ shapes_, ∀ k ∈ shape.mesh.num_face_vertices, k % 3 = 0) :
    OBJLoader.countTriangles shapes_ = countDivisible shapes_ := by
  rw [countTriangles_eq]
  unfold countDivisible
  congr 1
  apply List.map_congr_left
  intro shape hs
  rw [sum_filter_divisible _ (h shape hs)]

/-! ## What a run of the loader adds to the scene -/

/-- The number of primitives a thread holds: its triangles and its lights. -/
theorem loadTriangle_count (lib : Library) (loader : OBJLoader) (filePath : String)
    (shape : shape_t) (face offset : Nat) (st st' : Worker × List Material)
    (h : loader.loadTriangle lib filePath shape face offset st = some st') :
    st'.1.triangles.length + st'.1.lights.length
      = st.1.triangles.length + st.1.lights.length + 1 := by
  unfold OBJLoader.loadTriangle at h
  simp only [Option.bind_eq_bind, Option.bind_eq_some, Option.pure_def] at h
  obtain ⟨vertices, -, normal, -, materialId, -, idx, -, h⟩ := h
  split at h
  · simp only [Option.bind_eq_bind, Option.bind_eq_some, Option.pure_def] at h
    obtain ⟨mat, -, tex, -, h⟩ := h
    split at h
    · simp only [Option.some.injEq] at h
      subst h
      simp only [List.length_append, List.length_singleton]
      omega
    · simp only [Option.some.injEq] at h
      subst h
      simp only [List.length_append, List.length_singleton]
      omega
  · simp only [Option.bind_eq_bind, Option.bind_eq_some, Option.pure_def] at h
    obtain ⟨color, -, h⟩ := h
    simp only [Option.some.injEq] at h
    subst h
    simp only [List.length_append, List.length_singleton]
    omega

theorem foldlM_measure {σ α : Type} (f : σ → α → Option σ) (μ : σ → Nat) (c : α → Nat)
    (h : ∀ s a s', f s a = some s' → μ s' = μ s + c a) :
    ∀ (l : List α) (s s' : σ), l.foldlM f s = some s' → μ s' = μ s + (l.map c).sum := by
  intro l
  induction l with
  | nil =>
    intro s s' hs
    simp only [List.foldlM_nil, Option.pure_def, Option.some.injEq] at hs
    subst hs; simp
  | cons a l ih =>
    intro s s' hs
    simp only [List.foldlM_cons, Option.bind_eq_bind, Option.bind_eq_some] at hs
    obtain ⟨s1, h1, h2⟩ := hs
    rw [ih s1 s' h2, h s a s1 h1]
    simp only [List.map_cons, List.sum_cons]
    omega

theorem vertexSteps_length (k : Nat) : (OBJLoader.vertexSteps (3 * k)).length = k := by
  unfold OBJLoader.vertexSteps
  induction k with
  | zero => simp
  | succ k ih =>
    have e : 3 * (k + 1) = 3 * k + 1 + 1 + 1 := by ring
    rw [e, List.range_succ, List.range_succ, List.range_succ]
    simp only [List.filter_append, List.length_append, ih, List.filter_cons, List.filter_nil]
    have h0 : (3 * k) % 3 = 0 := by omega
    have h1 : (3 * k + 1) % 3 ≠ 0 := by omega
    have h2 : (3 * k + 1 + 1) % 3 ≠ 0 := by omega
    simp [h0, h1, h2]

theorem loadFace_count (lib : Library) (loader : OBJLoader) (filePath : String)
    (shape : shape_t) (face indexOffset faceVertices : Nat) (hdiv : faceVertices % 3 = 0)
    (st st' : Worker × List Material)
    (h : loader.loadFace lib filePath shape face indexOffset faceVertices st = some st') :
    st'.1.triangles.length + st'.1.lights.length
      = st.1.triangles.length + st.1.lights.length + faceVertices / 3 := by
  unfold OBJLoader.loadFace at h
  have := foldlM_measure
    (fun st vertex => loader.loadTriangle lib filePath shape face (indexOffset + vertex) st)
    (fun st => st.1.triangles.length + st.1.lights.length) (fun _ => 1)
    (fun s a s' hs => loadTriangle_count lib loader filePath shape face (indexOffset + a) s s' hs)
    (OBJLoader.vertexSteps faceVertices) st st' h
  simp only at this
  rw [this]
  have hk : faceVertices = 3 * (faceVertices / 3) := by omega
  have hl : (OBJLoader.vertexSteps faceVertices).length = faceVertices / 3 := by
    conv_lhs => rw [hk]
    exact vertexSteps_length _
  simp [hl]

theorem faceLoop_count {σ : Type} (body : Nat → Nat → Nat → σ → Option σ) (μ : σ → Nat)
    (hbody : ∀ face indexOffset faceVertices s s', faceVertices % 3 = 0 →
      body face indexOffset faceVertices s = some s' → μ s' = μ s + faceVertices / 3) :
    ∀ (faces : List Nat) (face indexOffset : Nat) (s s' : σ),
      OBJLoader.faceLoop body faces face indexOffset s = some s' →
      μ s' = μ s + ((faces.filter (fun n => n % 3 = 0)).map (fun n => n / 3)).sum := by
  intro faces
  induction faces with
  | nil =>
    intro face indexOffset s s' h
    simp only [OBJLoader.faceLoop, Option.some.injEq] at h
    subst h; simp
  | cons a faces ih =>
    intro face indexOffset s s' h
    unfold OBJLoader.faceLoop at h
    by_cases ha : a % 3 = 0
    · rw [if_neg (by simpa using ha)] at h
      cases hb : body face indexOffset a s with
      | none => rw [hb] at h; simp at h
      | some s1 =>
        rw [hb] at h
        simp only at h
        rw [ih _ _ s1 s' h, hbody _ _ _ _ _ ha hb]
        simp [List.filter_cons, ha]
        omega
    · rw [if_pos ha] at h
      rw [ih _ _ s s' h]
      simp [List.filter_cons, ha]

theorem loadShape_count (lib : Library) (loader : OBJLoader) (filePath : String)
    (shapeIndex : Nat) (st st' : Worker × List Material)
    (h : loader.loadShape lib filePath shapeIndex st = some st') :
    ∃ shape, loader.shapes_.get? shapeIndex = some shape ∧
      st'.1.triangles.length + st'.1.lights.length
        = st.1.triangles.length + st.1.lights.length
          + ((shape.mesh.num_face_vertices.filter (fun n => n % 3 = 0)).map
              (fun n => n / 3)).sum := by
  unfold OBJLoader.loadShape at h
  simp only [Option.bind_eq_bind, Option.bind_eq_some] at h
  obtain ⟨shape, hs, h⟩ := h
  refine ⟨shape, hs, ?_⟩
  exact faceLoop_count (loader.loadFace lib filePath shape)
    (fun st => st.1.triangles.length + st.1.lights.length)
    (fun face indexOffset faceVertices s s' hdiv hb =>
      loadFace_count lib loader filePath shape face indexOffset faceVertices hdiv s s' hb)
    shape.mesh.num_face_vertices 0 0 st st' h

theorem loadShape_countAt (lib : Library) (loader : OBJLoader) (filePath : String)
    (shapeIndex : Nat) (st st' : Worker × List Material)
    (h : loader.loadShape lib filePath shapeIndex st = some st') :
    st'.1.triangles.length + st'.1.lights.length
      = st.1.triangles.length + st.1.lights.length
        + countDivisibleAt loader.shapes_ shapeIndex := by
  obtain ⟨shape, hs, hc⟩ := loadShape_count lib loader filePath shapeIndex st st' h
  rw [hc]
  unfold countDivisibleAt
  rw [hs]

theorem runThread_count (lib : Library) (loader : OBJLoader) (filePath : String)
    (texturesCache : List (String × Texture)) (numThreads : Nat) (scene scene' : Scene)
    (thread : Nat)
    (h : loader.runThread lib filePath texturesCache numThreads scene thread = some scene') :
    scene'.triangles_.length + scene'.lights_.length
      = scene.triangles_.length + scene.lights_.length
        + ((OBJLoader.shapesOf loader.shapes_.length numThreads thread).map
            (countDivisibleAt loader.shapes_)).sum := by
  unfold OBJLoader.runThread at h
  simp only [Option.bind_eq_bind, Option.bind_eq_some, Option.pure_def, Option.some.injEq] at h
  obtain ⟨st, hst, h⟩ := h
  have := foldlM_measure
    (fun st shapeIndex => loader.loadShape lib filePath shapeIndex st)
    (fun st => st.1.triangles.length + st.1.lights.length)
    (countDivisibleAt loader.shapes_)
    (fun s a s' hs => loadShape_countAt lib loader filePath a s s' hs)
    _ _ _ hst
  simp only [List.length_nil, Nat.add_zero, Nat.zero_add] at this
  subst h
  simp only [Scene.merge, List.length_append]
  omega

theorem list_range_sum (f : Nat → Nat) (n : Nat) :
    ((List.range n).map f).sum = ∑ i in Finset.range n, f i := by
  induction n with
  | zero => simp
  | succ n ih =>
    rw [List.range_succ, List.map_append, List.sum_append, ih, Finset.sum_range_succ]
    simp

theorem shapesOf_succ (n numThreads thread : Nat) :
    OBJLoader.shapesOf (n + 1) numThreads thread
      = OBJLoader.shapesOf n numThreads thread
        ++ (if n % numThreads = thread then [n] else []) := by
  unfold OBJLoader.shapesOf
  rw [List.range_succ, List.filter_append]
  congr 1
  by_cases h : n % numThreads = thread
  · simp [h]
  · simp [h]

/-- Every shape belongs to one thread: the sums over the shapes of the threads add up to
the sum over all shapes. -/
theorem shapesOf_sum (c : Nat → Nat) (numThreads : Nat) (hT : 0 < numThreads) (n : Nat) :
    ∑ t in Finset.range numThreads, ((OBJLoader.shapesOf n numThreads t).map c).sum
      = ∑ i in Finset.range n, c i := by
  induction n with
  | zero => simp [OBJLoader.shapesOf]
  | succ n ih =>
    have hone : ∑ t in Finset.range numThreads, (if n % numThreads = t then c n else 0)
        = c n := by
      rw [Finset.sum_ite_eq (Finset.range numThreads) (n % numThreads) (fun _ => c n)]
      rw [if_pos (Finset.mem_range.2 (Nat.mod_lt _ hT))]
    rw [Finset.sum_range_succ, ← ih]
    conv_rhs => rw [← hone]
    rw [← Finset.sum_add_distrib]
    apply Finset.sum_congr rfl
    intro t _
    rw [shapesOf_succ, List.map_append, List.sum_append]
    by_cases h : n % numThreads = t
    · simp [h]
    · simp [h]

theorem countDivisible_eq_sum (shapes_ : List shape_t) :
    countDivisible shapes_
      = ∑ i in Finset.range shapes_.length, countDivisibleAt shapes_ i := by
  rw [← list_range_sum]
  unfold countDivisible
  congr 1
  apply List.ext_get?
  intro i
  simp only [List.get?_eq_getElem?, List.getElem?_map]
  by_cases hi : i < shapes_.length
  · simp [List.getElem?_eq_getElem hi, List.getElem?_range hi, countDivisibleAt]
  · rw [List.getElem?_eq_none (Nat.le_of_not_lt hi),
      List.getElem?_eq_none (by simpa using Nat.le_of_not_lt hi)]
    rfl

/-- What `fillScene` adds. With at least one thread, a run that returns leaves in the scene,
as triangles or as lights, what it held before and one primitive for every three vertices of
every face whose number of vertices is divisible by 3. -/
theorem fillScene_loaded (lib : Library) (loader : OBJLoader) (numThreads : Nat)
    (hT : 0 < numThreads) (scene scene' : Scene) (filePath : String)
    (texturesCache : List (String × Texture))
    (h : loader.fillScene lib numThreads scene filePath texturesCache = some scene') :
    scene'.triangles_.length + scene'.lights_.length
      = scene.triangles_.length + scene.lights_.length + countDivisible loader.shapes_ := by
  unfold OBJLoader.fillScene at h
  have := foldlM_measure
    (loader.runThread lib (OBJLoader.directory filePath) texturesCache numThreads)
    (fun scene => scene.triangles_.length + scene.lights_.length)
    (fun t => ((OBJLoader.shapesOf loader.shapes_.length numThreads t).map
      (countDivisibleAt loader.shapes_)).sum)
    (fun s a s' hs => runThread_count lib loader _ texturesCache numThreads s s' a hs)
    _ _ _ h
  simp only at this
  rw [this, list_range_sum, shapesOf_sum _ _ hT, countDivisible_eq_sum]

/-! ## The index offset of a face -/

/-- C12: for shapes whose faces all have a number of vertices divisible by 3, as the shapes
`tinyobj::LoadObj` returns to the constructor have, after `fillScene` on the empty scene the
number of triangles of the scene plus the number of its lights, the triangles that emit
light, is the number of triangles the constructor computed. -/
theorem fillScene_count (lib : Library) (attrib_ : attrib_t) (shapes_ : List shape_t)
    (materials_ : List material_t) (numThreads : Nat) (scene' : Scene) (filePath : String)
    (texturesCache : List (String × Texture)) (hT : 0 < numThreads)
    (hdiv : ∀ shape ∈ shapes_, ∀ k ∈ shape.mesh.num_face_vertices, k % 3 = 0)
    (h : (OBJLoader.construct attrib_ shapes_ materials_).fillScene lib numThreads Scene.empty
      filePath texturesCache = some scene') :
    scene'.triangles_.length + scene'.lights_.length =
      (OBJLoader.construct attrib_ shapes_ materials_).numberTriangles_ := by
  have hloaded := fillScene_loaded lib (OBJLoader.construct attrib_ shapes_ materials_)
    numThreads hT Scene.empty scene' filePath texturesCache h
  have hcount : (OBJLoader.construct attrib_ shapes_ materials_).numberTriangles_ =
      OBJLoader.countTriangles shapes_ := rfl
  have hshapes : (OBJLoader.construct attrib_ shapes_ materials_).shapes_ = shapes_ := rfl
  rw [hcount, countTriangles_of_divisible shapes_ hdiv, hloaded, hshapes]
  simp [Scene.empty]

/-- Witness of C12: the square as two triangles gives a scene with two triangles, and the
triangle that emits light a scene with one light. -/
theorem fillScene_count_witness :
    0 < 1 ∧
    (∀ shape ∈ [triangulatedShape], ∀ k ∈ shape.mesh.num_face_vertices, k % 3 = 0) ∧
    (triangulatedLoader.fillScene sampleLibrary 1 Scene.empty "square.obj" []).map
        (fun scene => (scene.triangles_.length, scene.lights_.length)) = some (2, 0) ∧
    (glowLoader.fillScene sampleLibrary 1 Scene.empty "glow.obj" []).map
        (fun scene => (scene.triangles_.length, scene.lights_.length)) = some (0, 1) ∧
    ∃ scene', (OBJLoader.construct squareAttrib [triangulatedShape] []).fillScene sampleLibrary 1
        Scene.empty "square.obj" [] = some scene' ∧
      scene'.triangles_.length + scene'.lights_.length =
        (OBJLoader.construct squareAttrib [triangulatedShape] []).numberTriangles_ := by
  have hs : ((OBJLoader.construct squareAttrib [triangulatedShape] []).fillScene sampleLibrary 1
      Scene.empty "square.obj" []).isSome = true := by decide!
  obtain ⟨scene', h⟩ := Option.isSome_iff_exists.mp hs
  exact ⟨by decide, by decide, by decide!, by decide!, scene', h,
    fillScene_count sampleLibrary squareAttrib [triangulatedShape] [] 1 scene' "square.obj" []
      (by decide) (by decide) h⟩

/-- C13: for the file whose only face is a triangle with an emitting material, `fillScene`
on the empty scene with one thread returns a scene with no triangle and one light, while
the constructor counted one triangle: the assertion is false. -/
theorem fillScene_glow :
    (glowLoader.fillScene sampleLibrary 1 Scene.empty "glow.obj" []).map
        (fun scene => (scene.triangles_.length, scene.lights_.length,
          glowLoader.assertion scene)) = some (0, 1, false) ∧
    glowLoader.numberTriangles_ = 1 := by
  decide!

/-! ## The merge -/

theorem mergeAll_triangles (order : List Worker) :
    ∀ scene : Scene, (mergeAll scene order).triangles_
      = scene.triangles_ ++ (order.map (fun w => w.triangles)).flatten := by
  induction order with
  | nil => intro scene; simp [mergeAll]
  | cons w order ih =>
    intro scene
    have : mergeAll scene (w :: order) = mergeAll (scene.merge w.triangles w.lights) order := by
      simp [mergeAll]
    rw [this, ih]
    simp [Scene.merge]

theorem mergeAll_lights (order : List Worker) :
    ∀ scene : Scene, (mergeAll scene order).lights_
      = scene.lights_ ++ (order.map (fun w => w.lights)).flatten := by
  induction order with
  | nil => intro scene; simp [mergeAll]
  | cons w order ih =>
    intro scene
    have : mergeAll scene (w :: order) = mergeAll (scene.merge w.triangles w.lights) order := by
      simp [mergeAll]
    rw [this, ih]
    simp [Scene.merge]

theorem mergeAll_materials (order : List Worker) :
    ∀ scene : Scene, (mergeAll scene order).materials_ = scene.materials_ := by
  induction order with
  | nil => intro scene; simp [mergeAll]
  | cons w order ih =>
    intro scene
    have : mergeAll scene (w :: order) = mergeAll (scene.merge w.triangles w.lights) order := by
      simp [mergeAll]
    rw [this, ih]
    simp [Scene.merge]

/-- C16: the merge of one thread appends its triangles and its lights to those of the scene,
and for every order in which the threads go through the merge the triangles of the scene
are a permutation of the old triangles followed by the lists of all threads, and likewise
the lights; the materials are left as they are. -/
theorem merge_perm (scene : Scene) (workers : List Worker) :
    (∀ w : Worker, (scene.merge w.triangles w.lights).triangles_ = scene.triangles_ ++ w.triangles ∧
      (scene.merge w.triangles w.lights).lights_ = scene.lights_ ++ w.lights) ∧
    ∀ order : List Worker, order.Perm workers →
      (mergeAll scene order).triangles_.Perm
        (scene.triangles_ ++ (workers.map (fun w => w.triangles)).flatten) ∧
      (mergeAll scene order).lights_.Perm
        (scene.lights_ ++ (workers.map (fun w => w.lights)).flatten) ∧
      (mergeAll scene order).materials_ = scene.materials_ := by
  refine ⟨fun w => ⟨rfl, rfl⟩, ?_⟩
  intro order hperm
  rw [mergeAll_triangles, mergeAll_lights, mergeAll_materials]
  refine ⟨?_, ?_, rfl⟩
  · exact List.Perm.append_left _ (List.Perm.flatten (List.Perm.map _ hperm))
  · exact List.Perm.append_left _ (List.Perm.flatten (List.Perm.map _ hperm))

/-! ## The triangle a step of the loader builds -/

/-- The triangle that `loadTriangle` adds is made of the result of `loadVertices`, the
result of `loadNormal` and, when the face has a material, the tex-coords of
`loadTexCoord`; without a material its tex-coords are never set. -/
theorem loadTriangle_added (lib : Library) (loader : OBJLoader) (filePath : String)
    (shape : shape_t) (face offset : Nat) (st st' : Worker × List Material)
    (h : loader.loadTriangle lib filePath shape face offset st = some st') :
    ∃ vertices normal materialId idx t,
      loader.loadVertices shape offset = some vertices ∧
      loader.loadNormal lib shape offset vertices = some normal ∧
      shape.mesh.material_ids.get? face = some materialId ∧
      indices3 shape.mesh.indices offset = some idx ∧
      Added st.1 st'.1 t ∧ t.points = vertices ∧ t.normals = normal ∧
      (materialId < 0 → t.texCoords = (Vec2.sentinel, Vec2.sentinel, Vec2.sentinel)) ∧
      (0 ≤ materialId → ∃ mat tex, deref loader.materials_ materialId = some mat ∧
        loader.loadTexCoord lib filePath mat idx.1 idx.2.1 idx.2.2 st.1.texturesCache
          = some tex ∧ t.texCoords = tex.2.1) := by
  unfold OBJLoader.loadTriangle at h
  simp only [Option.bind_eq_bind, Option.bind_eq_some, Option.pure_def] at h
  obtain ⟨vertices, hv, normal, hn, materialId, hm, idx, hi, h⟩ := h
  split at h
  · rename_i hpos
    simp only [Option.bind_eq_bind, Option.bind_eq_some, Option.pure_def] at h
    obtain ⟨mat, hmat, tex, htex, h⟩ := h
    split at h
    · simp only [Option.some.injEq] at h
      subst h
      refine ⟨vertices, normal, materialId, idx,
        ((Triangle.Builder vertices).withNormals normal).withTexCoords tex.2.1,
        hv, hn, hm, hi, Or.inr ⟨_, rfl, rfl⟩, rfl, rfl, ?_, ?_⟩
      · intro hneg; omega
      · intro _; exact ⟨mat, tex, hmat, htex, rfl⟩
    · simp only [Option.some.injEq] at h
      subst h
      refine ⟨vertices, normal, materialId, idx, _,
        hv, hn, hm, hi, Or.inl ⟨rfl, rfl⟩, rfl, rfl, ?_, ?_⟩
      · intro hneg; omega
      · intro _; exact ⟨mat, tex, hmat, htex, rfl⟩
  · rename_i hneg
    simp only [Option.bind_eq_bind, Option.bind_eq_some, Option.pure_def] at h
    obtain ⟨color, -, h⟩ := h
    simp only [Option.some.injEq] at h
    subst h
    refine ⟨vertices, normal, materialId, idx, _,
      hv, hn, hm, hi, Or.inl ⟨rfl, rfl⟩, rfl, rfl, ?_, ?_⟩
    · intro _; rfl
    · intro hpos; exact absurd hpos hneg

theorem loadVertices_eq (loader : OBJLoader) (shape : shape_t) (indexOffset : Nat)
    (r : Vec3 × Vec3 × Vec3) :
    loader.loadVertices shape indexOffset = some r ↔
      ∃ idx a b c, indices3 shape.mesh.indices indexOffset = some idx ∧
        lanes3 loader.attrib_.vertices idx.1.vertex_index = some a ∧
        lanes3 loader.attrib_.vertices idx.2.1.vertex_index = some b ∧
        lanes3 loader.attrib_.vertices idx.2.2.vertex_index = some c ∧
        r = (flipX a, flipX b, flipX c) := by
  unfold OBJLoader.loadVertices
  constructor
  · intro h
    cases hi : indices3 shape.mesh.indices indexOffset with
    | none => rw [hi] at h; simp at h
    | some idx =>
      obtain ⟨idx1, idx2, idx3⟩ := idx
      rw [hi] at h
      simp only at h
      cases ha : lanes3 loader.attrib_.vertices idx1.vertex_index with
      | none => rw [ha] at h; simp at h
      | some a =>
        cases hb : lanes3 loader.attrib_.vertices idx2.vertex_index with
        | none => rw [ha, hb] at h; simp at h
        | some b =>
          cases hc : lanes3 loader.attrib_.vertices idx3.vertex_index with
          | none => rw [ha, hb, hc] at h; simp at h
          | some c =>
            rw [ha, hb, hc] at h
            obtain ⟨a1, a2, a3⟩ := a
            obtain ⟨b1, b2, b3⟩ := b
            obtain ⟨c1, c2, c3⟩ := c
            simp only [Option.some.injEq] at h
            exact ⟨(idx1, idx2, idx3), (a1, a2, a3), (b1, b2, b3), (c1, c2, c3), rfl,
              ha, hb, hc, h.symm⟩
  · rintro ⟨⟨idx1, idx2, idx3⟩, ⟨a1, a2, a3⟩, ⟨b1, b2, b3⟩, ⟨c1, c2, c3⟩, hi, ha, hb, hc, hr⟩
    simp only at ha hb hc
    rw [hi]
    simp only
    rw [ha, hb, hc, hr]
    rfl

theorem loadNormal_eq (lib : Library) (loader : OBJLoader) (shape : shape_t)
    (indexOffset : Nat) (vertex r : Vec3 × Vec3 × Vec3) (hn : loader.attrib_.normals ≠ []) :
    loader.loadNormal lib shape indexOffset vertex = some r ↔
      ∃ idx a b c, indices3 shape.mesh.indices indexOffset = some idx ∧
        lanes3 loader.attrib_.normals idx.1.normal_index = some a ∧
        lanes3 loader.attrib_.normals idx.2.1.normal_index = some b ∧
        lanes3 loader.attrib_.normals idx.2.2.normal_index = some c ∧
        r = (flipX a, flipX b, flipX c) := by
  unfold OBJLoader.loadNormal
  constructor
  · intro h
    cases hi : indices3 shape.mesh.indices indexOffset with
    | none => rw [hi] at h; simp at h
    | some idx =>
      obtain ⟨idx1, idx2, idx3⟩ := idx
      rw [hi] at h
      simp only [if_pos hn] at h
      cases ha : lanes3 loader.attrib_.normals idx1.normal_index with
      | none => rw [ha] at h; simp at h
      | some a =>
        cases hb : lanes3 loader.attrib_.normals idx2.normal_index with
        | none => rw [ha, hb] at h; simp at h
        | some b =>
          cases hc : lanes3 loader.attrib_.normals idx3.normal_index with
          | none => rw [ha, hb, hc] at h; simp at h
          | some c =>
            rw [ha, hb, hc] at h
            obtain ⟨a1, a2, a3⟩ := a
            obtain ⟨b1, b2, b3⟩ := b
            obtain ⟨c1, c2, c3⟩ := c
            simp only [Option.some.injEq] at h
            exact ⟨(idx1, idx2, idx3), (a1, a2, a3), (b1, b2, b3), (c1, c2, c3), rfl,
              ha, hb, hc, h.symm⟩
  · rintro ⟨⟨idx1, idx2, idx3⟩, ⟨a1, a2, a3⟩, ⟨b1, b2, b3⟩, ⟨c1, c2, c3⟩, hi, ha, hb, hc, hr⟩
    simp only at ha hb hc
    rw [hi]
    simp only [if_pos hn]
    rw [ha, hb, hc, hr]
    rfl

/-! ## Vertices, normals and tex-coords of a loaded triangle -/

/-- C17: `loadVertices` returns exactly when the three index entries at the offset and the
three lanes of each of their vertices exist, and each loaded vertex is then the vertex
`(x, y, z)` read with the sign of `x` flipped, `(-x, y, z)`. When the attribute stream
supplies normals the same holds of `loadNormal` and the three normals read. The triangle
that a step of the loader adds carries these vertices and these normals. -/
theorem loadVertices_flipX (lib : Library) (loader : OBJLoader) (shape : shape_t)
    (indexOffset : Nat) :
    (∀ r, loader.loadVertices shape indexOffset = some r ↔
      ∃ idx a b c, indices3 shape.mesh.indices indexOffset = some idx ∧
        lanes3 loader.attrib_.vertices idx.1.vertex_index = some a ∧
        lanes3 loader.attrib_.vertices idx.2.1.vertex_index = some b ∧
        lanes3 loader.attrib_.vertices idx.2.2.vertex_index = some c ∧
        r = (flipX a, flipX b, flipX c)) ∧
    (loader.attrib_.normals ≠ [] → ∀ vertex r,
      loader.loadNormal lib shape indexOffset vertex = some r ↔
      ∃ idx a b c, indices3 shape.mesh.indices indexOffset = some idx ∧
        lanes3 loader.attrib_.normals idx.1.normal_index = some a ∧
        lanes3 loader.attrib_.normals idx.2.1.normal_index = some b ∧
        lanes3 loader.attrib_.normals idx.2.2.normal_index = some c ∧
        r = (flipX a, flipX b, flipX c)) ∧
    (∀ filePath face st st',
      loader.loadTriangle lib filePath shape face indexOffset st = some st' →
      ∃ t vertices normal, Added st.1 st'.1 t ∧
        loader.loadVertices shape indexOffset = some vertices ∧
        loader.loadNormal lib shape indexOffset vertices = some normal ∧
        t.points = vertices ∧ t.normals = normal) ∧
    (∀ v : ℚ × ℚ × ℚ, (flipX v).x = -v.1 ∧ (flipX v).y = v.2.1 ∧ (flipX v).z = v.2.2) := by
  refine ⟨fun r => loadVertices_eq loader shape indexOffset r,
    fun hn vertex r => loadNormal_eq lib loader shape indexOffset vertex r hn, ?_,
    fun v => ⟨rfl, rfl, rfl⟩⟩
  intro filePath face st st' h
  obtain ⟨vertices, normal, materialId, idx, t, hv, hn, -, -, hadd, hp, hnn, -, -⟩ :=
    loadTriangle_added lib loader filePath shape face indexOffset st st' h
  exact ⟨t, vertices, normal, hadd, hv, hn, hp, hnn⟩

theorem loadTexCoord_sentinel (lib : Library) (loader : OBJLoader) (filePath : String)
    (mat : material_t) (idx1 idx2 idx3 : index_t) (texturesCache : List (String × Texture))
    (tex : Texture × (Vec2 × Vec2 × Vec2) × List (String × Texture))
    (h : loader.loadTexCoord lib filePath mat idx1 idx2 idx3 texturesCache = some tex)
    (hc : mat.diffuse_texname = "" ∨ loader.attrib_.texcoords = [] ∨
      (OBJLoader.getTextureFromCache lib texturesCache filePath mat.diffuse_texname).1.isValid
        = false) :
    tex.2.1 = (Vec2.sentinel, Vec2.sentinel, Vec2.sentinel) := by
  unfold OBJLoader.loadTexCoord at h
  simp only at h
  split at h
  · rename_i hboth
    rcases hc with hc | hc | hc
    · exact absurd hc hboth.1
    · exact absurd hc hboth.2
    · split at h
      · simp only [Option.some.injEq] at h
        subst h
        simp only [OBJLoader.normalizeTexCoord, hc, Bool.not_false, if_true]
      · simp at h
  · simp only [Option.some.injEq] at h
    subst h
    rfl

/-- C18: the triangle that a step of the loader adds has the tex-coords `(-1, -1)` at all
three vertices when its face has no material, or the material names no texture, or the
attribute stream has no tex-coords, or the texture fetched from the cache of the thread is
not valid. `normalizeTexCoord` returns three `(-1, -1)` for a texture that is not valid, and
for a valid texture the three tex-coords each passed through `normalize`. -/
theorem loadTriangle_texCoords (lib : Library) (loader : OBJLoader) (filePath : String)
    (shape : shape_t) (face offset : Nat) (st st' : Worker × List Material) :
    (loader.loadTriangle lib filePath shape face offset st = some st' →
      ∃ t materialId, Added st.1 st'.1 t ∧
        shape.mesh.material_ids.get? face = some materialId ∧
        ((materialId < 0 ∨ ∃ mat, deref loader.materials_ materialId = some mat ∧
            (mat.diffuse_texname = "" ∨ loader.attrib_.texcoords = [] ∨
              (OBJLoader.getTextureFromCache lib st.1.texturesCache filePath
                mat.diffuse_texname).1.isValid = false)) →
          t.texCoords = (Vec2.sentinel, Vec2.sentinel, Vec2.sentinel))) ∧
    (∀ texture texCoord, texture.isValid = false →
      OBJLoader.normalizeTexCoord lib texture texCoord
        = (Vec2.sentinel, Vec2.sentinel, Vec2.sentinel)) ∧
    (∀ texture texCoord, texture.isValid = true →
      OBJLoader.normalizeTexCoord lib texture texCoord
        = (lib.normalizeVec2 texCoord.1, lib.normalizeVec2 texCoord.2.1,
            lib.normalizeVec2 texCoord.2.2)) := by
  refine ⟨?_, ?_, ?_⟩
  · intro h
    obtain ⟨vertices, normal, materialId, idx, t, -, -, hm, -, hadd, -, -, hneg, hpos⟩ :=
      loadTriangle_added lib loader filePath shape face offset st st' h
    refine ⟨t, materialId, hadd, hm, ?_⟩
    rintro (hlt | ⟨mat, hmat, hc⟩)
    · exact hneg hlt
    · by_cases h0 : 0 ≤ materialId
      · obtain ⟨mat2, tex, hmat2, htex, ht⟩ := hpos h0
        rw [hmat] at hmat2
        simp only [Option.some.injEq] at hmat2
        subst hmat2
        rw [ht]
        exact loadTexCoord_sentinel lib loader filePath mat _ _ _ _ tex htex hc
      · exact hneg (by omega)
  · intro texture texCoord hv
    simp [OBJLoader.normalizeTexCoord, hv]
  · intro texture texCoord hv
    simp [OBJLoader.normalizeTexCoord, hv]

/-! ## Sampling -/

/-- The bound of the pick of a light: the product of the rounding errors of the four `float`
operations and `0.99999` stays below 1. -/
theorem lightIndex_lt {K : Type} [LinearOrderedField K] (fl : K → K)
    (hfl : ∀ x, 0 ≤ x → 0 ≤ fl x ∧ fl x ≤ x * (1 + 1 / 2 ^ 24) + 1 / 2 ^ 150)
    (u n : K) (hu0 : 0 ≤ u) (hu1 : u < 1) (hn : 1 ≤ n) :
    0 ≤ fl (fl (u * fl n) * fl (99999 / 100000)) ∧
    fl (fl (u * fl n) * fl (99999 / 100000)) < n := by
  have hn0 : (0 : K) ≤ n := le_trans zero_le_one hn
  obtain ⟨hN0, hN1⟩ := hfl n hn0
  have ha0 : 0 ≤ u * fl n := mul_nonneg hu0 hN0
  obtain ⟨hA0, hA1⟩ := hfl (u * fl n) ha0
  obtain ⟨hC0, hC1⟩ := hfl (99999 / 100000) (by norm_num)
  have hb0 : 0 ≤ fl (u * fl n) * fl (99999 / 100000) := mul_nonneg hA0 hC0
  obtain ⟨hB0, hB1⟩ := hfl (fl (u * fl n) * fl (99999 / 100000)) hb0
  refine ⟨hB0, ?_⟩
  have he : (0 : K) < 1 / 2 ^ 150 := by positivity
  have hN2 : fl n ≤ n * (1 + 1 / 2 ^ 24 + 1 / 2 ^ 150) := by
    have : (1 : K) / 2 ^ 150 ≤ n * (1 / 2 ^ 150) := by
      have := mul_le_mul_of_nonneg_right hn (le_of_lt he)
      linarith
    linarith
  have ha1 : u * fl n ≤ fl n := by
    have := mul_le_mul_of_nonneg_right (le_of_lt hu1) hN0
    linarith
  have hA2 : fl (u * fl n) ≤ n * ((1 + 1 / 2 ^ 24 + 1 / 2 ^ 150) * (1 + 1 / 2 ^ 24) +
      1 / 2 ^ 150) := by
    have h1 : u * fl n * (1 + 1 / 2 ^ 24) ≤
        n * (1 + 1 / 2 ^ 24 + 1 / 2 ^ 150) * (1 + 1 / 2 ^ 24) :=
      mul_le_mul_of_nonneg_right (le_trans ha1 hN2) (by positivity)
    have h2 : (1 : K) / 2 ^ 150 ≤ n * (1 / 2 ^ 150) := by
      have := mul_le_mul_of_nonneg_right hn (le_of_lt he)
      linarith
    linarith
  have hC2 : fl (99999 / 100000) ≤ 99999 / 100000 * (1 + 1 / 2 ^ 24) + 1 / 2 ^ 150 := hC1
  have hb1 : fl (u * fl n) * fl (99999 / 100000) ≤
      n * ((1 + 1 / 2 ^ 24 + 1 / 2 ^ 150) * (1 + 1 / 2 ^ 24) + 1 / 2 ^ 150) *
        (99999 / 100000 * (1 + 1 / 2 ^ 24) + 1 / 2 ^ 150) :=
    mul_le_mul hA2 hC2 hC0 (by positivity)
  have hB2 : fl (fl (u * fl n) * fl (99999 / 100000)) ≤
      n * (((1 + 1 / 2 ^ 24 + 1 / 2 ^ 150) * (1 + 1 / 2 ^ 24) + 1 / 2 ^ 150) *
        (99999 / 100000 * (1 + 1 / 2 ^ 24) + 1 / 2 ^ 150) * (1 + 1 / 2 ^ 24) + 1 / 2 ^ 150) := by
    have h1 := mul_le_mul_of_nonneg_right hb1
      (by positivity : (0 : K) ≤ 1 + 1 / 2 ^ 24)
    have h2 : (1 : K) / 2 ^ 150 ≤ n * (1 / 2 ^ 150) := by
      have := mul_le_mul_of_nonneg_right hn (le_of_lt he)
      linarith
    linarith
  have hconst : (((1 : K) + 1 / 2 ^ 24 + 1 / 2 ^ 150) * (1 + 1 / 2 ^ 24) + 1 / 2 ^ 150) *
      (99999 / 100000 * (1 + 1 / 2 ^ 24) + 1 / 2 ^ 150) * (1 + 1 / 2 ^ 24) + 1 / 2 ^ 150 < 1 := by
    norm_num
  have hpos : (0 : K) < n := lt_of_lt_of_le zero_lt_one hn
  calc fl (fl (u * fl n) * fl (99999 / 100000))
      ≤ n * (((1 + 1 / 2 ^ 24 + 1 / 2 ^ 150) * (1 + 1 / 2 ^ 24) + 1 / 2 ^ 150) *
        (99999 / 100000 * (1 + 1 / 2 ^ 24) + 1 / 2 ^ 150) * (1 + 1 / 2 ^ 24) + 1 / 2 ^ 150) := hB2
    _ < n * 1 := mul_lt_mul_of_pos_left hconst hpos
    _ = n := mul_one n

/-- C19 (as amended): with at least one light and a table value `u` in `[0, 1)` at the
position the counter gives, `Shader::getLightIndex` returns the floor of the product as the
program computes it in `float` arithmetic, `fl (fl (u * fl N) * fl 0.99999)` for the number
`N` of lights, and this index is less than `N`. The rounding `fl` to `float` takes a number
that is not negative to one that is not negative and exceeds it by at most the fraction
`2^(-24)` of it and `2^(-150)`, as the rounding to binary32 does. -/
theorem getLightIndex_range {K : Type} [LinearOrderedField K] [FloorRing K] (fl : K → K)
    (VALUES : Nat → K) (sh : Shader) (sampler : Nat)
    (hfl : ∀ x, 0 ≤ x → 0 ≤ fl x ∧ fl x ≤ x * (1 + 1 / 2 ^ 24) + 1 / 2 ^ 150)
    (hu : 0 ≤ VALUES (sampler &&& MASK) ∧ VALUES (sampler &&& MASK) < 1)
    (hN : 1 ≤ sh.lights_.length) :
    ((Shader.getLightIndex fl VALUES sh sampler).1 : ℤ)
      = ⌊fl (fl (VALUES (sampler &&& MASK) * fl (sh.lights_.length : K)) *
          fl (99999 / 100000))⌋ ∧
    (Shader.getLightIndex fl VALUES sh sampler).1 < sh.lights_.length := by
  obtain ⟨hu0, hu1⟩ := hu
  have hN1 : (1 : K) ≤ (sh.lights_.length : K) := by exact_mod_cast hN
  obtain ⟨hx0, hxN⟩ := lightIndex_lt fl hfl (VALUES (sampler &&& MASK))
    (sh.lights_.length : K) hu0 hu1 hN1
  have hfl0 : 0 ≤ ⌊fl (fl (VALUES (sampler &&& MASK) * fl (sh.lights_.length : K)) *
      fl (99999 / 100000))⌋ := Int.floor_nonneg.2 hx0
  have hflN : ⌊fl (fl (VALUES (sampler &&& MASK) * fl (sh.lights_.length : K)) *
      fl (99999 / 100000))⌋ < (sh.lights_.length : ℤ) := by
    rw [Int.floor_lt]
    exact_mod_cast hxN
  simp only [Shader.getLightIndex, fetch_add]
  constructor
  · exact Int.toNat_of_nonneg hfl0
  · omega

/-- Witness of C19 as amended: two lights and a table of halves, in binary32 arithmetic. -/
theorem getLightIndex_range_witness :
    (∀ x : ℚ, 0 ≤ x → 0 ≤ binary32 x ∧ binary32 x ≤ x * (1 + 1 / 2 ^ 24) + 1 / 2 ^ 150) ∧
    ((0 : ℚ) ≤ halfTable (0 &&& MASK) ∧ (halfTable (0 &&& MASK) : ℚ) < 1) ∧
    1 ≤ twoLightShader.lights_.length ∧
    (((Shader.getLightIndex binary32 (halfTable : Nat → ℚ) twoLightShader 0).1 : ℤ)
      = ⌊binary32 (binary32 ((halfTable (0 &&& MASK) : ℚ) *
          binary32 (twoLightShader.lights_.length : ℚ)) * binary32 (99999 / 100000))⌋ ∧
    (Shader.getLightIndex binary32 (halfTable : Nat → ℚ) twoLightShader 0).1
      < twoLightShader.lights_.length) :=
  ⟨binary32_bound, by norm_num [halfTable], by decide,
    getLightIndex_range binary32 halfTable twoLightShader 0 binary32_bound
      (by norm_num [halfTable]) (by decide)⟩

/-- Counterexample to C19 as stated. Without lights `Shader::getLightIndex` returns 0, which is
not less than the number of lights. With 21 lights and the table value `u = 798923 / 2^20`
it returns 16 in binary32 arithmetic, where `floor(u * 21 * 0.99999)` is 15, for the decimal
`0.99999` and for the `float` of that literal, `2097131 / 2^21`. -/
theorem getLightIndex_no_lights :
    (Shader.getLightIndex binary32 (halfTable : Nat → ℚ) darkShader 0).1 = 0 ∧
    ¬ (Shader.getLightIndex binary32 (halfTable : Nat → ℚ) darkShader 0).1
        < darkShader.lights_.length ∧
    manyLightShader.lights_.length = 21 ∧
    (Shader.getLightIndex binary32 roundedTable manyLightShader 0).1 = 16 ∧
    ⌊roundedTable 0 * 21 * (99999 / 100000 : ℚ)⌋ = 15 ∧
    ⌊roundedTable 0 * 21 * (2097131 / 2097152 : ℚ)⌋ = 15 := by
  refine ⟨by decide!, by decide!, by decide, by decide!, by decide!, by decide!⟩

/-! ## The cosine-weighted direction -/

theorem V3.cross_dot_left {K : Type} [LinearOrderedField K] (a b : V3 K) :
    (a.cross b).dot a = 0 := by
  simp only [V3.cross, V3.dot]; ring

theorem V3.cross_dot_right {K : Type} [LinearOrderedField K] (a b : V3 K) :
    (a.cross b).dot b = 0 := by
  simp only [V3.cross, V3.dot]; ring

theorem V3.cross_dot_cross {K : Type} [LinearOrderedField K] (a b : V3 K) :
    (a.cross b).dot (a.cross b) = a.dot a * b.dot b - a.dot b * a.dot b := by
  simp only [V3.cross, V3.dot]; ring

theorem V3.dot_comm {K : Type} [LinearOrderedField K] (a b : V3 K) : a.dot b = b.dot a := by
  simp only [V3.dot]; ring

theorem V3.scale_dot {K : Type} [LinearOrderedField K] (a b : V3 K) (s : K) :
    (a.scale s).dot b = s * a.dot b := by
  simp only [V3.scale, V3.dot]; ring

theorem V3.scale_dot_scale {K : Type} [LinearOrderedField K] (a : V3 K) (s : K) :
    (a.scale s).dot (a.scale s) = s * s * a.dot a := by
  simp only [V3.scale, V3.dot]; ring

theorem V3.combination_dot {K : Type} [LinearOrderedField K] (u v n : V3 K) (A B C : K) :
    (((u.scale A).add (v.scale B)).add (n.scale C)).dot
        (((u.scale A).add (v.scale B)).add (n.scale C))
      = A * A * u.dot u + B * B * v.dot v + C * C * n.dot n
        + 2 * A * B * u.dot v + 2 * A * C * u.dot n + 2 * B * C * v.dot n := by
  simp only [V3.scale, V3.add, V3.dot]; ring

theorem V3.combination_dot_right {K : Type} [LinearOrderedField K] (u v n : V3 K)
    (A B C : K) :
    (((u.scale A).add (v.scale B)).add (n.scale C)).dot n
      = A * u.dot n + B * v.dot n + C * n.dot n := by
  simp only [V3.scale, V3.add, V3.dot]; ring

theorem V3.scale_one {K : Type} [LinearOrderedField K] (a : V3 K) : a.scale 1 = a := by
  cases a; simp [V3.scale]

/-- The cross product that `getCosineSampleHemisphere` normalises has a positive dot product
with itself when the normal has length 1. -/
theorem hemisphereAxis_cross_pos {K : Type} [LinearOrderedField K] (normal : V3 K)
    (hn : normal.dot normal = 1) :
    0 < ((Shader.hemisphereAxis normal).cross normal).dot
      ((Shader.hemisphereAxis normal).cross normal) := by
  rw [V3.cross_dot_cross, hn]
  unfold Shader.hemisphereAxis
  simp only [V3.dot] at hn
  split
  · rename_i h
    have hx : normal.x ≠ 0 := by
      intro h0
      rw [h0, abs_zero] at h
      norm_num at h
    have hx2 : 0 < normal.x * normal.x := mul_self_pos.2 hx
    simp only [V3.dot]
    nlinarith [mul_self_nonneg normal.z]
  · rename_i h
    have hle : |normal.x| ≤ 1 / 10 := not_lt.1 h
    have hx2 : normal.x * normal.x ≤ 1 / 100 := by
      have := abs_le.1 hle
      nlinarith [this.1, this.2]
    simp only [V3.dot]
    nlinarith [mul_self_nonneg normal.y, mul_self_nonneg normal.z]

/-- The algebra of the sampled direction over any ordered field: with a normal of length 1,
a square root `s` of the dot product of the normalised cross product with itself, and
coefficients whose squares add up to 1, the direction has length 1 before it is
normalised, and its dot product with the normal is the third coefficient. -/
theorem hemisphere_direction {K : Type} [LinearOrderedField K] (normal w : V3 K)
    (s A B C : K) (hn : normal.dot normal = 1) (hwn : w.dot normal = 0)
    (hs : s * s = w.dot w) (hs0 : s ≠ 0) (hABC : A * A + B * B + C * C = 1) :
    ((((w.scale (1 / s)).scale A).add ((normal.cross (w.scale (1 / s))).scale B)).add
        (normal.scale C)).dot
      ((((w.scale (1 / s)).scale A).add ((normal.cross (w.scale (1 / s))).scale B)).add
        (normal.scale C)) = 1 ∧
    ((((w.scale (1 / s)).scale A).add ((normal.cross (w.scale (1 / s))).scale B)).add
        (normal.scale C)).dot normal = C := by
  have huu : (w.scale (1 / s)).dot (w.scale (1 / s)) = 1 := by
    rw [V3.scale_dot_scale, ← hs]
    field_simp
  have hun : (w.scale (1 / s)).dot normal = 0 := by
    rw [V3.scale_dot, hwn, mul_zero]
  have hnu : normal.dot (w.scale (1 / s)) = 0 := by
    rw [V3.dot_comm, hun]
  have hvv : (normal.cross (w.scale (1 / s))).dot (normal.cross (w.scale (1 / s))) = 1 := by
    rw [V3.cross_dot_cross, hn, huu, hnu]; ring
  have hvn : (normal.cross (w.scale (1 / s))).dot normal = 0 := V3.cross_dot_left _ _
  have hvu : (normal.cross (w.scale (1 / s))).dot (w.scale (1 / s)) = 0 :=
    V3.cross_dot_right _ _
  have huv : (w.scale (1 / s)).dot (normal.cross (w.scale (1 / s))) = 0 := by
    rw [V3.dot_comm, hvu]
  constructor
  · rw [V3.combination_dot, huu, hvv, hn, huv, hun, hvn]
    linear_combination hABC
  · rw [V3.combination_dot_right, hun, hvn, hn]; ring

/-- C20: over the reals, for a normal of length 1 and a table with values in `[0, 1)`,
`Shader::getCosineSampleHemisphere` returns a vector of length 1 whose dot product with the
normal is not negative, and the cross product it normalises is not the zero vector. -/
theorem getCosineSampleHemisphere_unit (VALUES : Nat → ℝ) (sampler : Nat) (normal : V3 ℝ)
    (hV : ∀ i, 0 ≤ VALUES i ∧ VALUES i < 1) (hn : normal.dot normal = 1) :
    ((Shader.getCosineSampleHemisphere Real.sqrt Real.cos Real.sin (2 * Real.pi) VALUES
        sampler normal).1.dot
      (Shader.getCosineSampleHemisphere Real.sqrt Real.cos Real.sin (2 * Real.pi) VALUES
        sampler normal).1 = 1) ∧
    (0 ≤ (Shader.getCosineSampleHemisphere Real.sqrt Real.cos Real.sin (2 * Real.pi) VALUES
        sampler normal).1.dot normal) ∧
    (Shader.hemisphereAxis normal).cross normal ≠ ⟨0, 0, 0⟩ := by
  have hpos := hemisphereAxis_cross_pos normal hn
  have hne : (Shader.hemisphereAxis normal).cross normal ≠ ⟨0, 0, 0⟩ := by
    intro h0
    rw [h0] at hpos
    simp [V3.dot] at hpos
  have hwn : ((Shader.hemisphereAxis normal).cross normal).dot normal = 0 :=
    V3.cross_dot_right _ _
  have hs : Real.sqrt (((Shader.hemisphereAxis normal).cross normal).dot
        ((Shader.hemisphereAxis normal).cross normal))
      * Real.sqrt (((Shader.hemisphereAxis normal).cross normal).dot
        ((Shader.hemisphereAxis normal).cross normal))
      = ((Shader.hemisphereAxis normal).cross normal).dot
        ((Shader.hemisphereAxis normal).cross normal) :=
    Real.mul_self_sqrt (le_of_lt hpos)
  have hs0 : Real.sqrt (((Shader.hemisphereAxis normal).cross normal).dot
        ((Shader.hemisphereAxis normal).cross normal)) ≠ 0 :=
    ne_of_gt (Real.sqrt_pos.2 hpos)
  obtain ⟨hr0, hr1⟩ := hV (((sampler + 1) % 2 ^ 32) &&& MASK)
  have hct : Real.sqrt (VALUES (((sampler + 1) % 2 ^ 32) &&& MASK))
      * Real.sqrt (VALUES (((sampler + 1) % 2 ^ 32) &&& MASK))
      = VALUES (((sampler + 1) % 2 ^ 32) &&& MASK) := Real.mul_self_sqrt hr0
  have hst : Real.sqrt (1 - VALUES (((sampler + 1) % 2 ^ 32) &&& MASK))
      * Real.sqrt (1 - VALUES (((sampler + 1) % 2 ^ 32) &&& MASK))
      = 1 - VALUES (((sampler + 1) % 2 ^ 32) &&& MASK) :=
    Real.mul_self_sqrt (by linarith)
  have hcs := Real.cos_sq_add_sin_sq (2 * Real.pi * VALUES (sampler &&& MASK))
  have hABC :
      (Real.cos (2 * Real.pi * VALUES (sampler &&& MASK))
          * Real.sqrt (VALUES (((sampler + 1) % 2 ^ 32) &&& MASK)))
        * (Real.cos (2 * Real.pi * VALUES (sampler &&& MASK))
          * Real.sqrt (VALUES (((sampler + 1) % 2 ^ 32) &&& MASK)))
      + (Real.sin (2 * Real.pi * VALUES (sampler &&& MASK))
          * Real.sqrt (VALUES (((sampler + 1) % 2 ^ 32) &&& MASK)))
        * (Real.sin (2 * Real.pi * VALUES (sampler &&& MASK))
          * Real.sqrt (VALUES (((sampler + 1) % 2 ^ 32) &&& MASK)))
      + Real.sqrt (1 - VALUES (((sampler + 1) % 2 ^ 32) &&& MASK))
        * Real.sqrt (1 - VALUES (((sampler + 1) % 2 ^ 32) &&& MASK)) = 1 := by
    rw [hst]
    linear_combination
      (Real.sqrt (VALUES (((sampler + 1) % 2 ^ 32) &&& MASK))
        * Real.sqrt (VALUES (((sampler + 1) % 2 ^ 32) &&& MASK))) * hcs + hct
  obtain ⟨hlen, hdot⟩ := hemisphere_direction normal
    ((Shader.hemisphereAxis normal).cross normal) _ _ _ _ hn hwn hs hs0 hABC
  have hdir : (Shader.getCosineSampleHemisphere Real.sqrt Real.cos Real.sin (2 * Real.pi)
      VALUES sampler normal).1
      = ((((((Shader.hemisphereAxis normal).cross normal).scale
            (1 / Real.sqrt (((Shader.hemisphereAxis normal).cross normal).dot
              ((Shader.hemisphereAxis normal).cross normal)))).scale
            (Real.cos (2 * Real.pi * VALUES (sampler &&& MASK))
              * Real.sqrt (VALUES (((sampler + 1) % 2 ^ 32) &&& MASK)))).add
          ((normal.cross (((Shader.hemisphereAxis normal).cross normal).scale
            (1 / Real.sqrt (((Shader.hemisphereAxis normal).cross normal).dot
              ((Shader.hemisphereAxis normal).cross normal))))).scale
            (Real.sin (2 * Real.pi * VALUES (sampler &&& MASK))
              * Real.sqrt (VALUES (((sampler + 1) % 2 ^ 32) &&& MASK))))).add
          (normal.scale (Real.sqrt (1 - VALUES (((sampler + 1) % 2 ^ 32) &&& MASK))))) := by
    simp only [Shader.getCosineSampleHemisphere, fetch_add, V3.normalize]
    rw [hlen, Real.sqrt_one, div_one, V3.scale_one]
  rw [hdir]
  refine ⟨hlen, ?_, hne⟩
  rw [hdot]
  exact Real.sqrt_nonneg _

/-- Witness of C20: the normal `(0, 0, 1)` and a table of halves. -/
theorem getCosineSampleHemisphere_unit_witness :
    (∀ i : Nat, (0 : ℝ) ≤ halfTable i ∧ (halfTable i : ℝ) < 1) ∧
    (upNormal : V3 ℝ).dot upNormal = 1 ∧
    (((Shader.getCosineSampleHemisphere Real.sqrt Real.cos Real.sin (2 * Real.pi) halfTable
        0 upNormal).1.dot
      (Shader.getCosineSampleHemisphere Real.sqrt Real.cos Real.sin (2 * Real.pi) halfTable
        0 upNormal).1 = 1) ∧
    (0 ≤ (Shader.getCosineSampleHemisphere Real.sqrt Real.cos Real.sin (2 * Real.pi) halfTable
        0 upNormal).1.dot upNormal) ∧
    (Shader.hemisphereAxis (upNormal : V3 ℝ)).cross upNormal ≠ ⟨0, 0, 0⟩) :=
  ⟨fun _ => by norm_num [halfTable], by norm_num [upNormal, V3.dot],
    getCosineSampleHemisphere_unit halfTable 0 upNormal
      (fun _ => by norm_num [halfTable]) (by norm_num [upNormal, V3.dot])⟩

/-! ## The box of a plane -/

theorem getRightVector_axis (normalize : Vec3 → Vec3) (pl : Plane) (axis : Nat)
    (haxis : axis < 3)
    (hnormal : pl.normal_ = unitAxis axis ∨ pl.normal_ = (unitAxis axis).scale (-1)) :
    pl.getRightVector normalize = normalize ((Vec3.mk 1 1 1).sub (unitAxis axis)) := by
  obtain ⟨n, p, addr⟩ := pl
  simp only at hnormal
  have hcases : axis = 0 ∨ axis = 1 ∨ axis = 2 := by omega
  rcases hcases with rfl | rfl | rfl <;> rcases hnormal with rfl | rfl <;>
    norm_num [Plane.getRightVector, unitAxis, Vec3.get, Vec3.scale, Vec3.sub]

/-- C22 (as amended): for every plane whose normal is plus or minus a coordinate axis, and
every `glm::normalize` that scales the three vectors `(0,1,1)`, `(1,0,1)`, `(1,1,0)` by a
factor `t` that is not negative, `Plane::getAABB` returns the square around the anchor point
that extends `100 * t` on either side of the anchor along each of the two other axes and has
no extent along the normal; its min is componentwise less than or equal to its max. -/
theorem getAABB_axis_square (normalize : Vec3 → Vec3) (t : ℚ) (pl : Plane) (axis : Nat)
    (hn : ∀ v ∈ [(⟨0, 1, 1⟩ : Vec3), ⟨1, 0, 1⟩, ⟨1, 1, 0⟩], normalize v = v.scale t)
    (ht : 0 ≤ t) (haxis : axis < 3)
    (hnormal : pl.normal_ = unitAxis axis ∨ pl.normal_ = (unitAxis axis).scale (-1)) :
    pl.getAABB normalize = axisSquare pl.point_ axis (100 * t) ∧
    (pl.getAABB normalize).span axis = 0 ∧
    (∀ a, a < 3 → a ≠ axis → (pl.getAABB normalize).span a = 200 * t) ∧
    (pl.getAABB normalize).pointMin_.x ≤ (pl.getAABB normalize).pointMax_.x ∧
    (pl.getAABB normalize).pointMin_.y ≤ (pl.getAABB normalize).pointMax_.y ∧
    (pl.getAABB normalize).pointMin_.z ≤ (pl.getAABB normalize).pointMax_.z := by
  have hright := getRightVector_axis normalize pl axis haxis hnormal
  have hv : normalize ((Vec3.mk 1 1 1).sub (unitAxis axis))
      = ((Vec3.mk 1 1 1).sub (unitAxis axis)).scale t := by
    apply hn
    have hcases : axis = 0 ∨ axis = 1 ∨ axis = 2 := by omega
    rcases hcases with rfl | rfl | rfl <;> norm_num [unitAxis, Vec3.sub]
  have hbox : pl.getAABB normalize = axisSquare pl.point_ axis (100 * t) := by
    unfold Plane.getAABB
    simp only
    rw [hright, hv]
    simp only [axisSquare, Vec3.scale, Vec3.add, Vec3.sub, AABB.mk.injEq, Vec3.mk.injEq]
    refine ⟨⟨?_, ?_, ?_⟩, ?_, ?_, ?_⟩ <;> ring
  rw [hbox]
  have hcases : axis = 0 ∨ axis = 1 ∨ axis = 2 := by omega
  refine ⟨rfl, ?_, ?_, ?_, ?_, ?_⟩
  · rcases hcases with rfl | rfl | rfl <;>
      norm_num [axisSquare, AABB.span, unitAxis, Vec3.get, Vec3.sub, Vec3.add, Vec3.scale]
  · intro a ha hne
    have hacases : a = 0 ∨ a = 1 ∨ a = 2 := by omega
    rcases hcases with rfl | rfl | rfl <;> rcases hacases with rfl | rfl | rfl <;>
      first
        | exact absurd rfl hne
        | (norm_num [axisSquare, AABB.span, unitAxis, Vec3.get, Vec3.sub, Vec3.add, Vec3.scale]
           ring)
  · rcases hcases with rfl | rfl | rfl <;>
      norm_num [axisSquare, unitAxis, Vec3.sub, Vec3.add, Vec3.scale] <;> linarith
  · rcases hcases with rfl | rfl | rfl <;>
      norm_num [axisSquare, unitAxis, Vec3.sub, Vec3.add, Vec3.scale] <;> linarith
  · rcases hcases with rfl | rfl | rfl <;>
      norm_num [axisSquare, unitAxis, Vec3.sub, Vec3.add, Vec3.scale] <;> linarith

/-- Witness of C22: the plane `z = 0` and the scaling by the single-precision value of
`1/√2`. -/
theorem getAABB_axis_square_witness :
    (∀ v ∈ [(⟨0, 1, 1⟩ : Vec3), ⟨1, 0, 1⟩, ⟨1, 1, 0⟩],
      normalizeRight v = v.scale (11863283 / 16777216)) ∧
    (0 : ℚ) ≤ 11863283 / 16777216 ∧ 2 < 3 ∧
    (floorPlane.normal_ = unitAxis 2 ∨ floorPlane.normal_ = (unitAxis 2).scale (-1)) ∧
    (floorPlane.getAABB normalizeRight
        = axisSquare floorPlane.point_ 2 (100 * (11863283 / 16777216)) ∧
      (floorPlane.getAABB normalizeRight).span 2 = 0 ∧
      (∀ a, a < 3 → a ≠ 2 →
        (floorPlane.getAABB normalizeRight).span a = 200 * (11863283 / 16777216)) ∧
      (floorPlane.getAABB normalizeRight).pointMin_.x
        ≤ (floorPlane.getAABB normalizeRight).pointMax_.x ∧
      (floorPlane.getAABB normalizeRight).pointMin_.y
        ≤ (floorPlane.getAABB normalizeRight).pointMax_.y ∧
      (floorPlane.getAABB normalizeRight).pointMin_.z
        ≤ (floorPlane.getAABB normalizeRight).pointMax_.z) :=
  ⟨fun _ _ => rfl, by norm_num, by decide, Or.inl (by norm_num [floorPlane, unitAxis]),
    getAABB_axis_square normalizeRight (11863283 / 16777216) floorPlane 2 (fun _ _ => rfl)
      (by norm_num) (by decide) (Or.inl (by norm_num [floorPlane, unitAxis]))⟩

/-- The box of the plane `z = 0` is not the square that extends 100 units along x and y:
with the single-precision `glm::normalize` it extends about 70.71 units, and no
`glm::normalize` that returns a vector of length 1 gives the square of 100 units. -/
theorem getAABB_not_100 :
    floorPlane.getAABB normalizeRight ≠ axisSquare floorPlane.point_ 2 100 ∧
    (floorPlane.getAABB normalizeRight).pointMax_.x = 296582075 / 4194304 ∧
    ¬ ∃ normalize : Vec3 → Vec3,
      (normalize ⟨1, 1, 0⟩).dot (normalize ⟨1, 1, 0⟩) = 1 ∧
      floorPlane.getAABB normalize = axisSquare floorPlane.point_ 2 100 := by
  refine ⟨by decide!, by decide!, ?_⟩
  rintro ⟨normalize, hunit, hbox⟩
  have hright := getRightVector_axis normalize floorPlane 2 (by decide)
    (Or.inl (by norm_num [floorPlane, unitAxis]))
  have hv : (Vec3.mk 1 1 1).sub (unitAxis 2) = ⟨1, 1, 0⟩ := by
    norm_num [unitAxis, Vec3.sub]
  rw [hv] at hright
  simp only [Plane.getAABB, hright, axisSquare, hv, AABB.mk.injEq] at hbox
  obtain ⟨-, hmax⟩ := hbox
  generalize normalize ⟨1, 1, 0⟩ = w at hunit hmax
  obtain ⟨wx, wy, wz⟩ := w
  simp only [floorPlane, Vec3.add, Vec3.scale, Vec3.mk.injEq] at hmax
  obtain ⟨h1, h2, h3⟩ := hmax
  have hx : wx = 1 := by linarith
  have hy : wy = 1 := by linarith
  have hz : wz = 0 := by linarith
  subst hx hy hz
  norm_num [Vec3.dot] at hunit

/-! ## The empty hierarchy -/

/-- C23: the hierarchy constructed from the empty list holds exactly one node, the default
node, and no primitives, and for every hit and ray its `trace` and its `shadowTrace` return
the hit unchanged. -/
theorem construct_empty {T : Type} (fl : ℚ → ℚ) (S : Sorter) (Sh : Shape T) (h : Intersection)
    (ray : Ray) :
    ∃ bvh, BVH.construct fl S Sh ([] : List T) = some bvh ∧
      bvh.boxes_ = [BVHNode.default] ∧ bvh.primitives_ = [] ∧
      BVH.trace Sh bvh h ray = some h ∧ BVH.shadowTrace Sh bvh h ray = some h :=
  ⟨⟨[BVHNode.default], []⟩, rfl, rfl, rfl, rfl, rfl⟩

/-! ## The box test of a plane -/

/-- C30: for the plane `3x - 4y = 2`, whose unit normal is `(3/5, -4/5, 0)`, and the box from
`(0, 0, 0)` to `(1, 1, 1)`, `Plane::intersect(box)` returns false, although the point
`(2/3, 0, 0)` lies in the box and on the plane and the corners `(1, 0, 0)` and `(0, 0, 0)`
lie strictly on different sides of the plane. -/
theorem intersectAABB_slant :
    slantPlane.normal_.dot slantPlane.normal_ = 1 ∧
    slantPlane.intersectAABB sqrtOne unitBox = some false ∧
    unitBox.hasPoint ⟨2 / 3, 0, 0⟩ ∧ slantPlane.hasPoint ⟨2 / 3, 0, 0⟩ ∧
    (⟨1, 0, 0⟩ : Vec3) ∈ unitBox.corners ∧ (⟨0, 0, 0⟩ : Vec3) ∈ unitBox.corners ∧
    0 < slantPlane.side ⟨1, 0, 0⟩ ∧ slantPlane.side ⟨0, 0, 0⟩ < 0 ∧
    slantPlane.side unitBox.pointMax_ < 0 ∧ slantPlane.side unitBox.pointMin_ < 0 := by
  refine ⟨by decide!, by decide!, ?_, ?_, by decide!, by decide!, by decide!, by decide!,
    by decide!, by decide!⟩
  · norm_num [AABB.hasPoint, unitBox]
  · norm_num [Plane.hasPoint, slantPlane, Vec3.dot, Vec3.sub]

/-! ## The split axis -/

theorem getMaxAxis_fold (rest : List BuildNode) :
    ∀ a : AABB, ∃ u, rest.foldl addBox (some a) = some u ∧
      rest.foldl (fun (acc : Vec3 × Vec3) node =>
          (Vec3.min acc.1 node.box_.pointMin_, Vec3.max acc.2 node.box_.pointMax_))
        (a.pointMin_, a.pointMax_) = (u.pointMin_, u.pointMax_) := by
  induction rest with
  | nil => intro a; exact ⟨a, rfl, rfl⟩
  | cons n rest ih =>
    intro a
    obtain ⟨u, h1, h2⟩ := ih (surroundingBox n.box_ a)
    refine ⟨u, ?_, ?_⟩
    · simpa [addBox] using h1
    · simp only [List.foldl_cons]
      rw [surroundingBox_comm] at h2
      exact h2

/-- The axis `getMaxAxis` returns is the first of the axes along which the union of the
boxes of the range has its largest extent. -/
theorem getMaxAxis_spec (first : BuildNode) (rest : List BuildNode) :
    ∃ box, boxOf (first :: rest) = some box ∧ BVH.getMaxAxis first rest < 3 ∧
      (∀ a, a < 3 → box.span a ≤ box.span (BVH.getMaxAxis first rest)) ∧
      (∀ a, a < BVH.getMaxAxis first rest → box.span a < box.span (BVH.getMaxAxis first rest)) := by
  obtain ⟨u, h1, h2⟩ := getMaxAxis_fold rest first.box_
  refine ⟨u, by simpa [boxOf, addBox] using h1, ?_⟩
  unfold BVH.getMaxAxis
  simp only [h2]
  have hs : ∀ a, (u.pointMax_.sub u.pointMin_).get a = u.span a := by
    intro a
    unfold AABB.span Vec3.get Vec3.sub
    split <;> rfl
  simp only [hs]
  split
  · rename_i h
    refine ⟨by omega, ?_, fun a ha => absurd ha (Nat.not_lt_zero a)⟩
    intro a ha
    have hc : a = 0 ∨ a = 1 ∨ a = 2 := by omega
    rcases hc with rfl | rfl | rfl
    · exact le_refl _
    · exact h.1
    · exact h.2
  · rename_i h0
    split
    · rename_i h
      have hlt : u.span 0 < u.span 1 := by
        by_contra hcon
        have h01 : u.span 1 ≤ u.span 0 := not_lt.1 hcon
        exact h0 ⟨h01, le_trans h.2 h01⟩
      refine ⟨by omega, ?_, ?_⟩
      · intro a ha
        have hc : a = 0 ∨ a = 1 ∨ a = 2 := by omega
        rcases hc with rfl | rfl | rfl
        · exact h.1
        · exact le_refl _
        · exact h.2
      · intro a ha
        have : a = 0 := by omega
        subst this
        exact hlt
    · rename_i h1
      have h02 : u.span 0 < u.span 2 ∧ u.span 1 < u.span 2 := by
        by_cases h01 : u.span 1 ≤ u.span 0
        · have ha : u.span 0 < u.span 2 := by
            by_contra hcon
            exact h0 ⟨h01, not_lt.1 hcon⟩
          exact ⟨ha, lt_of_le_of_lt h01 ha⟩
        · have h10 : u.span 0 < u.span 1 := not_le.1 h01
          have hb : u.span 1 < u.span 2 := by
            by_contra hcon
            exact h1 ⟨le_of_lt h10, not_lt.1 hcon⟩
          exact ⟨lt_trans h10 hb, hb⟩
      refine ⟨by omega, ?_, ?_⟩
      · intro a ha
        have hc : a = 0 ∨ a = 1 ∨ a = 2 := by omega
        rcases hc with rfl | rfl | rfl
        · exact le_of_lt h02.1
        · exact le_of_lt h02.2
        · exact le_refl _
      · intro a ha
        have hc : a = 0 ∨ a = 1 := by omega
        rcases hc with rfl | rfl
        · exact h02.1
        · exact h02.2

/-! ## The split axis of a range -/

theorem plane_lower_or_same (Epsilon : ℚ) (normalize : Vec3 → Vec3) (pl : Plane)
    (h : Intersection) (ray : Ray) :
    (Plane.shape Epsilon normalize).intersect pl h ray = h ∨
    ((Plane.shape Epsilon normalize).intersect pl h ray).length_ < h.length_ := by
  simp only [Plane.shape, Plane.intersect]
  split
  · left; rfl
  · split
    · left; rfl
    · cases fdiv (pl.normal_.dot (pl.point_.sub ray.origin_)) (pl.normal_.dot ray.direction_) with
      | none => left; rfl
      | some t =>
        simp only
        split
        · left; rfl
        · rename_i hc
          right
          simp only [Option.getD_some]
          have : ¬ (t ≥ h.length_) := fun hge => hc (Or.inr hge)
          exact not_le.1 this

theorem leafLoop_shadow {T : Type} (Sh : Shape T) (ray : Ray) (l : List T)
    (hp : ∀ p ∈ l, ∀ h, Sh.intersect p h ray = h ∨ (Sh.intersect p h ray).length_ < h.length_)
    (h : Intersection) :
    BVH.leafLoop Sh ray true l h =
      (firstLowering Sh ray h l,
        (l.find? (fun p => decide ((Sh.intersect p h ray).length_ < h.length_))).isSome) := by
  induction l with
  | nil => rfl
  | cons p ps ih =>
    simp only [BVH.leafLoop, true_and, firstLowering, List.find?_cons]
    by_cases hl : (Sh.intersect p h ray).length_ < h.length_
    · simp [hl]
    · have hsame : Sh.intersect p h ray = h := by
        rcases hp p (List.mem_cons_self _ _) h with h1 | h1
        · exact h1
        · exact absurd h1 hl
      simp only [hl, if_false, decide_False]
      rw [hsame, ih (fun q hq => hp q (List.mem_cons_of_mem _ hq))]
      rfl

theorem firstLowering_append {T : Type} (Sh : Shape T) (ray : Ray) (h : Intersection)
    (l1 l2 : List T) :
    firstLowering Sh ray h (l1 ++ l2) =
      if (l1.find? (fun p => decide ((Sh.intersect p h ray).length_ < h.length_))).isSome
      then firstLowering Sh ray h l1 else firstLowering Sh ray h l2 := by
  unfold firstLowering
  rw [List.find?_append]
  cases hf : l1.find? (fun p => decide ((Sh.intersect p h ray).length_ < h.length_)) with
  | none => simp
  | some p => simp

theorem firstLowering_of_none {T : Type} (Sh : Shape T) (ray : Ray) (h : Intersection)
    (l : List T)
    (hf : (l.find? (fun p => decide ((Sh.intersect p h ray).length_ < h.length_))).isSome
      = false) :
    firstLowering Sh ray h l = h := by
  unfold firstLowering
  cases hc : l.find? (fun p => decide ((Sh.intersect p h ray).length_ < h.length_)) with
  | none => rfl
  | some p => rw [hc] at hf; simp at hf

theorem mem_walkOrder {T : Type} (primitives_ : List T) (ray : Ray) (t : Tree) (p : T)
    (hp : p ∈ walkOrder primitives_ ray t) : p ∈ primitives_ := by
  induction t with
  | leaf box b e =>
    simp only [walkOrder] at hp
    split at hp
    · exact mem_of_mem_slice hp
    · simp at hp
  | inner box l r ihl ihr =>
    simp only [walkOrder] at hp
    split at hp
    · rw [List.mem_append] at hp
      rcases hp with hp | hp
      · split at hp
        · exact ihl hp
        · simp at hp
      · split at hp
        · exact ihr hp
        · simp at hp
    · simp at hp

/-- In a shadow query over primitives whose test either lowers the length of the hit or
leaves the hit as it is, the walk returns the result of the first primitive in its order
whose test lowers the length, and the flag says whether there is one. -/
theorem visit_shadow {T : Type} (Sh : Shape T) (primitives_ : List T) (ray : Ray)
    (hp : ∀ p ∈ primitives_, ∀ h,
      Sh.intersect p h ray = h ∨ (Sh.intersect p h ray).length_ < h.length_)
    (t : Tree) (h : Intersection) :
    visit Sh primitives_ ray true t h =
      (firstLowering Sh ray h (walkOrder primitives_ ray t),
        ((walkOrder primitives_ ray t).find?
          (fun p => decide ((Sh.intersect p h ray).length_ < h.length_))).isSome) := by
  induction t generalizing h with
  | leaf box b e =>
    simp only [visit, walkOrder]
    split
    · exact leafLoop_shadow Sh ray _
        (fun p hm => hp p (mem_of_mem_slice hm)) h
    · rfl
  | inner box l r ihl ihr =>
    simp only [visit, walkOrder]
    by_cases hb : box.intersect ray = true
    · simp only [hb, if_true]
      by_cases hl : l.box.intersect ray = true
      · simp only [hl, if_true]
        rw [ihl h]
        simp only
        cases hfl : ((walkOrder primitives_ ray l).find?
            (fun p => decide ((Sh.intersect p h ray).length_ < h.length_))).isSome with
        | true =>
          simp only [if_true, firstLowering_append, hfl, List.find?_append]
          congr 1
          cases hc : (walkOrder primitives_ ray l).find?
              (fun p => decide ((Sh.intersect p h ray).length_ < h.length_)) with
          | none => rw [hc] at hfl; simp at hfl
          | some q => simp
        | false =>
          have hsame := firstLowering_of_none Sh ray h _ hfl
          have hnone : (walkOrder primitives_ ray l).find?
              (fun p => decide ((Sh.intersect p h ray).length_ < h.length_)) = none := by
            cases hc : (walkOrder primitives_ ray l).find?
                (fun p => decide ((Sh.intersect p h ray).length_ < h.length_)) with
            | none => rfl
            | some q => rw [hc] at hfl; simp at hfl
          simp only [Bool.false_eq_true, if_false, hsame, firstLowering_append, hfl,
            List.find?_append, hnone, Option.none_or]
          by_cases hr : r.box.intersect ray = true
          · simp only [hr, if_true]
            exact ihr h
          · simp [hr, firstLowering]
      · simp only [hl, if_false, List.nil_append]
        by_cases hr : r.box.intersect ray = true
        · simp only [hr, if_true]
          exact ihr h
        · simp only [hr, if_false]
          rfl
    · simp only [hb, if_false]
      rfl

/-- C29: for every list of planes, hit `h` and ray, on every hierarchy the constructor returns
`shadowTrace(h, ray)` returns and equals `intersect(h, ray)` of the first plane, in the order
in which the walk tests the planes, whose test lowers the length of the hit, and `h` when no
plane lowers it. The loop over a leaf returns at a test that lowers the length whatever
planes follow, and the walk ends with what this loop returns. The constructor returns a
hierarchy for every list of at most 513 planes. -/
theorem shadowTrace_first_lowering (fl : ℚ → ℚ) (S : Sorter) (Epsilon : ℚ) (normalize : Vec3 → Vec3)
    (planes : List Plane) (h : Intersection) (ray : Ray) :
    (planes.length ≤ 513 →
      ∃ bvh, BVH.construct fl S (Plane.shape Epsilon normalize) planes = some bvh) ∧
    (∀ bvh, BVH.construct fl S (Plane.shape Epsilon normalize) planes = some bvh →
      (planes = [] → BVH.shadowTrace (Plane.shape Epsilon normalize) bvh h ray = some h) ∧
      (planes ≠ [] → ∃ σ t, Built fl S (Plane.shape Epsilon normalize) planes bvh σ t ∧
        BVH.shadowTrace (Plane.shape Epsilon normalize) bvh h ray =
          some (firstLowering (Plane.shape Epsilon normalize) ray h
            (walkOrder bvh.primitives_ ray t)) ∧
        ((∀ p ∈ walkOrder bvh.primitives_ ray t,
            ¬ ((Plane.shape Epsilon normalize).intersect p h ray).length_ < h.length_) →
          BVH.shadowTrace (Plane.shape Epsilon normalize) bvh h ray = some h))) ∧
    (∀ (p : Plane) (ps : List Plane) (hit : Intersection),
      ((Plane.shape Epsilon normalize).intersect p hit ray).length_ < hit.length_ →
      BVH.leafLoop (Plane.shape Epsilon normalize) ray true (p :: ps) hit =
        ((Plane.shape Epsilon normalize).intersect p hit ray, true)) ∧
    (∀ (bvh : BVH Plane) (f : Nat) (σ : TraverseState) (hit : Intersection),
      BVH.intersectBody (Plane.shape Epsilon normalize) bvh ray true σ = some (.returned hit) →
      BVH.intersectLoop (Plane.shape Epsilon normalize) bvh ray true (f + 1) σ = some hit) := by
  refine ⟨construct_total fl S _ planes, ?_, ?_, ?_⟩
  · intro bvh hc
    constructor
    · intro hnil
      subst hnil
      rw [construct_nil] at hc
      simp only [Option.some.injEq] at hc
      subst hc
      rfl
    · intro hne
      obtain ⟨σ, t, hb⟩ := construct_built fl S _ planes hne bvh hc
      have hres : BVH.shadowTrace (Plane.shape Epsilon normalize) bvh h ray =
          some (firstLowering (Plane.shape Epsilon normalize) ray h
            (walkOrder bvh.primitives_ ray t)) := by
        unfold BVH.shadowTrace
        rw [intersect_built hb hne h ray true,
          visit_shadow _ bvh.primitives_ ray
            (fun p _ hit => plane_lower_or_same Epsilon normalize p hit ray) t h]
      refine ⟨σ, t, hb, hres, ?_⟩
      intro hno
      rw [hres]
      congr 1
      apply firstLowering_of_none
      cases hf : (walkOrder bvh.primitives_ ray t).find?
          (fun p => decide (((Plane.shape Epsilon normalize).intersect p h ray).length_
            < h.length_)) with
      | none => rfl
      | some q =>
        exfalso
        have hq := List.find?_some hf
        have hm := List.mem_of_find?_eq_some hf
        simp only [decide_eq_true_eq] at hq
        exact hno q hm hq
  · intro p ps hit hl
    simp [BVH.leafLoop, hl]
  · intro bvh f σ hit hb
    exact intersectLoop_returned _ bvh ray true f σ hit hb

/-! ## Leaves of a constructed hierarchy -/

/-- A leaf among the nodes of a hierarchy covers only positions of the range of the
hierarchy. -/
theorem Holds.covers_range {boxes : List BVHNode} {nodes : List BuildNode} {c b e m : Nat}
    {t : Tree} (h : Holds boxes nodes c b e m t) (i : Nat)
    (hi : i = c ∨ (m < i ∧ i < m + t.size)) (node : BVHNode)
    (hn : boxes.get? i = some node) (j : Nat) (hj : node.covers j) : b ≤ j ∧ j < e := by
  obtain ⟨b', e', m', t', hh, hb', he'⟩ := h.sub i hi
  unfold BVHNode.covers at hj
  rcases hh.leaf_or_inner node hn with ⟨ho, hnp, _, _, _⟩ | ⟨hz, _⟩
  · omega
  · omega

/-- Every position of the range of a hierarchy is covered by exactly one leaf among the nodes
of the hierarchy. -/
theorem Holds.unique_leaf {boxes : List BVHNode} {nodes : List BuildNode} {c b e m : Nat}
    {t : Tree} (h : Holds boxes nodes c b e m t) :
    ∀ j, b ≤ j → j < e →
      ∃ i, (i = c ∨ (m < i ∧ i < m + t.size)) ∧
        (∃ node, boxes.get? i = some node ∧ node.covers j) ∧
        ∀ i', (i' = c ∨ (m < i' ∧ i' < m + t.size)) →
          (∃ node, boxes.get? i' = some node ∧ node.covers j) → i' = i := by
  induction h with
  | leaf c b e m box h1 h2 h3 h4 h5 =>
    intro j hbj hje
    refine ⟨c, Or.inl rfl, ⟨_, h4, ?_⟩, ?_⟩
    · simp only [BVHNode.covers]
      omega
    · intro i' hi' _
      simp only [Tree.size] at hi'
      omega
  | inner c b k e m box l r h1 h2 h3 h4 h5 hl hr ihl ihr =>
    intro j hbj hje
    have hsl := Tree.size_pos l
    have hsr := Tree.size_pos r
    have hroot : ∀ i', i' = c → (∃ node, boxes.get? i' = some node ∧ node.covers j) → False := by
      intro i' hi' hex
      obtain ⟨node, hn, hcov⟩ := hex
      rw [hi', h4] at hn
      simp only [Option.some.injEq] at hn
      subst hn
      simp only [BVHNode.covers] at hcov
      omega
    rcases Nat.lt_or_ge j k with hjk | hkj
    · obtain ⟨i, hi, hcov, huniq⟩ := ihl j hbj hjk
      refine ⟨i, Or.inr (by simp only [Tree.size]; omega), hcov, ?_⟩
      intro i' hi' hex
      rcases hi' with hi' | hi'
      · exact absurd hex (fun hx => hroot i' hi' hx)
      · simp only [Tree.size] at hi'
        by_cases hleft : i' = m + 1 ∨ (m + 2 < i' ∧ i' < m + 2 + l.size)
        · exact huniq i' hleft hex
        · exfalso
          obtain ⟨node, hn, hc⟩ := hex
          have := hr.covers_range i' (by omega) node hn j hc
          omega
    · obtain ⟨i, hi, hcov, huniq⟩ := ihr j hkj hje
      refine ⟨i, Or.inr (by simp only [Tree.size]; omega), hcov, ?_⟩
      intro i' hi' hex
      rcases hi' with hi' | hi'
      · exact absurd hex (fun hx => hroot i' hi' hx)
      · simp only [Tree.size] at hi'
        by_cases hright : i' = m + 2 ∨ (m + 1 + l.size < i' ∧ i' < m + 1 + l.size + r.size)
        · exact huniq i' hright hex
        · exfalso
          obtain ⟨node, hn, hc⟩ := hex
          have := hl.covers_range i' (by omega) node hn j hc
          omega

/-- C24: for every non-empty vector of primitives (the constructor returns for at most 513
of them), in every hierarchy the constructor returns each position of the reordered vector
lies in the range `[indexOffset, indexOffset + numPrimitives)` of exactly one leaf, the
ranges of the leaves lie in `[0, N)`, and two leaves whose ranges share a position are the
same node; the reordered vector has `N` primitives. -/
theorem leaf_ranges_partition {T : Type} (fl : ℚ → ℚ) (S : Sorter) (Sh : Shape T)
    (primitives : List T) :
    (primitives.length ≤ 513 → ∃ bvh, BVH.construct fl S Sh primitives = some bvh) ∧
    (∀ bvh, BVH.construct fl S Sh primitives = some bvh → primitives ≠ [] →
      bvh.primitives_.length = primitives.length ∧
      (∀ j, j < primitives.length →
        ∃ i, (∃ node, bvh.boxes_.get? i = some node ∧ node.covers j) ∧
          ∀ i', (∃ node, bvh.boxes_.get? i' = some node ∧ node.covers j) → i' = i) ∧
      (∀ i node j, bvh.boxes_.get? i = some node → node.covers j → j < primitives.length) ∧
      (∀ i i' node node' j, bvh.boxes_.get? i = some node → bvh.boxes_.get? i' = some node' →
        node.covers j → node'.covers j → i = i')) := by
  refine ⟨construct_total fl S Sh primitives, ?_⟩
  intro bvh hc hne
  obtain ⟨σ, t, hb⟩ := construct_built fl S Sh primitives hne bvh hc
  have hidx : ∀ i node, bvh.boxes_.get? i = some node → (i = 0 ∨ (0 < i ∧ i < 0 + t.size)) := by
    intro i node hn
    have hlt : i < bvh.boxes_.length := by
      simp only [List.get?_eq_getElem?] at hn
      exact (List.getElem?_eq_some_iff.mp hn).1
    rw [hb.size_eq] at hlt
    omega
  have hin : ∀ i node j, bvh.boxes_.get? i = some node → node.covers j →
      j < primitives.length := by
    intro i node j hn hcov
    exact (hb.holds.covers_range i (hidx i node hn) node hn j hcov).2
  have hex : ∀ j, j < primitives.length →
      ∃ i, (∃ node, bvh.boxes_.get? i = some node ∧ node.covers j) ∧
        ∀ i', (∃ node, bvh.boxes_.get? i' = some node ∧ node.covers j) → i' = i := by
    intro j hj
    obtain ⟨i, _, hcov, huniq⟩ := hb.holds.unique_leaf j (Nat.zero_le _) hj
    refine ⟨i, hcov, ?_⟩
    intro i' hex'
    obtain ⟨node, hn, hc'⟩ := hex'
    exact huniq i' (hidx i' node hn) ⟨node, hn, hc'⟩
  refine ⟨hb.lengths.2, hex, hin, ?_⟩
  intro i i' node node' j hn hn' hcov hcov'
  obtain ⟨i0, _, huniq⟩ := hex j (hin i node j hn hcov)
  rw [huniq i ⟨node, hn, hcov⟩, huniq i' ⟨node', hn', hcov'⟩]

/-! ## The number of nodes -/

/-- A pass of the loop of `BVH<T>::build` that has a result either writes a leaf and pops the
next range, or splits a range of more than two build nodes and pushes its right part. -/
theorem buildBody_some (fl : ℚ → ℚ) (S : Sorter) (σ σ' : BuildState)
    (h : BVH.buildBody fl S σ = some σ') :
    σ.beginBoxIndex < σ.endBoxIndex ∧ σ.endBoxIndex ≤ σ.buildNodes.length ∧
    σ.currentBoxIndex < σ.boxes_.length ∧
    ((σ.endBoxIndex - σ.beginBoxIndex ≤ 2 ∧ ∃ top rest box, σ.stack = top :: rest ∧
        σ' = { boxes_ := σ.boxes_.set σ.currentBoxIndex
                 ⟨box, σ.beginBoxIndex, σ.endBoxIndex - σ.beginBoxIndex⟩,
               buildNodes := σ.buildNodes.take σ.beginBoxIndex ++
                 sortedRange S (slice σ.buildNodes σ.beginBoxIndex σ.endBoxIndex) ++
                 σ.buildNodes.drop σ.endBoxIndex,
               currentBoxIndex := top.1,
               beginBoxIndex := top.2.1,
               endBoxIndex := top.2.2,
               maxNodeIndex := σ.maxNodeIndex,
               stack := rest }) ∨
     (2 < σ.endBoxIndex - σ.beginBoxIndex ∧ σ.stack.length < 512 ∧ ∃ box k,
        BVH.getSplitIndexSah fl
          ((sortedRange S (slice σ.buildNodes σ.beginBoxIndex σ.endBoxIndex)).map
            (fun node => node.box_)) = some k ∧
        1 ≤ k ∧ k < σ.endBoxIndex - σ.beginBoxIndex ∧
        σ' = { boxes_ := σ.boxes_.set σ.currentBoxIndex
                 ⟨box, σ.maxNodeIndex + 1,
                   (σ.boxes_.getD σ.currentBoxIndex BVHNode.default).numPrimitives_⟩,
               buildNodes := σ.buildNodes.take σ.beginBoxIndex ++
                 sortedRange S (slice σ.buildNodes σ.beginBoxIndex σ.endBoxIndex) ++
                 σ.buildNodes.drop σ.endBoxIndex,
               currentBoxIndex := σ.maxNodeIndex + 1,
               beginBoxIndex := σ.beginBoxIndex,
               endBoxIndex := σ.beginBoxIndex + k,
               maxNodeIndex := σ.maxNodeIndex + 2,
               stack := (σ.maxNodeIndex + 2, σ.beginBoxIndex + k, σ.endBoxIndex) :: σ.stack })) := by
  by_cases hv : σ.beginBoxIndex < σ.endBoxIndex ∧ σ.endBoxIndex ≤ σ.buildNodes.length ∧
      σ.currentBoxIndex < σ.boxes_.length
  · obtain ⟨hb, he, hc⟩ := hv
    refine ⟨hb, he, hc, ?_⟩
    by_cases hsz : σ.endBoxIndex - σ.beginBoxIndex ≤ 2
    · left
      refine ⟨hsz, ?_⟩
      cases hst : σ.stack with
      | nil =>
        exfalso
        unfold BVH.buildBody at h
        simp only [hb, he, hc, and_self, not_true_eq_false, if_false, hsz, BVH.maxLeafSize,
          if_true, hst] at h
        split at h
        · exact Option.noConfusion h
        · split at h <;> exact Option.noConfusion h
      | cons top rest =>
        obtain ⟨box, -, hbody⟩ := buildBody_leaf_exact fl S σ top rest hb he hc hsz hst
        rw [hbody] at h
        simp only [Option.some.injEq] at h
        exact ⟨top, rest, box, rfl, h.symm⟩
    · right
      refine ⟨by omega, ?_⟩
      by_cases hfree : σ.stack.length < 512
      · obtain ⟨box, k, -, hk, hk1, hk2, hbody⟩ :=
          buildBody_inner_exact fl S σ hb he hc (by omega) hfree
        rw [hbody] at h
        simp only [Option.some.injEq] at h
        exact ⟨hfree, box, k, hk, hk1, hk2, h.symm⟩
      · exfalso
        have := (buildBody_inner fl S σ hb he hc (by omega)).1 (by omega)
        rw [this] at h
        exact Option.noConfusion h
  · exfalso
    unfold BVH.buildBody at h
    simp only [hv, not_false_eq_true, if_true] at h
    exact Option.noConfusion h

theorem Tree.size_leaves (t : Tree) : t.size + 1 = 2 * t.leaves := by
  induction t with
  | leaf box b e => rfl
  | inner box l r ihl ihr => simp only [Tree.size, Tree.leaves]; omega

theorem Holds.leaves_le {boxes : List BVHNode} {nodes : List BuildNode} {c b e m : Nat}
    {t : Tree} (h : Holds boxes nodes c b e m t) : t.leaves ≤ e - b := by
  induction h with
  | leaf c b e m box h1 h2 h3 h4 h5 => simp only [Tree.leaves]; omega
  | inner c b k e m box l r h1 h2 h3 h4 h5 hl hr ihl ihr => simp only [Tree.leaves]; omega

theorem leafCount_append (l l' : List BVHNode) :
    leafCount (l ++ l') = leafCount l + leafCount l' := by
  simp [leafCount]

theorem slice_one {α : Type} (l : List α) (i : Nat) (a : α) (h : l.get? i = some a) :
    slice l i (i + 1) = [a] := by
  apply List.ext_get?
  intro j
  rw [slice_get?]
  cases j with
  | zero =>
    rw [if_pos (by omega), Nat.add_zero, h]
    rfl
  | succ j =>
    rw [if_neg (by omega)]
    rfl

theorem slice_append_of_eq {α : Type} (l : List α) (b k k' e : Nat) (hk : k = k') (h1 : b ≤ k)
    (h2 : k ≤ e) : slice l b e = slice l b k ++ slice l k' e := by
  subst hk
  exact slice_append l b k e h1 h2

/-- The leaves among the nodes of a hierarchy in a node array are as many as the leaves of the
hierarchy. -/
theorem Holds.leafCount_eq {boxes : List BVHNode} {nodes : List BuildNode} {c b e m : Nat}
    {t : Tree} (h : Holds boxes nodes c b e m t) :
    leafCount (slice boxes c (c + 1)) + leafCount (slice boxes (m + 1) (m + t.size)) =
      t.leaves := by
  induction h with
  | leaf c b e m box h1 h2 h3 h4 h5 =>
    rw [slice_one boxes c _ h4]
    simp only [Tree.size, slice_eq_nil, Tree.leaves]
    have hpos : 0 < e - b := by omega
    simp [leafCount, hpos]
  | inner c b k e m box l r h1 h2 h3 h4 h5 hl hr ihl ihr =>
    have hsl := Tree.size_pos l
    have hsr := Tree.size_pos r
    rw [slice_one boxes c _ h4]
    simp only [Tree.size, Tree.leaves]
    have e1 : m + (1 + l.size + r.size) = m + 1 + l.size + r.size := by omega
    rw [e1,
      slice_append_of_eq boxes (m + 1) (m + 1 + 1) (m + 2) (m + 1 + l.size + r.size) rfl
        (by omega) (by omega),
      slice_append_of_eq boxes (m + 2) (m + 2 + 1) (m + 2 + 1) (m + 1 + l.size + r.size) rfl
        (by omega) (by omega),
      slice_append_of_eq boxes (m + 2 + 1) (m + 2 + l.size) (m + 1 + l.size + 1)
        (m + 1 + l.size + r.size) (by omega) (by omega) (by omega)]
    simp only [leafCount_append]
    have hroot : leafCount [(⟨box, m + 1, 0⟩ : BVHNode)] = 0 := by simp [leafCount]
    rw [hroot]
    omega

/-- The states in which the loop of `BVH<T>::build` enters its body leave room in the node
array for the nodes that are still to be written. -/
theorem buildReach_room {T : Type} (fl : ℚ → ℚ) (S : Sorter) (Sh : Shape T) (primitives : List T)
    (hne : primitives ≠ []) (σ : BuildState)
    (h : BuildReach fl S (BVH.initialState Sh
      (List.replicate (primitives.length * 2 - 1) BVHNode.default) primitives) σ) :
    σ.boxes_.length = primitives.length * 2 - 1 ∧ σ.currentBoxIndex ≤ σ.maxNodeIndex ∧
    (∀ entry ∈ σ.stack, entry.1 ≤ σ.maxNodeIndex) ∧
    σ.maxNodeIndex + 1 + (2 * (σ.endBoxIndex - σ.beginBoxIndex) - 2) + pendingRoom σ.stack ≤
      primitives.length * 2 - 1 := by
  have hN : 0 < primitives.length := List.length_pos.mpr hne
  induction h with
  | start =>
    refine ⟨by simp [BVH.initialState], by simp [BVH.initialState], ?_, ?_⟩
    · intro entry he
      simp only [BVH.initialState, List.mem_singleton] at he
      subst he
      simp [BVH.initialState]
    · simp only [BVH.initialState, pendingRoom, List.map_cons, List.map_nil, List.sum_cons,
        List.sum_nil]
      omega
  | pass σ σ' _ hbody hpos ih =>
    obtain ⟨hlen, hcur, hstack, hroom⟩ := ih
    obtain ⟨hb, he, hc, hcase⟩ := buildBody_some fl S σ σ' hbody
    rcases hcase with ⟨hsz, top, rest, box, hst, rfl⟩ | ⟨hsz, hfree, box, k, hk, hk1, hk2, rfl⟩
    · simp only [List.length_set]
      rw [hst] at hstack hroom
      refine ⟨hlen, hstack top (List.mem_cons_self _ _), ?_, ?_⟩
      · intro entry hmem
        exact hstack entry (List.mem_cons_of_mem _ hmem)
      · simp only [pendingRoom, List.map_cons, List.sum_cons] at hroom ⊢
        omega
    · simp only [List.length_set]
      refine ⟨hlen, by omega, ?_, ?_⟩
      · intro entry hmem
        rcases List.mem_cons.mp hmem with rfl | hmem
        · simp
        · have := hstack entry hmem
          omega
      · simp only [pendingRoom, List.map_cons, List.sum_cons] at hroom ⊢
        omega

/-- C27: for every non-empty vector of `N` primitives (the constructor returns for at most
513 of them), the node array of every hierarchy the constructor returns has
`maxNodeIndex + 1` nodes, which is `2 * L - 1` for the number `L` of its leaves, with
`L ≤ N` and so at most `2 * N - 1` nodes; every pass of the build loop writes its node at an
index below `2 * N - 1`, the size the constructor allocates, and leaves the other nodes as
they are. -/
theorem node_count {T : Type} (fl : ℚ → ℚ) (S : Sorter) (Sh : Shape T) (primitives : List T) :
    (primitives.length ≤ 513 → ∃ bvh, BVH.construct fl S Sh primitives = some bvh) ∧
    (∀ bvh, BVH.construct fl S Sh primitives = some bvh → primitives ≠ [] →
      ∃ σ t, Built fl S Sh primitives bvh σ t ∧
        bvh.boxes_.length = σ.maxNodeIndex + 1 ∧
        bvh.boxes_.length + 1 = 2 * leafCount bvh.boxes_ ∧
        leafCount bvh.boxes_ ≤ primitives.length ∧
        bvh.boxes_.length ≤ 2 * primitives.length - 1) ∧
    (∀ σ, primitives ≠ [] →
      BuildReach fl S (BVH.initialState Sh
        (List.replicate (primitives.length * 2 - 1) BVHNode.default) primitives) σ →
      σ.boxes_.length = 2 * primitives.length - 1 ∧
      σ.currentBoxIndex < 2 * primitives.length - 1 ∧
      σ.maxNodeIndex < 2 * primitives.length - 1) ∧
    (∀ σ σ', BVH.buildBody fl S σ = some σ' →
      σ'.boxes_.length = σ.boxes_.length ∧
      ∀ i, i ≠ σ.currentBoxIndex → σ'.boxes_.get? i = σ.boxes_.get? i) := by
  refine ⟨construct_total fl S Sh primitives, ?_, ?_, ?_⟩
  · intro bvh hc hne
    obtain ⟨σ, t, hb⟩ := construct_built fl S Sh primitives hne bvh hc
    have hemp : primitives.isEmpty = false := by
      cases primitives with
      | nil => exact absurd rfl hne
      | cons a l => rfl
    have hfit : ¬ (σ.boxes_.length < σ.maxNodeIndex + 1) := by
      intro hlt
      have hf := hb.final
      simp only [BVH.construct, hemp, Bool.false_eq_true, if_false, BVH.build, hf, hlt,
        if_true] at hc
      exact Option.noConfusion hc
    have hlen : bvh.boxes_.length = σ.maxNodeIndex + 1 := by
      rw [hb.boxes_eq, List.length_take]
      omega
    have hleaf : leafCount bvh.boxes_ = t.leaves := by
      have h1 := hb.holds.leafCount_eq
      have h2 := slice_append bvh.boxes_ 0 (0 + 1) (0 + t.size) (by omega)
        (by have := Tree.size_pos t; omega)
      have h3 : slice bvh.boxes_ 0 (0 + t.size) = bvh.boxes_ := by
        rw [Nat.zero_add, ← hb.size_eq]
        exact slice_full _
      rw [h3] at h2
      rw [h2, leafCount_append]
      exact h1
    have hsl := Tree.size_leaves t
    have hle := hb.holds.leaves_le
    refine ⟨σ, t, hb, hlen, ?_, ?_, ?_⟩
    · rw [hleaf, hb.size_eq]; exact hsl
    · rw [hleaf]; omega
    · rw [hb.size_eq]; omega
  · intro σ hne hr
    obtain ⟨h1, h2, _, h4⟩ := buildReach_room fl S Sh primitives hne σ hr
    refine ⟨by omega, by omega, by omega⟩
  · intro σ σ' hbody
    obtain ⟨_, _, _, hcase⟩ := buildBody_some fl S σ σ' hbody
    rcases hcase with ⟨_, top, rest, box, _, rfl⟩ | ⟨_, _, box, k, _, _, _, rfl⟩
    · exact ⟨by simp, fun i hi => get?_set_ne σ.boxes_ σ.currentBoxIndex i _ hi⟩
    · exact ⟨by simp, fun i hi => get?_set_ne σ.boxes_ σ.currentBoxIndex i _ hi⟩

/-! ## The constructor and the recursive build -/

/-- The constructor on a non-empty vector returns the hierarchy of the recursive build, after
one pass of the build loop for each node, when the walk of this hierarchy fits the 512-slot
stack; it has no result when the walk needs more slots. -/
theorem construct_tree {T : Type} (fl : ℚ → ℚ) (S : Sorter) (Sh : Shape T) (primitives : List T)
    (hne : primitives ≠ []) :
    (1 + (hierarchyOf fl S Sh primitives).pend ≤ 512 →
      ∃ bvh σ, BVH.construct fl S Sh primitives = some bvh ∧
        Built fl S Sh primitives bvh σ (hierarchyOf fl S Sh primitives) ∧ σ.stack = [] ∧
        BVH.buildLoop fl S bvh.boxes_.length (BVH.initialState Sh
          (List.replicate (primitives.length * 2 - 1) BVHNode.default) primitives) = some σ ∧
        ∀ j, j < bvh.boxes_.length → BVH.buildLoop fl S j (BVH.initialState Sh
          (List.replicate (primitives.length * 2 - 1) BVHNode.default) primitives) = none) ∧
    (512 < 1 + (hierarchyOf fl S Sh primitives).pend → BVH.construct fl S Sh primitives = none) := by
  have hN : 0 < primitives.length := List.length_pos.mpr hne
  have hemp : primitives.isEmpty = false := by
    cases primitives with
    | nil => exact absurd rfl hne
    | cons a l => rfl
  have hbounds : (hierarchyOf fl S Sh primitives).size + 1 ≤ 2 * primitives.length ∧
      (hierarchyOf fl S Sh primitives).pend + 2 ≤ max primitives.length 2 ∧
      (hierarchyOf fl S Sh primitives).depth + 2 ≤ max primitives.length 2 := by
    have := buildTree_bounds fl S primitives.length 0 (BVH.initialNodes Sh primitives)
      (by rw [initialNodes_length]) (by rw [initialNodes_length]; omega)
    rw [initialNodes_length] at this
    exact this
  obtain ⟨hok, hover⟩ := build_subtree_tree fl S primitives.length
    (BVH.initialState Sh (List.replicate (primitives.length * 2 - 1) BVHNode.default) primitives)
    primitives.length
    (by simp [BVH.initialState]) (le_refl _) (by simpa [BVH.initialState] using hN)
    (by simp [BVH.initialState, initialNodes_length])
    (by simp [BVH.initialState])
    (by simp only [BVH.initialState, List.length_replicate]; omega)
    (by simp [BVH.initialState]) (by simp [BVH.initialState])
    (by
      intro i _
      simp only [BVH.initialState]
      rw [getD_replicate_default]
      rfl)
    (hierarchyOf fl S Sh primitives)
    (by
      simp only [BVH.initialState, hierarchyOf]
      have := slice_full (BVH.initialNodes Sh primitives)
      rw [initialNodes_length] at this
      rw [this])
  simp only [BVH.initialState, List.length_singleton] at hok hover
  generalize hierarchyOf fl S Sh primitives = t at hok hover hbounds ⊢
  obtain ⟨hsize, hpend, _⟩ := hbounds
  constructor
  · intro hfit
    obtain ⟨σ', hd, hloop, hshort⟩ := hok hfit
    have hstack : σ'.stack = [] := by
      rw [hd.stack_eq]; rfl
    have hfinal : BVH.buildFinal fl S Sh (List.replicate (primitives.length * 2 - 1)
        BVHNode.default) primitives = some σ' := by
      simp only [BVH.buildFinal, BVH.initialState, List.length_replicate]
      have : primitives.length * 2 - 1 = (primitives.length * 2 - 1 - t.size) + t.size := by
        omega
      have hl := hloop (primitives.length * 2 - 1 - t.size)
      rw [← this, hstack] at hl
      rw [hl]
      simp
    have hmax : σ'.maxNodeIndex + 1 = t.size := by
      have := hd.max_eq
      simpa using this
    have hlen : σ'.boxes_.length = primitives.length * 2 - 1 := by
      rw [hd.length_eq]; simp
    have hperm : List.Perm σ'.buildNodes (BVH.initialNodes Sh primitives) := by
      have := hd.rearr
      exact this.perm (Nat.zero_le _) (by simp [initialNodes_length])
    obtain ⟨ps, hps, _⟩ := reorder_of_perm Sh primitives σ'.buildNodes hperm
    have hnot : ¬ (σ'.boxes_.length < σ'.maxNodeIndex + 1) := by omega
    have hlen' : (σ'.boxes_.take (σ'.maxNodeIndex + 1)).length = t.size := by
      simp only [List.length_take]; omega
    refine ⟨⟨σ'.boxes_.take (σ'.maxNodeIndex + 1), ps⟩, σ', ?_, ?_, hstack, ?_, ?_⟩
    · simp only [BVH.construct, hemp, Bool.false_eq_true, if_false, BVH.build, hfinal, hnot, hps]
    · refine ⟨hfinal, rfl, hps, hlen', ?_, hperm, by omega⟩
      have := hd.holds
      simp only at this
      apply this.frame rfl
      · intro i hi
        simp only [List.get?_eq_getElem?, List.getElem?_take]
        have : i < σ'.maxNodeIndex + 1 := by
          rcases hi with rfl | hi
          · omega
          · omega
        rw [if_pos this]
      · intro i _ _
        rfl
    · simp only [hlen', BVH.initialState]
      have hl := hloop 0
      rw [Nat.zero_add, hstack] at hl
      rw [hl]
      simp
    · intro j hj
      simp only [hlen'] at hj
      simp only [BVH.initialState]
      exact hshort j hj
  · intro hov
    simp only [BVH.construct, hemp, Bool.false_eq_true, if_false, BVH.build, BVH.buildFinal,
      BVH.initialState]
    rw [hover hov]

/-- Whatever the constructor returns for a non-empty vector is the hierarchy of the recursive
build. -/
theorem construct_hierarchy {T : Type} (fl : ℚ → ℚ) (S : Sorter) (Sh : Shape T)
    (primitives : List T) (hne : primitives ≠ []) (bvh : BVH T) (h : BVH.construct fl S Sh primitives = some bvh) :
    ∃ σ, Built fl S Sh primitives bvh σ (hierarchyOf fl S Sh primitives) := by
  obtain ⟨hok, hover⟩ := construct_tree fl S Sh primitives hne
  rcases Nat.lt_or_ge 512 (1 + (hierarchyOf fl S Sh primitives).pend) with hov | hfit
  · rw [hover hov] at h
    exact Option.noConfusion h
  · obtain ⟨bvh', σ, h', hb, _, _, _⟩ := hok hfit
    rw [h] at h'
    simp only [Option.some.injEq] at h'
    subst h'
    exact ⟨σ, hb⟩

/-! ## Boxes that are all the same -/

theorem surroundingBox_self (box : AABB) : surroundingBox box box = box := by
  simp [surroundingBox, Vec3.min, Vec3.max]

theorem unionBoxes_replicate (box : AABB) (n : Nat) :
    unionBoxes (List.replicate (n + 1) box) = some box := by
  simp only [List.replicate_succ, unionBoxes]
  congr 1
  induction n with
  | zero => rfl
  | succ n ih => simp only [List.replicate_succ, List.foldl_cons, surroundingBox_self, ih]

theorem sahCost_replicate (box : AABB) (n j : Nat) (h1 : 1 ≤ j) (h2 : j < n) :
    sahCost (List.replicate n box) j = (n : ℚ) * box.getSurfaceArea := by
  unfold sahCost
  obtain ⟨j', rfl⟩ : ∃ j', j = j' + 1 := ⟨j - 1, by omega⟩
  obtain ⟨d, hd⟩ : ∃ d, n - (j' + 1) = d + 1 := ⟨n - (j' + 1) - 1, by omega⟩
  have ht : (List.replicate n box).take (j' + 1) = List.replicate (j' + 1) box := by
    rw [List.take_replicate]
    congr 1
    omega
  have hdr : (List.replicate n box).drop (j' + 1) = List.replicate (d + 1) box := by
    rw [List.drop_replicate, hd]
  rw [ht, hdr, unionBoxes_replicate, unionBoxes_replicate]
  simp only [Option.getD_some, List.length_replicate, hd]
  have : ((j' + 1 : Nat) : ℚ) + ((d + 1 : Nat) : ℚ) = (n : ℚ) := by
    rw [← Nat.cast_add]
    congr 1
    omega
  rw [← this]
  ring

/-- The split index is 1 when every split has the computed cost of the split at 1. -/
theorem getSplitIndexSah_ties (fl : ℚ → ℚ) (boxes : List AABB) (hn : 2 ≤ boxes.length)
    (hties : ∀ j, 1 ≤ j → j < boxes.length →
      sahCostFloat fl boxes j = sahCostFloat fl boxes 1) :
    BVH.getSplitIndexSah fl boxes = some 1 := by
  obtain ⟨k, hk, hk1, hk2, hmin⟩ := getSplitIndexSah_spec fl boxes hn
  have h1 := (hmin 1 (le_refl _) (by omega)).2
  have : k = 1 := by
    have := h1 (hties k hk1 hk2).symm
    omega
  rw [hk, this]

/-- Without rounding, the split index of a range whose boxes are all the same is 1. -/
theorem getSplitIndexSah_replicate (box : AABB) (n : Nat) (hn : 2 ≤ n) :
    BVH.getSplitIndexSah unrounded (List.replicate n box) = some 1 := by
  apply getSplitIndexSah_ties unrounded _ (by simp only [List.length_replicate]; exact hn)
  intro j hj1 hj2
  simp only [List.length_replicate] at hj2
  rw [sahCostFloat_unrounded, sahCostFloat_unrounded, sahCost_replicate box n j hj1 hj2,
    sahCost_replicate box n 1 (le_refl _) (by omega)]

/-- With a rounding that keeps 0, the split index of a range whose boxes are all the same box
of surface area 0 is 1: every computed cost is 0. -/
theorem getSplitIndexSah_flat (fl : ℚ → ℚ) (h0 : fl 0 = 0) (box : AABB)
    (harea : box.getSurfaceArea = 0) (n : Nat) (hn : 2 ≤ n) :
    BVH.getSplitIndexSah fl (List.replicate n box) = some 1 := by
  have hcost : ∀ j, 1 ≤ j → j < n → sahCostFloat fl (List.replicate n box) j = 0 := by
    intro j hj1 hj2
    obtain ⟨j', rfl⟩ : ∃ j', j = j' + 1 := ⟨j - 1, by omega⟩
    obtain ⟨d, hd⟩ : ∃ d, n - (j' + 1) = d + 1 := ⟨n - (j' + 1) - 1, by omega⟩
    have ht : (List.replicate n box).take (j' + 1) = List.replicate (j' + 1) box := by
      rw [List.take_replicate]
      congr 1
      omega
    have hdr : (List.replicate n box).drop (j' + 1) = List.replicate (d + 1) box := by
      rw [List.drop_replicate, hd]
    unfold sahCostFloat
    simp only
    rw [ht, hdr, unionBoxes_replicate, unionBoxes_replicate]
    simp only [Option.getD_some, harea, h0, mul_zero, add_zero, ite_self]
  apply getSplitIndexSah_ties fl _ (by simp only [List.length_replicate]; exact hn)
  intro j hj1 hj2
  simp only [List.length_replicate] at hj2
  rw [hcost j hj1 hj2, hcost 1 (le_refl _) (by omega)]

/-- The recursive build over `n ≥ 2` build nodes whose boxes are all the same, when the split
index of such a range is 1, gives a hierarchy with `n - 2` steps from the root to its
deepest leaf, whose walk needs at most one slot of the stack. -/
theorem buildTree_same_box (fl : ℚ → ℚ) (S : Sorter) (box : AABB)
    (hsplit : ∀ m, 2 ≤ m → BVH.getSplitIndexSah fl (List.replicate m box) = some 1) :
    ∀ (fuel b : Nat) (range : List BuildNode),
    (∀ node ∈ range, node.box_ = box) → range.length ≤ fuel →
    (buildTree fl S fuel b range).depth = range.length - 2 ∧
    (buildTree fl S fuel b range).pend ≤ 1 := by
  intro fuel
  induction fuel with
  | zero =>
    intro b range _ hlen
    simp only [buildTree, Tree.depth, Tree.pend]
    omega
  | succ fuel ih =>
    intro b range hall hlen
    rcases Nat.lt_or_ge 2 range.length with hbig | hsmall
    · have hslen := sortedRange_length S range
      have hsall : ∀ node ∈ sortedRange S range, node.box_ = box :=
        fun node hm => hall node ((sortedRange_perm S range).subset hm)
      have hmap : (sortedRange S range).map (fun node => node.box_) =
          List.replicate range.length box := by
        rw [List.eq_replicate_iff]
        refine ⟨by simp only [List.length_map]; exact hslen, ?_⟩
        intro bx hbx
        obtain ⟨node, hnode, rfl⟩ := List.mem_map.mp hbx
        exact hsall node hnode
      have hk := hsplit range.length (by omega)
      have hnot : ¬ range.length ≤ 2 := by omega
      simp only [buildTree, BVH.maxLeafSize, hnot, if_false, hmap, hk]
      obtain ⟨l1, _⟩ := ih b ((sortedRange S range).take 1)
        (fun node hm => hsall node (List.mem_of_mem_take hm))
        (by simp only [List.length_take]; omega)
      have l2 := (buildTree_bounds fl S fuel b ((sortedRange S range).take 1)
        (by simp only [List.length_take]; omega) (by simp only [List.length_take]; omega)).2.1
      obtain ⟨r1, r2⟩ := ih (b + 1) ((sortedRange S range).drop 1)
        (fun node hm => hsall node (List.mem_of_mem_drop hm))
        (by simp only [List.length_drop]; omega)
      simp only [List.length_take, List.length_drop] at l1 l2 r1
      simp only [Tree.depth, Tree.pend]
      refine ⟨by omega, by omega⟩
    · simp only [buildTree, BVH.maxLeafSize, hsmall, if_true, Tree.depth, Tree.pend]
      omega

/-- The constructor on `n` copies of one primitive, when the split index of a range of copies
of its box is 1, returns a hierarchy with `n - 2` steps from the root to its deepest leaf. -/
theorem construct_same {T : Type} (fl : ℚ → ℚ) (S : Sorter) (Sh : Shape T) (p : T) (n : Nat)
    (hn : 1 ≤ n)
    (hsplit : ∀ m, 2 ≤ m →
      BVH.getSplitIndexSah fl (List.replicate m (Sh.getAABB p)) = some 1) :
    ∃ bvh σ t, BVH.construct fl S Sh (List.replicate n p) = some bvh ∧
      Built fl S Sh (List.replicate n p) bvh σ t ∧ t.depth = n - 2 := by
  have hne : List.replicate n p ≠ [] := by
    intro h
    have := congrArg List.length h
    simp only [List.length_replicate, List.length_nil] at this
    omega
  have hall : ∀ node ∈ BVH.initialNodes Sh (List.replicate n p), node.box_ = Sh.getAABB p := by
    intro node hm
    obtain ⟨q, hq, hbox⟩ := initialNodes_mem Sh (List.replicate n p) node hm
    have hmem : q ∈ List.replicate n p := List.get?_mem hq
    rw [List.eq_of_mem_replicate hmem] at hbox
    exact hbox
  obtain ⟨hd, hp⟩ := buildTree_same_box fl S (Sh.getAABB p) hsplit (List.replicate n p).length 0
    (BVH.initialNodes Sh (List.replicate n p)) hall (by rw [initialNodes_length])
  obtain ⟨hok, _⟩ := construct_tree fl S Sh (List.replicate n p) hne
  obtain ⟨bvh, σ, hc, hb, _, _, _⟩ := hok (by unfold hierarchyOf; omega)
  refine ⟨bvh, σ, _, hc, hb, ?_⟩
  unfold hierarchyOf
  rw [hd, initialNodes_length, List.length_replicate]

/-! ## The depth of the hierarchy -/

/-- C28 (as amended): for every non-empty vector of `N` primitives and every rounding `fl` to
`float` (the constructor returns for at most 513 primitives), the hierarchy the constructor
returns is the one of the recursive build, and it has at most `N - 2` steps from the root to
a leaf when `N ≥ 2` and none when `N = 1`; its walk needs at most `N - 2` slots of the stack.
The bound `N - 2` is attained by `N` copies of a primitive whose box has the surface area 0,
with every rounding that keeps 0. -/
theorem depth_le_linear {T : Type} (fl : ℚ → ℚ) (S : Sorter) (Sh : Shape T)
    (primitives : List T) :
    (primitives.length ≤ 513 → ∃ bvh, BVH.construct fl S Sh primitives = some bvh) ∧
    (∀ bvh, BVH.construct fl S Sh primitives = some bvh → primitives ≠ [] →
      ∃ σ t, Built fl S Sh primitives bvh σ t ∧ t = hierarchyOf fl S Sh primitives ∧
        t.depth + 2 ≤ max primitives.length 2 ∧ t.pend + 2 ≤ max primitives.length 2) ∧
    (∀ (p : T) (n : Nat), 1 ≤ n → fl 0 = 0 → (Sh.getAABB p).getSurfaceArea = 0 →
      ∃ bvh σ t, BVH.construct fl S Sh (List.replicate n p) = some bvh ∧
        Built fl S Sh (List.replicate n p) bvh σ t ∧ t.depth = n - 2) := by
  refine ⟨construct_total fl S Sh primitives, ?_, fun p n hn h0 harea =>
    construct_same fl S Sh p n hn
      (fun m hm => getSplitIndexSah_flat fl h0 (Sh.getAABB p) harea m hm)⟩
  intro bvh hc hne
  obtain ⟨σ, hb⟩ := construct_hierarchy fl S Sh primitives hne bvh hc
  have hbounds := buildTree_bounds fl S primitives.length 0 (BVH.initialNodes Sh primitives)
    (by rw [initialNodes_length])
    (by rw [initialNodes_length]; exact List.length_pos.mpr hne)
  rw [initialNodes_length] at hbounds
  exact ⟨σ, _, hb, rfl, hbounds.2.2, hbounds.2.1⟩

theorem log_bound_fails (c : Nat) :
    ¬ 2 ^ (2 * c + 2) - 2 ≤ c * Nat.log 2 (2 ^ (2 * c + 2)) := by
  intro hle
  rw [Nat.log_pow (by norm_num)] at hle
  have h2 : c < 2 ^ c := Nat.lt_two_pow c
  have h3 : 2 ^ (2 * c + 2) = 4 * (2 ^ c * 2 ^ c) := by
    rw [pow_add, two_mul, pow_add]
    ring
  rw [h3] at hle
  have h4 : (c + 1) * (c + 1) ≤ 2 ^ c * 2 ^ c := Nat.mul_le_mul h2 h2
  have h5 : 4 * (2 ^ c * 2 ^ c) ≤ c * (2 * c + 2) + 2 := by omega
  nlinarith

/-- No constant multiple of `log2 N` bounds the depth of the hierarchies of `N` primitives.
In binary32 arithmetic, for `N = 4^(c + 1)` primitives that are the same point the hierarchy
has `N - 2` steps from the root to its deepest leaf, which is more than `c * log2 N`: every
computed cost is 0 and the split index stays 1. Without rounding the same holds for
`N = 4^(c + 1)` copies of the plane `z = 0`. -/
theorem depth_not_logarithmic :
    (¬ ∃ c : Nat, ∀ (points : List Vec3) (bvh : BVH Vec3) (σ : BuildState) (t : Tree),
      Built binary32 insertionSorter pointShape points bvh σ t →
        t.depth ≤ c * Nat.log 2 points.length) ∧
    (¬ ∃ c : Nat, ∀ (planes : List Plane) (bvh : BVH Plane) (σ : BuildState) (t : Tree),
      Built unrounded insertionSorter sampleShape planes bvh σ t →
        t.depth ≤ c * Nat.log 2 planes.length) := by
  constructor
  · rintro ⟨c, h⟩
    obtain ⟨bvh, σ, t, _, hb, hd⟩ := construct_same binary32 insertionSorter pointShape
      (⟨0, 0, 0⟩ : Vec3) (2 ^ (2 * c + 2)) Nat.one_le_two_pow
      (fun m hm => getSplitIndexSah_flat binary32 binary32_zero _
        (by norm_num [pointShape, AABB.getSurfaceArea]) m hm)
    have hle := h _ bvh σ t hb
    rw [hd, List.length_replicate] at hle
    exact log_bound_fails c hle
  · rintro ⟨c, h⟩
    obtain ⟨bvh, σ, t, _, hb, hd⟩ := construct_same unrounded insertionSorter sampleShape
      floorPlane (2 ^ (2 * c + 2)) Nat.one_le_two_pow
      (fun m hm => getSplitIndexSah_replicate _ m hm)
    have hle := h _ bvh σ t hb
    rw [hd, List.length_replicate] at hle
    exact log_bound_fails c hle

/-! ## The comb: boxes and areas -/

theorem combStep_lt {i j : Nat} (h : i < j) : combStep i < combStep j := by
  unfold combStep
  omega

theorem combX_lt {i j : Nat} (h : i < j) : combX i < combX j := by
  unfold combX
  have h1 : (combStep i : ℚ) < (combStep j : ℚ) := by exact_mod_cast combStep_lt h
  linarith

theorem combX_le {i j : Nat} (h : i ≤ j) : combX i ≤ combX j := by
  rcases Nat.eq_or_lt_of_le h with rfl | h
  · exact le_refl _
  · exact le_of_lt (combX_lt h)

theorem combY_range (i : Nat) : 0 ≤ combY i ∧ combY i ≤ 100 := by
  unfold combY
  split <;> norm_num

theorem combY_succ (i : Nat) :
    min (combY i) (combY (i + 1)) = 0 ∧ max (combY i) (combY (i + 1)) = 100 := by
  unfold combY
  rcases Nat.mod_two_eq_zero_or_one i with h | h
  · have h' : (i + 1) % 2 = 1 := by omega
    simp [h, h']
  · have h' : (i + 1) % 2 = 0 := by omega
    simp [h, h']

theorem surroundingBox_comb_pair (r : ℚ) (i : Nat) :
    surroundingBox (combBox r i) (combBox r (i + 1)) = combUnion r i (i + 1) := by
  have hx := combX_le (Nat.le_succ i)
  obtain ⟨hy1, hy2⟩ := combY_succ i
  simp only [surroundingBox, combBox, combUnion, Vec3.min, Vec3.max, AABB.mk.injEq,
    Vec3.mk.injEq]
  refine ⟨⟨min_eq_left (by linarith), hy1, min_self _⟩,
    ⟨max_eq_right (by linarith), hy2, max_self _⟩⟩

theorem surroundingBox_comb_next (r : ℚ) (i j : Nat) (h : i ≤ j) :
    surroundingBox (combUnion r i j) (combBox r (j + 1)) = combUnion r i (j + 1) := by
  have hx := combX_le (Nat.le_succ j)
  have hx' := combX_le (Nat.le_succ_of_le h)
  obtain ⟨hy1, hy2⟩ := combY_range (j + 1)
  simp only [surroundingBox, combBox, combUnion, Vec3.min, Vec3.max, AABB.mk.injEq,
    Vec3.mk.injEq]
  refine ⟨⟨min_eq_left (by linarith), min_eq_left hy1, min_self _⟩,
    ⟨max_eq_right (by linarith), max_eq_left hy2, max_self _⟩⟩

theorem unionBoxes_snoc (l : List AABB) (u x : AABB) (h : unionBoxes l = some u) :
    unionBoxes (l ++ [x]) = some (surroundingBox u x) := by
  cases l with
  | nil => exact Option.noConfusion h
  | cons b bs =>
    simp only [unionBoxes, Option.some.injEq] at h
    simp only [List.cons_append, unionBoxes, List.foldl_append, List.foldl_cons, List.foldl_nil, h]

theorem combNodes_succ (r : ℚ) (i n : Nat) :
    combNodes r i (n + 1) = combNodes r i n ++ [combNode r (i + n)] := by
  simp only [combNodes, List.range'_1_concat, List.map_append, List.map_cons, List.map_nil]

theorem combNodes_length (r : ℚ) (i n : Nat) : (combNodes r i n).length = n := by
  simp [combNodes]

theorem combNodes_append (r : ℚ) (i k n : Nat) :
    combNodes r i (k + n) = combNodes r i k ++ combNodes r (i + k) n := by
  simp only [combNodes, ← List.map_append, List.range'_append_1, Nat.add_comm k n]

theorem combNodes_take (r : ℚ) (m k : Nat) (h : k ≤ m) :
    (combNodes r 0 m).take k = combNodes r 0 k := by
  obtain ⟨n, rfl⟩ : ∃ n, m = k + n := ⟨m - k, by omega⟩
  rw [combNodes_append, List.take_left' (combNodes_length r 0 k)]

theorem combNodes_drop (r : ℚ) (m k : Nat) (h : k ≤ m) :
    (combNodes r 0 m).drop k = combNodes r k (m - k) := by
  obtain ⟨n, rfl⟩ : ∃ n, m = k + n := ⟨m - k, by omega⟩
  rw [combNodes_append, List.drop_left' (combNodes_length r 0 k), Nat.zero_add,
    Nat.add_sub_cancel_left]

/-- The union of the boxes of two or more planes of the comb that follow one another. -/
theorem unionBoxes_comb (r : ℚ) (i d : Nat) :
    unionBoxes ((combNodes r i (d + 2)).map (fun node => node.box_)) =
      some (combUnion r i (i + d + 1)) := by
  induction d with
  | zero =>
    simp only [combNodes, List.range', List.map_cons, List.map_nil, unionBoxes, List.foldl_cons,
      List.foldl_nil, combNode, Option.some.injEq]
    exact surroundingBox_comb_pair r i
  | succ d ih =>
    rw [combNodes_succ, List.map_append, List.map_cons, List.map_nil,
      unionBoxes_snoc _ _ _ ih]
    simp only [combNode]
    have := surroundingBox_comb_next r i (i + d + 1) (by omega)
    have e : i + (d + 2) = i + d + 1 + 1 := by omega
    rw [e, this]
    rfl

theorem unionBoxes_comb_one (r : ℚ) (i : Nat) :
    unionBoxes ((combNodes r i 1).map (fun node => node.box_)) = some (combBox r i) := by
  simp [combNodes, List.range', unionBoxes, combNode]

theorem combBox_area (r : ℚ) (i : Nat) : (combBox r i).getSurfaceArea = 8 * r ^ 2 := by
  simp only [AABB.getSurfaceArea, combBox]
  ring

theorem combUnion_area (r : ℚ) (i j : Nat) :
    (combUnion r i j).getSurfaceArea =
      8 * r ^ 2 + 800 * r + (200 + 4 * r) * (combX j - combX i) := by
  simp only [AABB.getSurfaceArea, combUnion]
  ring

/-! ## The comb: the split of every range -/

theorem sahCost_comb (r : ℚ) (k n : Nat) :
    sahCost ((combNodes r 0 (k + n)).map (fun node => node.box_)) k =
      (k : ℚ) * ((unionBoxes ((combNodes r 0 k).map (fun node => node.box_))).getD
        (AABB.mk ⟨0, 0, 0⟩ ⟨0, 0, 0⟩)).getSurfaceArea +
      (n : ℚ) * ((unionBoxes ((combNodes r k n).map (fun node => node.box_))).getD
        (AABB.mk ⟨0, 0, 0⟩ ⟨0, 0, 0⟩)).getSurfaceArea := by
  unfold sahCost
  rw [← List.map_take, ← List.map_drop, combNodes_take r (k + n) k (by omega),
    combNodes_drop r (k + n) k (by omega), List.length_map, combNodes_length,
    Nat.add_sub_cancel_left]

theorem sahCost_comb_last (r : ℚ) (d : Nat) :
    sahCost ((combNodes r 0 (d + 3)).map (fun node => node.box_)) (d + 2) =
      ((d + 2 : Nat) : ℚ) * (8 * r ^ 2 + 800 * r + (200 + 4 * r) * (combX (d + 1) - combX 0)) +
      8 * r ^ 2 := by
  have h := sahCost_comb r (d + 2) 1
  rw [unionBoxes_comb r 0 d, unionBoxes_comb_one] at h
  simp only [Option.getD_some, combUnion_area, combBox_area, Nat.zero_add, Nat.cast_one,
    one_mul] at h
  exact h

theorem sahCost_comb_first (r : ℚ) (d : Nat) :
    sahCost ((combNodes r 0 (d + 3)).map (fun node => node.box_)) 1 =
      8 * r ^ 2 +
      ((d + 2 : Nat) : ℚ) * (8 * r ^ 2 + 800 * r + (200 + 4 * r) * (combX (d + 2) - combX 1)) := by
  have h := sahCost_comb r 1 (d + 2)
  rw [unionBoxes_comb r 1 d, unionBoxes_comb_one] at h
  have e1 : 1 + (d + 2) = d + 3 := by omega
  have e2 : 1 + d + 1 = d + 2 := by omega
  rw [e1, e2] at h
  simp only [Option.getD_some, combUnion_area, combBox_area, Nat.cast_one, one_mul] at h
  exact h

theorem sahCost_comb_mid (r : ℚ) (a b : Nat) :
    sahCost ((combNodes r 0 (a + b + 4)).map (fun node => node.box_)) (a + 2) =
      ((a + 2 : Nat) : ℚ) * (8 * r ^ 2 + 800 * r + (200 + 4 * r) * (combX (a + 1) - combX 0)) +
      ((b + 2 : Nat) : ℚ) *
        (8 * r ^ 2 + 800 * r + (200 + 4 * r) * (combX (a + b + 3) - combX (a + 2))) := by
  have h := sahCost_comb r (a + 2) (b + 2)
  rw [unionBoxes_comb r 0 a, unionBoxes_comb r (a + 2) b] at h
  have e1 : a + 2 + (b + 2) = a + b + 4 := by omega
  have e2 : a + 2 + b + 1 = a + b + 3 := by omega
  rw [e1, e2] at h
  simp only [Option.getD_some, combUnion_area, Nat.zero_add] at h
  exact h

theorem comb_cost_lt (r K J N w1 wa wb : ℚ) (hr : 50 ≤ r) (hJ : 0 ≤ J) (hN : 0 ≤ N)
    (hsum : J + N = K + 1) (hw1 : K * w1 ≤ 90) (hwa : 0 ≤ wa) (hwb : 0 ≤ wb) :
    K * (8 * r ^ 2 + 800 * r + (200 + 4 * r) * w1) + 8 * r ^ 2 <
      J * (8 * r ^ 2 + 800 * r + (200 + 4 * r) * wa) +
      N * (8 * r ^ 2 + 800 * r + (200 + 4 * r) * wb) := by
  have hc : 0 ≤ 200 + 4 * r := by linarith
  have h1 : 0 ≤ J * ((200 + 4 * r) * wa) := mul_nonneg hJ (mul_nonneg hc hwa)
  have h2 : 0 ≤ N * ((200 + 4 * r) * wb) := mul_nonneg hN (mul_nonneg hc hwb)
  have h3 : (200 + 4 * r) * (K * w1) ≤ (200 + 4 * r) * 90 := mul_le_mul_of_nonneg_left hw1 hc
  have h4 : J * (8 * r ^ 2 + 800 * r + (200 + 4 * r) * wa) +
      N * (8 * r ^ 2 + 800 * r + (200 + 4 * r) * wb) =
      (J + N) * (8 * r ^ 2 + 800 * r) + J * ((200 + 4 * r) * wa) +
        N * ((200 + 4 * r) * wb) := by ring
  have h5 : K * (8 * r ^ 2 + 800 * r + (200 + 4 * r) * w1) + 8 * r ^ 2 =
      K * (8 * r ^ 2 + 800 * r) + (200 + 4 * r) * (K * w1) + 8 * r ^ 2 := by ring
  rw [h4, h5, hsum]
  have h6 : (K + 1) * (8 * r ^ 2 + 800 * r) = K * (8 * r ^ 2 + 800 * r) + 8 * r ^ 2 + 800 * r := by
    ring
  rw [h6]
  linarith

theorem combX_zero : combX 0 = 0 := by
  simp [combX, combStep]

theorem comb_width_le (m : Nat) (hm : m + 3 ≤ 600) :
    ((m + 2 : Nat) : ℚ) * (combX (m + 1) - combX 0) ≤ 90 := by
  rw [combX_zero, sub_zero]
  unfold combX
  have h1 : (m + 2) * combStep (m + 1) ≤ 599 * 1195 := by
    apply Nat.mul_le_mul
    · omega
    · unfold combStep; omega
  have h2 : (((m + 2) * combStep (m + 1) : Nat) : ℚ) ≤ ((599 * 1195 : Nat) : ℚ) :=
    Nat.cast_le.mpr h1
  push_cast at h2 ⊢
  linarith

theorem comb_gap (d : Nat) : combX (d + 1) - combX 0 < combX (d + 2) - combX 1 := by
  unfold combX
  have h1 : combStep (d + 1) + combStep 1 < combStep (d + 2) + combStep 0 := by
    unfold combStep
    omega
  have h2 : ((combStep (d + 1) + combStep 1 : Nat) : ℚ) <
      ((combStep (d + 2) + combStep 0 : Nat) : ℚ) := Nat.cast_lt.mpr h1
  push_cast at h2
  linarith

/-- The split index of the first `m` planes of the comb, for `3 ≤ m ≤ 600`, is `m - 1`: the
split that leaves the last plane alone has a lower cost than every other split. -/
theorem getSplitIndexSah_comb (r : ℚ) (hr : 50 ≤ r) (d : Nat) (hd : d + 3 ≤ 600) :
    BVH.getSplitIndexSah unrounded ((combNodes r 0 (d + 3)).map (fun node => node.box_)) =
      some (d + 2) := by
  obtain ⟨k, hk, hk1, hk2, hmin⟩ := getSplitIndexSah_spec_unrounded
    ((combNodes r 0 (d + 3)).map (fun node => node.box_))
    (by simp only [List.length_map, combNodes_length]; omega)
  simp only [List.length_map, combNodes_length] at hk2 hmin
  have hlast := (hmin (d + 2) (by omega) (by omega)).1
  rw [sahCost_comb_last] at hlast
  have hc : 0 < 200 + 4 * r := by linarith
  have hkeq : k = d + 2 := by
    by_contra hne
    rcases Nat.eq_or_lt_of_le hk1 with h1 | h1
    · -- the split after the first plane
      subst h1
      rw [sahCost_comb_first] at hlast
      have hgap := comb_gap d
      have hpos : (0 : ℚ) < ((d + 2 : Nat) : ℚ) := by exact_mod_cast (by omega : 0 < d + 2)
      have := mul_lt_mul_of_pos_left (mul_lt_mul_of_pos_left hgap hc) hpos
      linarith
    · -- a split with two or more planes on either side
      obtain ⟨a, rfl⟩ : ∃ a, k = a + 2 := ⟨k - 2, by omega⟩
      obtain ⟨b, hb⟩ : ∃ b, d = a + b + 1 := ⟨d - a - 1, by omega⟩
      subst hb
      have e : a + b + 1 + 3 = a + b + 4 := by omega
      rw [e, sahCost_comb_mid] at hlast
      have hw := comb_width_le (a + b + 1) (by omega)
      have hlt := comb_cost_lt r ((a + b + 1 + 2 : Nat) : ℚ) ((a + 2 : Nat) : ℚ)
        ((b + 2 : Nat) : ℚ) (combX (a + b + 1 + 1) - combX 0) (combX (a + 1) - combX 0)
        (combX (a + b + 3) - combX (a + 2)) hr (Nat.cast_nonneg _) (Nat.cast_nonneg _)
        (by push_cast; ring) hw
        (by have := combX_le (Nat.zero_le (a + 1)); linarith)
        (by have := combX_le (show a + 2 ≤ a + b + 3 by omega); linarith)
      linarith
  rw [hk, hkeq]

/-! ## The comb: the order of every range -/

theorem sorted_perm_eq {α : Type} (key : α → ℚ) : ∀ (l l' : List α),
    l.Pairwise (fun a b => key a < key b) → l'.Pairwise (fun a b => key a ≤ key b) →
    List.Perm l' l → l' = l := by
  intro l
  induction l with
  | nil =>
    intro l' _ _ hp
    exact hp.eq_nil
  | cons a t ih =>
    intro l' hl hl' hp
    cases l' with
    | nil => exact absurd hp.symm.eq_nil (by simp)
    | cons b t' =>
      have hab : b = a := by
        by_contra hne
        have hb : b ∈ a :: t := hp.subset (List.mem_cons_self _ _)
        have hbt : b ∈ t := by
          rcases List.mem_cons.mp hb with h | h
          · exact absurd h hne
          · exact h
        have h1 : key a < key b := (List.pairwise_cons.mp hl).1 b hbt
        have ha : a ∈ b :: t' := hp.symm.subset (List.mem_cons_self _ _)
        have hat : a ∈ t' := by
          rcases List.mem_cons.mp ha with h | h
          · exact absurd h.symm hne
          · exact h
        have h2 : key b ≤ key a := (List.pairwise_cons.mp hl').1 a hat
        linarith
      subst hab
      rw [ih t' (List.pairwise_cons.mp hl).2 (List.pairwise_cons.mp hl').2 (List.Perm.cons_inv hp)]

theorem foldl_surroundingBox_map (l : List BuildNode) (a : AABB) :
    (l.map (fun node => node.box_)).foldl surroundingBox a =
      l.foldl (fun acc node => surroundingBox node.box_ acc) a := by
  induction l generalizing a with
  | nil => rfl
  | cons n ns ih =>
    simp only [List.map_cons, List.foldl_cons]
    rw [surroundingBox_comm a n.box_, ih]

theorem boxOf_eq_unionBoxes (l : List BuildNode) :
    boxOf l = unionBoxes (l.map (fun node => node.box_)) := by
  cases l with
  | nil => rfl
  | cons n ns =>
    rw [boxOf_cons, List.map_cons]
    simp only [unionBoxes, foldl_surroundingBox_map]

theorem combNode_key (r : ℚ) (i : Nat) : (combNode r i).midPoint_.get 0 = combX i := by
  simp only [combNode, AABB.getMidPoint, combBox, Vec3.get]
  simp

/-- The split axis of two or more planes of the comb from the first on is x. -/
theorem splitAxis_comb (r : ℚ) (hr : 50 ≤ r) (d : Nat) :
    splitAxis (combNodes r 0 (d + 2)) = 0 := by
  obtain ⟨first, rest, hfr⟩ : ∃ first rest, combNodes r 0 (d + 2) = first :: rest := by
    simp only [combNodes, List.range'_succ, List.map_cons]
    exact ⟨_, _, rfl⟩
  rw [hfr]
  simp only [splitAxis]
  obtain ⟨box, hbox, hlt, hmax, hfirst⟩ := getMaxAxis_spec first rest
  rw [← hfr, boxOf_eq_unionBoxes, unionBoxes_comb] at hbox
  simp only [Option.some.injEq] at hbox
  subst hbox
  by_contra hne
  have h0 := hfirst 0 (Nat.pos_of_ne_zero hne)
  have hx := combX_le (Nat.zero_le (d + 1))
  have hcases : BVH.getMaxAxis first rest = 1 ∨ BVH.getMaxAxis first rest = 2 := by omega
  rcases hcases with h | h
  · rw [h] at h0
    simp only [AABB.span, combUnion, Vec3.get] at h0
    norm_num at h0
    linarith
  · rw [h] at h0
    simp only [AABB.span, combUnion, Vec3.get] at h0
    norm_num at h0
    linarith

/-- A pass of the build loop leaves the first `m ≥ 2` planes of the comb in their order. -/
theorem sortedRange_comb (S : Sorter) (r : ℚ) (hr : 50 ≤ r) (d : Nat) :
    sortedRange S (combNodes r 0 (d + 2)) = combNodes r 0 (d + 2) := by
  unfold sortedRange
  rw [splitAxis_comb r hr d]
  apply sorted_perm_eq (fun node => node.midPoint_.get 0)
  · unfold combNodes
    rw [List.pairwise_map]
    apply (List.pairwise_lt_range' 0 (d + 2)).imp
    intro i j hij
    rw [combNode_key, combNode_key]
    exact combX_lt hij
  · exact S.sorted _ _
  · exact S.perm _ _

/-- The walk of the hierarchy of the recursive build over the first `d + 2` planes of the
comb needs `d` slots of the stack or more. -/
theorem buildTree_comb_pend (S : Sorter) (r : ℚ) (hr : 50 ≤ r) : ∀ (d fuel : Nat),
    d + 2 ≤ fuel → d + 2 ≤ 600 →
    d ≤ (buildTree unrounded S fuel 0 (combNodes r 0 (d + 2))).pend := by
  intro d
  induction d with
  | zero => intro fuel _ _; exact Nat.zero_le _
  | succ d ih =>
    intro fuel hfuel hd
    obtain ⟨fuel, rfl⟩ : ∃ fuel', fuel = fuel' + 1 := ⟨fuel - 1, by omega⟩
    have hnot : ¬ (combNodes r 0 (d + 1 + 2)).length ≤ 2 := by
      rw [combNodes_length]; omega
    have hsplit := getSplitIndexSah_comb r hr d (by omega)
    have hsorted := sortedRange_comb S r hr (d + 1)
    have e : d + 1 + 2 = d + 3 := by omega
    rw [e] at hnot hsorted
    simp only [e, buildTree, BVH.maxLeafSize, hnot, if_false, hsorted, hsplit, Tree.pend]
    rw [combNodes_take r (d + 3) (d + 2) (by omega)]
    have := ih fuel (by omega) (by omega)
    omega

/-! ## The comb of planes -/

theorem comb_getAABB (i : Nat) : sampleShape.getAABB (combPlane i) = combBox combRadius i := by
  simp only [sampleShape, Plane.shape, Plane.getAABB, Plane.getRightVector, combPlane,
    normalizeRight, combBox, combRadius, Vec3.get, Vec3.add, Vec3.scale]
  norm_num
  ring

theorem combPlanes_length (n : Nat) : (combPlanes n).length = n := by
  simp [combPlanes]

theorem initialNodes_comb (n : Nat) :
    BVH.initialNodes sampleShape (combPlanes n) = combNodes combRadius 0 n := by
  apply List.ext_get?
  intro i
  rw [initialNodes_get?]
  simp only [combPlanes, combNodes, List.get?_eq_getElem?, List.getElem?_map]
  by_cases hi : i < n
  · rw [List.getElem?_range hi, List.getElem?_range' 0 1 hi]
    simp only [Option.map_some', Nat.zero_add, Nat.one_mul]
    rw [comb_getAABB]
    rfl
  · rw [List.getElem?_eq_none (by simp only [List.length_range]; omega),
      List.getElem?_eq_none (by simp only [List.length_range']; omega)]
    rfl

theorem combRadius_ge : (50 : ℚ) ≤ combRadius := by
  unfold combRadius
  norm_num

/-- The walk of the hierarchy of the recursive build over the first `n` planes of the comb,
for `514 ≤ n ≤ 600`, needs 512 slots of the stack or more. -/
theorem comb_pend (S : Sorter) (n : Nat) (h1 : 514 ≤ n) (h2 : n ≤ 600) :
    512 ≤ (hierarchyOf unrounded S sampleShape (combPlanes n)).pend := by
  unfold hierarchyOf
  rw [initialNodes_comb, combPlanes_length]
  obtain ⟨d, rfl⟩ : ∃ d, n = d + 2 := ⟨n - 2, by omega⟩
  have := buildTree_comb_pend S combRadius combRadius_ge d (d + 2) (le_refl _) h2
  omega

theorem combPlanes_ne_nil (n : Nat) (h : 0 < n) : combPlanes n ≠ [] := by
  intro hnil
  have := congrArg List.length hnil
  rw [combPlanes_length] at this
  simp only [List.length_nil] at this
  omega

/-- The constructor has no result on the first 514 planes of the comb. -/
theorem comb_construct_none (S : Sorter) :
    BVH.construct unrounded S sampleShape (combPlanes 514) = none := by
  have hp := comb_pend S 514 (le_refl _) (by norm_num)
  exact (construct_tree unrounded S sampleShape (combPlanes 514)
    (combPlanes_ne_nil 514 (by norm_num))).2 (by omega)

/-- The build loop over the first `n` planes of the comb goes down the ranges `[0, n)`,
`[0, n - 1)`, ..., with one more entry on its stack at each of them. -/
theorem comb_spine (S : Sorter) (n : Nat) (h1 : 514 ≤ n) (h2 : n ≤ 600) : ∀ d, d ≤ 511 →
    ∃ σ, BuildReach unrounded S (BVH.initialState sampleShape
        (List.replicate ((combPlanes n).length * 2 - 1) BVHNode.default) (combPlanes n)) σ ∧
      σ.beginBoxIndex = 0 ∧ σ.endBoxIndex = n - d ∧
      σ.buildNodes = combNodes combRadius 0 n ∧ σ.stack.length = d + 1 ∧
      σ.currentBoxIndex < σ.boxes_.length := by
  have hne := combPlanes_ne_nil n (by omega)
  intro d
  induction d with
  | zero =>
    intro _
    refine ⟨_, BuildReach.start, ?_, ?_, ?_, ?_, ?_⟩
    · rfl
    · simp [BVH.initialState, combPlanes_length]
    · simp only [BVH.initialState]; exact initialNodes_comb n
    · rfl
    · simp only [BVH.initialState, List.length_replicate, combPlanes_length]; omega
  | succ d ih =>
    intro hd
    obtain ⟨σ, hreach, hb, he, hnodes, hstack, hc⟩ := ih (by omega)
    obtain ⟨box, k, _, hk, _, _, hbody⟩ := buildBody_inner_exact unrounded S σ
      (by rw [hb, he]; omega) (by rw [he, hnodes, combNodes_length]; omega) hc
      (by rw [hb, he]; omega) (by rw [hstack]; omega)
    have hslice : slice σ.buildNodes σ.beginBoxIndex σ.endBoxIndex =
        combNodes combRadius 0 (n - d) := by
      rw [hb, he, hnodes]
      unfold slice
      rw [List.drop_zero, Nat.sub_zero]
      exact combNodes_take combRadius n (n - d) (by omega)
    obtain ⟨m, hm⟩ : ∃ m, n - d = m + 3 := ⟨n - d - 3, by omega⟩
    have hsorted : sortedRange S (combNodes combRadius 0 (n - d)) =
        combNodes combRadius 0 (n - d) := by
      rw [hm]
      exact sortedRange_comb S combRadius combRadius_ge (m + 1)
    rw [hslice, hsorted] at hk hbody
    rw [hm, getSplitIndexSah_comb combRadius combRadius_ge m (by omega)] at hk
    simp only [Option.some.injEq] at hk
    subst hk
    have hroom := buildReach_room unrounded S sampleShape (combPlanes n) hne _
      (BuildReach.pass σ _ hreach hbody (by simp))
    refine ⟨_, BuildReach.pass σ _ hreach hbody (by simp), ?_, ?_, ?_, ?_, ?_⟩
    · exact hb
    · simp only [hb]; omega
    · simp only [hb, he, hnodes, List.take_zero, List.nil_append]
      rw [← combNodes_take combRadius n (n - d) (by omega)]
      exact List.take_append_drop _ _
    · simp only [List.length_cons, hstack]
    · obtain ⟨r1, r2, _, r4⟩ := hroom
      simp only at r1 r2 r4
      simp only [List.length_set]
      have hlen : σ.boxes_.length = (combPlanes n).length * 2 - 1 := by
        have := r1
        simp only [List.length_set] at this
        exact this
      omega

/-- C21: on the first 514 planes of the comb (normal `(0, 1, 0)`, points
`(combX i, combY i, 0)`), for every result of `std::sort` on the ranges, the loop of
`BVH<T>::build` reaches the range `[0, 3)` with 512 entries on its stack; the pass over this
range pushes, for which the 512-slot arrays have no slot left, so that the pass and the
constructor have no result. The constructor returns a hierarchy for the first 513 planes.
The costs of the splits are the ones of arithmetic without rounding. -/
theorem build_comb_overflow (S : Sorter) :
    (∃ σ, BuildReach unrounded S (BVH.initialState sampleShape
        (List.replicate ((combPlanes 514).length * 2 - 1) BVHNode.default) (combPlanes 514)) σ ∧
      σ.stack.length = 512 ∧ σ.beginBoxIndex = 0 ∧ σ.endBoxIndex = 3 ∧
      σ.endBoxIndex ≤ σ.buildNodes.length ∧ σ.currentBoxIndex < σ.boxes_.length ∧
      BVH.maxLeafSize < σ.endBoxIndex - σ.beginBoxIndex ∧ BVH.stackSize ≤ σ.stack.length ∧
      BVH.buildBody unrounded S σ = none) ∧
    BVH.construct unrounded S sampleShape (combPlanes 514) = none ∧
    (∃ bvh, BVH.construct unrounded S sampleShape (combPlanes 513) = some bvh) := by
  refine ⟨?_, comb_construct_none S, construct_total unrounded S sampleShape (combPlanes 513)
    (by rw [combPlanes_length])⟩
  obtain ⟨σ, hreach, hb, he, hnodes, hstack, hc⟩ :=
    comb_spine S 514 (le_refl _) (by norm_num) 511 (le_refl _)
  have he3 : σ.endBoxIndex = 3 := by rw [he]
  have hlen : σ.endBoxIndex ≤ σ.buildNodes.length := by
    rw [he3, hnodes, combNodes_length]; norm_num
  refine ⟨σ, hreach, hstack, hb, he3, hlen, hc, ?_, ?_, ?_⟩
  · rw [hb, he3]; decide
  · rw [hstack]; decide
  · exact (buildBody_inner unrounded S σ (by rw [hb, he3]; norm_num) hlen hc
      (by rw [hb, he3]; norm_num)).1 (by rw [hstack])

/-- Every pass of the loop of `BVH<T>::build` that has a result lowers the number of passes
the loop can still make. -/
theorem passesLeft_lt (fl : ℚ → ℚ) (S : Sorter) (σ σ' : BuildState)
    (h : BVH.buildBody fl S σ = some σ') : σ'.passesLeft < σ.passesLeft := by
  obtain ⟨hb, _, _, hcase⟩ := buildBody_some fl S σ σ' h
  rcases hcase with ⟨_, top, rest, box, hst, rfl⟩ | ⟨_, _, box, k, _, hk1, hk2, rfl⟩
  · simp only [BuildState.passesLeft, hst, List.map_cons, List.sum_cons]
    omega
  · simp only [BuildState.passesLeft, List.map_cons, List.sum_cons]
    omega

/-- C26: the build loop terminates for every non-empty vector of primitives, with every
rounding `fl` to `float`. Every pass over a range of more than two build nodes splits it at
an index `k` with `1 ≤ k < rangeSize`, goes on with the left part and pushes the right part,
both not empty and shorter than the range. Every pass lowers the number of passes the loop
can still make, which is `2 N - 1` at the start, so that no sequence of passes is infinite.
The loop returns the hierarchy of the recursive build after exactly one pass for each of its
nodes, with the stack back at its base, when the walk of this hierarchy fits the 512-slot
stack, which it does for at most 513 primitives; a pass that finds the stack full at its push
has no result. -/
theorem build_returns_iff_fits {T : Type} (fl : ℚ → ℚ) (S : Sorter) (Sh : Shape T)
    (primitives : List T) :
    (∀ σ σ', BVH.buildBody fl S σ = some σ' → 2 < σ.endBoxIndex - σ.beginBoxIndex →
      ∃ k, 1 ≤ k ∧ k < σ.endBoxIndex - σ.beginBoxIndex ∧
        σ'.beginBoxIndex = σ.beginBoxIndex ∧ σ'.endBoxIndex = σ.beginBoxIndex + k ∧
        σ'.stack = (σ'.maxNodeIndex, σ.beginBoxIndex + k, σ.endBoxIndex) :: σ.stack) ∧
    (∀ σ σ', BVH.buildBody fl S σ = some σ' → σ'.passesLeft < σ.passesLeft) ∧
    WellFounded (fun σ' σ : BuildState => BVH.buildBody fl S σ = some σ') ∧
    (primitives ≠ [] → (BVH.initialState Sh
      (List.replicate (primitives.length * 2 - 1) BVHNode.default) primitives).passesLeft =
        2 * primitives.length - 1) ∧
    (primitives ≠ [] → 1 + (hierarchyOf fl S Sh primitives).pend ≤ 512 →
      ∃ bvh σ, BVH.construct fl S Sh primitives = some bvh ∧
        Built fl S Sh primitives bvh σ (hierarchyOf fl S Sh primitives) ∧ σ.stack = [] ∧
        bvh.boxes_.length ≤ 2 * primitives.length - 1 ∧
        BVH.buildLoop fl S bvh.boxes_.length (BVH.initialState Sh
          (List.replicate (primitives.length * 2 - 1) BVHNode.default) primitives) = some σ ∧
        ∀ j, j < bvh.boxes_.length → BVH.buildLoop fl S j (BVH.initialState Sh
          (List.replicate (primitives.length * 2 - 1) BVHNode.default) primitives) = none) ∧
    (primitives ≠ [] → 512 < 1 + (hierarchyOf fl S Sh primitives).pend →
      BVH.construct fl S Sh primitives = none) ∧
    (primitives.length ≤ 513 → ∃ bvh, BVH.construct fl S Sh primitives = some bvh) := by
  refine ⟨?_, passesLeft_lt fl S, ?_, ?_, ?_, ?_, construct_total fl S Sh primitives⟩
  · intro σ σ' hbody hsz
    obtain ⟨_, _, _, hcase⟩ := buildBody_some fl S σ σ' hbody
    rcases hcase with ⟨hle, _⟩ | ⟨_, _, box, k, _, hk1, hk2, rfl⟩
    · omega
    · exact ⟨k, hk1, hk2, rfl, rfl, rfl⟩
  · exact Subrelation.wf (fun {σ' σ} h => passesLeft_lt fl S σ σ' h)
      (InvImage.wf BuildState.passesLeft Nat.lt_wfRel.wf)
  · intro hne
    simp only [BuildState.passesLeft, BVH.initialState, List.map_cons, List.map_nil,
      List.sum_cons, List.sum_nil]
    omega
  · intro hne hfit
    obtain ⟨bvh, σ, hc, hb, hst, hloop, hshort⟩ :=
      (construct_tree fl S Sh primitives hne).1 hfit
    refine ⟨bvh, σ, hc, hb, hst, ?_, hloop, hshort⟩
    have hbounds := buildTree_bounds fl S primitives.length 0 (BVH.initialNodes Sh primitives)
      (by rw [initialNodes_length])
      (by rw [initialNodes_length]; exact List.length_pos.mpr hne)
    rw [initialNodes_length] at hbounds
    have hsize := hb.size_eq
    unfold hierarchyOf at hsize
    omega
  · intro hne hov
    exact (construct_tree fl S Sh primitives hne).2 hov

theorem lookup_append_single {α : Type} (cache : List (String × α)) (name key : String)
    (texture : α) :
    (cache ++ [(name, texture)]).lookup key =
      match cache.lookup key with
      | some stored => some stored
      | none => if key = name then some texture else none := by
  induction cache with
  | nil =>
    by_cases h : key = name
    · subst h; simp [List.lookup]
    · have h' : (key == name) = false := by simpa using h
      simp [List.lookup, h', h]
  | cons e rest ih =>
    obtain ⟨k, v⟩ := e
    by_cases h : key = k
    · subst h; simp [List.lookup]
    · have h' : (key == k) = false := by simpa using h
      simp only [List.cons_append, List.lookup, h']
      exact ih

/-- C31: `getTextureFromCache` is a get-or-insert keyed by the name of the texture. When the
cache has the key, the cache is returned unchanged with the stored texture, whatever
`createTexture` is (no texture is created). Otherwise the texture is
`createTexture (directory ++ name)`, the new cache is the old one with the one entry
`name -> texture` added, one entry longer, every other key is looked up as before, and a
second call with the same name (with any `createTexture` and any directory) returns the
same texture and leaves the cache as it is. The overload that takes the binary and its size
behaves in the same way with its own `createTexture`. -/
theorem getTextureFromCache_get_or_insert (lib : Library) (cache : List (String × Texture))
    (directory name : String) :
    (∀ stored, cache.lookup name = some stored →
      (∀ lib2 : Library,
        OBJLoader.getTextureFromCache lib2 cache directory name = (stored, cache)) ∧
      ∀ (create : String → Int → Texture) (binary : String) (size : Int),
        OBJLoader.getTextureFromCacheBinary create cache binary size name = (stored, cache)) ∧
    (cache.lookup name = none →
      (OBJLoader.getTextureFromCache lib cache directory name).1 =
          lib.createTexture (directory ++ name) ∧
      (OBJLoader.getTextureFromCache lib cache directory name).2 =
          cache ++ [(name, lib.createTexture (directory ++ name))] ∧
      (OBJLoader.getTextureFromCache lib cache directory name).2.length = cache.length + 1 ∧
      (OBJLoader.getTextureFromCache lib cache directory name).2.lookup name =
          some (lib.createTexture (directory ++ name)) ∧
      (∀ key, key ≠ name →
        (OBJLoader.getTextureFromCache lib cache directory name).2.lookup key =
          cache.lookup key) ∧
      (∀ (lib2 : Library) (directory2 : String),
        OBJLoader.getTextureFromCache lib2
            (OBJLoader.getTextureFromCache lib cache directory name).2 directory2 name =
          OBJLoader.getTextureFromCache lib cache directory name) ∧
      ∀ (create : String → Int → Texture) (binary : String) (size : Int),
        (OBJLoader.getTextureFromCacheBinary create cache binary size name).1 =
            create binary size ∧
        (OBJLoader.getTextureFromCacheBinary create cache binary size name).2 =
            cache ++ [(name, create binary size)] ∧
        (∀ key, key ≠ name →
          (OBJLoader.getTextureFromCacheBinary create cache binary size name).2.lookup key =
            cache.lookup key) ∧
        ∀ (create2 : String → Int → Texture) (binary2 : String) (size2 : Int),
          OBJLoader.getTextureFromCacheBinary create2
              (OBJLoader.getTextureFromCacheBinary create cache binary size name).2
              binary2 size2 name =
            OBJLoader.getTextureFromCacheBinary create cache binary size name) := by
  refine ⟨fun stored hs => ⟨fun lib2 => ?_, fun create binary size => ?_⟩, fun hn => ?_⟩
  · simp only [OBJLoader.getTextureFromCache, hs]
  · simp only [OBJLoader.getTextureFromCacheBinary, hs]
  · have hmiss : ∀ lib2 : Library, ∀ d : String,
        OBJLoader.getTextureFromCache lib2 cache d name =
          (lib2.createTexture (d ++ name), cache ++ [(name, lib2.createTexture (d ++ name))]) := by
      intro lib2 d
      simp only [OBJLoader.getTextureFromCache, hn]
    have hmissB : ∀ (create : String → Int → Texture) (binary : String) (size : Int),
        OBJLoader.getTextureFromCacheBinary create cache binary size name =
          (create binary size, cache ++ [(name, create binary size)]) := by
      intro create binary size
      simp only [OBJLoader.getTextureFromCacheBinary, hn]
    have hself : ∀ t : Texture, (cache ++ [(name, t)]).lookup name = some t := by
      intro t
      rw [lookup_append_single, hn]; simp
    have hother : ∀ (t : Texture) (key : String), key ≠ name →
        (cache ++ [(name, t)]).lookup key = cache.lookup key := by
      intro t key hk
      rw [lookup_append_single]
      cases hc : cache.lookup key with
      | none => simp [hk]
      | some s => rfl
    rw [hmiss]
    refine ⟨rfl, rfl, by simp, hself _, fun key hk => hother _ key hk, fun lib2 d2 => ?_,
      fun create binary size => ?_⟩
    · simp only [OBJLoader.getTextureFromCache, hself]
    · rw [hmissB]
      refine ⟨rfl, rfl, fun key hk => hother _ key hk, fun create2 binary2 size2 => ?_⟩
      simp only [OBJLoader.getTextureFromCacheBinary, hself]

theorem and_MASK (n : Nat) : n &&& MASK = n % 2 ^ 20 := by
  have h : MASK = 2 ^ 20 - 1 := by decide
  rw [h, Nat.and_pow_two_sub_one_eq_mod]

theorem and_MASK_lt (n : Nat) : n &&& MASK < SIZE := by
  rw [and_MASK]
  have h : SIZE = 2 ^ 20 := by decide
  rw [h]
  exact Nat.mod_lt _ (by norm_num)

theorem wrap_and_MASK (n : Nat) : (n % 2 ^ 32) &&& MASK = n &&& MASK := by
  rw [and_MASK, and_MASK]
  exact Nat.mod_mod_of_dvd n (by norm_num)

/-- C32: the table of random values has `SIZE = 2^20` entries and every index of a lookup is
below `SIZE`, for every value `c` of the counter. `getCosineSampleHemisphere` reads the table
at `c & 0xFFFFF` and at `(c + 1) & 0xFFFFF` only (two tables that agree there give the same
direction) and leaves the counter at `c + 2` modulo `2^32`; `getLightIndex` reads it at
`c & 0xFFFFF` only, with every rounding `fl` to `float`, and leaves the counter at `c + 1`
modulo `2^32`. At the last value of the counter, `2^32 - 1`, the second index is 0. -/
theorem sampler_indices_in_range {K : Type} [LinearOrderedField K] [FloorRing K]
    (fl sqrt cos sin : K → K) (two_pi : K) (VALUES VALUES2 : Nat → K) (sh : Shader) (c : Nat)
    (normal : V3 K) :
    SIZE = 2 ^ 20 ∧
    c &&& 0xFFFFF < SIZE ∧ (c + 1) &&& 0xFFFFF < SIZE ∧
    (fetch_add c).1 &&& MASK = c &&& 0xFFFFF ∧
    (fetch_add (fetch_add c).2).1 &&& MASK = (c + 1) &&& 0xFFFFF ∧
    (VALUES (c &&& 0xFFFFF) = VALUES2 (c &&& 0xFFFFF) →
      VALUES ((c + 1) &&& 0xFFFFF) = VALUES2 ((c + 1) &&& 0xFFFFF) →
      Shader.getCosineSampleHemisphere sqrt cos sin two_pi VALUES c normal =
        Shader.getCosineSampleHemisphere sqrt cos sin two_pi VALUES2 c normal) ∧
    (Shader.getCosineSampleHemisphere sqrt cos sin two_pi VALUES c normal).2 =
      (c + 2) % 2 ^ 32 ∧
    (VALUES (c &&& 0xFFFFF) = VALUES2 (c &&& 0xFFFFF) →
      Shader.getLightIndex fl VALUES sh c = Shader.getLightIndex fl VALUES2 sh c) ∧
    (Shader.getLightIndex fl VALUES sh c).2 = (c + 1) % 2 ^ 32 ∧
    (fetch_add (fetch_add (2 ^ 32 - 1)).2).1 &&& MASK = 0 := by
  have h1 : (fetch_add c).1 &&& MASK = c &&& 0xFFFFF := rfl
  have h2 : (fetch_add (fetch_add c).2).1 &&& MASK = (c + 1) &&& 0xFFFFF := by
    show ((c + 1) % 2 ^ 32) &&& MASK = (c + 1) &&& MASK
    exact wrap_and_MASK (c + 1)
  refine ⟨by decide, and_MASK_lt c, and_MASK_lt (c + 1), h1, h2, fun e1 e2 => ?_, ?_,
    fun e1 => ?_, rfl, by decide⟩
  · simp only [Shader.getCosineSampleHemisphere, h1, h2, e1, e2]
  · show ((c + 1) % 2 ^ 32 + 1) % 2 ^ 32 = (c + 2) % 2 ^ 32
    omega
  · simp only [Shader.getLightIndex, h1, e1]

/-- A hit that `Plane::intersect` returns and that differs from the hit it was given: the
divisor is not zero, the distance is the quotient, at least `Epsilon` and below the length
of the hit given, and the four fields are the ones of the last branch. -/
theorem plane_intersect_accept (Epsilon : ℚ) (pl : Plane) (h h2 : Intersection) (ray : Ray)
    (hi : Plane.intersect Epsilon pl h ray = some h2) (hne : h2 ≠ h) :
    pl.normal_.dot ray.direction_ ≠ 0 ∧
    Epsilon ≤ h2.length_ ∧ h2.length_ < h.length_ ∧
    h2.length_ = pl.normal_.dot (pl.point_.sub ray.origin_) / pl.normal_.dot ray.direction_ ∧
    h2 = ⟨ray.origin_.add (ray.direction_.scale h2.length_), h2.length_, pl.normal_,
      some pl.addr⟩ := by
  unfold Plane.intersect at hi
  split at hi
  · exact absurd (Option.some.inj hi).symm hne
  · simp only at hi
    split at hi
    · exact absurd (Option.some.inj hi).symm hne
    · by_cases h0 : pl.normal_.dot ray.direction_ = 0
      · simp [fdiv, h0] at hi
      · simp only [fdiv, if_neg h0] at hi
        split at hi
        · exact absurd (Option.some.inj hi).symm hne
        · rename_i hrange
          have hrange2 := not_or.mp hrange
          have e := (Option.some.inj hi).symm
          subst e
          exact ⟨h0, not_lt.mp hrange2.1, not_le.mp hrange2.2, rfl, rfl⟩

/-- C36: whenever `Plane::intersect` accepts a ray, that is, the hit it returns differs from
the hit `h` it was given, over exact arithmetic the returned point `P` lies on the plane,
`n . (P - p0) = 0`, it lies on the ray at the parameter equal to the returned length, and
the returned length `t` satisfies `Epsilon <= t < h.length`. -/
theorem plane_hit_on_plane_and_ray (Epsilon : ℚ) (pl : Plane) (h h2 : Intersection) (ray : Ray)
    (hi : Plane.intersect Epsilon pl h ray = some h2) (hne : h2 ≠ h) :
    pl.normal_.dot (h2.point_.sub pl.point_) = 0 ∧
    h2.point_ = ray.origin_.add (ray.direction_.scale h2.length_) ∧
    Epsilon ≤ h2.length_ ∧ h2.length_ < h.length_ := by
  obtain ⟨h0, hlo, hhi, ht, hshape⟩ := plane_intersect_accept Epsilon pl h h2 ray hi hne
  have hpoint : h2.point_ = ray.origin_.add (ray.direction_.scale h2.length_) := by
    conv_lhs => rw [hshape]
  refine ⟨?_, hpoint, hlo, hhi⟩
  rw [hpoint, ht]
  simp only [Vec3.dot, Vec3.sub, Vec3.add, Vec3.scale] at h0 ⊢
  field_simp
  ring

/-- The floor plane accepts the ray straight down from `(0, 0, 1)`: the hit is at the origin of
the coordinates, at distance 1. -/
theorem plane_hit_on_plane_and_ray_witness :
    Plane.intersect sampleEpsilon floorPlane (Intersection.miss sampleRayLengthMax) downRay =
      some ⟨⟨0, 0, 0⟩, 1, ⟨0, 0, 1⟩, some 1⟩ ∧
    ((⟨⟨0, 0, 0⟩, 1, ⟨0, 0, 1⟩, some 1⟩ : Intersection) ≠ Intersection.miss sampleRayLengthMax) ∧
    (floorPlane.normal_.dot
        ((⟨⟨0, 0, 0⟩, 1, ⟨0, 0, 1⟩, some 1⟩ : Intersection).point_.sub floorPlane.point_) = 0 ∧
      (⟨⟨0, 0, 0⟩, 1, ⟨0, 0, 1⟩, some 1⟩ : Intersection).point_ =
        downRay.origin_.add (downRay.direction_.scale
          (⟨⟨0, 0, 0⟩, 1, ⟨0, 0, 1⟩, some 1⟩ : Intersection).length_) ∧
      sampleEpsilon ≤ (⟨⟨0, 0, 0⟩, 1, ⟨0, 0, 1⟩, some 1⟩ : Intersection).length_ ∧
      (⟨⟨0, 0, 0⟩, 1, ⟨0, 0, 1⟩, some 1⟩ : Intersection).length_ <
        (Intersection.miss sampleRayLengthMax).length_) :=
  ⟨by decide!, by decide!,
    plane_hit_on_plane_and_ray sampleEpsilon floorPlane (Intersection.miss sampleRayLengthMax)
      ⟨⟨0, 0, 0⟩, 1, ⟨0, 0, 1⟩, some 1⟩ downRay (by decide!) (by decide!)⟩

theorem unit_component (a b c : ℚ) (h : a * a + b * b + c * c = 1) (ha : 1 ≤ a ∨ a ≤ -1) :
    (a = 1 ∨ a = -1) ∧ b = 0 ∧ c = 0 := by
  have ha2 : 1 ≤ a * a := by rcases ha with h1 | h1 <;> nlinarith
  have hb : b * b = 0 := by nlinarith [mul_self_nonneg b, mul_self_nonneg c]
  have hc : c * c = 0 := by nlinarith [mul_self_nonneg b, mul_self_nonneg c]
  have hb0 : b = 0 := mul_self_eq_zero.mp hb
  have hc0 : c = 0 := mul_self_eq_zero.mp hc
  refine ⟨?_, hb0, hc0⟩
  rcases ha with h1 | h1
  · left; nlinarith
  · right; nlinarith

theorem right_before_normalize (normalize : Vec3 → Vec3) (pl : Plane) :
    pl.getRightVector normalize = normalize pl.rightBeforeNormalize := rfl

theorem right_ne_zero_iff (pl : Plane) :
    pl.rightBeforeNormalize ≠ ⟨0, 0, 0⟩ ↔
      (1 ≤ pl.normal_.x ∨ 1 ≤ pl.normal_.y ∨ 1 ≤ pl.normal_.z ∨
        pl.normal_.x ≤ -1 ∨ pl.normal_.y ≤ -1 ∨ pl.normal_.z ≤ -1) := by
  simp only [Plane.rightBeforeNormalize, Plane.getRightVector, Vec3.get, ge_iff_le]
  by_cases h1 : 1 ≤ pl.normal_.x
  · simp [h1]
  by_cases h2 : 1 ≤ pl.normal_.y
  · simp [h1, h2]
  by_cases h3 : 1 ≤ pl.normal_.z
  · simp [h1, h2, h3]
  by_cases h4 : pl.normal_.x ≤ -1
  · simp [h1, h2, h3, h4]
  by_cases h5 : pl.normal_.y ≤ -1
  · simp [h1, h2, h3, h4, h5]
  by_cases h6 : pl.normal_.z ≤ -1
  · simp [h1, h2, h3, h4, h5, h6]
  · simp [h1, h2, h3, h4, h5, h6]

theorem unit_normal_axis_iff (n : Vec3) (hunit : n.dot n = 1) :
    (1 ≤ n.x ∨ 1 ≤ n.y ∨ 1 ≤ n.z ∨ n.x ≤ -1 ∨ n.y ≤ -1 ∨ n.z ≤ -1) ↔
      ∃ axis, axis < 3 ∧ (n = unitAxis axis ∨ n = (unitAxis axis).scale (-1)) := by
  obtain ⟨a, b, c⟩ := n
  simp only [Vec3.dot] at hunit
  constructor
  · intro h
    have hx : (1 ≤ a ∨ a ≤ -1) ∨ (1 ≤ b ∨ b ≤ -1) ∨ (1 ≤ c ∨ c ≤ -1) := by tauto
    rcases hx with hx | hx | hx
    · obtain ⟨h1, h2, h3⟩ := unit_component a b c hunit hx
      refine ⟨0, by norm_num, ?_⟩
      rcases h1 with h1 | h1
      · left; subst h1 h2 h3; norm_num [unitAxis]
      · right; subst h1 h2 h3; norm_num [unitAxis, Vec3.scale]
    · obtain ⟨h1, h2, h3⟩ := unit_component b a c (by linarith) hx
      refine ⟨1, by norm_num, ?_⟩
      rcases h1 with h1 | h1
      · left; subst h1 h2 h3; norm_num [unitAxis]
      · right; subst h1 h2 h3; norm_num [unitAxis, Vec3.scale]
    · obtain ⟨h1, h2, h3⟩ := unit_component c a b (by linarith) hx
      refine ⟨2, by norm_num, ?_⟩
      rcases h1 with h1 | h1
      · left; subst h1 h2 h3; norm_num [unitAxis]
      · right; subst h1 h2 h3; norm_num [unitAxis, Vec3.scale]
  · rintro ⟨axis, haxis, h⟩
    have hcases : axis = 0 ∨ axis = 1 ∨ axis = 2 := by omega
    rcases hcases with rfl | rfl | rfl <;> rcases h with h | h <;>
      simp only [unitAxis, Vec3.scale, Vec3.mk.injEq] at h <;>
      obtain ⟨h1, h2, h3⟩ := h <;> subst h1 h2 h3 <;> norm_num

/-- C35: the vector that `Plane::getRightVector` hands to `normalize` is not the zero vector
exactly when some component of the normal is `>= 1` or `<= -1`; for a unit normal that is
exactly when the normal is plus or minus a coordinate axis. For every other normal no branch
is taken, the vector is the zero vector, and `getAABB` is computed from the normalisation of
the zero vector. The plane with the unit normal `(3/5, 4/5, 0)` is one of these. -/
theorem getRightVector_selects (pl : Plane) :
    (∀ normalize, pl.getRightVector normalize = normalize pl.rightBeforeNormalize) ∧
    (pl.rightBeforeNormalize ≠ ⟨0, 0, 0⟩ ↔
      (1 ≤ pl.normal_.x ∨ 1 ≤ pl.normal_.y ∨ 1 ≤ pl.normal_.z ∨
        pl.normal_.x ≤ -1 ∨ pl.normal_.y ≤ -1 ∨ pl.normal_.z ≤ -1)) ∧
    (pl.normal_.dot pl.normal_ = 1 →
      (pl.rightBeforeNormalize ≠ ⟨0, 0, 0⟩ ↔
        ∃ axis, axis < 3 ∧
          (pl.normal_ = unitAxis axis ∨ pl.normal_ = (unitAxis axis).scale (-1)))) ∧
    (pl.rightBeforeNormalize = ⟨0, 0, 0⟩ →
      ∀ normalize, pl.getAABB normalize =
        ⟨pl.point_.add ((normalize ⟨0, 0, 0⟩).scale (-100)),
          pl.point_.add ((normalize ⟨0, 0, 0⟩).scale 100)⟩) ∧
    skewPlane.normal_.dot skewPlane.normal_ = 1 ∧
    skewPlane.rightBeforeNormalize = ⟨0, 0, 0⟩ := by
  refine ⟨fun normalize => right_before_normalize normalize pl, right_ne_zero_iff pl,
    fun hunit => ?_, fun hzero normalize => ?_, by decide!, by decide!⟩
  · rw [right_ne_zero_iff, unit_normal_axis_iff pl.normal_ hunit]
  · simp only [Plane.getAABB, right_before_normalize, hzero]

theorem cross_orthogonal (u v : Vec3) (s : ℚ) :
    ((u.cross v).scale s).dot u = 0 ∧ ((u.cross v).scale s).dot v = 0 := by
  constructor <;> simp only [Vec3.cross, Vec3.scale, Vec3.dot] <;> ring

theorem cross_mirrorX (a b c : Vec3) :
    (c.mirrorX.sub a.mirrorX).cross (b.mirrorX.sub a.mirrorX) =
      ((b.sub a).cross (c.sub a)).mirrorX := by
  simp only [Vec3.cross, Vec3.sub, Vec3.mirrorX, Vec3.mk.injEq]
  refine ⟨?_, ?_, ?_⟩ <;> ring

theorem scale_mirrorX (w : Vec3) (k : ℚ → ℚ) :
    w.mirrorX.scale (k (w.mirrorX.dot w.mirrorX)) = (w.scale (k (w.dot w))).mirrorX := by
  have hdot : w.mirrorX.dot w.mirrorX = w.dot w := by
    simp only [Vec3.dot, Vec3.mirrorX]; ring
  rw [hdot]
  simp only [Vec3.scale, Vec3.mirrorX, Vec3.mk.injEq]
  refine ⟨?_, trivial, trivial⟩
  ring

/-- C37: for every triangle `A`, `B`, `C` of the OBJ file, when the file has no normals and
`glm::normalize` scales a vector by a function of its inner product with itself (the inverse
square root), the normal that `loadNormal` computes from the loaded vertices `A'`, `B'`,
`C'` (the vertices with `x` negated) is `normalize (cross (C' - A') (B' - A'))`, the same for
the three vertices; it is orthogonal to the two loaded edges `B' - A'` and `C' - A'`, and it
is the mirror image in `x` of `normalize (cross (B - A) (C - A))` on the original vertices. -/
theorem loadNormal_mirror (lib : Library) (k : ℚ → ℚ) (loader : OBJLoader) (shape : shape_t)
    (indexOffset : Nat) (vs : Vec3 × Vec3 × Vec3)
    (hnormals : loader.attrib_.normals = [])
    (hnormalize : ∀ v, lib.glm_normalize v = v.scale (k (v.dot v)))
    (hvs : loader.loadVertices shape indexOffset = some vs) :
    ∃ idx a b c n,
      indices3 shape.mesh.indices indexOffset = some idx ∧
      lanes3 loader.attrib_.vertices idx.1.vertex_index = some a ∧
      lanes3 loader.attrib_.vertices idx.2.1.vertex_index = some b ∧
      lanes3 loader.attrib_.vertices idx.2.2.vertex_index = some c ∧
      vs = ((ofLanes a).mirrorX, (ofLanes b).mirrorX, (ofLanes c).mirrorX) ∧
      loader.loadNormal lib shape indexOffset vs = some (n, n, n) ∧
      n = lib.glm_normalize ((vs.2.2.sub vs.1).cross (vs.2.1.sub vs.1)) ∧
      n.dot (vs.2.1.sub vs.1) = 0 ∧ n.dot (vs.2.2.sub vs.1) = 0 ∧
      n = (lib.glm_normalize
        (((ofLanes b).sub (ofLanes a)).cross ((ofLanes c).sub (ofLanes a)))).mirrorX := by
  obtain ⟨idx, a, b, c, hidx, ha, hb, hc, hr⟩ :=
    (loadVertices_eq loader shape indexOffset vs).mp hvs
  refine ⟨idx, a, b, c, lib.glm_normalize ((vs.2.2.sub vs.1).cross (vs.2.1.sub vs.1)),
    hidx, ha, hb, hc, hr, ?_, rfl, ?_, ?_, ?_⟩
  · obtain ⟨idx1, idx2, idx3⟩ := idx
    simp only [OBJLoader.loadNormal, hidx, hnormals, ne_eq, not_true_eq_false, if_false]
  · rw [hnormalize]
    exact (cross_orthogonal _ _ _).2
  · rw [hnormalize]
    exact (cross_orthogonal _ _ _).1
  · have hcross : (vs.2.2.sub vs.1).cross (vs.2.1.sub vs.1) =
        (((ofLanes b).sub (ofLanes a)).cross ((ofLanes c).sub (ofLanes a))).mirrorX := by
      rw [hr]
      exact cross_mirrorX (ofLanes a) (ofLanes b) (ofLanes c)
    rw [hcross, hnormalize, hnormalize, scale_mirrorX]

/-- Witness of C37: the triangle of the corners `(0,0,0)`, `(1,0,0)`, `(1,1,0)` of the square,
whose normal `(0, 0, 1)` has length 1, so that the scaling by 1 normalises it. -/
theorem loadNormal_mirror_witness :
    quadLoader.attrib_.normals = [] ∧
    (∀ v, sampleLibrary.glm_normalize v = v.scale (inverseSqrtOne (v.dot v))) ∧
    quadLoader.loadVertices quadShape 0 = some (⟨0, 0, 0⟩, ⟨-1, 0, 0⟩, ⟨-1, 1, 0⟩) ∧
    quadLoader.loadNormal sampleLibrary quadShape 0 (⟨0, 0, 0⟩, ⟨-1, 0, 0⟩, ⟨-1, 1, 0⟩) =
      some (⟨0, 0, 1⟩, ⟨0, 0, 1⟩, ⟨0, 0, 1⟩) ∧
    ∃ idx a b c n,
      indices3 quadShape.mesh.indices 0 = some idx ∧
      lanes3 quadLoader.attrib_.vertices idx.1.vertex_index = some a ∧
      lanes3 quadLoader.attrib_.vertices idx.2.1.vertex_index = some b ∧
      lanes3 quadLoader.attrib_.vertices idx.2.2.vertex_index = some c ∧
      ((⟨0, 0, 0⟩, ⟨-1, 0, 0⟩, ⟨-1, 1, 0⟩) : Vec3 × Vec3 × Vec3) =
        ((ofLanes a).mirrorX, (ofLanes b).mirrorX, (ofLanes c).mirrorX) ∧
      quadLoader.loadNormal sampleLibrary quadShape 0 (⟨0, 0, 0⟩, ⟨-1, 0, 0⟩, ⟨-1, 1, 0⟩) =
        some (n, n, n) ∧
      n = sampleLibrary.glm_normalize
        (((⟨-1, 1, 0⟩ : Vec3).sub ⟨0, 0, 0⟩).cross ((⟨-1, 0, 0⟩ : Vec3).sub ⟨0, 0, 0⟩)) ∧
      n.dot ((⟨-1, 0, 0⟩ : Vec3).sub ⟨0, 0, 0⟩) = 0 ∧
      n.dot ((⟨-1, 1, 0⟩ : Vec3).sub ⟨0, 0, 0⟩) = 0 ∧
      n = (sampleLibrary.glm_normalize
        (((ofLanes b).sub (ofLanes a)).cross ((ofLanes c).sub (ofLanes a)))).mirrorX :=
  ⟨rfl, fun v => by simp [sampleLibrary, inverseSqrtOne, Vec3.scale], by decide!, by decide!,
    loadNormal_mirror sampleLibrary inverseSqrtOne quadLoader quadShape 0
      (⟨0, 0, 0⟩, ⟨-1, 0, 0⟩, ⟨-1, 1, 0⟩) rfl
      (fun v => by simp [sampleLibrary, inverseSqrtOne, Vec3.scale]) (by decide!)⟩

theorem scanHits_append {T : Type} (Sh : Shape T) (ray : Ray) (h : Intersection)
    (l1 l2 : List T) :
    scanHits Sh ray h (l1 ++ l2) = scanHits Sh ray (scanHits Sh ray h l1) l2 := by
  simp only [scanHits, List.foldl_append]

/-- The walk of the closest-hit query is the scan of the primitives it tests, in the order of
the walk. -/
theorem visit_trace {T : Type} (Sh : Shape T) (primitives_ : List T) (ray : Ray) (t : Tree)
    (h : Intersection) :
    visit Sh primitives_ ray false t h = (scanHits Sh ray h (walkOrder primitives_ ray t), false) := by
  induction t generalizing h with
  | leaf box b e =>
    simp only [visit, walkOrder]
    split
    · exact leafLoop_false Sh ray _ h
    · rfl
  | inner box l r ihl ihr =>
    simp only [visit, walkOrder]
    cases hb : box.intersect ray <;> cases hl : l.box.intersect ray <;>
      cases hr : r.box.intersect ray <;>
      simp only [ihl, ihr, scanHits_append, Bool.false_eq_true, if_false, if_true,
        List.append_nil, List.nil_append] <;>
      rfl

theorem scanHits_length_le {T : Type} (Sh : Shape T) (ray : Ray) (l : List T)
    (hp : ∀ p ∈ l, ∀ h, Sh.intersect p h ray = h ∨ (Sh.intersect p h ray).length_ < h.length_)
    (h : Intersection) : (scanHits Sh ray h l).length_ ≤ h.length_ := by
  induction l generalizing h with
  | nil => exact le_refl _
  | cons p ps ih =>
    have hstep : (Sh.intersect p h ray).length_ ≤ h.length_ := by
      rcases hp p (List.mem_cons_self p ps) h with he | hlt
      · rw [he]
      · exact le_of_lt hlt
    exact le_trans (ih (fun q hq => hp q (List.mem_cons_of_mem p hq)) _) hstep

/-- The scan of a list ends at most as far as the first test that lowers the length, and it
lowers the length exactly when some test does. -/
theorem scanHits_vs_firstLowering {T : Type} (Sh : Shape T) (ray : Ray) (l : List T)
    (hp : ∀ p ∈ l, ∀ h, Sh.intersect p h ray = h ∨ (Sh.intersect p h ray).length_ < h.length_)
    (h : Intersection) :
    (scanHits Sh ray h l).length_ ≤ (firstLowering Sh ray h l).length_ ∧
    ((firstLowering Sh ray h l).length_ < h.length_ ↔ (scanHits Sh ray h l).length_ < h.length_) := by
  induction l with
  | nil => exact ⟨le_refl _, Iff.rfl⟩
  | cons p ps ih =>
    have hps : ∀ q ∈ ps, ∀ h,
        Sh.intersect q h ray = h ∨ (Sh.intersect q h ray).length_ < h.length_ :=
      fun q hq => hp q (List.mem_cons_of_mem p hq)
    by_cases hl : (Sh.intersect p h ray).length_ < h.length_
    · have hfirst : firstLowering Sh ray h (p :: ps) = Sh.intersect p h ray := by
        simp [firstLowering, List.find?_cons, hl]
      have hscan : (scanHits Sh ray h (p :: ps)).length_ ≤ (Sh.intersect p h ray).length_ :=
        scanHits_length_le Sh ray ps hps _
      rw [hfirst]
      exact ⟨hscan, fun _ => lt_of_le_of_lt hscan hl, fun _ => hl⟩
    · have hsame : Sh.intersect p h ray = h := by
        rcases hp p (List.mem_cons_self p ps) h with he | hlt
        · exact he
        · exact absurd hlt hl
      have hfirst : firstLowering Sh ray h (p :: ps) = firstLowering Sh ray h ps := by
        simp [firstLowering, List.find?_cons, hl]
      have hscan : scanHits Sh ray h (p :: ps) = scanHits Sh ray h ps := by
        simp only [scanHits, List.foldl_cons, hsame]
      rw [hfirst, hscan]
      exact ih hps

/-- C33: the any-hit query agrees with the closest-hit query on occlusion. For every list of
planes, hit `h` and ray, on every hierarchy the constructor returns both `trace(h, ray)` and
`shadowTrace(h, ray)` return, the length of the hit of `shadowTrace` is below that of `h`
if and only if the length of the hit of `trace` is, and the length of the hit of `trace` is
at most that of `shadowTrace`. The constructor returns a hierarchy for every list of at
most 513 planes. -/
theorem shadowTrace_agrees_with_trace (fl : ℚ → ℚ) (S : Sorter) (Epsilon : ℚ)
    (normalize : Vec3 → Vec3)
    (planes : List Plane) (h : Intersection) (ray : Ray) :
    (planes.length ≤ 513 →
      ∃ bvh, BVH.construct fl S (Plane.shape Epsilon normalize) planes = some bvh) ∧
    ∀ bvh, BVH.construct fl S (Plane.shape Epsilon normalize) planes = some bvh →
      ∃ ht hs, BVH.trace (Plane.shape Epsilon normalize) bvh h ray = some ht ∧
        BVH.shadowTrace (Plane.shape Epsilon normalize) bvh h ray = some hs ∧
        (hs.length_ < h.length_ ↔ ht.length_ < h.length_) ∧ ht.length_ ≤ hs.length_ := by
  refine ⟨construct_total fl S _ planes, fun bvh hc => ?_⟩
  by_cases hne : planes = []
  · subst hne
    rw [construct_nil] at hc
    simp only [Option.some.injEq] at hc
    subst hc
    exact ⟨h, h, rfl, rfl, Iff.rfl, le_refl _⟩
  · obtain ⟨σ, t, hb⟩ := construct_built fl S _ planes hne bvh hc
    have hlow : ∀ p ∈ walkOrder bvh.primitives_ ray t, ∀ hit,
        (Plane.shape Epsilon normalize).intersect p hit ray = hit ∨
        ((Plane.shape Epsilon normalize).intersect p hit ray).length_ < hit.length_ :=
      fun p _ hit => plane_lower_or_same Epsilon normalize p hit ray
    obtain ⟨hle, hiff⟩ := scanHits_vs_firstLowering (Plane.shape Epsilon normalize) ray
      (walkOrder bvh.primitives_ ray t) hlow h
    refine ⟨scanHits (Plane.shape Epsilon normalize) ray h (walkOrder bvh.primitives_ ray t),
      firstLowering (Plane.shape Epsilon normalize) ray h (walkOrder bvh.primitives_ ray t),
      ?_, ?_, hiff, hle⟩
    · unfold BVH.trace
      rw [intersect_built hb hne h ray false, visit_trace]
    · unfold BVH.shadowTrace
      rw [intersect_built hb hne h ray true,
        visit_shadow _ bvh.primitives_ ray
          (fun p _ hit => plane_lower_or_same Epsilon normalize p hit ray) t h]

theorem lights_length_ge (lights : List (Intersection → Ray → Intersection)) (ray : Ray)
    (hge : ∀ light ∈ lights, ∀ hit, hit.length_ ≤ (light hit ray).length_)
    (h : Intersection) :
    h.length_ ≤ (lights.foldl (fun h light => light h ray) h).length_ := by
  induction lights generalizing h with
  | nil => exact le_refl _
  | cons light rest ih =>
    simp only [List.foldl_cons]
    exact le_trans (hge light (List.mem_cons_self light rest) h)
      (ih (fun l hl => hge l (List.mem_cons_of_mem light hl)) _)

/-- When the lights leave a hit nearer than the one they were given, the `intersect` of one
of them lowered the length of a hit. -/
theorem lights_lower (lights : List (Intersection → Ray → Intersection)) (ray : Ray)
    (h : Intersection)
    (hlt : (lights.foldl (fun h light => light h ray) h).length_ < h.length_) :
    ∃ light ∈ lights, ∃ hit, (light hit ray).length_ < hit.length_ := by
  by_contra hno
  push_neg at hno
  exact absurd hlt (not_lt.mpr (lights_length_ge lights ray hno h))

theorem construct_none {P S T : Type} (classes : AcceleratorClasses P S T) (RayLengthMax : ℚ)
    (vacant : Queries) (scene : RenderScene P S T) :
    ShaderObjects.construct classes RayLengthMax vacant scene .ACC_NONE =
      { ShaderObjects.initial vacant .ACC_NONE with lights_ := scene.lights_ } := rfl

theorem rayTrace_none (RayLengthMax : ℚ) (sh : Shader) (rgb : Vec3) (ray : Ray)
    (hacc : sh.accelerator_ = .ACC_NONE) :
    Shader.rayTrace RayLengthMax sh rgb ray =
      if (sh.lights_.foldl (fun h light => light h ray)
          (Intersection.miss RayLengthMax)).length_ < RayLengthMax then
        ⟨(sh.shade rgb (sh.lights_.foldl (fun h light => light h ray)
            (Intersection.miss RayLengthMax)) ray).1,
          (sh.shade rgb (sh.lights_.foldl (fun h light => light h ray)
            (Intersection.miss RayLengthMax)) ray).2,
          [(rgb, sh.lights_.foldl (fun h light => light h ray)
            (Intersection.miss RayLengthMax), ray)]⟩
      else ⟨false, rgb, []⟩ := by
  simp only [Shader.rayTrace, hacc, Shader.traceLights, Intersection.miss]

/-- C38: with the accelerator kind none the shader keeps only the lights of the scene. For
every scene, `getPlanes`, `getSpheres` and `getTriangles` of the constructed shader return
empty lists and `getLights` the lights of the scene; `shadowTrace` returns false for every
hit and ray; `rayTrace` is computed from the lights alone, it calls `shade` only with the hit
that the lights leave from the miss state, it returns true only when the `intersect` of some
light lowered the length of a hit, and it returns false when the scene has no lights. For
every shader, of every accelerator kind, `shadowTrace` returns the same with any other
lights. -/
theorem none_keeps_only_lights {P S T : Type} (classes : AcceleratorClasses P S T)
    (RayLengthMax : ℚ) (vacant : Queries) (scene : RenderScene P S T)
    (shade : Vec3 → Intersection → Ray → Bool × Vec3) (h : Intersection) (ray : Ray)
    (rgb : Vec3) :
    (ShaderObjects.construct classes RayLengthMax vacant scene .ACC_NONE).getPlanes = [] ∧
    (ShaderObjects.construct classes RayLengthMax vacant scene .ACC_NONE).getSpheres = [] ∧
    (ShaderObjects.construct classes RayLengthMax vacant scene .ACC_NONE).getTriangles = [] ∧
    (ShaderObjects.construct classes RayLengthMax vacant scene .ACC_NONE).getLights =
      scene.lights_ ∧
    Shader.shadowTrace
      ((ShaderObjects.construct classes RayLengthMax vacant scene .ACC_NONE).toShader shade)
      h ray = false ∧
    Shader.rayTrace RayLengthMax
        ((ShaderObjects.construct classes RayLengthMax vacant scene .ACC_NONE).toShader shade)
        rgb ray =
      (if (scene.lights_.foldl (fun h light => light h ray)
          (Intersection.miss RayLengthMax)).length_ < RayLengthMax then
        ⟨(shade rgb (scene.lights_.foldl (fun h light => light h ray)
            (Intersection.miss RayLengthMax)) ray).1,
          (shade rgb (scene.lights_.foldl (fun h light => light h ray)
            (Intersection.miss RayLengthMax)) ray).2,
          [(rgb, scene.lights_.foldl (fun h light => light h ray)
            (Intersection.miss RayLengthMax), ray)]⟩
      else ⟨false, rgb, []⟩) ∧
    ((Shader.rayTrace RayLengthMax
        ((ShaderObjects.construct classes RayLengthMax vacant scene .ACC_NONE).toShader shade)
        rgb ray).res = true →
      ∃ light ∈ scene.lights_, ∃ hit, (light hit ray).length_ < hit.length_) ∧
    (scene.lights_ = [] →
      Shader.rayTrace RayLengthMax
        ((ShaderObjects.construct classes RayLengthMax vacant scene .ACC_NONE).toShader shade)
        rgb ray = ⟨false, rgb, []⟩) ∧
    ∀ (sh : Shader) (lights : List (Intersection → Ray → Intersection)),
      Shader.shadowTrace { sh with lights_ := lights } h ray = Shader.shadowTrace sh h ray := by
  have hray := rayTrace_none RayLengthMax
    ((ShaderObjects.construct classes RayLengthMax vacant scene .ACC_NONE).toShader shade)
    rgb ray rfl
  have hlights : ((ShaderObjects.construct classes RayLengthMax vacant scene
      .ACC_NONE).toShader shade).lights_ = scene.lights_ := rfl
  have hshade : ((ShaderObjects.construct classes RayLengthMax vacant scene
      .ACC_NONE).toShader shade).shade = shade := rfl
  rw [hlights, hshade] at hray
  refine ⟨rfl, rfl, rfl, rfl, ?_, hray, fun hres => ?_, fun hnil => ?_, fun sh lights => rfl⟩
  · simp [Shader.shadowTrace, construct_none, ShaderObjects.toShader, ShaderObjects.initial]
  · rw [hray] at hres
    by_cases hlt : (scene.lights_.foldl (fun h light => light h ray)
        (Intersection.miss RayLengthMax)).length_ < RayLengthMax
    · exact lights_lower scene.lights_ ray (Intersection.miss RayLengthMax) hlt
    · rw [if_neg hlt] at hres
      exact absurd hres (by simp)
  · rw [hray, hnil]
    simp [Intersection.miss]

end MobileRT
